import Mathlib

/-!
# SimpleShell: demand paging, process control blocks and scheduler

A shallow embedding of the C sources `shellmemory.c`, `backing_store.c`, `pcb.c`
and `scheduler.c`, of the commands `run` and `exec` of `interpreter.c`, and of the
command-line splitter `readInput` of `shell.c`.

Conventions of the embedding.

* The global C variables (`m_state`, `state`, `cur_pid`), the backing-store
  directory and the standard output are fields of one record, `world`, that
  every operation takes and returns.
* A C function that can reach undefined behaviour (a dereference of a null or
  never-assigned pointer, an index outside an array, `strdup(NULL)`) or that
  calls `exit` returns `Except halt _`.
* Heap-allocated list nodes of the LRU list live in the list `heap`; the address
  of a node is its position in `heap`.  A field that was never assigned after
  `malloc` holds `ptr.uninit`.
* C strings are `List Char`; a file is the list of its bytes, each byte a
  character with a code below 256.
* `cp_to_store` keeps the result of `fgetc` in a `char` and so takes the byte 0xFF
  for the end of the file (`cp_loop`).  The states the shell reaches (`sys_reach`)
  start in a working directory of text files, which hold no such byte
  (`text_files`); no command writes to the working directory.
* `FRAMESIZE`, `NFRAMES` and `VARMEMSIZE` are compile-time constants; they are the
  fields of `Config`.
-/

namespace SimpleShell

set_option maxRecDepth 100000

/-! ## Constants and basic types -/

/-- C strings. -/
abbrev cstr := List Char

/-- Compile-time constants handed to the compiler by the build
(`FRAMESIZE`, `NFRAMES`, `VARMEMSIZE`). -/
structure Config where
  FRAMESIZE : Nat
  NFRAMES : Nat
  VARMEMSIZE : Nat
deriving DecidableEq, Repr

/-- Modelled from the spec: the build constant `FRAMESTORESIZE`, which the spec
gives as `NFRAMES × FRAMESIZE` (the makefile is not part of the sources). -/
def Config.FRAMESTORESIZE (c : Config) : Nat := c.NFRAMES * c.FRAMESIZE

/-- Modelled from the spec: the build constant `SHELLMEMSIZE`, which the spec and
the comment in `shellmemory.c` give as `VARMEMSIZE + FRAMESTORESIZE`. -/
def Config.SHELLMEMSIZE (c : Config) : Nat := c.VARMEMSIZE + c.FRAMESTORESIZE

/-- Abnormal ends of a C computation. -/
inductive halt where
  | undefined : halt
  | exit (code : Int) : halt
deriving DecidableEq, Repr

deriving instance DecidableEq for Except

/-- Pointers to `struct lru_ll` nodes. -/
inductive ptr where
  | null : ptr
  | uninit : ptr
  | addr (a : Nat) : ptr
deriving DecidableEq, Repr

/-- The C type `struct memory_struct`: one slot of the shell memory. -/
structure memory_struct where
  var : Option cstr
  value : Option cstr
deriving DecidableEq, Repr

/-- The C type `struct lru_ll`: a node of the least-recently-used list. -/
structure lru_ll where
  framenum : Nat
  next : ptr
  prev : ptr
deriving DecidableEq, Repr

/-- The C type `struct memory_state` together with the heap that holds the
nodes of its linked list. -/
structure memory_state where
  cur_var_size : Nat
  frames_allocated : Nat
  head : ptr
  tail : ptr
  shellmemory : List memory_struct
  ll_quick : List ptr
  heap : List lru_ll
deriving DecidableEq, Repr

/-- The C type `struct pcb`.  A page-table entry `none` is the C value `-1`. -/
structure pcb where
  pid : Nat
  bound : Nat
  pc : Nat
  pagetable : List (Option Nat)
deriving DecidableEq, Repr

/-- The C type `sched_mode_t`. -/
inductive sched_mode_t where
  | FCFS : sched_mode_t
  | SJF : sched_mode_t
  | RR : sched_mode_t
  | AGING : sched_mode_t
  | NONE : sched_mode_t
deriving DecidableEq, Repr

/-- The C type `struct ll`: a node of the waiting queue.  The field `next` is
not stored: the nodes are kept in the order in which `next` links them.  `id`
is the address of the node, used where the C code compares node pointers. -/
structure ll where
  p : pcb
  priority : Int
  id : Nat
deriving DecidableEq, Repr

/-- The C type `struct scheduler_state`.  `queue` is the chain of nodes that
starts at `head` (`head == NULL` is `queue = []`), `tail` the address held by the
`tail` pointer, and `fresh` the address the next `malloc` of a node returns. -/
structure scheduler_state where
  np : Int
  queue : List ll
  tail : Option Nat
  cur : Option pcb
  cur_priority : Int
  mode : sched_mode_t
  fresh : Nat
deriving DecidableEq, Repr

/-- All state the shell works on: the globals `m_state`, `state` and `cur_pid`,
the directory `backing_store/` (process id to file content), the files of the
working directory (name to content), the text written to standard output, and
the record of the calls `run_on_buffered_line(instr, 0)` made by the scheduler
(process id and instruction). -/
structure world where
  m_state : memory_state
  state : scheduler_state
  cur_pid : Nat
  backing_store : List (Nat × cstr)
  cwd : List (cstr × cstr)
  stdout : cstr
  executed : List (Nat × cstr)
deriving DecidableEq, Repr

/-! ## shellmemory.c: the LRU list -/

/-- Read of `*p`. -/
def deref (m : memory_state) : ptr → Except halt lru_ll
  | .addr a =>
    match m.heap[a]? with
    | some n => .ok n
    | none => .error .undefined
  | _ => .error .undefined

/-- The assignment `p->next = v`. -/
def set_next (m : memory_state) (p v : ptr) : Except halt memory_state :=
  match p with
  | .addr a =>
    match m.heap[a]? with
    | some n => .ok { m with heap := m.heap.set a { n with next := v } }
    | none => .error .undefined
  | _ => .error .undefined

/-- The assignment `p->prev = v`. -/
def set_prev (m : memory_state) (p v : ptr) : Except halt memory_state :=
  match p with
  | .addr a =>
    match m.heap[a]? with
    | some n => .ok { m with heap := m.heap.set a { n with prev := v } }
    | none => .error .undefined
  | _ => .error .undefined

/-- `move_to_back(framenumber)`. -/
def move_to_back (m : memory_state) (framenumber : Nat) : Except halt memory_state :=
  match m.ll_quick[framenumber]? with
  | none => .error .undefined
  | some frame =>
    if m.tail = frame then .ok m
    else do
      let fr ← deref m frame
      let m1 ← if m.head = frame then pure { m with head := fr.next }
               else set_next m fr.prev fr.next
      let fr1 ← deref m1 frame
      let m2 ← set_prev m1 fr1.next fr1.prev
      let m3 ← set_next m2 frame .null
      let m4 ← set_prev m3 frame m3.tail
      let m5 ← set_next m4 m4.tail frame
      pure { m5 with tail := frame }

/-- `get_next_frame()`. -/
def get_next_frame (m : memory_state) : Except halt (Nat × memory_state) := do
  let h ← deref m m.head
  let m1 ← move_to_back m h.framenum
  pure (h.framenum, m1)

/-- The value of `m_state` before `init_memory`: a zero-initialised global. -/
def m_state_zero (c : Config) : memory_state :=
  { cur_var_size := 0
    frames_allocated := 0
    head := .null
    tail := .null
    shellmemory := List.replicate c.SHELLMEMSIZE (memory_struct.mk none none)
    ll_quick := List.replicate c.NFRAMES .null
    heap := [] }

/-- The list-building loop of `init_memory`, with `n` iterations left, loop index
`i` and the local variable `prev`. -/
def init_memory_loop : Nat → Nat → ptr → memory_state → Except halt (memory_state × ptr)
  | 0, _, prev, m => .ok (m, prev)
  | n + 1, i, prev, m =>
    let new_frame := ptr.addr m.heap.length
    let m1 := { m with heap := m.heap ++ [lru_ll.mk i .uninit .uninit] }
    if i < m1.ll_quick.length then
      let m2 := { m1 with ll_quick := m1.ll_quick.set i new_frame }
      if i = 0 then init_memory_loop n (i + 1) new_frame { m2 with head := new_frame }
      else
        match set_next m2 prev new_frame with
        | .ok m3 => init_memory_loop n (i + 1) new_frame m3
        | .error e => .error e
    else .error .undefined

/-- `init_memory()`. -/
def init_memory (c : Config) (m : memory_state) : Except halt memory_state :=
  match init_memory_loop c.NFRAMES 0 .uninit
      { m with cur_var_size := 0, frames_allocated := 0 } with
  | .ok (m1, prev) =>
    .ok { m1 with tail := prev
                  shellmemory := List.replicate c.SHELLMEMSIZE (memory_struct.mk none none) }
  | .error e => .error e

/-- Frame numbers met when following `next` from `p` until the node `tail`. -/
def lru_walk (m : memory_state) : Nat → ptr → List Nat
  | 0, _ => []
  | n + 1, p =>
    match p with
    | .addr a =>
      match m.heap[a]? with
      | some nd => if p = m.tail then [nd.framenum] else nd.framenum :: lru_walk m n nd.next
      | none => []
    | _ => []

/-- The LRU list from head to tail, as frame numbers. -/
def lru_order (m : memory_state) : List Nat := lru_walk m m.heap.length m.head

/-! ## shellmemory.c: frames -/

/-- `get_frame_start(framenum)`. -/
def get_frame_start (c : Config) (framenum : Nat) : Nat :=
  framenum * c.FRAMESIZE + c.VARMEMSIZE

/-- `create_frame_key(pid, pagenum)`: the text `sprintf` writes for
`"pid_%llu_page_%d"`. -/
def create_frame_key (pid pagenum : Nat) : cstr :=
  "pid_".toList ++ Nat.toDigits 10 pid ++ "_page_".toList ++ Nat.toDigits 10 pagenum

/-- The assignment `m_state.shellmemory[i].value = v`. -/
def set_value (m : memory_state) (i : Nat) (v : Option cstr) : Except halt memory_state :=
  match m.shellmemory[i]? with
  | some s => .ok { m with shellmemory := m.shellmemory.set i { s with value := v } }
  | none => .error .undefined

/-- The assignment `m_state.shellmemory[i].var = v`. -/
def set_var (m : memory_state) (i : Nat) (v : Option cstr) : Except halt memory_state :=
  match m.shellmemory[i]? with
  | some s => .ok { m with shellmemory := m.shellmemory.set i { s with var := v } }
  | none => .error .undefined

/-- The loop of `check_eviction` over the slots of the frame, with `n` iterations
left and loop index `i`; `out` is the standard output. -/
def check_eviction_loop (start : Nat) :
    Nat → Nat → memory_state → cstr → Except halt (memory_state × cstr)
  | 0, _, m, out => .ok (m, out)
  | n + 1, i, m, out =>
    match m.shellmemory[start + i]? with
    | none => .error .undefined
    | some s =>
      match s.value with
      | some v =>
        check_eviction_loop start n (i + 1)
          { m with shellmemory := m.shellmemory.set (start + i) { s with value := none } }
          (out ++ v)
      | none => check_eviction_loop start n (i + 1) m out

/-- `check_eviction(framenum)`. -/
def check_eviction (c : Config) (w : world) (framenum : Nat) : Except halt world :=
  let start := get_frame_start c framenum
  match w.m_state.shellmemory[start]? with
  | none => .error .undefined
  | some s =>
    match s.var with
    | none => .ok w
    | some _ =>
      match check_eviction_loop start c.FRAMESIZE 0 w.m_state
          (w.stdout ++ "Page fault! Victim page contents:\n".toList) with
      | .error e => .error e
      | .ok (m1, out1) =>
        match set_var m1 start none with
        | .error e => .error e
        | .ok m2 =>
          .ok { w with m_state := m2
                       stdout := out1 ++ "End of victim page contents.\n".toList }

/-! ## backing_store.c -/

/-- `error_copy_failed()`. -/
def error_copy_failed (w : world) : world :=
  { w with stdout := w.stdout ++
      "An error occured while trying to copy script contents to backing store\n".toList }

/-- `error_read_from_store_failed()`. -/
def error_read_from_store_failed (w : world) : world :=
  { w with stdout := w.stdout ++
      "An error occured while attempting to read data from the backing store into main menu\n".toList }

/-- The byte 0xFF.  `cp_to_store` keeps the result of `fgetc` in a variable of
type `char` and compares that with `EOF`; where `char` is signed (x86-64) the byte
0xFF and `EOF` are both -1 there, so the byte is taken for the end of the file. -/
def char_EOF : Char := Char.ofNat 255

/-- The copy loop of `cp_to_store`, `while ((c = fgetc(read_file)) != EOF)` with
`char c`: the bytes still to read, the counter `n_lines` and the bytes written so
far.  The loop ends at the end of the file and at the first byte 0xFF. -/
def cp_loop : List Char → Nat → cstr → Nat × cstr
  | [], n_lines, written => (n_lines, written)
  | x :: rest, n_lines, written =>
    if x = char_EOF then (n_lines, written)
    else cp_loop rest (if x = '\n' then n_lines + 1 else n_lines) (written ++ [x])

/-- What the copy loop of `cp_to_store` writes of a file: the bytes in front of
the first byte 0xFF. -/
def copied (content : cstr) : cstr := content.takeWhile (fun x => x != char_EOF)

/-- `cp_to_store(filename, pid)`; the result `-1` reports failure.  After the
copy loop the function seeks to the last byte of the source file and counts one
more line unless that byte is a newline. -/
def cp_to_store (w : world) (filename : cstr) (pid : Nat) : Int × world :=
  match w.cwd.lookup filename with
  | none => (-1, error_copy_failed w)
  | some content =>
    match w.backing_store.lookup pid with
    | some _ => (-1, error_copy_failed w)
    | none =>
      let r := cp_loop content 0 []
      let n_lines := if content.getLast? = some '\n' then r.1 else r.1 + 1
      (n_lines, { w with backing_store := w.backing_store ++ [(pid, r.2)] })

/-- `remove_process_store(pcb)`. -/
def remove_process_store (w : world) (p : pcb) : world :=
  match w.backing_store.lookup p.pid with
  | none => error_read_from_store_failed w
  | some _ => { w with backing_store := w.backing_store.filter (fun e => e.1 ≠ p.pid) }

/-- The loop of `load_into_mem` that moves the file position to line `start`:
`while (cur_line < start && (c = fgetc(f)) != EOF)`.  Arguments: `cur_line`, the
variable `c` (`none` stands for a `c` that compares equal to `EOF`) and the
unread part of the file.  As in `cp_to_store`, `c` is a `char`, so the byte 0xFF
ends the loop like the end of the file does. -/
def skip_lines (start : Nat) : Nat → Option Char → List Char → Option Char × List Char
  | cur_line, ch, [] => if cur_line < start then (none, []) else (ch, [])
  | cur_line, ch, x :: rest =>
    if cur_line < start then
      if x = char_EOF then (none, rest)
      else skip_lines start (if x = '\n' then cur_line + 1 else cur_line) (some x) rest
    else (ch, x :: rest)

/-- The characters up to and including the first newline, and what follows. -/
def read_line : List Char → cstr × List Char
  | [] => ([], [])
  | x :: rest =>
    if x = '\n' then ([x], rest) else (x :: (read_line rest).1, (read_line rest).2)

/-- `getline(&buffer, &buffer_size, f)`: at the end of the file the buffer keeps
its content.  A buffer `none` is the memory `malloc` returned, never written. -/
def getline (buffer : Option cstr) (stream : List Char) : Option cstr × List Char :=
  match stream with
  | [] => (buffer, [])
  | _ :: _ => (some (read_line stream).1, (read_line stream).2)

/-- The first loop of `load_into_mem`: `n` iterations left, loop index `i`. -/
def load_lines_loop (mem_loc : List Nat) :
    Nat → Nat → Option cstr → List Char → memory_state → Except halt memory_state
  | 0, _, _, _, m => .ok m
  | n + 1, i, buffer, stream, m =>
    let r := getline buffer stream
    match mem_loc[i]?, r.1 with
    | some loc, some line =>
      match set_value m loc (some line) with
      | .ok m1 => load_lines_loop mem_loc n (i + 1) r.1 r.2 m1
      | .error e => .error e
    | _, _ => .error .undefined

/-- The second loop of `load_into_mem` ("Clear extra lines"). -/
def clear_lines_loop (mem_loc : List Nat) : Nat → Nat → memory_state → Except halt memory_state
  | 0, _, m => .ok m
  | n + 1, i, m =>
    match mem_loc[i]? with
    | some loc =>
      match set_value m loc none with
      | .ok m1 => clear_lines_loop mem_loc n (i + 1) m1
      | .error e => .error e
    | none => .error .undefined

/-- `load_into_mem(pcb, start, mem_loc)`; `mem_loc` holds the indices of the
shell-memory slots whose `value` fields the C array points to. -/
def load_into_mem (c : Config) (w : world) (p : pcb) (start : Nat) (mem_loc : List Nat) :
    Except halt world :=
  match w.backing_store.lookup p.pid with
  | none => .ok (error_read_from_store_failed w)
  | some content =>
    let r := skip_lines start 0 (some 'a') content
    if r.1 = none then .ok (error_read_from_store_failed w)
    else
      let n_lines : Int :=
        if start + c.FRAMESIZE > p.bound then (p.bound : Int) - start else c.FRAMESIZE
      if (p.pc : Int) + n_lines > p.bound then .ok w
      else if n_lines < 0 then .error .undefined
      else
        match load_lines_loop mem_loc n_lines.toNat 0 none r.2 w.m_state with
        | .error e => .error e
        | .ok m1 =>
          match clear_lines_loop mem_loc (c.FRAMESIZE - n_lines.toNat) n_lines.toNat m1 with
          | .error e => .error e
          | .ok m2 => .ok { w with m_state := m2 }

/-! ## shellmemory.c and pcb.c: loading pages and reading instructions -/

/-- `load_from_backing_store(pcb, start_line)`. -/
def load_from_backing_store (c : Config) (w : world) (p : pcb) (start_line : Nat) :
    Except halt (Nat × world) :=
  match get_next_frame w.m_state with
  | .error e => .error e
  | .ok (framenum, m1) =>
    match check_eviction c { w with m_state := m1 } framenum with
    | .error e => .error e
    | .ok w2 =>
      let start := get_frame_start c framenum
      let frame_refs := (List.range c.FRAMESIZE).map (fun i => start + i)
      let pagenum := start_line / c.FRAMESIZE
      match set_var w2.m_state start (some (create_frame_key p.pid pagenum)) with
      | .error e => .error e
      | .ok m3 =>
        match load_into_mem c { w2 with m_state := m3 } p start_line frame_refs with
        | .error e => .error e
        | .ok w4 =>
          .ok (framenum, { w4 with m_state := { w4.m_state with frames_allocated := 1 } })

/-- `load_page(pcb, page)`; returns the updated `*pcb`. -/
def load_page (c : Config) (w : world) (p : pcb) (page : Nat) : Except halt (pcb × world) :=
  match load_from_backing_store c w p (page * c.FRAMESIZE) with
  | .error e => .error e
  | .ok (framenum, w1) =>
    if page < p.pagetable.length then
      .ok ({ p with pagetable := p.pagetable.set page (some framenum) }, w1)
    else .error .undefined

/-- `read_instruction(pcb)`; the first component is the returned string (`none`
is the null pointer, the page-fault signal), the second the updated `*pcb`. -/
def read_instruction (c : Config) (w : world) (p : pcb) :
    Except halt (Option cstr × pcb × world) :=
  let pagenum := p.pc / c.FRAMESIZE
  let offset := p.pc % c.FRAMESIZE
  match p.pagetable[pagenum]? with
  | none => .error .undefined
  | some none =>
    match load_page c w p pagenum with
    | .error e => .error e
    | .ok (p1, w1) => .ok (none, p1, w1)
  | some (some framenumber) =>
    let key := create_frame_key p.pid pagenum
    let frame_start := get_frame_start c framenumber
    match w.m_state.shellmemory[frame_start]? with
    | none => .error .undefined
    | some s =>
      if s.var = none ∨ s.var ≠ some key then
        match load_page c w p pagenum with
        | .error e => .error e
        | .ok (p1, w1) => .ok (none, p1, w1)
      else
        match move_to_back w.m_state framenumber with
        | .error e => .error e
        | .ok m1 =>
          match m1.shellmemory[frame_start + offset]? with
          | some (memory_struct.mk _ (some line)) => .ok (some line, p, { w with m_state := m1 })
          | _ => .error .undefined

/-- `load_script(file_name)`; `none` is the null pointer. -/
def load_script (c : Config) (w : world) (file_name : cstr) : Except halt (Option pcb × world) :=
  let pid := w.cur_pid
  let r := cp_to_store { w with cur_pid := (w.cur_pid + 1) % 2 ^ 64 } file_name pid
  if r.1 ≤ 0 then .ok (none, r.2)
  else
    let n_lines := r.1.toNat
    let n_pages := (n_lines + c.FRAMESIZE - 1) / c.FRAMESIZE
    let ret : pcb := { pid := pid, bound := n_lines, pc := 0,
                       pagetable := List.replicate n_pages none }
    match load_page c r.2 ret 0 with
    | .error e => .error e
    | .ok (ret1, w1) =>
      if n_lines > c.FRAMESIZE then
        match load_page c w1 ret1 1 with
        | .error e => .error e
        | .ok (ret2, w2) => .ok (some ret2, w2)
      else .ok (some ret1, w1)

/-- `free_process(pcb)`. -/
def free_process (w : world) (p : pcb) : world :=
  remove_process_store w p

/-- The loop of `mem_reset_frames` over the frame store: `n` iterations left,
loop index `i`. -/
def mem_reset_frames_loop : Nat → Nat → memory_state → Except halt memory_state
  | 0, _, m => .ok m
  | n + 1, i, m =>
    if i < m.shellmemory.length then
      mem_reset_frames_loop n (i + 1)
        { m with shellmemory := m.shellmemory.set i (memory_struct.mk none none) }
    else .error .undefined

/-- `mem_reset_frames()`. -/
def mem_reset_frames (c : Config) (m : memory_state) : Except halt memory_state :=
  if m.frames_allocated = 0 then .ok m
  else
    match mem_reset_frames_loop (c.SHELLMEMSIZE - c.VARMEMSIZE) c.VARMEMSIZE m with
    | .error e => .error e
    | .ok m1 => .ok { m1 with frames_allocated := 0 }

/-! ## scheduler.c -/

/-- The constant `RR_PREEMPT_FREQ`. -/
def RR_PREEMPT_FREQ : Nat := 2

/-- `init_scheduler()`. -/
def init_scheduler (w : world) : world :=
  { w with state := { w.state with np := 0, queue := [], tail := none, cur := none,
                                   cur_priority := 0, mode := .NONE } }

/-- `processes_waiting()`. -/
def processes_waiting (w : world) : Bool := decide (w.state.np > 0)

/-- Printing of one of the scheduler's error messages. -/
def print (w : world) (msg : String) : world :=
  { w with stdout := w.stdout ++ msg.toList }

/-- `set_scheduler_mode(new_mode)`. -/
def set_scheduler_mode (w : world) (new_mode : sched_mode_t) : Int × world :=
  if w.state.mode = new_mode then (0, w)
  else if w.state.np ≠ 0 then
    (1, print w "Error: Attempted to switch mode while processes are running.\n")
  else (0, { w with state := { w.state with mode := new_mode } })

/-- The assignment `state.tail->next = newNode` on the chain of queue nodes: the
chain is cut behind the node with address `t` and `newNode` is linked there.
`none` when no node of the chain has address `t`. -/
def link_after (t : Nat) (newNode : ll) : List ll → Option (List ll)
  | [] => none
  | x :: rest =>
    if x.id = t then some [x, newNode]
    else
      match link_after t newNode rest with
      | some r => some (x :: r)
      | none => none

/-- `add_back(data)`; `none` is a null `data`. -/
def add_back (w : world) (data : Option pcb) : Except halt world :=
  match data with
  | none => .ok w
  | some d =>
    let newNode : ll := { p := d, priority := -1, id := w.state.fresh }
    let st : scheduler_state := { w.state with fresh := w.state.fresh + 1 }
    if st.queue = [] ∧ st.tail = none then
      .ok { w with state := { st with queue := [newNode], tail := some newNode.id } }
    else if st.queue = [] ∨ st.tail = none then .error (.exit 3)
    else
      match st.tail with
      | none => .error (.exit 3)
      | some t =>
        match link_after t newNode st.queue with
        | none => .error .undefined
        | some q => .ok { w with state := { st with queue := q, tail := some newNode.id } }

/-- The walk of `add_with_priority` from the node `cur` over the nodes behind it:
the chain with `newNode` linked in, and the address of the node it was linked
behind. -/
def insert_walk (newNode : ll) : ll → List ll → List ll × Nat
  | cur, [] => ([cur, newNode], cur.id)
  | cur, nx :: rest =>
    if nx.priority ≤ newNode.priority then
      (cur :: (insert_walk newNode nx rest).1, (insert_walk newNode nx rest).2)
    else (cur :: newNode :: nx :: rest, cur.id)

/-- `add_with_priority(data, priority)` for a non-null `data`. -/
def add_with_priority (w : world) (data : pcb) (priority : Int) : world :=
  let newNode : ll := { p := data, priority := priority, id := w.state.fresh }
  let st : scheduler_state := { w.state with fresh := w.state.fresh + 1 }
  match st.queue with
  | [] => { w with state := { st with queue := [newNode] } }
  | h :: rest =>
    if priority < h.priority then
      { w with state := { st with queue := newNode :: h :: rest } }
    else
      let r := insert_walk newNode h rest
      { w with state := { st with queue := r.1
                                  tail := if some r.2 = st.tail then some newNode.id
                                          else st.tail } }

/-- `decr_priorities()`. -/
def decr_priorities (w : world) : world :=
  { w with state := { w.state with
      queue := w.state.queue.map
        (fun n => if n.priority > 0 then { n with priority := n.priority - 1 } else n) } }

/-- `pop_front()`. -/
def pop_front (w : world) : world :=
  match w.state.queue with
  | [] => print w "Error: Expected a process on queue but found none!\n"
  | curHead :: rest =>
    { w with state := { w.state with
        queue := rest
        cur := some curHead.p
        cur_priority := curHead.priority
        tail := if w.state.tail = some curHead.id then none else w.state.tail } }

/-- `error_no_mode_selected()`. -/
def error_no_mode_selected (w : world) : world :=
  print w "Error: You must selected a scheduler mode before running processes.\n"

/-- `add_process(new_p)` for a non-null `new_p`. -/
def add_process (w : world) (new_p : pcb) : Except halt world :=
  match w.state.mode with
  | .FCFS | .RR =>
    match add_back w (some new_p) with
    | .error e => .error e
    | .ok w1 => .ok { w1 with state := { w1.state with np := w1.state.np + 1 } }
  | .SJF | .AGING =>
    let w1 := add_with_priority w new_p new_p.bound
    .ok { w1 with state := { w1.state with np := w1.state.np + 1 } }
  | .NONE => .ok (error_no_mode_selected w)

/-- `exec_process()`.  The parameter `rbl` is the call
`run_on_buffered_line(instr, 0)` of `shell.c`, which hands the instruction to the
command interpreter. -/
def exec_process (c : Config) (rbl : cstr → world → Except halt world) (w : world) :
    Except halt world :=
  match w.state.cur with
  | none => .error .undefined
  | some cur =>
    match read_instruction c w cur with
    | .error e => .error e
    | .ok (none, cur1, w1) =>
      let w2 : world := { w1 with state := { w1.state with cur := some cur1 } }
      match w2.state.mode with
      | .FCFS | .RR =>
        match add_back w2 (some cur1) with
        | .error e => .error e
        | .ok w3 => .ok { w3 with state := { w3.state with cur := none } }
      | .SJF | .AGING =>
        let w3 := add_with_priority w2 cur1 w2.state.cur_priority
        .ok { w3 with state := { w3.state with cur := none } }
      | .NONE => .ok (error_no_mode_selected w2)
    | .ok (some instr, cur1, w1) =>
      let cur2 : pcb := { cur1 with pc := cur1.pc + 1 }
      let w2 : world := { w1 with state := { w1.state with cur := some cur2 } }
      let after : Except halt world :=
        if cur2.pc ≥ cur2.bound then
          let w3 := free_process w2 cur2
          let w4 : world := { w3 with state := { w3.state with cur := none, np := w3.state.np - 1 } }
          if w4.state.np = 0 then
            match mem_reset_frames c w4.m_state with
            | .error e => .error e
            | .ok m => .ok { w4 with m_state := m }
          else .ok w4
        else .ok w2
      match after with
      | .error e => .error e
      | .ok w5 => rbl instr { w5 with executed := w5.executed ++ [(cur.pid, instr)] }

/-- `run_basic()`. -/
def run_basic (c : Config) (rbl : cstr → world → Except halt world) (w : world) :
    Except halt world :=
  exec_process c rbl w

/-- The loop of `run_RR`, with `n` iterations left. -/
def run_RR_loop (c : Config) (rbl : cstr → world → Except halt world) :
    Nat → world → Except halt world
  | 0, w => .ok w
  | n + 1, w =>
    if w.state.cur = none then .ok w
    else
      match exec_process c rbl w with
      | .error e => .error e
      | .ok w1 => run_RR_loop c rbl n w1

/-- `run_RR()`. -/
def run_RR (c : Config) (rbl : cstr → world → Except halt world) (w : world) :
    Except halt world :=
  match run_RR_loop c rbl RR_PREEMPT_FREQ w with
  | .error e => .error e
  | .ok w1 =>
    if w1.state.cur ≠ none then
      match add_back w1 w1.state.cur with
      | .error e => .error e
      | .ok w2 => .ok { w2 with state := { w2.state with cur := none } }
    else .ok w1

/-- `run_AGING()`. -/
def run_AGING (c : Config) (rbl : cstr → world → Except halt world) (w : world) :
    Except halt world :=
  match exec_process c rbl w with
  | .error e => .error e
  | .ok w1 =>
    let w2 := decr_priorities w1
    match w2.state.cur, w2.state.queue with
    | some cur, h :: _ =>
      if w2.state.np > 1 ∧ h.priority < w2.state.cur_priority then
        let w3 := add_with_priority w2 cur w2.state.cur_priority
        .ok { w3 with state := { w3.state with cur := none } }
      else .ok w2
    | _, _ => .ok w2

/-- The body of the loop of `run_scheduler`; the first component is `some r`
when the body executes `return r`. -/
def run_scheduler_body (c : Config) (rbl : cstr → world → Except halt world) (w : world) :
    Except halt (Option Int × world) :=
  let w1 := if w.state.cur = none then pop_front w else w
  match w1.state.mode with
  | .FCFS | .SJF =>
    match run_basic c rbl w1 with
    | .error e => .error e
    | .ok w2 => .ok (none, w2)
  | .RR =>
    match run_RR c rbl w1 with
    | .error e => .error e
    | .ok w2 => .ok (none, w2)
  | .AGING =>
    match run_AGING c rbl w1 with
    | .error e => .error e
    | .ok w2 => .ok (none, w2)
  | .NONE => .ok (some 1, error_no_mode_selected w1)

/-- `run_scheduler()` with a bound on the number of loop iterations: the first
component is `some r` when the function returns `r`, and `none` when the loop is
still running after `fuel` iterations. -/
def run_scheduler (c : Config) (rbl : cstr → world → Except halt world) :
    Nat → world → Except halt (Option Int × world)
  | 0, w => if w.state.np > 0 then .ok (none, w) else .ok (some 0, w)
  | fuel + 1, w =>
    if w.state.np > 0 then
      match run_scheduler_body c rbl w with
      | .error e => .error e
      | .ok (some r, w1) => .ok (some r, w1)
      | .ok (none, w1) => run_scheduler c rbl fuel w1
    else .ok (some 0, w)

/-! ## Start of the shell -/

/-- The state in which `main` starts: zero-initialised globals, nothing printed,
and the given files in the working directory. -/
def world_zero (c : Config) (files : List (cstr × cstr)) : world :=
  { m_state := m_state_zero c
    state := { np := 0, queue := [], tail := none, cur := none, cur_priority := 0,
               mode := .FCFS, fresh := 0 }
    cur_pid := 0
    backing_store := []
    cwd := files
    stdout := []
    executed := [] }

/-- The calls `init_memory(); init_scheduler(); init_backing_store();` of `main`. -/
def init_shell (c : Config) (files : List (cstr × cstr)) : Except halt world :=
  match init_memory c (world_zero c files).m_state with
  | .error e => .error e
  | .ok m => .ok (init_scheduler { world_zero c files with m_state := m, backing_store := [] })

/-- An interpreter callback for instructions that do not reach the scheduler, the
frame store or the backing store (`echo`, `print`, `set`, `help`, `ls`). -/
def rbl_inert : cstr → world → Except halt world := fun _ w => .ok w

/-! ## interpreter.c: the commands that submit scripts -/

/-- `run(script)`; the first component is the returned status. -/
def run (c : Config) (w : world) (script : cstr) : Except halt (Int × world) :=
  if w.cwd.lookup script = none then .ok (3, print w "Bad command: File not found\n")
  else
    match load_script c w script with
    | .error e => .error e
    | .ok (none, w1) =>
      .ok (8, print w1 "Failed to Load Script into Memory. Perhaps OOM?\n")
    | .ok (some p, w1) =>
      match add_process (set_scheduler_mode w1 .FCFS).2 p with
      | .error e => .error e
      | .ok w2 => .ok (0, w2)

/-- The second loop of `exec`: load each script and add it to the scheduler. -/
def exec_loop (c : Config) : List cstr → world → Except halt (Int × world)
  | [], w => .ok (0, w)
  | a :: rest, w =>
    match load_script c w a with
    | .error e => .error e
    | .ok (none, w1) =>
      .ok (8, print w1 "Failed to Load Script into Memory. Perhaps OOM?\n")
    | .ok (some p, w1) =>
      match add_process w1 p with
      | .error e => .error e
      | .ok w2 => exec_loop c rest w2

/-- The policy named by the last argument of `exec`. -/
def policy_of_name (name : cstr) : Option sched_mode_t :=
  if name = "FCFS".toList then some .FCFS
  else if name = "SJF".toList then some .SJF
  else if name = "RR".toList then some .RR
  else if name = "AGING".toList then some .AGING
  else none

/-- `exec(args, n_args)` with the scripts `progs` and the policy name `policy` as
arguments; the first component is the returned status. -/
def exec (c : Config) (w : world) (progs : List cstr) (policy : cstr) :
    Except halt (Int × world) :=
  if progs.any (fun a => w.cwd.lookup a = none) then
    .ok (3, print w "Bad command: File not found\n")
  else
    match policy_of_name policy with
    | none => .ok (4, print w "Bad command: Invalid Scheduler Mode\n")
    | some mode => exec_loop c progs (set_scheduler_mode w mode).2

/-! ## Well-formedness of the LRU list -/

/-- The `next` field of the node at address `a`. -/
def nx (h : List lru_ll) (a : Nat) : Option ptr := (h[a]?).map lru_ll.next

/-- The `prev` field of the node at address `a`. -/
def pv (h : List lru_ll) (a : Nat) : Option ptr := (h[a]?).map lru_ll.prev

/-- The `framenum` field of the node at address `a`. -/
def fnum (h : List lru_ll) (a : Nat) : Option Nat := (h[a]?).map lru_ll.framenum

/-- The heap after the assignment `a->next = v`. -/
def hnext (h : List lru_ll) (a : Nat) (v : ptr) : List lru_ll :=
  match h[a]? with
  | some n => h.set a { n with next := v }
  | none => h

/-- The heap after the assignment `a->prev = v`. -/
def hprev (h : List lru_ll) (a : Nat) (v : ptr) : List lru_ll :=
  match h[a]? with
  | some n => h.set a { n with prev := v }
  | none => h

/-- Node `b` follows node `a`: `a->next` is `b`, and `b->prev` is `a` unless it was
never assigned. -/
def linked (h : List lru_ll) (a b : Nat) : Prop :=
  nx h a = some (.addr b) ∧ (pv h b = some (.addr a) ∨ pv h b = some .uninit)

/-- The `prev` field of the node of frame `f` has been assigned. -/
def touched (m : memory_state) (f : Nat) : Prop :=
  ∃ p, pv m.heap f = some p ∧ p ≠ .uninit

/-- The nodes of `m` form the LRU list `l` (frame numbers from head to tail):
the node of frame `i` lives at address `i` and `ll_quick[i]` points to it, every
frame in `[0, NFRAMES)` occurs in `l` exactly once, `head` and `tail` point to
the first and the last node of `l`, and each node is linked to the one behind
it. -/
structure lru_wf (c : Config) (m : memory_state) (l : List Nat) : Prop where
  heap_len : m.heap.length = c.NFRAMES
  quick : m.ll_quick = (List.range c.NFRAMES).map ptr.addr
  framenum : ∀ i, i < c.NFRAMES → fnum m.heap i = some i
  perm : l.Perm (List.range c.NFRAMES)
  head_eq : (l.head?).map ptr.addr = some m.head
  tail_eq : (l.getLast?).map ptr.addr = some m.tail
  links : List.Chain' (linked m.heap) l

/-- States of the LRU list reached from `init_memory` the way the shell uses it:
by `get_next_frame`, and by `move_to_back` on a frame that `get_next_frame` has
returned before. `fs` lists the frames returned so far. -/
inductive lru_reach (c : Config) : memory_state → List Nat → Prop where
  | init (m : memory_state) :
      init_memory c (m_state_zero c) = .ok m → lru_reach c m []
  | next (m m1 : memory_state) (fs : List Nat) (f : Nat) :
      lru_reach c m fs → get_next_frame m = .ok (f, m1) → lru_reach c m1 (f :: fs)
  | touch (m m1 : memory_state) (fs : List Nat) (f : Nat) :
      lru_reach c m fs → f ∈ fs → move_to_back m f = .ok m1 → lru_reach c m1 fs


/-- The node of frame `g` may be moved: it is at the head of the list `l`, or its
`prev` field has been assigned. -/
def hot (m : memory_state) (l : List Nat) (g : Nat) : Prop :=
  l.head? = some g ∨ touched m g

/-- The frames returned by `n` successive calls of `get_next_frame`, in order. -/
def get_next_frames : Nat → memory_state → Except halt (List Nat × memory_state)
  | 0, m => .ok ([], m)
  | n + 1, m =>
    match get_next_frame m with
    | .error e => .error e
    | .ok (f, m1) =>
      match get_next_frames n m1 with
      | .error e => .error e
      | .ok (fs, m2) => .ok (f :: fs, m2)

/-- The loop invariant of `init_memory`: the first `i` nodes are built. -/
structure init_inv (c : Config) (i : Nat) (prev : ptr) (m : memory_state) : Prop where
  heap_len : m.heap.length = i
  quick_len : m.ll_quick.length = c.NFRAMES
  quick : ∀ j, j < i → m.ll_quick[j]? = some (.addr j)
  framenum : ∀ j, j < i → fnum m.heap j = some j
  next : ∀ j, j + 1 < i → nx m.heap j = some (.addr (j + 1))
  prev_undef : ∀ j, j < i → pv m.heap j = some .uninit
  head : 0 < i → m.head = .addr 0 ∧ prev = .addr (i - 1)


/-- The number a decimal numeral stands for. -/
def undigits (cs : List Char) : Nat := cs.foldl (fun a ch => 10 * a + (ch.toNat - 48)) 0


/-! ## Views of the frame store and of scripts -/

/-- The `value` field of slot `j` of a shell memory. -/
def sm_value (sm : List memory_struct) (j : Nat) : Option cstr := (sm[j]?).bind memory_struct.value

/-- The `var` field of slot `j` of a shell memory. -/
def sm_var (sm : List memory_struct) (j : Nat) : Option cstr := (sm[j]?).bind memory_struct.var

/-- The shell memory after the assignment `shellmemory[i].value = v`. -/
def sm_set_value (sm : List memory_struct) (i : Nat) (v : Option cstr) : List memory_struct :=
  match sm[i]? with
  | some s => sm.set i { s with value := v }
  | none => sm

/-- The shell memory after the assignment `shellmemory[i].var = v`. -/
def sm_set_var (sm : List memory_struct) (i : Nat) (v : Option cstr) : List memory_struct :=
  match sm[i]? with
  | some s => sm.set i { s with var := v }
  | none => sm

/-- The key stored in frame `f`: the `var` field of its first slot. -/
def key_at (c : Config) (m : memory_state) (f : Nat) : Option cstr :=
  sm_var m.shellmemory (get_frame_start c f)

/-- The line stored in slot `i` of frame `f`. -/
def slot_value (c : Config) (m : memory_state) (f i : Nat) : Option cstr :=
  sm_value m.shellmemory (get_frame_start c f + i)

/-- The lines of a text, each with its newline when it has one: the text is cut
behind every newline.  `cur` holds the characters of the line being read. -/
def script_lines_from : List Char → cstr → List cstr
  | [], cur => if cur = [] then [] else [cur]
  | x :: rest, cur =>
    if x = '\n' then (cur ++ [x]) :: script_lines_from rest []
    else script_lines_from rest (cur ++ [x])

/-- The lines of a script. -/
def script_lines (content : List Char) : List cstr := script_lines_from content []

/-- The number of pages of a script of `bound` lines: `(bound + FRAMESIZE - 1) / FRAMESIZE`. -/
def n_pages (c : Config) (bound : Nat) : Nat := (bound + c.FRAMESIZE - 1) / c.FRAMESIZE

/-- The memory state is well formed with LRU list `l`: the list is well formed,
the shell memory has `SHELLMEMSIZE` slots, and the node of every frame that
holds a key may be moved. -/
structure mem_wf (c : Config) (m : memory_state) (l : List Nat) : Prop where
  lru : lru_wf c m l
  size : m.shellmemory.length = c.SHELLMEMSIZE
  keyed_hot : ∀ f, f < c.NFRAMES → key_at c m f ≠ none → hot m l f


/-! ## A small configuration used in examples -/

/-- Three frames of three lines and two variable slots. -/
def demo_config : Config := { FRAMESIZE := 3, NFRAMES := 3, VARMEMSIZE := 2 }

/-- Two frames of three lines and two variable slots. -/
def demo_config2 : Config := { FRAMESIZE := 3, NFRAMES := 2, VARMEMSIZE := 2 }

/-- Scripts of the working directory used in examples. -/
def demo_files : List (cstr × cstr) :=
  [("a".toList, "a1\na2\na3\na4\n".toList), ("b".toList, "b1\nb2\nb3\nb4\n".toList),
   ("c".toList, "c1\nc2\nc3\nc4".toList), ("s".toList, "s1\n".toList)]

/-- The world a computation ends in; the start state when it halts. -/
def world_of (c : Config) (r : Except halt world) : world :=
  match r with
  | .ok w => w
  | .error _ => world_zero c []

/-- The shell right after start with the example scripts, three frames. -/
def demo_world : world := world_of demo_config (init_shell demo_config demo_files)

/-- A process control block as the loader builds it and the scheduler keeps it:
the page table has one entry per page of the script, the program counter is
inside the script, and every resident entry names a frame. -/
structure pcb_ok (c : Config) (p : pcb) : Prop where
  table_len : p.pagetable.length = n_pages c p.bound
  pc_lt : p.pc < p.bound
  frames : ∀ (k f : Nat), p.pagetable[k]? = some (some f) → f < c.NFRAMES

/-- The shell after start with the script `a` copied into the backing store
under process id 0. -/
def demo_loaded : world :=
  { demo_world with backing_store := [(0, "a1\na2\na3\na4\n".toList)] }

/-- A PCB for the four-line script `a` with no page resident. -/
def demo_pcb : pcb := { pid := 0, bound := 4, pc := 0, pagetable := [none, none] }

/-! ## Well-formedness of the waiting queue -/

/-- The queue as the policies FCFS and RR keep it: the nodes have distinct
addresses below the next fresh address and `tail` points to the last node (it
is null when the queue is empty). -/
structure fifo_wf (st : scheduler_state) : Prop where
  nodup : (st.queue.map ll.id).Nodup
  fresh : ∀ n, n ∈ st.queue → n.id < st.fresh
  tail_eq : st.tail = (st.queue.getLast?).map ll.id

/-- The place `add_with_priority` gives a new node in the queue `q`: behind the
longest run of nodes at the front whose priority is at most its own. -/
def ordered_insert (newNode : ll) (q : List ll) : List ll :=
  q.takeWhile (fun n => decide (n.priority ≤ newNode.priority)) ++
    newNode :: q.dropWhile (fun n => decide (n.priority ≤ newNode.priority))

/-- The parts of the world that the memory operations leave alone: the
scheduler state, the process counter, the backing store, the working directory
and the record of executed instructions; the shell memory keeps its size. -/
def same_core (w w' : world) : Prop :=
  w'.state = w.state ∧ w'.cur_pid = w.cur_pid ∧ w'.backing_store = w.backing_store ∧
    w'.cwd = w.cwd ∧ w'.executed = w.executed ∧
    w'.m_state.shellmemory.length = w.m_state.shellmemory.length

/-- The result of `read_instruction`, and the unchanged arguments with the
page-fault signal when it halts. -/
def read_result (c : Config) (w : world) (p : pcb) : Option cstr × pcb × world :=
  match read_instruction c w p with
  | .ok r => r
  | .error _ => (none, p, w)

/-- The PCB in the current slot, and an empty PCB when the slot is empty. -/
def cur_pcb (w : world) : pcb :=
  match w.state.cur with
  | some p => p
  | none => { pid := 0, bound := 0, pc := 0, pagetable := [] }

/-- The shell after `run a` and the first `pop_front` of the scheduler: script
`a` is current and its two pages are resident (three frames). -/
def demo_running : world :=
  pop_front (world_of demo_config
    (match run demo_config demo_world "a".toList with
     | .ok r => .ok r.2
     | .error e => .error e))

/-- The shell after `exec a b RR` with two frames and the first `pop_front`:
script `a` is current, and loading `b` has evicted both of its pages. -/
def demo_faulting : world :=
  pop_front (world_of demo_config2
    (match init_shell demo_config2 demo_files with
     | .error e => .error e
     | .ok w =>
       match exec demo_config2 w ["a".toList, "b".toList] "RR".toList with
       | .ok r => .ok r.2
       | .error e => .error e))

/-- The world after `n` iterations of the loop of `run_scheduler` (fewer when the
loop ends earlier), with an interpreter that leaves the world alone. -/
def after_ticks (c : Config) (n : Nat) (w : world) : Except halt world :=
  match run_scheduler c rbl_inert n w with
  | .ok r => .ok r.2
  | .error e => .error e

/-- The shell after `exec a b RR` with two frames. -/
def demo_rr2 : world :=
  world_of demo_config2
    (match init_shell demo_config2 demo_files with
     | .error e => .error e
     | .ok w =>
       match exec demo_config2 w ["a".toList, "b".toList] "RR".toList with
       | .ok r => .ok r.2
       | .error e => .error e)

/-- The run of `exec a b RR` with two frames after five scheduler ticks and the
next `pop_front`: script `b` is current at line 2, in the middle of its page 0,
and that page has been evicted. -/
def demo_midpage : world := pop_front (world_of demo_config2 (after_ticks demo_config2 5 demo_rr2))

/-- The same run after seven scheduler ticks and the next `pop_front`: script `b`
is current at line 2 and its page table and the frame key agree on page 0. -/
def demo_keyed : world := pop_front (world_of demo_config2 (after_ticks demo_config2 7 demo_rr2))

/-! ## The processes of the system and the content of their frames -/

/-- A text: a file without the byte 0xFF, so that the copy loop of `cp_to_store`
reads it to its end. -/
@[reducible] def is_text (content : cstr) : Prop := char_EOF ∉ content

/-- A directory of text files. -/
@[reducible] def text_files (files : List (cstr × cstr)) : Prop :=
  ∀ f, f ∈ files → is_text f.2

/-- The backing store holds every line of the script of `p` when it holds a
file for `p` at all. -/
def file_ok (w : world) (p : pcb) : Prop :=
  ∀ content, w.backing_store.lookup p.pid = some content →
    p.bound ≤ (script_lines content).length

/-- The PCBs the scheduler holds: the current one and those of the waiting queue. -/
def live (w : world) : List pcb := w.state.cur.toList ++ w.state.queue.map ll.p

/-- Every frame that the page table of `p` names and that carries the key of
that page of `p` holds lines of that page of the script stored under the pid of
`p`: slot `i` is empty or holds line `k * FRAMESIZE + i`. -/
def frames_inv (c : Config) (w : world) (p : pcb) : Prop :=
  ∀ (k f i : Nat) (content : cstr) (l : cstr),
    p.pagetable[k]? = some (some f) →
    key_at c w.m_state f = some (create_frame_key p.pid k) →
    w.backing_store.lookup p.pid = some content →
    i < c.FRAMESIZE →
    slot_value c w.m_state f i = some l →
    (script_lines content)[k * c.FRAMESIZE + i]? = some l

/-- A frame without a key has empty slots. -/
def unkeyed_empty (c : Config) (m : memory_state) : Prop :=
  ∀ f i, f < c.NFRAMES → i < c.FRAMESIZE → key_at c m f = none → slot_value c m f i = none

/-- What holds of a PCB of the system: it is well formed, its script is in the
backing store with at least `bound` lines, and its frames hold its own lines. -/
structure pcb_inv (c : Config) (w : world) (p : pcb) : Prop where
  ok : pcb_ok c p
  file : ∃ content, w.backing_store.lookup p.pid = some content ∧
    p.bound ≤ (script_lines content).length
  frames : frames_inv c w p

/-- The invariant of the paging system over the PCBs `ps`; the working directory
holds text files. -/
structure sys_inv (c : Config) (w : world) (ps : List pcb) : Prop where
  mem : ∃ l, mem_wf c w.m_state l
  empty : unkeyed_empty c w.m_state
  pids : (ps.map pcb.pid).Nodup
  pcbs : ∀ p, p ∈ ps → pcb_inv c w p
  text : text_files w.cwd

/-- The relation between the worlds before and after a command that reaches
neither the scheduler nor the frame store nor the backing store (`set`, `print`,
`echo`, `help`, `ls`, `resetmem`): only the variable store, the working
directory and the output may differ, and a working directory of text files
stays one. -/
def same_paging (c : Config) (w w' : world) : Prop :=
  w'.state = w.state ∧ w'.cur_pid = w.cur_pid ∧ w'.backing_store = w.backing_store ∧
    w'.executed = w.executed ∧
    w'.m_state.frames_allocated = w.m_state.frames_allocated ∧
    w'.m_state.head = w.m_state.head ∧ w'.m_state.tail = w.m_state.tail ∧
    w'.m_state.ll_quick = w.m_state.ll_quick ∧ w'.m_state.heap = w.m_state.heap ∧
    w'.m_state.shellmemory.length = w.m_state.shellmemory.length ∧
    (∀ j, c.VARMEMSIZE ≤ j → w'.m_state.shellmemory[j]? = w.m_state.shellmemory[j]?) ∧
    (text_files w.cwd → text_files w'.cwd)

/-- One command of the interpreter, as far as the paging system sees it. -/
inductive cmd_step (c : Config) : world → world → Prop where
  | other (w w' : world) : same_paging c w w' → cmd_step c w w'
  | run (w w' : world) (script : cstr) (code : Int) :
      run c w script = .ok (code, w') → cmd_step c w w'
  | exec (w w' : world) (progs : List cstr) (policy : cstr) (code : Int) :
      exec c w progs policy = .ok (code, w') → cmd_step c w w'

/-- The callback `rbl` acts as a command interpreter: whenever it returns, the
world it returns is the result of finitely many commands. -/
def rbl_ok (c : Config) (rbl : cstr → world → Except halt world) : Prop :=
  ∀ line w w', rbl line w = .ok w' → Relation.ReflTransGen (cmd_step c) w w'

/-- The states the shell reaches from its start in a working directory `files` of
text files: by commands typed at the prompt, and by the steps of the scheduler
(taking the head of the queue as the current process, executing one instruction
of the current process, one whole iteration of the loop of `run_scheduler`). -/
inductive sys_reach (c : Config) (files : List (cstr × cstr)) : world → Prop where
  | init (w : world) : text_files files → init_shell c files = .ok w → sys_reach c files w
  | cmd (w w' : world) : sys_reach c files w → cmd_step c w w' → sys_reach c files w'
  | pop (w : world) : sys_reach c files w → w.state.cur = none →
      sys_reach c files (pop_front w)
  | step (w w' : world) (rbl : cstr → world → Except halt world) :
      sys_reach c files w → rbl_ok c rbl → exec_process c rbl w = .ok w' →
      sys_reach c files w'
  | tick (w w' : world) (rbl : cstr → world → Except halt world) (r : Option Int) :
      sys_reach c files w → rbl_ok c rbl → run_scheduler_body c rbl w = .ok (r, w') →
      sys_reach c files w'

/-! ## Three one-page scripts on two frames -/

/-- The shell after `exec s s s FCFS` with two frames of three lines; the script
`s` has one line, so each of the three processes has one page. -/
def demo_thrash : world :=
  world_of demo_config2
    (match init_shell demo_config2 demo_files with
     | .error e => .error e
     | .ok w =>
       match exec demo_config2 w ["s".toList, "s".toList, "s".toList] "FCFS".toList with
       | .ok r => .ok r.2
       | .error e => .error e)

/-- A PCB of a one-line script that has executed nothing. -/
def thrash_pcb (p : pcb) : Prop :=
  p.pc = 0 ∧ p.bound = 1 ∧ p.pagetable.length = 1 ∧
    ∀ (k f : Nat), p.pagetable[k]? = some (some f) → f < 2

/-- The situation that repeats forever in `demo_thrash`: three processes `P`, `Q`,
`R` wait in this order and none has executed anything, and the two frames, `x`
least recently used, hold the pages of `Q` and `R`. -/
structure thrash_inv (w : world) (P Q R : pcb) (x y : Nat) : Prop where
  np : w.state.np = 3
  mode : w.state.mode = .FCFS
  cur : w.state.cur = none
  fifo : fifo_wf w.state
  queue : w.state.queue.map ll.p = [P, Q, R]
  executed : w.executed = []
  mem : mem_wf demo_config2 w.m_state [x, y]
  key_x : key_at demo_config2 w.m_state x = some (create_frame_key Q.pid 0)
  key_y : key_at demo_config2 w.m_state y = some (create_frame_key R.pid 0)
  pids : P.pid ≠ Q.pid ∧ P.pid ≠ R.pid ∧ Q.pid ≠ R.pid
  pcbs : thrash_pcb P ∧ thrash_pcb Q ∧ thrash_pcb R
  files : file_ok w P ∧ file_ok w Q ∧ file_ok w R

/-! ## Scripts that fit into the frame store together -/

/-- The number of pages of `p` that have never been loaded. -/
def missing (p : pcb) : Nat := p.pagetable.count none

/-- What is left to do for `p`: the instructions to execute and the pages to load. -/
def work (p : pcb) : Nat := (p.bound - p.pc) + missing p

/-- The instructions of process `pid` handed to the interpreter so far, in order. -/
def ex_of (w : world) (pid : Nat) : List cstr :=
  (w.executed.filter (fun e => decide (e.1 = pid))).map Prod.snd

/-- A PCB of a system in which no page is ever evicted; `spec` gives the lines of
the script of each process.  The script is in the backing store, the process
has executed its first `pc` lines, every page the page table names is in its
frame, complete, and a page not loaded yet is entered at its first line. -/
structure fit_pcb (c : Config) (w : world) (spec : Nat → Option (List cstr)) (p : pcb) :
    Prop where
  ok : pcb_ok c p
  pid_lt : p.pid < w.cur_pid
  file : ∃ content, w.backing_store.lookup p.pid = some content ∧
    p.bound = (script_lines content).length ∧ spec p.pid = some (script_lines content) ∧
    ex_of w p.pid = (script_lines content).take p.pc ∧ is_text content
  keyed : ∀ (k f : Nat), p.pagetable[k]? = some (some f) →
    key_at c w.m_state f = some (create_frame_key p.pid k)
  loaded : ∀ (k f i : Nat) (content : cstr), p.pagetable[k]? = some (some f) →
    w.backing_store.lookup p.pid = some content → i < c.FRAMESIZE →
    k * c.FRAMESIZE + i < p.bound →
    slot_value c w.m_state f i = (script_lines content)[k * c.FRAMESIZE + i]?
  fresh_page : p.pagetable[p.pc / c.FRAMESIZE]? = some none → p.pc % c.FRAMESIZE = 0

/-- The invariant of a system in which no page is ever evicted, over the PCBs
`ps`: the LRU list is `u ++ v` where the frames of `u` carry no key, and `u` has
room for every page still to load and for `slack` more. -/
structure fit_inv (c : Config) (w : world) (spec : Nat → Option (List cstr))
    (ps : List pcb) (slack : Nat) (u v : List Nat) : Prop where
  mem : mem_wf c w.m_state (u ++ v)
  unkeyed : ∀ f, f ∈ u → key_at c w.m_state f = none
  budget : (ps.map missing).sum + slack ≤ u.length
  pids : (ps.map pcb.pid).Nodup
  pcbs : ∀ p, p ∈ ps → fit_pcb c w spec p
  done_ok : ∀ (pid : Nat) (lines : List cstr), pid < w.cur_pid → spec pid = some lines →
    (∀ p, p ∈ ps → p.pid ≠ pid) → ex_of w pid = lines

/-- The invariant `fit_inv` for the PCBs of the scheduler, together with what the
scheduler needs: the process count is right, a policy is chosen, and under FCFS
and RR the queue is well formed. -/
structure sched_fit (c : Config) (w : world) (spec : Nat → Option (List cstr))
    (slack : Nat) (u v : List Nat) : Prop where
  fit : fit_inv c w spec (live w) slack u v
  np : w.state.np = (live w).length
  mode : w.state.mode ≠ .NONE
  fifo : w.state.mode = .FCFS ∨ w.state.mode = .RR → fifo_wf w.state

/-- The work left in the system. -/
def total_work (w : world) : Nat := ((live w).map work).sum

/-- No process is left and every script submitted has been executed line by line. -/
def all_done (w : world) (spec : Nat → Option (List cstr)) : Prop :=
  w.state.np = 0 ∧
    ∀ (pid : Nat) (lines : List cstr), pid < w.cur_pid → spec pid = some lines →
      ex_of w pid = lines

/-- The number of pages of the script `s` of the working directory `files`. -/
def script_pages (c : Config) (files : List (cstr × cstr)) (s : cstr) : Nat :=
  n_pages c (script_lines ((files.lookup s).getD [])).length

/-- The lines of the script that `exec progs` gives the process id `i`, in a
shell that has not loaded any script before. -/
def exec_spec (files : List (cstr × cstr)) (progs : List cstr) (i : Nat) : Option (List cstr) :=
  (progs[i]?).bind (fun s => (files.lookup s).map script_lines)

/-! ## The operator log of an eviction -/

/-- The texts of the non-empty slots of frame `f`, in slot order. -/
def frame_texts (c : Config) (m : memory_state) (f : Nat) : cstr :=
  ((List.range c.FRAMESIZE).filterMap (fun i => slot_value c m f i)).flatten

/-! ## The orders of the scheduler -/

/-- The queue is sorted by non-decreasing priority. -/
def prio_sorted (q : List ll) : Prop := q.Pairwise (fun a b => a.priority ≤ b.priority)

/-- Scripts used in the scheduling examples: `A` and `B` of three lines, `L` of
ten, `M` and `K` of five, `S` of two. -/
def sched_files : List (cstr × cstr) :=
  [("A".toList, "a1\na2\na3\n".toList), ("B".toList, "b1\nb2\nb3\n".toList),
   ("L".toList, "l1\nl2\nl3\nl4\nl5\nl6\nl7\nl8\nl9\nl10\n".toList),
   ("M".toList, "m1\nm2\nm3\nm4\nm5\n".toList),
   ("S".toList, "s1\ns2\n".toList),
   ("K".toList, "k1\nk2\nk3\nk4\nk5\n".toList)]

/-- The shell after the command `exec progs policy`, typed right after start in the
working directory `files`, has loaded and enqueued the scripts; the scheduler
has not run yet. -/
def submitted (c : Config) (files : List (cstr × cstr)) (progs : List cstr) (policy : cstr) :
    world :=
  world_of c
    (match init_shell c files with
     | .error e => .error e
     | .ok w =>
       match exec c w progs policy with
       | .ok r => .ok r.2
       | .error e => .error e)

/-- The instructions executed so far as text, each with the id of its process. -/
def trace (w : world) : List (Nat × String) := w.executed.map (fun e => (e.1, String.mk e.2))

/-- The value `run_scheduler` returns within `fuel` iterations and the instructions
executed until then; `none` when the run halts abnormally. -/
def run_trace (c : Config) (fuel : Nat) (w : world) :
    Option (Option Int × List (Nat × String)) :=
  match run_scheduler c rbl_inert fuel w with
  | .ok r => some (r.1, trace r.2)
  | .error _ => none

/-- The shell after `exec L M AGING` with three frames of three lines: `M` waits
at priority 5 in front of `L` at priority 10. -/
def demo_aging : world :=
  submitted demo_config sched_files ["L".toList, "M".toList] "AGING".toList

/-! ## The invariant of the scheduler -/

/-- Every slot of the frame store has an empty line and a null key. -/
def frames_clean (c : Config) (m : memory_state) : Prop :=
  ∀ j, c.VARMEMSIZE ≤ j → j < c.SHELLMEMSIZE →
    m.shellmemory[j]? = some (memory_struct.mk none none)

/-- What the scheduler keeps true of its process count `np`, its queue, its
current PCB with the snapshot priority, and its policy: the process count covers
the PCBs it holds, a policy is chosen while processes exist, and under SJF and
AGING the queue is sorted by priority and no priority is negative. -/
structure queue_ok (np : Int) (queue : List ll) (cur : Option pcb) (cur_priority : Int)
    (mode : sched_mode_t) : Prop where
  count : ((cur.toList.length + queue.length : Nat) : Int) ≤ np
  none_idle : mode = .NONE → np = 0
  sorted : mode = .SJF ∨ mode = .AGING → prio_sorted queue
  nonneg : mode = .SJF ∨ mode = .AGING → ∀ n, n ∈ queue → 0 ≤ n.priority
  cur_nonneg : mode = .SJF ∨ mode = .AGING → cur ≠ none → 0 ≤ cur_priority

/-- The invariant `queue_ok` of a scheduler state. -/
def queue_inv (st : scheduler_state) : Prop :=
  queue_ok st.np st.queue st.cur st.cur_priority st.mode

/-- The frame store is clean whenever no process exists and whenever the flag
`frames_allocated` is 0; the flag is 0 or 1. -/
structure clean_inv (c : Config) (np : Int) (m : memory_state) : Prop where
  flag01 : m.frames_allocated = 0 ∨ m.frames_allocated = 1
  idle : np = 0 → frames_clean c m
  flag : m.frames_allocated = 0 → frames_clean c m

/-- The invariant of the scheduler and of the cleanliness of the frame store. -/
def sched_inv (c : Config) (w : world) : Prop :=
  queue_inv w.state ∧ clean_inv c w.state.np w.m_state

/-- The shell after `exec A B RR` with three frames of three lines. -/
def demo_rr : world :=
  submitted demo_config sched_files ["A".toList, "B".toList] "RR".toList

/-- What the scheduler holds, at a glance: the id of the current process, the
waiting processes with their priorities in queue order, and the process count. -/
def sched_view (w : world) : Option Nat × List (Nat × Int) × Int :=
  (w.state.cur.map pcb.pid, w.state.queue.map (fun n => (n.p.pid, n.priority)), w.state.np)

/-- The shell after `exec a b FCFS` with three frames of three lines: the two
scripts have two pages each, and loading `b` has evicted page 0 of `a`. -/
def demo_fcfs : world :=
  submitted demo_config demo_files ["a".toList, "b".toList] "FCFS".toList

/-- Modelled from the spec: the queue after every entry's priority has been
decremented by 1, floored at 0. -/
def aged_floor (q : List ll) : List ll :=
  q.map (fun n => { n with priority := max 0 (n.priority - 1) })

/-- The shell after `exec A B AGING` with three frames of three lines: two scripts
of three lines wait at priority 3, `A` in front. -/
def demo_aging_tie : world :=
  submitted demo_config sched_files ["A".toList, "B".toList] "AGING".toList

/-- The shell after `exec K S SJF` with three frames of three lines: `S` of two
lines waits in front of `K` of five lines. -/
def demo_sjf : world :=
  submitted demo_config sched_files ["K".toList, "S".toList] "SJF".toList

/-- What holds during a run under SJF, for a function `β` from process ids to
script lengths and the instructions `E0` executed before the run: every queued
entry has its script length as priority, the queue is sorted, the current PCB
is no longer than any queued one, and the instructions executed since are
sorted by script length, none longer than a PCB still held. -/
structure sjf_inv (β : Nat → Nat) (E0 : List (Nat × cstr)) (w : world) : Prop where
  mode : w.state.mode = .SJF
  prio : ∀ n, n ∈ w.state.queue → n.priority = (n.p.bound : Int)
  len : ∀ q, q ∈ live w → β q.pid = q.bound
  sorted : prio_sorted w.state.queue
  cur_min : ∀ p, w.state.cur = some p →
    w.state.cur_priority = (p.bound : Int) ∧ ∀ n, n ∈ w.state.queue → (p.bound : Int) ≤ n.priority
  log : ∃ new, w.executed = E0 ++ new ∧ new.Pairwise (fun a b => β a.1 ≤ β b.1) ∧
    ∀ e, e ∈ new → ∀ q, q ∈ live w → β e.1 ≤ q.bound

/-- Scripts of the working directory for the example of a policy change made by
the last instruction of a script. -/
def order_files : List (cstr × cstr) :=
  [("p".toList, "exec q RR\n".toList), ("q".toList, "q1\n".toList)]

/-- An interpreter callback that knows the line `exec q RR`, which it hands to
`exec`; every other line leaves the shell as it is. -/
def rbl_exec (c : Config) : cstr → world → Except halt world := fun instr w =>
  if instr = "exec q RR\n".toList then
    match exec c w ["q".toList] "RR".toList with
    | .ok r => .ok r.2
    | .error e => .error e
  else .ok w

/-- The shell after `run p` and the first `pop_front` of the scheduler: the
one-line script `p` is current and it is the only process. -/
def demo_order : world :=
  pop_front (world_of demo_config
    (match init_shell demo_config order_files with
     | .error e => .error e
     | .ok w =>
       match run demo_config w "p".toList with
       | .ok r => .ok r.2
       | .error e => .error e))

/-- The shell after `exec a b RR` with two frames and six scheduler ticks: the
sixth tick has reloaded page 0 of script `b` in the middle of the page. -/
def demo_unfilled : world := world_of demo_config2 (after_ticks demo_config2 6 demo_rr2)

/-- A clean system: the frame store is well formed with LRU list `l` and no frame
has a key, the scheduler holds no process, and the backing store has no file for
the next pid. -/
structure clean_sys (c : Config) (w : world) (l : List Nat) : Prop where
  mem : mem_wf c w.m_state l
  keys : ∀ f, f < c.NFRAMES → key_at c w.m_state f = none
  np : w.state.np = 0
  queue : w.state.queue = []
  cur : w.state.cur = none
  tail : w.state.tail = none
  store : w.backing_store.lookup w.cur_pid = none

/-- Every line of the script `lines` of process `pid` is in the frame that the
page table `pt` names for its page, and the frame carries the key of the page. -/
def resident (c : Config) (m : memory_state) (pid : Nat) (pt : List (Option Nat))
    (lines : List cstr) : Prop :=
  ∀ i, i < lines.length → ∃ f, f < c.NFRAMES ∧ pt[i / c.FRAMESIZE]? = some (some f) ∧
    key_at c m f = some (create_frame_key pid (i / c.FRAMESIZE)) ∧
    slot_value c m f (i % c.FRAMESIZE) = lines[i]?

/-! ## Sessions and process identifiers -/

/-- A session as `load_script` sees it: `session c w0 n ps w` says that the shell
has gone from the world `w0` to the world `w` with `n` calls of `load_script`,
which have created the PCBs `ps`, in this order. Between the calls anything may
happen that leaves the variable `cur_pid` alone; no function but `load_script`
assigns it. -/
inductive session (c : Config) (w0 : world) : Nat → List pcb → world → Prop where
  | start : session c w0 0 [] w0
  | load (n : Nat) (ps : List pcb) (w w' : world) (file : cstr) (p : pcb) :
      session c w0 n ps w → load_script c w file = .ok (some p, w') →
      session c w0 (n + 1) (ps ++ [p]) w'
  | fail (n : Nat) (ps : List pcb) (w w' : world) (file : cstr) :
      session c w0 n ps w → load_script c w file = .ok (none, w') →
      session c w0 (n + 1) ps w'
  | other (n : Nat) (ps : List pcb) (w w' : world) :
      session c w0 n ps w → w'.cur_pid = w.cur_pid → session c w0 n ps w'

/-! ## The exact process count -/

/-- The process count is exact: `np` is the number of queued nodes plus one when
a PCB is current. Under FCFS and RR the queue is a well-formed chain with its
tail pointer; under the other policies the tail pointer is null; no process
exists while no policy is chosen. -/
structure count_inv (st : scheduler_state) : Prop where
  count : st.np = ((st.cur.toList.length + st.queue.length : Nat) : Int)
  fifo : st.mode = .FCFS ∨ st.mode = .RR → fifo_wf st
  prio : ¬ (st.mode = .FCFS ∨ st.mode = .RR) → st.tail = none
  none_idle : st.mode = .NONE → st.np = 0

/-- The states of the scheduler that are reached from `init_scheduler` by calls
of `add_process` and `set_scheduler_mode`, by the commands of the interpreter
(which call them), and by the steps of the scheduler: `pop_front`, one
`exec_process`, one whole iteration of the loop of `run_scheduler`. -/
inductive sched_reach (c : Config) : world → Prop where
  | init (w : world) : sched_reach c (init_scheduler w)
  | add (w w' : world) (p : pcb) : sched_reach c w → add_process w p = .ok w' →
      sched_reach c w'
  | mode (w : world) (m : sched_mode_t) : sched_reach c w →
      sched_reach c (set_scheduler_mode w m).2
  | cmd (w w' : world) : sched_reach c w → cmd_step c w w' → sched_reach c w'
  | pop (w : world) : sched_reach c w → w.state.cur = none → sched_reach c (pop_front w)
  | step (w w' : world) (rbl : cstr → world → Except halt world) :
      sched_reach c w → rbl_ok c rbl → exec_process c rbl w = .ok w' → sched_reach c w'
  | tick (w w' : world) (rbl : cstr → world → Except halt world) (r : Option Int) :
      sched_reach c w → rbl_ok c rbl → run_scheduler_body c rbl w = .ok (r, w') →
      sched_reach c w'

/-! ## The life of a PCB -/

/-- The PCB `p'` is a later state of the PCB `p`: same pid, same bound, and a
program counter that has not gone back. -/
def pcb_le (p p' : pcb) : Prop := p'.pid = p.pid ∧ p'.bound = p.bound ∧ p.pc ≤ p'.pc

/-- A PCB as `load_script` returns it: at its first line, of a script with one
line at least. -/
def created (p : pcb) : Prop := p.pc = 0 ∧ 1 ≤ p.bound

/-- Every PCB that the scheduler holds in `w'` is a later state of one it held in
`w`, or has just been created. -/
def evolves (w w' : world) : Prop :=
  ∀ p', p' ∈ live w' → (∃ p, p ∈ live w ∧ pcb_le p p') ∨ created p'

/-- What steps of the scheduler on the current PCB `p` of `w` do to the PCBs: a
PCB that is current afterwards is a later state of `p`, and a queued PCB was
queued before, or is a later state of `p`, or has just been created. -/
def runs (p : pcb) (w w' : world) : Prop :=
  (∀ p1, w'.state.cur = some p1 → pcb_le p p1) ∧
  ∀ q, q ∈ w'.state.queue.map ll.p → q ∈ w.state.queue.map ll.p ∨ pcb_le p q ∨ created q

/-! ## shellmemory.c: the variable store -/

/-- `mem_full_error()`. -/
def mem_full_error (w : world) : world :=
  { w with stdout := w.stdout ++
      "Error: Shell Memory Full, can't set Environment Variable.\n".toList }

/-- The loop of `mem_set_value` over the variables in use, with `n` iterations
left and loop index `i`: `some m` when the loop has found the variable and the
function has returned, `none` when the loop has ended. -/
def mem_set_value_loop (var_in value_in : cstr) :
    Nat → Nat → memory_state → Except halt (Option memory_state)
  | 0, _, _ => .ok none
  | n + 1, i, m =>
    match m.shellmemory[i]? with
    | none => .error .undefined
    | some s =>
      match s.var with
      | none => mem_set_value_loop var_in value_in n (i + 1) m
      | some v =>
        if v = var_in then
          .ok (some { m with
            shellmemory := m.shellmemory.set i { s with value := some value_in } })
        else mem_set_value_loop var_in value_in n (i + 1) m

/-- `mem_set_value(var_in, value_in)`. -/
def mem_set_value (c : Config) (w : world) (var_in value_in : cstr) : Except halt world :=
  match mem_set_value_loop var_in value_in w.m_state.cur_var_size 0 w.m_state with
  | .error e => .error e
  | .ok (some m) => .ok { w with m_state := m }
  | .ok none =>
    if w.m_state.cur_var_size ≥ c.VARMEMSIZE then .ok (mem_full_error w)
    else
      match w.m_state.shellmemory[w.m_state.cur_var_size]? with
      | none => .error .undefined
      | some _ =>
        .ok { w with m_state := { w.m_state with
          shellmemory := w.m_state.shellmemory.set w.m_state.cur_var_size
            (memory_struct.mk (some var_in) (some value_in))
          cur_var_size := w.m_state.cur_var_size + 1 } }

/-- The loop of `clear_shell_mem`, with `n` iterations left and loop index `i`. -/
def clear_shell_mem_loop : Nat → Nat → memory_state → Except halt memory_state
  | 0, _, m => .ok m
  | n + 1, i, m =>
    if i < m.shellmemory.length then
      clear_shell_mem_loop n (i + 1)
        { m with shellmemory := m.shellmemory.set i (memory_struct.mk none none) }
    else .error .undefined

/-- `clear_shell_mem()`. -/
def clear_shell_mem (m : memory_state) : Except halt memory_state :=
  match clear_shell_mem_loop m.cur_var_size 0 m with
  | .error e => .error e
  | .ok m1 => .ok { m1 with cur_var_size := 0 }

/-- The shell after start with the variables `x = 1` and `y = 2` set; the
variable store of two slots is full. -/
def demo_vars : world :=
  world_of demo_config
    (match mem_set_value demo_config demo_world "x".toList "1".toList with
     | .error e => .error e
     | .ok w => mem_set_value demo_config w "y".toList "2".toList)

/-! ## shell.c: reading a command from the buffer -/

/-- The constant `MAX_WORD_LEN`. -/
def MAX_WORD_LEN : Nat := 200

/-- The constant `MAX_WORDS`. -/
def MAX_WORDS : Nat := 100

/-- The character `c = buffer[*buff_pos]`, given the part of the buffer from
`*buff_pos` on; the buffer ends with a NUL character, which is not in the list. -/
def cur_char (rest : List Char) : Char := rest.headD (Char.ofNat 0)

/-- The loops `while (c == ' ' || c == '\t') c = buffer[++*buff_pos];` of
`readInput`: the part of the buffer from the new position on. -/
def skip_blanks : List Char → List Char
  | [] => []
  | c :: rest => if c = ' ' ∨ c = '\t' then skip_blanks rest else c :: rest

/-- The loop of `readInput` that reads the characters of one word into `tmp`:
`while (c != '\0' && c != ' ' && c != '\n' && c != ';' && tmpi < end)`, where
`end` is `tmp + MAX_WORD_LEN - 1`.  Arguments: the part of the buffer from the
position on and the content of `tmp`; result: the content of `tmp` and the part
of the buffer from the new position on. -/
def read_word : List Char → cstr → cstr × List Char
  | [], tmp => (tmp, [])
  | c :: rest, tmp =>
    if c ≠ Char.ofNat 0 ∧ c ≠ ' ' ∧ c ≠ '\n' ∧ c ≠ ';' ∧ tmp.length < MAX_WORD_LEN - 1 then
      read_word rest (tmp ++ [c])
    else (tmp, c :: rest)

/-- The `do ... while (c != '\0' && c != '\n' && c != ';')` loop of `readInput`
with a bound on the number of iterations: each iteration reads a word, stores it
in `words[w++]` and skips the blanks behind it.  The result is `none` when the
loop is still running after `fuel` iterations. -/
def read_words : Nat → List Char → List cstr → Except halt (Option (List cstr × List Char))
  | 0, _, _ => .ok none
  | fuel + 1, rest, words =>
    let r := read_word rest []
    if words.length ≥ MAX_WORDS then .error .undefined
    else
      let rest1 := skip_blanks r.2
      if cur_char rest1 ≠ Char.ofNat 0 ∧ cur_char rest1 ≠ '\n' ∧ cur_char rest1 ≠ ';' then
        read_words fuel rest1 (words ++ [r.1])
      else .ok (some (words ++ [r.1], rest1))

/-- `readInput(words, buffer, buff_pos)`: the returned count, the words stored
and the new value of `*buff_pos`.  The `do` loop gets one iteration per
character of the buffer and one more; the result is `none` if that were not
enough. -/
def readInput (buffer : cstr) (buff_pos : Nat) :
    Except halt (Option (Int × List cstr × Nat)) :=
  if buff_pos > buffer.length then .error .undefined
  else if cur_char (buffer.drop buff_pos) = Char.ofNat 0 then .ok (some (-1, [], buff_pos))
  else
    let rest1 := skip_blanks (buffer.drop buff_pos)
    match read_words (rest1.length + 1) rest1 [] with
    | .error e => .error e
    | .ok none => .ok none
    | .ok (some (words, rest2)) =>
      let pos2 := buffer.length - rest2.length
      .ok (some ((words.length : Int), words,
        if cur_char rest2 ≠ Char.ofNat 0 then pos2 + 1 else pos2))

/-- The words of a result of `readInput`, as strings. -/
def words_of (r : Except halt (Option (Int × List cstr × Nat))) : Option (Int × List String × Nat) :=
  match r with
  | .ok (some (n, ws, pos)) => some (n, ws.map String.mk, pos)
  | _ => none

/-! ## The order of the waiting queue -/

/-- The waiting queue is ordered: the priorities do not decrease from the head to
the tail; under FCFS and RR every node has the priority -1 that `add_back`
assigns; under the other policies no priority is negative, nor is the snapshot
`cur_priority` of a current PCB. -/
structure order_inv (st : scheduler_state) : Prop where
  sorted : prio_sorted st.queue
  fifo : st.mode = .FCFS ∨ st.mode = .RR → ∀ n, n ∈ st.queue → n.priority = -1
  nonneg : ¬ (st.mode = .FCFS ∨ st.mode = .RR) → ∀ n, n ∈ st.queue → 0 ≤ n.priority
  cur_nonneg : ¬ (st.mode = .FCFS ∨ st.mode = .RR) → st.cur ≠ none → 0 ≤ st.cur_priority

/-! ## Files that are not texts -/

/-- The shell right after start, three frames of three lines, in a working
directory with two files that hold the byte 0xFF: `x` of the seven bytes `a`,
newline, 0xFF, `b`, newline, `c`, newline, and `y` of the three bytes 0xFF, `a`,
newline. -/
def demo_binary : world :=
  { demo_world with
      cwd := [("x".toList, ['a', '\n', char_EOF, 'b', '\n', 'c', '\n']),
              ("y".toList, [char_EOF, 'a', '\n'])] }

/-- The shell after `exec p AGING` in the directory `order_files`: the script `p`,
whose only line is `exec q RR`, waits at priority 1. -/
def demo_aging_order : world :=
  submitted demo_config order_files ["p".toList] "AGING".toList

/-! ## A PCB keeps its pid and its bound -/

/-- Every PCB that the scheduler holds in `w` lives on to `w'` with its pid and its
bound, its program counter advanced by at most the number of instructions of
its process that were executed in between, unless these instructions have taken
it to its end. `new` holds the instructions executed in between. -/
def persists (w w' : world) : Prop :=
  ∃ new, w'.executed = w.executed ++ new ∧
    ∀ p, p ∈ live w →
      (∃ p', p' ∈ live w' ∧ pcb_le p p' ∧
        p'.pc ≤ p.pc + new.countP (fun e => e.1 = p.pid)) ∨
      p.bound ≤ p.pc + new.countP (fun e => e.1 = p.pid)

/-- What steps of the scheduler on the current PCB `p` of `w` do, seen from `w`:
the instructions executed are instructions of `p`, the queued PCBs stay queued as
they are, and `p` is still held (current or queued) with its pid and its bound
and a program counter advanced by the number of instructions executed, unless
it is no longer current and these instructions have taken it to its end. -/
def advances (p : pcb) (w w' : world) : Prop :=
  ∃ new, w'.executed = w.executed ++ new ∧ (∀ e, e ∈ new → e.1 = p.pid) ∧
    (∀ q, q ∈ w.state.queue.map ll.p → q ∈ w'.state.queue.map ll.p) ∧
    (∀ p1, w'.state.cur = some p1 → pcb_le p p1 ∧ p1.pc = p.pc + new.length) ∧
    (w'.state.cur = none →
      (∃ p1, p1 ∈ w'.state.queue.map ll.p ∧ pcb_le p p1 ∧ p1.pc = p.pc + new.length) ∨
      p.bound ≤ p.pc + new.length)

/-! ## The LRU list: lemmas -/

@[simp] theorem hnext_length (h : List lru_ll) (a : Nat) (v : ptr) :
    (hnext h a v).length = h.length := by
  unfold hnext; split <;> simp

@[simp] theorem hprev_length (h : List lru_ll) (a : Nat) (v : ptr) :
    (hprev h a v).length = h.length := by
  unfold hprev; split <;> simp

theorem nx_hnext (h : List lru_ll) (a x : Nat) (v : ptr) (ha : a < h.length) :
    nx (hnext h a v) x = if x = a then some v else nx h x := by
  unfold hnext nx
  have : h[a]? = some h[a] := List.getElem?_eq_getElem ha
  rw [this]
  simp only [List.getElem?_set]
  by_cases hx : a = x
  · subst hx; simp [ha]
  · have : ¬ x = a := fun e => hx e.symm
    simp [hx, this]

@[simp] theorem pv_hnext (h : List lru_ll) (a x : Nat) (v : ptr) :
    pv (hnext h a v) x = pv h x := by
  unfold hnext pv
  cases hh : h[a]? with
  | none => simp
  | some n =>
    simp only [List.getElem?_set]
    by_cases hx : a = x
    · subst hx
      have : a < h.length := by
        by_contra hc
        rw [List.getElem?_eq_none (by omega)] at hh; cases hh
      simp [this, hh]
    · simp [hx]

theorem pv_hprev (h : List lru_ll) (a x : Nat) (v : ptr) (ha : a < h.length) :
    pv (hprev h a v) x = if x = a then some v else pv h x := by
  unfold hprev pv
  have : h[a]? = some h[a] := List.getElem?_eq_getElem ha
  rw [this]
  simp only [List.getElem?_set]
  by_cases hx : a = x
  · subst hx; simp [ha]
  · have : ¬ x = a := fun e => hx e.symm
    simp [hx, this]

@[simp] theorem nx_hprev (h : List lru_ll) (a x : Nat) (v : ptr) :
    nx (hprev h a v) x = nx h x := by
  unfold hprev nx
  cases hh : h[a]? with
  | none => simp
  | some n =>
    simp only [List.getElem?_set]
    by_cases hx : a = x
    · subst hx
      have : a < h.length := by
        by_contra hc
        rw [List.getElem?_eq_none (by omega)] at hh; cases hh
      simp [this, hh]
    · simp [hx]

@[simp] theorem fnum_hnext (h : List lru_ll) (a x : Nat) (v : ptr) :
    fnum (hnext h a v) x = fnum h x := by
  unfold hnext fnum
  cases hh : h[a]? with
  | none => simp
  | some n =>
    simp only [List.getElem?_set]
    by_cases hx : a = x
    · subst hx
      have : a < h.length := by
        by_contra hc
        rw [List.getElem?_eq_none (by omega)] at hh; cases hh
      simp [this, hh]
    · simp [hx]

@[simp] theorem fnum_hprev (h : List lru_ll) (a x : Nat) (v : ptr) :
    fnum (hprev h a v) x = fnum h x := by
  unfold hprev fnum
  cases hh : h[a]? with
  | none => simp
  | some n =>
    simp only [List.getElem?_set]
    by_cases hx : a = x
    · subst hx
      have : a < h.length := by
        by_contra hc
        rw [List.getElem?_eq_none (by omega)] at hh; cases hh
      simp [this, hh]
    · simp [hx]

theorem set_next_eq (m : memory_state) (a : Nat) (v : ptr) (ha : a < m.heap.length) :
    set_next m (.addr a) v = .ok { m with heap := hnext m.heap a v } := by
  have : m.heap[a]? = some m.heap[a] := List.getElem?_eq_getElem ha
  simp [set_next, hnext, this]

theorem set_prev_eq (m : memory_state) (a : Nat) (v : ptr) (ha : a < m.heap.length) :
    set_prev m (.addr a) v = .ok { m with heap := hprev m.heap a v } := by
  have : m.heap[a]? = some m.heap[a] := List.getElem?_eq_getElem ha
  simp [set_prev, hprev, this]

theorem deref_eq (m : memory_state) (a : Nat) (ha : a < m.heap.length) :
    ∃ n, deref m (.addr a) = .ok n ∧ nx m.heap a = some n.next ∧ pv m.heap a = some n.prev
      ∧ fnum m.heap a = some n.framenum := by
  have : m.heap[a]? = some m.heap[a] := List.getElem?_eq_getElem ha
  exact ⟨m.heap[a], by simp [deref, this], by simp [nx, this], by simp [pv, this],
    by simp [fnum, this]⟩


theorem mtb_eval_head (m : memory_state) (f b t : Nat) (pf : ptr)
    (hq : m.ll_quick[f]? = some (.addr f)) (hhd : m.head = .addr f) (htl : m.tail = .addr t)
    (hft : f ≠ t) (hn : nx m.heap f = some (.addr b)) (hp : pv m.heap f = some pf)
    (hf : f < m.heap.length) (hb : b < m.heap.length) (ht : t < m.heap.length) :
    move_to_back m f = .ok { m with
      head := .addr b
      tail := .addr f
      heap := hnext (hprev (hnext (hprev m.heap b pf) f .null) f (.addr t)) t (.addr f) } := by
  have hne : ¬ (m.tail = ptr.addr f) := by
    rw [htl]; intro e; injection e with e; exact hft e.symm
  obtain ⟨n, hd, hnn, hpn, -⟩ := deref_eq m f hf
  rw [hn] at hnn; rw [hp] at hpn
  injection hnn with hnn; injection hpn with hpn
  unfold move_to_back
  rw [hq]
  simp only [hne, if_false, bind, Except.bind, hd, hhd, if_true, pure, Except.pure]
  have hd1 : deref { m with head := n.next } (.addr f) = .ok n := hd
  rw [hd1]
  simp only []
  rw [← hnn, ← hpn]
  rw [set_prev_eq _ _ _ (by simpa using hb)]
  simp only []
  rw [set_next_eq _ _ _ (by simpa using hf)]
  simp only []
  rw [set_prev_eq _ _ _ (by simpa using hf)]
  simp only [htl]
  rw [set_next_eq _ _ _ (by simpa using ht)]

theorem mtb_eval_mid (m : memory_state) (f a b t : Nat)
    (hq : m.ll_quick[f]? = some (.addr f)) (hhd : m.head ≠ .addr f) (htl : m.tail = .addr t)
    (hft : f ≠ t) (hfa : f ≠ a) (hn : nx m.heap f = some (.addr b))
    (hp : pv m.heap f = some (.addr a))
    (hf : f < m.heap.length) (ha : a < m.heap.length) (hb : b < m.heap.length)
    (ht : t < m.heap.length) :
    move_to_back m f = .ok { m with
      tail := .addr f
      heap := hnext (hprev (hnext (hprev (hnext m.heap a (.addr b)) b (.addr a)) f .null)
                f (.addr t)) t (.addr f) } := by
  have hne : ¬ (m.tail = ptr.addr f) := by
    rw [htl]; intro e; injection e with e; exact hft e.symm
  obtain ⟨n, hd, hnn, hpn, -⟩ := deref_eq m f hf
  rw [hn] at hnn; rw [hp] at hpn
  injection hnn with hnn; injection hpn with hpn
  unfold move_to_back
  rw [hq]
  simp only [hne, if_false, bind, Except.bind, hd, hhd, pure, Except.pure]
  rw [← hnn, ← hpn]
  rw [set_next_eq _ _ _ ha]
  simp only []
  obtain ⟨n1, hd1, hnn1, hpn1, -⟩ :=
    deref_eq { m with heap := hnext m.heap a (.addr b) } f (by simpa using hf)
  rw [hd1]
  simp only [] at hnn1 hpn1 ⊢
  rw [nx_hnext _ _ _ _ ha, if_neg hfa, hn] at hnn1
  rw [pv_hnext, hp] at hpn1
  injection hnn1 with hnn1; injection hpn1 with hpn1
  rw [← hnn1, ← hpn1]
  rw [set_prev_eq _ _ _ (by simpa using hb)]
  simp only []
  rw [set_next_eq _ _ _ (by simpa using hf)]
  simp only []
  rw [set_prev_eq _ _ _ (by simpa using hf)]
  simp only [htl]
  rw [set_next_eq _ _ _ (by simpa using ht)]


theorem chain_congr (h h' : List lru_ll) : ∀ (l : List Nat), List.Chain' (linked h) l →
    (∀ x ∈ l.dropLast, nx h' x = nx h x) → (∀ y ∈ l.tail, pv h' y = pv h y) →
    List.Chain' (linked h') l
  | [], _, _, _ => List.chain'_nil
  | [_], _, _, _ => List.chain'_singleton _
  | x :: y :: r, hc, hn, hp => by
    rw [List.chain'_cons] at hc ⊢
    refine ⟨?_, chain_congr h h' (y :: r) hc.2 ?_ ?_⟩
    · unfold linked at hc ⊢
      rw [hn x (by simp), hp y (by simp)]
      exact hc.1
    · intro z hz
      exact hn z (by simp [List.dropLast]; right; exact hz)
    · intro z hz
      exact hp z (by simp at hz ⊢; right; exact hz)

theorem lru_wf.lt (c : Config) (m : memory_state) (l : List Nat) (hw : lru_wf c m l)
    (f : Nat) (hf : f ∈ l) : f < m.heap.length := by
  rw [hw.heap_len]
  have := hw.perm.mem_iff.mp hf
  simpa using this

theorem lru_wf.quick_at (c : Config) (m : memory_state) (l : List Nat) (hw : lru_wf c m l)
    (f : Nat) (hf : f ∈ l) : m.ll_quick[f]? = some (.addr f) := by
  have h1 := hw.lt c m l f hf
  rw [hw.heap_len] at h1
  rw [hw.quick]; simp [h1]

theorem lru_wf.nodup (c : Config) (m : memory_state) (l : List Nat) (hw : lru_wf c m l) :
    l.Nodup := hw.perm.nodup_iff.mpr (List.nodup_range _)

theorem ne_last_of_mem_dropLast : ∀ (l : List Nat) (x t : Nat), l.Nodup → l.getLast? = some t →
    x ∈ l.dropLast → x ≠ t := by
  intro l x t hnd ht hx e
  subst e
  have h1 : l = l.dropLast ++ [x] := by
    have hne : l ≠ [] := by rintro rfl; simp at ht
    have := List.dropLast_append_getLast hne
    rw [List.getLast?_eq_getLast _ hne] at ht
    injection ht with ht
    rw [ht] at this
    exact this.symm
  rw [h1] at hnd
  have := (List.nodup_append.mp hnd).2.2
  exact this hx (by simp)

theorem pv_ex (h : List lru_ll) (a : Nat) (ha : a < h.length) : ∃ p, pv h a = some p := by
  have : h[a]? = some h[a] := List.getElem?_eq_getElem ha
  exact ⟨h[a].prev, by simp [pv, this]⟩

/-- The parts of the memory state that `move_to_back` leaves alone. -/
theorem mtb_wf_head (c : Config) (m : memory_state) (f b : Nat) (r : List Nat)
    (hw : lru_wf c m (f :: b :: r)) :
    ∃ m', move_to_back m f = .ok m' ∧ lru_wf c m' (b :: r ++ [f]) ∧
      m'.shellmemory = m.shellmemory ∧ m'.cur_var_size = m.cur_var_size ∧
      m'.frames_allocated = m.frames_allocated ∧ touched m' f ∧
      ∀ g, g ≠ b → touched m g → touched m' g := by
  have hnd := hw.nodup
  have hfl := hw.lt c m _ f (by simp)
  have hbl := hw.lt c m _ b (by simp)
  obtain ⟨t, ht⟩ : ∃ t, (b :: r).getLast? = some t := by
    cases h : (b :: r).getLast? with
    | none => simp at h
    | some t => exact ⟨t, rfl⟩
  have htmem : t ∈ b :: r := List.mem_of_getLast?_eq_some ht
  have htl := hw.lt c m _ t (List.mem_cons_of_mem _ htmem)
  have hft : f ≠ t := by
    intro e; subst e
    exact (List.nodup_cons.mp hnd).1 htmem
  have hfb : f ≠ b := by
    intro e; subst e
    exact (List.nodup_cons.mp hnd).1 (by simp)
  have htail : m.tail = .addr t := by
    have h1 := hw.tail_eq
    have : (f :: b :: r).getLast? = some t := by
      rw [List.getLast?_cons_cons]; exact ht
    rw [this] at h1; simpa using h1.symm
  have hhead : m.head = .addr f := by simpa using hw.head_eq.symm
  have hl := hw.links
  rw [List.chain'_cons] at hl
  obtain ⟨pf, hpf⟩ := pv_ex m.heap f hfl
  have hev := mtb_eval_head m f b t pf (hw.quick_at c m _ f (by simp)) hhead htail hft
    hl.1.1 hpf hfl hbl htl
  refine ⟨_, hev, ?_, rfl, rfl, rfl, ?_, ?_⟩
  · have hnd2 : (b :: r).Nodup := (List.nodup_cons.mp hnd).2
    constructor
    · simp [hw.heap_len]
    · exact hw.quick
    · intro i hi; simp [hw.framenum i hi]
    · refine List.Perm.trans ?_ hw.perm
      have : b :: r ++ [f] = (b :: r) ++ [f] := rfl
      rw [this]
      exact (List.perm_append_comm).trans (by simp)
    · simp
    · have : b :: r ++ [f] = (b :: r) ++ [f] := rfl
      rw [this, List.getLast?_append]; simp
    · have : b :: r ++ [f] = (b :: r) ++ [f] := rfl
      rw [this, List.chain'_append]
      refine ⟨?_, List.chain'_singleton _, ?_⟩
      · apply chain_congr m.heap _ _ hl.2
        · intro x hx
          have hxt := ne_last_of_mem_dropLast _ x t hnd2 ht hx
          have hxf : x ≠ f := by
            rintro rfl
            exact (List.nodup_cons.mp hnd).1 (List.mem_of_mem_dropLast hx)
          simp only []
          rw [nx_hnext _ _ _ _ (by simpa using htl), if_neg hxt, nx_hprev,
            nx_hnext _ _ _ _ (by simpa using hfl), if_neg hxf, nx_hprev]
        · intro y hy
          have hyb : y ≠ b := by
            rintro rfl
            exact (List.nodup_cons.mp hnd2).1 (by simpa using hy)
          have hyf : y ≠ f := by
            rintro rfl
            exact (List.nodup_cons.mp hnd).1 (List.mem_cons_of_mem _ (by simpa using hy))
          simp only []
          rw [pv_hnext, pv_hprev _ _ _ _ (by simpa using hfl), if_neg hyf, pv_hnext,
            pv_hprev _ _ _ _ hbl, if_neg hyb]
      · intro x hx y hy
        rw [ht] at hx
        simp at hx hy
        subst hx; subst hy
        constructor
        · simp only []
          rw [nx_hnext _ _ _ _ (by simpa using htl), if_pos rfl]
        · left
          simp only []
          rw [pv_hnext, pv_hprev _ _ _ _ (by simpa using hfl), if_pos rfl]
  · refine ⟨.addr t, ?_, by simp⟩
    simp only []
    rw [pv_hnext, pv_hprev _ _ _ _ (by simpa using hfl), if_pos rfl]
  · intro g hgb ⟨p, hp, hpu⟩
    by_cases hgf : g = f
    · subst hgf
      refine ⟨.addr t, ?_, by simp⟩
      simp only []
      rw [pv_hnext, pv_hprev _ _ _ _ (by simpa using hfl), if_pos rfl]
    · refine ⟨p, ?_, hpu⟩
      simp only []
      rw [pv_hnext, pv_hprev _ _ _ _ (by simpa using hfl), if_neg hgf, pv_hnext,
        pv_hprev _ _ _ _ hbl, if_neg hgb, hp]


theorem mtb_wf_mid (c : Config) (m : memory_state) (P : List Nat) (a f b : Nat) (r : List Nat)
    (hw : lru_wf c m (P ++ a :: f :: b :: r)) (htf : touched m f) :
    ∃ m', move_to_back m f = .ok m' ∧ lru_wf c m' (P ++ a :: b :: r ++ [f]) ∧
      m'.shellmemory = m.shellmemory ∧ m'.cur_var_size = m.cur_var_size ∧
      m'.frames_allocated = m.frames_allocated ∧ touched m' f ∧
      ∀ g, touched m g → touched m' g := by
  have hnd := hw.nodup
  have hal := hw.lt c m _ a (by simp)
  have hfl := hw.lt c m _ f (by simp)
  have hbl := hw.lt c m _ b (by simp)
  obtain ⟨t, ht⟩ : ∃ t, (b :: r).getLast? = some t := by
    cases h : (b :: r).getLast? with
    | none => simp at h
    | some t => exact ⟨t, rfl⟩
  have htmem : t ∈ b :: r := List.mem_of_getLast?_eq_some ht
  have htl := hw.lt c m _ t (by
    simp only [List.mem_append, List.mem_cons] at htmem ⊢
    tauto)
  -- distinctness
  have hnd1 := List.nodup_append.mp hnd
  have hndP := hnd1.1
  have hnd2 := hnd1.2.1
  have hdis := hnd1.2.2
  have hnd3 : (f :: b :: r).Nodup := (List.nodup_cons.mp hnd2).2
  have hnd4 : (b :: r).Nodup := (List.nodup_cons.mp hnd3).2
  have haf : a ≠ f := by
    rintro rfl; exact (List.nodup_cons.mp hnd2).1 (by simp)
  have hab : a ≠ b := by
    rintro rfl; exact (List.nodup_cons.mp hnd2).1 (by simp)
  have hat : a ≠ t := by
    rintro rfl; exact (List.nodup_cons.mp hnd2).1 (List.mem_cons_of_mem _ htmem)
  have hft : f ≠ t := by
    rintro rfl; exact (List.nodup_cons.mp hnd3).1 htmem
  have hfb : f ≠ b := by
    rintro rfl; exact (List.nodup_cons.mp hnd3).1 (by simp)
  have hPne : ∀ x ∈ P, x ≠ a ∧ x ≠ f ∧ x ≠ b ∧ x ≠ t := by
    intro x hx
    refine ⟨?_, ?_, ?_, ?_⟩ <;> rintro rfl
    · exact hdis hx (by simp)
    · exact hdis hx (by simp)
    · exact hdis hx (by simp)
    · exact hdis hx (List.mem_cons_of_mem _ (List.mem_cons_of_mem _ htmem))
  have htail : m.tail = .addr t := by
    have h1 := hw.tail_eq
    have : (P ++ a :: f :: b :: r).getLast? = some t := by
      rw [List.getLast?_append, List.getLast?_cons_cons, List.getLast?_cons_cons, ht]; rfl
    rw [this] at h1; simpa using h1.symm
  have hhead : m.head ≠ .addr f := by
    have h1 := hw.head_eq
    intro e
    rw [e] at h1
    cases P with
    | nil => simp at h1; exact haf h1
    | cons p P' =>
      simp at h1
      exact (hPne p (by simp)).2.1 h1
  have hl := hw.links
  rw [List.chain'_append] at hl
  obtain ⟨hlP, hl2, hlPa⟩ := hl
  rw [List.chain'_cons] at hl2
  obtain ⟨hlaf, hl3⟩ := hl2
  rw [List.chain'_cons] at hl3
  obtain ⟨hlfb, hl4⟩ := hl3
  have hpf : pv m.heap f = some (.addr a) := by
    obtain ⟨p, hp, hpu⟩ := htf
    rcases hlaf.2 with h | h
    · exact h
    · rw [hp] at h; injection h with h; exact absurd h hpu
  have hev := mtb_eval_mid m f a b t (hw.quick_at c m _ f (by simp)) hhead htail hft
    (Ne.symm haf) hlfb.1 hpf hfl hal hbl htl
  -- the new fields
  have hnx : ∀ x, nx (hnext (hprev (hnext (hprev (hnext m.heap a (.addr b)) b (.addr a)) f .null)
      f (.addr t)) t (.addr f)) x =
      if x = t then some (.addr f) else if x = f then some .null else
        if x = a then some (.addr b) else nx m.heap x := by
    intro x
    rw [nx_hnext _ _ _ _ (by simpa using htl), nx_hprev, nx_hnext _ _ _ _ (by simpa using hfl),
      nx_hprev, nx_hnext _ _ _ _ hal]
  have hpv : ∀ x, pv (hnext (hprev (hnext (hprev (hnext m.heap a (.addr b)) b (.addr a)) f .null)
      f (.addr t)) t (.addr f)) x =
      if x = f then some (.addr t) else if x = b then some (.addr a) else pv m.heap x := by
    intro x
    rw [pv_hnext, pv_hprev _ _ _ _ (by simpa using hfl), pv_hnext,
      pv_hprev _ _ _ _ (by simpa using hbl), pv_hnext]
  refine ⟨_, hev, ?_, rfl, rfl, rfl, ?_, ?_⟩
  · constructor
    · simp [hw.heap_len]
    · exact hw.quick
    · intro i hi; simp [hw.framenum i hi]
    · refine List.Perm.trans ?_ hw.perm
      have e1 : P ++ a :: b :: r ++ [f] = P ++ (a :: ((b :: r) ++ [f])) := by simp
      rw [e1]
      refine List.Perm.append_left P (List.Perm.cons a ?_)
      exact (List.perm_append_comm).trans (by simp)
    · have h1 := hw.head_eq
      cases P <;> simpa using h1
    · rw [List.getLast?_append]; simp
    · have e1 : P ++ a :: b :: r ++ [f] = (P ++ [a]) ++ ((b :: r) ++ [f]) := by simp
      rw [e1, List.chain'_append]
      refine ⟨?_, List.chain'_append.mpr ⟨?_, List.chain'_singleton _, ?_⟩, ?_⟩
      · have hPa : List.Chain' (linked m.heap) (P ++ [a]) := by
          rw [List.chain'_append]
          refine ⟨hlP, List.chain'_singleton _, ?_⟩
          intro x hx y hy
          simp at hy; subst hy
          exact hlPa x hx a (by simp)
        apply chain_congr m.heap _ _ hPa
        · intro x hx
          have hxP : x ∈ P := by simpa using hx
          obtain ⟨h1, h2, h3, h4⟩ := hPne x hxP
          simp only []
          rw [hnx, if_neg h4, if_neg h2, if_neg h1]
        · intro y hy
          have hyP : y ∈ P ++ [a] := List.mem_of_mem_tail hy
          have hyf : y ≠ f := by
            rcases List.mem_append.mp hyP with h | h
            · exact (hPne y h).2.1
            · simp at h; subst h; exact haf
          have hyb : y ≠ b := by
            rcases List.mem_append.mp hyP with h | h
            · exact (hPne y h).2.2.1
            · simp at h; subst h; exact hab
          simp only []
          rw [hpv, if_neg hyf, if_neg hyb]
      · apply chain_congr m.heap _ _ hl4
        · intro x hx
          have hxt := ne_last_of_mem_dropLast _ x t hnd4 ht hx
          have hxm : x ∈ b :: r := List.mem_of_mem_dropLast hx
          have hxf : x ≠ f := by
            rintro rfl; exact (List.nodup_cons.mp hnd3).1 hxm
          have hxa : x ≠ a := by
            rintro rfl
            exact (List.nodup_cons.mp hnd2).1 (List.mem_cons_of_mem _ hxm)
          simp only []
          rw [hnx, if_neg hxt, if_neg hxf, if_neg hxa]
        · intro y hy
          have hyr : y ∈ r := by simpa using hy
          have hyb : y ≠ b := by
            rintro rfl; exact (List.nodup_cons.mp hnd4).1 hyr
          have hyf : y ≠ f := by
            rintro rfl
            exact (List.nodup_cons.mp hnd3).1 (List.mem_cons_of_mem _ hyr)
          simp only []
          rw [hpv, if_neg hyf, if_neg hyb]
      · intro x hx y hy
        rw [ht] at hx
        simp at hx hy
        subst hx; subst hy
        constructor
        · simp only []; rw [hnx, if_pos rfl]
        · left; simp only []; rw [hpv, if_pos rfl]
      · intro x hx y hy
        simp at hx hy
        subst hx; subst hy
        constructor
        · simp only []; rw [hnx, if_neg hat, if_neg haf, if_pos rfl]
        · left; simp only []; rw [hpv, if_neg (Ne.symm hfb), if_pos rfl]
  · exact ⟨.addr t, by simp only []; rw [hpv, if_pos rfl], by simp⟩
  · intro g ⟨p, hp, hpu⟩
    by_cases hgf : g = f
    · subst hgf
      exact ⟨.addr t, by simp only []; rw [hpv, if_pos rfl], by simp⟩
    · by_cases hgb : g = b
      · subst hgb
        exact ⟨.addr a, by simp only []; rw [hpv, if_neg hgf, if_pos rfl], by simp⟩
      · exact ⟨p, by simp only []; rw [hpv, if_neg hgf, if_neg hgb, hp], hpu⟩


theorem mtb_last (c : Config) (m : memory_state) (P : List Nat) (f : Nat)
    (hw : lru_wf c m (P ++ [f])) : move_to_back m f = .ok m := by
  have hq := hw.quick_at c m _ f (by simp)
  have ht := hw.tail_eq
  rw [List.getLast?_append] at ht
  simp at ht
  unfold move_to_back
  rw [hq]
  simp [ht]

theorem move_to_back_wf (c : Config) (m : memory_state) (l : List Nat) (f : Nat)
    (hw : lru_wf c m l) (hf : f ∈ l)
    (hm : l.head? = some f ∨ l.getLast? = some f ∨ touched m f) :
    ∃ m', move_to_back m f = .ok m' ∧ lru_wf c m' (l.erase f ++ [f]) ∧
      m'.shellmemory = m.shellmemory ∧ m'.cur_var_size = m.cur_var_size ∧
      m'.frames_allocated = m.frames_allocated ∧
      ∀ g, hot m l g → hot m' (l.erase f ++ [f]) g := by
  obtain ⟨P, S, rfl⟩ := List.append_of_mem hf
  have hnd := hw.nodup
  have hfP : f ∉ P := by
    intro h
    exact (List.nodup_append.mp hnd).2.2 h (by simp)
  have hers : (P ++ f :: S).erase f = P ++ S := by
    rw [List.erase_append_right _ hfP, List.erase_cons_head]
  rw [hers]
  cases S with
  | nil =>
    refine ⟨m, mtb_last c m P f hw, ?_, rfl, rfl, rfl, ?_⟩
    · simpa using hw
    · intro g hg; simpa using hg
  | cons b r =>
    rcases List.eq_nil_or_concat P with rfl | ⟨P', a, rfl⟩
    · obtain ⟨m', h1, h2, h3, h4, h5, h6, h7⟩ := mtb_wf_head c m f b r hw
      refine ⟨m', h1, by simpa using h2, h3, h4, h5, ?_⟩
      intro g hg
      by_cases hgb : g = b
      · left; simp [hgb]
      · right
        rcases hg with hg | hg
        · simp at hg; subst hg; exact h6
        · exact h7 g hgb hg
    · have hw' : lru_wf c m (P' ++ a :: f :: b :: r) := by simpa using hw
      have hnd' := hw'.nodup
      have htf : touched m f := by
        rcases hm with h | h | h
        · exfalso
          cases P' with
          | nil =>
            simp at h; subst h
            simp at hnd'
          | cons p Q =>
            simp at h; subst h
            simp at hnd'
        · exfalso
          have e1 : (P'.concat a ++ f :: b :: r).getLast? = (b :: r).getLast? := by
            rw [List.getLast?_append, List.getLast?_cons_cons]
            cases hh : (b :: r).getLast? with
            | none => simp at hh
            | some x => rfl
          rw [e1] at h
          have hmem : f ∈ b :: r := List.mem_of_getLast?_eq_some h
          have := (List.nodup_append.mp hnd').2.1
          have h3 : (f :: b :: r).Nodup := (List.nodup_cons.mp this).2
          exact (List.nodup_cons.mp h3).1 hmem
        · exact h
      obtain ⟨m', h1, h2, h3, h4, h5, h6, h7⟩ := mtb_wf_mid c m P' a f b r hw' htf
      refine ⟨m', h1, by simpa using h2, h3, h4, h5, ?_⟩
      intro g hg
      rcases hg with hg | hg
      · left
        cases P' <;> simpa using hg
      · right; exact h7 g hg

theorem lru_wf.ne_nil (c : Config) (m : memory_state) (l : List Nat) (hw : lru_wf c m l) :
    ∃ h t, l = h :: t := by
  cases l with
  | nil => have := hw.head_eq; simp at this
  | cons h t => exact ⟨h, t, rfl⟩

theorem get_next_frame_wf (c : Config) (m : memory_state) (h : Nat) (t : List Nat)
    (hw : lru_wf c m (h :: t)) :
    ∃ m', get_next_frame m = .ok (h, m') ∧ lru_wf c m' (t ++ [h]) ∧
      m'.shellmemory = m.shellmemory ∧ m'.cur_var_size = m.cur_var_size ∧
      m'.frames_allocated = m.frames_allocated ∧ hot m' (t ++ [h]) h ∧
      ∀ g, hot m (h :: t) g → hot m' (t ++ [h]) g := by
  have hhead : m.head = .addr h := by simpa using hw.head_eq.symm
  have hl := hw.lt c m _ h (by simp)
  obtain ⟨n, hd, -, -, hfn⟩ := deref_eq m h hl
  have hfr := hw.framenum h (by rw [← hw.heap_len]; exact hl)
  rw [hfr] at hfn
  injection hfn with hfn
  obtain ⟨m', h1, h2, h3, h4, h5, h6⟩ :=
    move_to_back_wf c m (h :: t) h hw (by simp) (Or.inl rfl)
  rw [List.erase_cons_head] at h2 h6
  refine ⟨m', ?_, h2, h3, h4, h5, h6 h (Or.inl rfl), h6⟩
  unfold get_next_frame
  simp only [bind, Except.bind, hhead, hd, ← hfn, h1, pure, Except.pure]


theorem lru_walk_eq (m : memory_state) (t : Nat) (htl : m.tail = .addr t) :
    ∀ (S : List Nat) (x fuel : Nat), List.Chain' (linked m.heap) (x :: S) → (x :: S).Nodup →
      (x :: S).getLast? = some t → (∀ y ∈ x :: S, fnum m.heap y = some y) →
      (x :: S).length ≤ fuel → lru_walk m fuel (.addr x) = x :: S := by
  intro S
  induction S with
  | nil =>
    intro x fuel _ _ hlast hfn hlen
    simp at hlast; subst hlast
    obtain ⟨k, rfl⟩ : ∃ k, fuel = k + 1 := ⟨fuel - 1, by simp at hlen; omega⟩
    have h1 := hfn x (by simp)
    unfold fnum at h1
    cases hx : m.heap[x]? with
    | none => simp [hx] at h1
    | some nd =>
      simp [hx] at h1
      simp [lru_walk, hx, htl, h1]
  | cons y S ih =>
    intro x fuel hc hnd hlast hfn hlen
    obtain ⟨k, rfl⟩ : ∃ k, fuel = k + 1 := ⟨fuel - 1, by simp at hlen; omega⟩
    have h1 := hfn x (by simp)
    unfold fnum at h1
    rw [List.chain'_cons] at hc
    rw [List.getLast?_cons_cons] at hlast
    have hxt : x ≠ t := by
      rintro rfl
      exact (List.nodup_cons.mp hnd).1 (List.mem_of_getLast?_eq_some hlast)
    cases hx : m.heap[x]? with
    | none => simp [hx] at h1
    | some nd =>
      simp [hx] at h1
      have hnx : nd.next = .addr y := by
        have := hc.1.1
        simpa [nx, hx] using this
      have hne : ¬ (ptr.addr x = m.tail) := by
        rw [htl]; intro e; injection e with e; exact hxt e
      simp only [lru_walk, hx, hne, if_false, h1, hnx]
      rw [ih y k hc.2 (List.nodup_cons.mp hnd).2 hlast
        (fun z hz => hfn z (List.mem_cons_of_mem _ hz)) (by simp at hlen ⊢; omega)]

theorem lru_order_eq (c : Config) (m : memory_state) (l : List Nat) (hw : lru_wf c m l) :
    lru_order m = l := by
  obtain ⟨h, t, rfl⟩ := hw.ne_nil
  have hhead : m.head = .addr h := by simpa using hw.head_eq.symm
  obtain ⟨tl, htl⟩ : ∃ tl, (h :: t).getLast? = some tl := by
    cases hh : (h :: t).getLast? with
    | none => simp at hh
    | some x => exact ⟨x, rfl⟩
  have htail : m.tail = .addr tl := by
    have := hw.tail_eq
    rw [htl] at this; simpa using this.symm
  unfold lru_order
  rw [hhead]
  apply lru_walk_eq m tl htail t h _ hw.links hw.nodup htl
  · intro y hy
    have := hw.lt c m _ y hy
    exact hw.framenum y (by rw [← hw.heap_len]; exact this)
  · rw [hw.heap_len]
    have := hw.perm.length_eq
    simp at this ⊢
    omega


theorem getElem?_snoc_lt (h : List lru_ll) (n : lru_ll) (j : Nat) (hj : j < h.length) :
    (h ++ [n])[j]? = h[j]? := List.getElem?_append_left hj

theorem getElem?_snoc_eq (h : List lru_ll) (n : lru_ll) : (h ++ [n])[h.length]? = some n := by
  simp

theorem init_memory_loop_inv (c : Config) : ∀ (n i : Nat) (prev : ptr) (m : memory_state),
    init_inv c i prev m → n + i = c.NFRAMES →
    ∃ m' prev', init_memory_loop n i prev m = .ok (m', prev') ∧ init_inv c c.NFRAMES prev' m' ∧
      m'.shellmemory = m.shellmemory ∧ m'.cur_var_size = m.cur_var_size ∧
      m'.frames_allocated = m.frames_allocated := by
  intro n
  induction n with
  | zero =>
    intro i prev m hi hn
    have : i = c.NFRAMES := by omega
    subst this
    exact ⟨m, prev, rfl, hi, rfl, rfl, rfl⟩
  | succ n ih =>
    intro i prev m hi hn
    have hlt : i < m.ll_quick.length := by rw [hi.quick_len]; omega
    have hlen := hi.heap_len
    unfold init_memory_loop
    simp only [hlt, if_true]
    by_cases h0 : i = 0
    · subst h0
      simp only [if_true]
      have hnil : m.heap = [] := List.length_eq_zero.mp hlen
      obtain ⟨m', prev', h1, h2, h3, h4, h5⟩ := ih 1 (.addr m.heap.length)
        { m with heap := m.heap ++ [lru_ll.mk 0 .uninit .uninit]
                 ll_quick := m.ll_quick.set 0 (.addr m.heap.length)
                 head := .addr m.heap.length } (by
          constructor
          · simp [hlen]
          · simp [hi.quick_len]
          · intro j hj
            have : j = 0 := by omega
            subst this
            simp [hlen, hlt]
          · intro j hj
            have : j = 0 := by omega
            subst this
            simp [fnum, hnil]
          · intro j hj; omega
          · intro j hj
            have : j = 0 := by omega
            subst this
            simp [pv, hnil]
          · intro _
            simp [hlen]) (by omega)
      exact ⟨m', prev', h1, h2, h3, h4, h5⟩
    · simp only [h0, if_false]
      have hpos : 0 < i := Nat.pos_of_ne_zero h0
      obtain ⟨hhd, hprev⟩ := hi.head hpos
      have hsn : set_next { m with heap := m.heap ++ [lru_ll.mk i .uninit .uninit]
                                   ll_quick := m.ll_quick.set i (.addr m.heap.length) }
          prev (.addr m.heap.length) = .ok
          { m with heap := hnext (m.heap ++ [lru_ll.mk i .uninit .uninit]) (i - 1) (.addr m.heap.length)
                   ll_quick := m.ll_quick.set i (.addr m.heap.length) } := by
        rw [hprev]
        rw [set_next_eq _ _ _ (by simp [hlen]; omega)]
      rw [hsn]
      simp only []
      have hlen1 : (m.heap ++ [lru_ll.mk i .uninit .uninit]).length = i + 1 := by simp [hlen]
      obtain ⟨m', prev', h1, h2, h3, h4, h5⟩ := ih (i + 1) (.addr m.heap.length)
        { m with heap := hnext (m.heap ++ [lru_ll.mk i .uninit .uninit]) (i - 1) (.addr m.heap.length)
                 ll_quick := m.ll_quick.set i (.addr m.heap.length) } (by
          constructor
          · simp [hlen]
          · simp [hi.quick_len]
          · intro j hj
            simp only [List.getElem?_set]
            by_cases hji : i = j
            · subst hji; simp [hlt, hlen]
            · simp only [hji, if_false]
              exact hi.quick j (by omega)
          · intro j hj
            rw [fnum_hnext]
            by_cases hji : j = i
            · subst hji
              simp [fnum, ← hlen]
            · have : j < m.heap.length := by omega
              have h := hi.framenum j (by omega)
              unfold fnum at h ⊢
              rw [getElem?_snoc_lt _ _ _ this]; exact h
          · intro j hj
            rw [nx_hnext _ _ _ _ (by rw [hlen1]; omega)]
            by_cases hji : j = i - 1
            · subst hji
              simp only [if_true, hlen]
              congr 2; omega
            · simp only [hji, if_false]
              have hj' : j < m.heap.length := by omega
              have h := hi.next j (by omega)
              unfold nx at h ⊢
              rw [getElem?_snoc_lt _ _ _ hj']; exact h
          · intro j hj
            rw [pv_hnext]
            by_cases hji : j = i
            · subst hji
              simp [pv, ← hlen]
            · have hj' : j < m.heap.length := by omega
              have h := hi.prev_undef j (by omega)
              unfold pv at h ⊢
              rw [getElem?_snoc_lt _ _ _ hj']; exact h
          · intro _
            simp [hlen, hhd]) (by omega)
      exact ⟨m', prev', h1, h2, h3, h4, h5⟩


theorem init_memory_wf (c : Config) (hN : 0 < c.NFRAMES) :
    ∃ m, init_memory c (m_state_zero c) = .ok m ∧ lru_wf c m (List.range c.NFRAMES) ∧
      m.shellmemory = List.replicate c.SHELLMEMSIZE (memory_struct.mk none none) ∧
      m.cur_var_size = 0 ∧ m.frames_allocated = 0 ∧ ∀ f, ¬ touched m f := by
  obtain ⟨m', prev', h1, h2, h3, h4, h5⟩ := init_memory_loop_inv c c.NFRAMES 0 .uninit
    { m_state_zero c with cur_var_size := 0, frames_allocated := 0 } (by
      constructor
      · rfl
      · simp [m_state_zero]
      · intro j hj; omega
      · intro j hj; omega
      · intro j hj; omega
      · intro j hj; omega
      · intro h; omega) (by omega)
  obtain ⟨hhd, hprev⟩ := h2.head hN
  refine ⟨{ m' with tail := prev'
                    shellmemory := List.replicate c.SHELLMEMSIZE (memory_struct.mk none none) },
    ?_, ?_, rfl, ?_, ?_, ?_⟩
  · unfold init_memory
    rw [h1]
  · obtain ⟨k, hk⟩ : ∃ k, c.NFRAMES = k + 1 := ⟨c.NFRAMES - 1, by omega⟩
    constructor
    · exact h2.heap_len
    · apply List.ext_getElem?
      intro j
      by_cases hj : j < c.NFRAMES
      · simp only []
        rw [h2.quick j hj]
        simp [hj]
      · simp only []
        rw [List.getElem?_eq_none (by rw [h2.quick_len]; omega)]
        rw [List.getElem?_eq_none (by simp; omega)]
    · exact h2.framenum
    · exact List.Perm.refl _
    · rw [hk, List.range_succ_eq_map]
      simp [hhd]
    · rw [hk, List.range_succ, List.getLast?_append]
      simp [hprev, hk]
    · rw [hk, List.chain'_range_succ]
      intro j hj
      exact ⟨h2.next j (by omega), Or.inr (h2.prev_undef (j + 1) (by omega))⟩
  · simpa [m_state_zero] using h4
  · simpa [m_state_zero] using h5
  · intro f ⟨p, hp, hpu⟩
    simp only [] at hp
    by_cases hf : f < c.NFRAMES
    · rw [h2.prev_undef f hf] at hp
      injection hp with hp
      exact hpu hp.symm
    · unfold pv at hp
      rw [List.getElem?_eq_none (by rw [h2.heap_len]; omega)] at hp
      simp at hp

theorem get_next_frames_wf (c : Config) : ∀ (n : Nat) (m : memory_state) (A B : List Nat),
    lru_wf c m (A ++ B) → n ≤ A.length →
    ∃ m', get_next_frames n m = .ok (A.take n, m') ∧ lru_wf c m' (A.drop n ++ B ++ A.take n) ∧
      m'.shellmemory = m.shellmemory := by
  intro n
  induction n with
  | zero =>
    intro m A B hw _
    exact ⟨m, rfl, by simpa using hw, rfl⟩
  | succ n ih =>
    intro m A B hw hn
    cases A with
    | nil => simp at hn
    | cons a A' =>
      obtain ⟨m1, h1, h2, h3, -⟩ := get_next_frame_wf c m a (A' ++ B) hw
      obtain ⟨m2, h4, h5, h6⟩ := ih m1 A' (B ++ [a]) (by simpa using h2) (by simpa using hn)
      refine ⟨m2, ?_, ?_, ?_⟩
      · simp only [get_next_frames, h1, h4, List.take_succ_cons]
      · simpa using h5
      · rw [h6, h3]


theorem lru_reach_wf (c : Config) (hN : 0 < c.NFRAMES) (m : memory_state) (fs : List Nat)
    (hr : lru_reach c m fs) : ∃ l, lru_wf c m l ∧ ∀ f ∈ fs, f ∈ l ∧ hot m l f := by
  induction hr with
  | init m h =>
    obtain ⟨m', h1, h2, -⟩ := init_memory_wf c hN
    rw [h1] at h
    injection h with h
    subst h
    exact ⟨_, h2, by simp⟩
  | next m m1 fs f _ hg ih =>
    obtain ⟨l, hw, hfs⟩ := ih
    obtain ⟨h, t, rfl⟩ := hw.ne_nil
    obtain ⟨m', h1, h2, -, -, -, h3, h4⟩ := get_next_frame_wf c m h t hw
    rw [h1] at hg
    injection hg with hg
    injection hg with hg1 hg2
    subst hg1; subst hg2
    refine ⟨_, h2, ?_⟩
    intro g hg
    rcases List.mem_cons.mp hg with rfl | hg
    · exact ⟨by simp, h3⟩
    · obtain ⟨hm, hh⟩ := hfs g hg
      refine ⟨?_, h4 g hh⟩
      simp only [List.mem_append, List.mem_cons, List.mem_singleton] at hm ⊢
      tauto
  | touch m m1 fs f _ hf hmv ih =>
    obtain ⟨l, hw, hfs⟩ := ih
    obtain ⟨hfl, hfh⟩ := hfs f hf
    obtain ⟨m', h1, h2, -, -, -, h3⟩ := move_to_back_wf c m l f hw hfl (by
      rcases hfh with h | h
      · exact Or.inl h
      · exact Or.inr (Or.inr h))
    rw [h1] at hmv
    injection hmv with hmv
    subst hmv
    refine ⟨_, h2, ?_⟩
    intro g hg
    obtain ⟨hm, hh⟩ := hfs g hg
    refine ⟨?_, h3 g hh⟩
    by_cases hgf : g = f
    · subst hgf; simp
    · simp only [List.mem_append, List.mem_singleton]
      left
      exact (List.mem_erase_of_ne hgf).mpr hm


/-! ## Frame keys -/

theorem toDigitsCore_acc (b : Nat) : ∀ (fuel n : Nat) (ds : List Char),
    Nat.toDigitsCore b fuel n ds = Nat.toDigitsCore b fuel n [] ++ ds := by
  intro fuel
  induction fuel with
  | zero => intro n ds; simp [Nat.toDigitsCore]
  | succ fuel ih =>
    intro n ds
    simp only [Nat.toDigitsCore]
    split
    · simp
    · rw [ih _ (_ :: ds), ih _ [_]]
      simp

theorem digitChar_val (k : Nat) (hk : k < 10) :
    (Nat.digitChar k).toNat - 48 = k ∧ Nat.digitChar k ≠ '_' := by
  interval_cases k <;> decide

theorem toDigits_spec : ∀ (fuel n : Nat), n < fuel →
    undigits (Nat.toDigitsCore 10 fuel n []) = n ∧
      ∀ ch ∈ Nat.toDigitsCore 10 fuel n [], ch ≠ '_' := by
  intro fuel
  induction fuel with
  | zero => intro n h; omega
  | succ fuel ih =>
    intro n hn
    simp only [Nat.toDigitsCore]
    have hd := digitChar_val (n % 10) (Nat.mod_lt _ (by decide))
    split
    · rename_i h0
      constructor
      · simp [undigits, hd.1]; omega
      · intro ch hch; simp at hch; subst hch; exact hd.2
    · rename_i h0
      rw [toDigitsCore_acc]
      obtain ⟨h1, h2⟩ := ih (n / 10) (by omega)
      constructor
      · unfold undigits at h1 ⊢
        rw [List.foldl_append, h1]
        simp [hd.1]; omega
      · intro ch hch
        rcases List.mem_append.mp hch with h | h
        · exact h2 ch h
        · simp at h; subst h; exact hd.2

theorem toDigits_inj (a b : Nat) (h : Nat.toDigits 10 a = Nat.toDigits 10 b) : a = b := by
  have h1 := (toDigits_spec (a + 1) a (by omega)).1
  have h2 := (toDigits_spec (b + 1) b (by omega)).1
  unfold Nat.toDigits at h
  rw [h] at h1
  rw [← h1, h2]

theorem split_at_underscore : ∀ (A A' R R' : List Char), (∀ ch ∈ A, ch ≠ '_') →
    (∀ ch ∈ A', ch ≠ '_') → A ++ '_' :: R = A' ++ '_' :: R' → A = A' ∧ R = R' := by
  intro A
  induction A with
  | nil =>
    intro A' R R' _ hA' h
    cases A' with
    | nil => simpa using h
    | cons x A' =>
      simp at h
      exact absurd h.1.symm (hA' x (by simp))
  | cons x A ih =>
    intro A' R R' hA hA' h
    cases A' with
    | nil =>
      simp at h
      exact absurd h.1 (hA x (by simp))
    | cons y A' =>
      simp at h
      obtain ⟨h1, h2⟩ := ih A' R R' (fun ch hc => hA ch (by simp [hc]))
        (fun ch hc => hA' ch (by simp [hc])) h.2
      exact ⟨by rw [h.1, h1], h2⟩

theorem create_frame_key_inj (p g p' g' : Nat)
    (h : create_frame_key p g = create_frame_key p' g') : p = p' ∧ g = g' := by
  unfold create_frame_key at h
  simp only [List.append_assoc] at h
  have h1 : Nat.toDigits 10 p ++ '_' :: ("page_".toList ++ Nat.toDigits 10 g) =
      Nat.toDigits 10 p' ++ '_' :: ("page_".toList ++ Nat.toDigits 10 g') := by
    have := List.append_cancel_left h
    simpa using this
  obtain ⟨h2, h3⟩ := split_at_underscore _ _ _ _
    (toDigits_spec (p + 1) p (by omega)).2 (toDigits_spec (p' + 1) p' (by omega)).2 h1
  exact ⟨toDigits_inj _ _ h2, toDigits_inj _ _ (List.append_cancel_left h3)⟩


/-! ## The frame store: lemmas -/

@[simp] theorem sm_set_value_length (sm : List memory_struct) (i : Nat) (v : Option cstr) :
    (sm_set_value sm i v).length = sm.length := by
  unfold sm_set_value; split <;> simp

@[simp] theorem sm_set_var_length (sm : List memory_struct) (i : Nat) (v : Option cstr) :
    (sm_set_var sm i v).length = sm.length := by
  unfold sm_set_var; split <;> simp

theorem sm_value_set_value (sm : List memory_struct) (i j : Nat) (v : Option cstr)
    (hi : i < sm.length) :
    sm_value (sm_set_value sm i v) j = if j = i then v else sm_value sm j := by
  unfold sm_set_value sm_value
  rw [List.getElem?_eq_getElem hi]
  simp only [List.getElem?_set]
  by_cases h : i = j
  · subst h; simp [hi]
  · have : ¬ j = i := fun e => h e.symm
    simp [h, this]

@[simp] theorem sm_var_set_value (sm : List memory_struct) (i j : Nat) (v : Option cstr) :
    sm_var (sm_set_value sm i v) j = sm_var sm j := by
  unfold sm_set_value sm_var
  cases hh : sm[i]? with
  | none => rfl
  | some s =>
    simp only [List.getElem?_set]
    by_cases h : i = j
    · subst h
      have : i < sm.length := by
        by_contra hc
        rw [List.getElem?_eq_none (by omega)] at hh; cases hh
      simp [this, hh]
    · simp [h]

theorem sm_var_set_var (sm : List memory_struct) (i j : Nat) (v : Option cstr)
    (hi : i < sm.length) :
    sm_var (sm_set_var sm i v) j = if j = i then v else sm_var sm j := by
  unfold sm_set_var sm_var
  rw [List.getElem?_eq_getElem hi]
  simp only [List.getElem?_set]
  by_cases h : i = j
  · subst h; simp [hi]
  · have : ¬ j = i := fun e => h e.symm
    simp [h, this]

@[simp] theorem sm_value_set_var (sm : List memory_struct) (i j : Nat) (v : Option cstr) :
    sm_value (sm_set_var sm i v) j = sm_value sm j := by
  unfold sm_set_var sm_value
  cases hh : sm[i]? with
  | none => rfl
  | some s =>
    simp only [List.getElem?_set]
    by_cases h : i = j
    · subst h
      have : i < sm.length := by
        by_contra hc
        rw [List.getElem?_eq_none (by omega)] at hh; cases hh
      simp [this, hh]
    · simp [h]

theorem set_value_eq (m : memory_state) (i : Nat) (v : Option cstr)
    (hi : i < m.shellmemory.length) :
    set_value m i v = .ok { m with shellmemory := sm_set_value m.shellmemory i v } := by
  unfold set_value sm_set_value
  rw [List.getElem?_eq_getElem hi]

theorem set_var_eq (m : memory_state) (i : Nat) (v : Option cstr)
    (hi : i < m.shellmemory.length) :
    set_var m i v = .ok { m with shellmemory := sm_set_var m.shellmemory i v } := by
  unfold set_var sm_set_var
  rw [List.getElem?_eq_getElem hi]

/-- The loop of `check_eviction` clears the values of the slots it visits. -/
theorem check_eviction_loop_spec (start : Nat) : ∀ (n i : Nat) (m : memory_state) (out : cstr),
    start + i + n ≤ m.shellmemory.length →
    ∃ sm out', check_eviction_loop start n i m out = .ok ({ m with shellmemory := sm }, out') ∧
      sm.length = m.shellmemory.length ∧ (∀ j, sm_var sm j = sm_var m.shellmemory j) ∧
      ∀ j, sm_value sm j =
        if start + i ≤ j ∧ j < start + i + n then none else sm_value m.shellmemory j := by
  intro n
  induction n with
  | zero =>
    intro i m out _
    refine ⟨m.shellmemory, out, rfl, rfl, fun _ => rfl, fun j => ?_⟩
    have : ¬ (start + i ≤ j ∧ j < start + i + 0) := by omega
    simp only [this, if_false]
  | succ n ih =>
    intro i m out hlen
    have hi : start + i < m.shellmemory.length := by omega
    unfold check_eviction_loop
    rw [List.getElem?_eq_getElem hi]
    simp only []
    cases hv : (m.shellmemory[start + i]).value with
    | none =>
      obtain ⟨sm, out', h1, h2, h3, h4⟩ := ih (i + 1) m out (by omega)
      refine ⟨sm, out', h1, h2, h3, ?_⟩
      intro j
      rw [h4 j]
      by_cases hj : j = start + i
      · subst hj
        have : ¬ (start + (i + 1) ≤ start + i ∧ start + i < start + (i + 1) + n) := by omega
        simp only [this, if_false]
        simp [sm_value, List.getElem?_eq_getElem hi, hv]
      · by_cases hr : start + (i + 1) ≤ j ∧ j < start + (i + 1) + n
        · have : start + i ≤ j ∧ j < start + i + (n + 1) := by omega
          simp [hr, this]
        · have : ¬ (start + i ≤ j ∧ j < start + i + (n + 1)) := by omega
          simp [hr, this]
    | some v =>
      have e : m.shellmemory.set (start + i)
          { var := (m.shellmemory[start + i]).var, value := none } =
          sm_set_value m.shellmemory (start + i) none := by
        unfold sm_set_value
        rw [List.getElem?_eq_getElem hi]
      rw [e]
      obtain ⟨sm, out', h1, h2, h3, h4⟩ := ih (i + 1)
        { m with shellmemory := sm_set_value m.shellmemory (start + i) none } (out ++ v)
        (by simp; omega)
      refine ⟨sm, out', h1, by simpa using h2, ?_, ?_⟩
      · intro j; rw [h3 j]; simp
      · intro j
        rw [h4 j]
        simp only []
        rw [sm_value_set_value _ _ _ _ hi]
        by_cases hj : j = start + i
        · subst hj
          have h1 : ¬ (start + (i + 1) ≤ start + i ∧ start + i < start + (i + 1) + n) := by omega
          have h2 : start + i ≤ start + i ∧ start + i < start + i + (n + 1) := by omega
          simp [h1, h2]
        · by_cases hr : start + (i + 1) ≤ j ∧ j < start + (i + 1) + n
          · have : start + i ≤ j ∧ j < start + i + (n + 1) := by omega
            simp [hr, this]
          · have : ¬ (start + i ≤ j ∧ j < start + i + (n + 1)) := by omega
            simp [hr, this, hj]


theorem check_eviction_spec (c : Config) (w : world) (f : Nat) (hFS : 0 < c.FRAMESIZE)
    (hlen : get_frame_start c f + c.FRAMESIZE ≤ w.m_state.shellmemory.length) :
    ∃ sm out, check_eviction c w f =
        .ok { w with m_state := { w.m_state with shellmemory := sm }, stdout := out } ∧
      sm.length = w.m_state.shellmemory.length ∧
      sm_var sm (get_frame_start c f) = none ∧
      (∀ j, j ≠ get_frame_start c f → sm_var sm j = sm_var w.m_state.shellmemory j) ∧
      ∀ j, sm_value sm j =
        if key_at c w.m_state f ≠ none ∧ get_frame_start c f ≤ j ∧
            j < get_frame_start c f + c.FRAMESIZE then none
        else sm_value w.m_state.shellmemory j := by
  have hs : get_frame_start c f < w.m_state.shellmemory.length := by omega
  unfold check_eviction
  simp only []
  rw [List.getElem?_eq_getElem hs]
  simp only []
  have hk : key_at c w.m_state f = (w.m_state.shellmemory[get_frame_start c f]).var := by
    simp [key_at, sm_var, List.getElem?_eq_getElem hs]
  cases hv : (w.m_state.shellmemory[get_frame_start c f]).var with
  | none =>
    refine ⟨w.m_state.shellmemory, w.stdout, rfl, rfl, ?_, fun _ _ => rfl, ?_⟩
    · rw [← hv, ← hk]; rfl
    · intro j
      rw [hk, hv]; simp
  | some k =>
    simp only []
    obtain ⟨sm, out', h1, h2, h3, h4⟩ := check_eviction_loop_spec (get_frame_start c f)
      c.FRAMESIZE 0 w.m_state (w.stdout ++ "Page fault! Victim page contents:\n".toList)
      (by omega)
    rw [h1]
    simp only []
    rw [set_var_eq _ _ _ (by simpa [h2] using hs)]
    simp only []
    refine ⟨sm_set_var sm (get_frame_start c f) none, _, rfl, by simp [h2], ?_, ?_, ?_⟩
    · rw [sm_var_set_var _ _ _ _ (by rw [h2]; exact hs), if_pos rfl]
    · intro j hj
      rw [sm_var_set_var _ _ _ _ (by rw [h2]; exact hs), if_neg hj, h3]
    · intro j
      rw [sm_value_set_var, h4, hk, hv]
      simp


/-! ## The backing store: lemmas -/

theorem script_lines_from_cons : ∀ (s : List Char) (cur : cstr), s ≠ [] →
    script_lines_from s cur = (cur ++ (read_line s).1) :: script_lines_from (read_line s).2 [] := by
  intro s
  induction s with
  | nil => intro cur h; exact absurd rfl h
  | cons x rest ih =>
    intro cur _
    by_cases hx : x = '\n'
    · simp [script_lines_from, read_line, hx]
    · simp only [script_lines_from, read_line, hx, if_false]
      cases rest with
      | nil => simp [script_lines_from, read_line]
      | cons y r =>
        rw [ih (cur ++ [x]) (by simp)]
        simp

theorem getline_spec (buffer : Option cstr) (stream : List Char) (hs : stream ≠ []) :
    ∃ line, (getline buffer stream).1 = some line ∧
      script_lines stream = line :: script_lines (getline buffer stream).2 := by
  cases stream with
  | nil => exact absurd rfl hs
  | cons x r =>
    refine ⟨(read_line (x :: r)).1, rfl, ?_⟩
    unfold script_lines
    rw [script_lines_from_cons _ _ hs]
    simp [getline]

theorem script_lines_nil_iff (s : List Char) : script_lines s = [] ↔ s = [] := by
  constructor
  · intro h
    by_contra hne
    unfold script_lines at h
    rw [script_lines_from_cons _ _ hne] at h
    cases h
  · rintro rfl; rfl

theorem skip_lines_done (start : Nat) (ch : Option Char) (s : List Char) (cur : Nat)
    (h : ¬ cur < start) : skip_lines start cur ch s = (ch, s) := by
  cases s <;> simp [skip_lines, h]

theorem skip_lines_drop (start : Nat) : ∀ (s : List Char) (acc : cstr) (cur : Nat)
    (ch : Option Char), cur < start → (skip_lines start cur ch s).1 ≠ none →
    (script_lines_from s acc).drop (start - cur) =
      script_lines_from (skip_lines start cur ch s).2 [] := by
  intro s
  induction s with
  | nil => intro acc cur ch hc h; simp [skip_lines, hc] at h
  | cons x r ih =>
    intro acc cur ch hc h
    simp only [skip_lines, hc, if_true] at h ⊢
    by_cases hE : x = char_EOF
    · rw [if_pos hE] at h
      exact absurd rfl h
    · rw [if_neg hE] at h ⊢
      by_cases hx : x = '\n'
      · simp only [hx, if_true] at h ⊢
        simp only [script_lines_from, if_true]
        by_cases hd : cur + 1 < start
        · have e : start - cur = (start - (cur + 1)) + 1 := by omega
          rw [e, List.drop_succ_cons]
          exact ih [] (cur + 1) _ hd h
        · rw [skip_lines_done _ _ _ _ hd]
          have e : start - cur = 1 := by omega
          rw [e]; rfl
      · simp only [hx, if_false] at h ⊢
        simp only [script_lines_from, hx, if_false]
        exact ih (acc ++ [x]) cur _ hc h

theorem skip_lines_some (start : Nat) : ∀ (s : List Char) (acc : cstr) (cur : Nat)
    (ch : Option Char), is_text s → cur < start →
    start - cur < (script_lines_from s acc).length →
    (skip_lines start cur ch s).1 ≠ none := by
  intro s
  induction s with
  | nil =>
    intro acc cur ch _ hc h
    exfalso
    simp only [script_lines_from] at h
    split at h
    · simp at h
    · simp at h; omega
  | cons x r ih =>
    intro acc cur ch ht hc h
    have hE : x ≠ char_EOF := fun e => ht (by rw [e]; exact List.mem_cons_self _ _)
    have htr : is_text r := fun e => ht (List.mem_cons_of_mem _ e)
    simp only [skip_lines, hc, if_true]
    rw [if_neg hE]
    by_cases hx : x = '\n'
    · simp only [hx, if_true]
      simp only [script_lines_from, hx, if_true, List.length_cons] at h
      by_cases hd : cur + 1 < start
      · exact ih [] (cur + 1) _ htr hd (by omega)
      · rw [skip_lines_done _ _ _ _ hd]; simp
    · simp only [hx, if_false]
      simp only [script_lines_from, hx, if_false] at h
      exact ih (acc ++ [x]) cur _ htr hc h

/-- What `load_into_mem` finds behind the first `start` lines of a file. -/
theorem skip_lines_spec (start : Nat) (content : List Char)
    (h : (skip_lines start 0 (some 'a') content).1 ≠ none) :
    script_lines (skip_lines start 0 (some 'a') content).2 = (script_lines content).drop start := by
  by_cases h0 : 0 < start
  · have := skip_lines_drop start content [] 0 (some 'a') h0 h
    simpa [script_lines] using this.symm
  · have e : start = 0 := by omega
    subst e
    rw [skip_lines_done _ _ _ _ (by omega)]
    simp

theorem skip_lines_ok (start : Nat) (content : List Char) (ht : is_text content)
    (h : start < (script_lines content).length) :
    (skip_lines start 0 (some 'a') content).1 ≠ none := by
  by_cases h0 : 0 < start
  · exact skip_lines_some start content [] 0 _ ht h0 (by simpa [script_lines] using h)
  · rw [skip_lines_done _ _ _ _ h0]; simp


theorem mem_loc_at (base n i : Nat) (hi : i < n) :
    ((List.range n).map (fun k => base + k))[i]? = some (base + i) := by
  simp [hi]

theorem load_lines_loop_spec (base FS : Nat) : ∀ (n i : Nat) (buffer : Option cstr)
    (stream : List Char) (m : memory_state), i + n ≤ FS → base + FS ≤ m.shellmemory.length →
    n ≤ (script_lines stream).length →
    ∃ sm, load_lines_loop ((List.range FS).map (fun k => base + k)) n i buffer stream m =
        .ok { m with shellmemory := sm } ∧
      sm.length = m.shellmemory.length ∧ (∀ j, sm_var sm j = sm_var m.shellmemory j) ∧
      ∀ j, sm_value sm j =
        if base + i ≤ j ∧ j < base + i + n then (script_lines stream)[j - (base + i)]?
        else sm_value m.shellmemory j := by
  intro n
  induction n with
  | zero =>
    intro i buffer stream m _ _ _
    refine ⟨m.shellmemory, rfl, rfl, fun _ => rfl, fun j => ?_⟩
    have : ¬ (base + i ≤ j ∧ j < base + i + 0) := by omega
    simp only [this, if_false]
  | succ n ih =>
    intro i buffer stream m hi hlen hn
    have hne : stream ≠ [] := by
      intro e
      rw [(script_lines_nil_iff stream).mpr e] at hn
      simp at hn
    obtain ⟨line, hl1, hl2⟩ := getline_spec buffer stream hne
    unfold load_lines_loop
    simp only []
    rw [mem_loc_at base FS i (by omega), hl1]
    simp only []
    rw [set_value_eq _ _ _ (by omega)]
    simp only []
    obtain ⟨sm, h1, h2, h3, h4⟩ := ih (i + 1) (some line) (getline buffer stream).2
      { m with shellmemory := sm_set_value m.shellmemory (base + i) (some line) }
      (by omega) (by simpa using hlen) (by rw [hl2] at hn; simpa using hn)
    refine ⟨sm, h1, by simpa using h2, ?_, ?_⟩
    · intro j; rw [h3]; simp
    · intro j
      rw [h4]
      simp only []
      rw [sm_value_set_value _ _ _ _ (by omega), hl2]
      by_cases hj : j = base + i
      · subst hj
        have h1 : ¬ (base + (i + 1) ≤ base + i ∧ base + i < base + (i + 1) + n) := by omega
        have h2 : base + i ≤ base + i ∧ base + i < base + i + (n + 1) := by omega
        simp [h1, h2]
      · by_cases hr : base + (i + 1) ≤ j ∧ j < base + (i + 1) + n
        · have h2 : base + i ≤ j ∧ j < base + i + (n + 1) := by omega
          simp only [hr, h2, and_self, if_true]
          have e : j - (base + i) = (j - (base + (i + 1))) + 1 := by omega
          rw [e, List.getElem?_cons_succ]
        · have h2 : ¬ (base + i ≤ j ∧ j < base + i + (n + 1)) := by omega
          simp [hr, h2, hj]

theorem clear_lines_loop_spec (base FS : Nat) : ∀ (n i : Nat) (m : memory_state),
    i + n ≤ FS → base + FS ≤ m.shellmemory.length →
    ∃ sm, clear_lines_loop ((List.range FS).map (fun k => base + k)) n i m =
        .ok { m with shellmemory := sm } ∧
      sm.length = m.shellmemory.length ∧ (∀ j, sm_var sm j = sm_var m.shellmemory j) ∧
      ∀ j, sm_value sm j =
        if base + i ≤ j ∧ j < base + i + n then none else sm_value m.shellmemory j := by
  intro n
  induction n with
  | zero =>
    intro i m _ _
    refine ⟨m.shellmemory, rfl, rfl, fun _ => rfl, fun j => ?_⟩
    have : ¬ (base + i ≤ j ∧ j < base + i + 0) := by omega
    simp only [this, if_false]
  | succ n ih =>
    intro i m hi hlen
    unfold clear_lines_loop
    rw [mem_loc_at base FS i (by omega)]
    simp only []
    rw [set_value_eq _ _ _ (by omega)]
    simp only []
    obtain ⟨sm, h1, h2, h3, h4⟩ := ih (i + 1)
      { m with shellmemory := sm_set_value m.shellmemory (base + i) none }
      (by omega) (by simpa using hlen)
    refine ⟨sm, h1, by simpa using h2, ?_, ?_⟩
    · intro j; rw [h3]; simp
    · intro j
      rw [h4]
      simp only []
      rw [sm_value_set_value _ _ _ _ (by omega)]
      by_cases hj : j = base + i
      · subst hj
        have h1 : ¬ (base + (i + 1) ≤ base + i ∧ base + i < base + (i + 1) + n) := by omega
        have h2 : base + i ≤ base + i ∧ base + i < base + i + (n + 1) := by omega
        simp [h1, h2]
      · by_cases hr : base + (i + 1) ≤ j ∧ j < base + (i + 1) + n
        · have h2 : base + i ≤ j ∧ j < base + i + (n + 1) := by omega
          simp [hr, h2]
        · have h2 : ¬ (base + i ≤ j ∧ j < base + i + (n + 1)) := by omega
          simp [hr, h2, hj]


theorem load_into_mem_spec (c : Config) (w : world) (p : pcb) (start base : Nat)
    (hlen : base + c.FRAMESIZE ≤ w.m_state.shellmemory.length)
    (hfile : file_ok w p) (hstart : start ≤ p.bound) :
    ∃ sm out, load_into_mem c w p start ((List.range c.FRAMESIZE).map (fun k => base + k)) =
        .ok { w with m_state := { w.m_state with shellmemory := sm }, stdout := out } ∧
      sm.length = w.m_state.shellmemory.length ∧
      (∀ j, sm_var sm j = sm_var w.m_state.shellmemory j) ∧
      (∀ j, ¬ (base ≤ j ∧ j < base + c.FRAMESIZE) →
        sm_value sm j = sm_value w.m_state.shellmemory j) ∧
      ((∀ j, sm_value sm j = sm_value w.m_state.shellmemory j) ∨
        ∃ content, w.backing_store.lookup p.pid = some content ∧
          ∀ i, i < c.FRAMESIZE → sm_value sm (base + i) =
            if start + i < p.bound then (script_lines content)[start + i]? else none) ∧
      (∀ content, w.backing_store.lookup p.pid = some content → is_text content →
        start < p.bound → p.pc + min c.FRAMESIZE (p.bound - start) ≤ p.bound →
        ∀ i, i < c.FRAMESIZE → sm_value sm (base + i) =
            if start + i < p.bound then (script_lines content)[start + i]? else none) := by
  unfold load_into_mem
  cases hl : w.backing_store.lookup p.pid with
  | none =>
    refine ⟨w.m_state.shellmemory, _, rfl, rfl, fun _ => rfl, fun _ _ => rfl, Or.inl fun _ => rfl, ?_⟩
    intro content h; cases h
  | some content =>
    simp only []
    have hb := hfile content hl
    by_cases hsk : (skip_lines start 0 (some 'a') content).1 = none
    · simp only [hsk, if_true]
      refine ⟨w.m_state.shellmemory, _, rfl, rfl, fun _ => rfl, fun _ _ => rfl,
        Or.inl fun _ => rfl, ?_⟩
      intro content' h htx hs _
      injection h with h; subst h
      exact absurd hsk (skip_lines_ok start content htx (by omega))
    · simp only [hsk, if_false]
      -- the number of lines to read
      have hnl : (if start + c.FRAMESIZE > p.bound then (p.bound : Int) - start
          else (c.FRAMESIZE : Int)) = ((min c.FRAMESIZE (p.bound - start) : Nat) : Int) := by
        by_cases h : start + c.FRAMESIZE > p.bound
        · rw [if_pos h]
          have : min c.FRAMESIZE (p.bound - start) = p.bound - start := by omega
          rw [this]; omega
        · rw [if_neg h]
          have : min c.FRAMESIZE (p.bound - start) = c.FRAMESIZE := by omega
          rw [this]
      rw [hnl]
      by_cases hearly : (p.pc : Int) + ((min c.FRAMESIZE (p.bound - start) : Nat) : Int) > p.bound
      · simp only [hearly, if_true]
        refine ⟨w.m_state.shellmemory, _, rfl, rfl, fun _ => rfl, fun _ _ => rfl,
          Or.inl fun _ => rfl, ?_⟩
        intro content' _ _ _ h3
        exfalso; omega
      · simp only [hearly, if_false]
        have hneg : ¬ (((min c.FRAMESIZE (p.bound - start) : Nat) : Int) < 0) := by omega
        simp only [hneg, if_false, Int.toNat_ofNat]
        have hsl := skip_lines_spec start content hsk
        obtain ⟨sm1, h1, h2, h3, h4⟩ := load_lines_loop_spec base c.FRAMESIZE
          (min c.FRAMESIZE (p.bound - start)) 0 none (skip_lines start 0 (some 'a') content).2
          w.m_state (by omega) hlen (by rw [hsl, List.length_drop]; omega)
        rw [h1]
        simp only []
        obtain ⟨sm2, h5, h6, h7, h8⟩ := clear_lines_loop_spec base c.FRAMESIZE
          (c.FRAMESIZE - min c.FRAMESIZE (p.bound - start)) (min c.FRAMESIZE (p.bound - start))
          { w.m_state with shellmemory := sm1 } (by omega) (by simpa [h2] using hlen)
        rw [h5]
        simp only []
        have hval : ∀ i, i < c.FRAMESIZE → sm_value sm2 (base + i) =
            if start + i < p.bound then (script_lines content)[start + i]? else none := by
          intro i hi
          rw [h8]
          simp only []
          by_cases hin : i < min c.FRAMESIZE (p.bound - start)
          · have c1 : ¬ (base + min c.FRAMESIZE (p.bound - start) ≤ base + i ∧ base + i <
                base + min c.FRAMESIZE (p.bound - start) +
                  (c.FRAMESIZE - min c.FRAMESIZE (p.bound - start))) := by omega
            rw [if_neg c1, h4]
            have c2 : base + 0 ≤ base + i ∧
                base + i < base + 0 + min c.FRAMESIZE (p.bound - start) := by omega
            rw [if_pos c2, hsl, List.getElem?_drop]
            have c3 : start + i < p.bound := by omega
            rw [if_pos c3]
            congr 1; omega
          · have c1 : base + min c.FRAMESIZE (p.bound - start) ≤ base + i ∧ base + i <
                base + min c.FRAMESIZE (p.bound - start) +
                  (c.FRAMESIZE - min c.FRAMESIZE (p.bound - start)) := by omega
            rw [if_pos c1]
            have c3 : ¬ (start + i < p.bound) := by omega
            rw [if_neg c3]
        refine ⟨sm2, _, rfl, by simpa [h2] using h6, ?_, ?_, Or.inr ⟨content, rfl, hval⟩, ?_⟩
        · intro j; rw [h7]; simp only []; rw [h3]
        · intro j hj
          rw [h8]
          simp only []
          have c1 : ¬ (base + min c.FRAMESIZE (p.bound - start) ≤ j ∧ j <
                base + min c.FRAMESIZE (p.bound - start) +
                  (c.FRAMESIZE - min c.FRAMESIZE (p.bound - start))) := by omega
          rw [if_neg c1, h4]
          have c2 : ¬ (base + 0 ≤ j ∧ j < base + 0 + min c.FRAMESIZE (p.bound - start)) := by
            omega
          rw [if_neg c2]
        · intro content' h _ _ _
          injection h with h; subst h
          exact hval


/-! ## Loading pages and reading instructions: lemmas -/

theorem frame_in_memory (c : Config) (f : Nat) (hf : f < c.NFRAMES) :
    get_frame_start c f + c.FRAMESIZE ≤ c.SHELLMEMSIZE := by
  unfold get_frame_start Config.SHELLMEMSIZE Config.FRAMESTORESIZE
  have : (f + 1) * c.FRAMESIZE ≤ c.NFRAMES * c.FRAMESIZE := Nat.mul_le_mul_right _ hf
  rw [Nat.add_mul] at this
  omega

theorem frame_disjoint (c : Config) (f g i j : Nat) (hfg : f ≠ g) (hi : i < c.FRAMESIZE)
    (hj : j < c.FRAMESIZE) : get_frame_start c f + i ≠ get_frame_start c g + j := by
  unfold get_frame_start
  rcases Nat.lt_or_gt_of_ne hfg with h | h
  · have : (f + 1) * c.FRAMESIZE ≤ g * c.FRAMESIZE := Nat.mul_le_mul_right _ h
    rw [Nat.add_mul] at this
    omega
  · have : (g + 1) * c.FRAMESIZE ≤ f * c.FRAMESIZE := Nat.mul_le_mul_right _ h
    rw [Nat.add_mul] at this
    omega

theorem lru_wf_congr (c : Config) (m m' : memory_state) (l : List Nat) (hw : lru_wf c m l)
    (h1 : m'.heap = m.heap) (h2 : m'.ll_quick = m.ll_quick) (h3 : m'.head = m.head)
    (h4 : m'.tail = m.tail) : lru_wf c m' l := by
  constructor
  · rw [h1]; exact hw.heap_len
  · rw [h2]; exact hw.quick
  · rw [h1]; exact hw.framenum
  · exact hw.perm
  · rw [h3]; exact hw.head_eq
  · rw [h4]; exact hw.tail_eq
  · rw [h1]; exact hw.links

theorem hot_congr (m m' : memory_state) (l : List Nat) (g : Nat) (h : hot m l g)
    (h1 : m'.heap = m.heap) : hot m' l g := by
  rcases h with h | ⟨p, hp, hpu⟩
  · exact Or.inl h
  · exact Or.inr ⟨p, by rw [h1]; exact hp, hpu⟩

/-- What `load_from_backing_store` does to a well-formed memory. -/
theorem load_from_backing_store_spec (c : Config) (w : world) (p : pcb) (page h : Nat)
    (t : List Nat) (hFS : 0 < c.FRAMESIZE) (hw : mem_wf c w.m_state (h :: t))
    (hfile : file_ok w p) (hstart : page * c.FRAMESIZE ≤ p.bound) :
    ∃ (m1 : memory_state) (sm : List memory_struct) (out : cstr),
      load_from_backing_store c w p (page * c.FRAMESIZE) =
        .ok (h, { w with m_state := { m1 with shellmemory := sm, frames_allocated := 1 }
                         stdout := out }) ∧
      mem_wf c { m1 with shellmemory := sm, frames_allocated := 1 } (t ++ [h]) ∧
      m1.cur_var_size = w.m_state.cur_var_size ∧
      (∀ j, j ≠ get_frame_start c h → sm_var sm j = sm_var w.m_state.shellmemory j) ∧
      sm_var sm (get_frame_start c h) = some (create_frame_key p.pid page) ∧
      (∀ j, ¬ (get_frame_start c h ≤ j ∧ j < get_frame_start c h + c.FRAMESIZE) →
        sm_value sm j = sm_value w.m_state.shellmemory j) ∧
      ((∀ i, i < c.FRAMESIZE → sm_value sm (get_frame_start c h + i) =
          if key_at c w.m_state h ≠ none then none
          else sm_value w.m_state.shellmemory (get_frame_start c h + i)) ∨
        ∃ content, w.backing_store.lookup p.pid = some content ∧
          ∀ i, i < c.FRAMESIZE → sm_value sm (get_frame_start c h + i) =
            if page * c.FRAMESIZE + i < p.bound then
              (script_lines content)[page * c.FRAMESIZE + i]? else none) ∧
      (∀ content, w.backing_store.lookup p.pid = some content → is_text content →
        page * c.FRAMESIZE < p.bound →
        p.pc + min c.FRAMESIZE (p.bound - page * c.FRAMESIZE) ≤ p.bound →
        ∀ i, i < c.FRAMESIZE → sm_value sm (get_frame_start c h + i) =
            if page * c.FRAMESIZE + i < p.bound then
              (script_lines content)[page * c.FRAMESIZE + i]? else none) := by
  obtain ⟨m1, g1, g2, g3, g4, g5, g6, g7⟩ := get_next_frame_wf c w.m_state h t hw.lru
  have hhN : h < c.NFRAMES := by
    have := hw.lru.lt c _ _ h (by simp)
    rwa [hw.lru.heap_len] at this
  have hfit := frame_in_memory c h hhN
  have hsz1 : m1.shellmemory.length = c.SHELLMEMSIZE := by rw [g3]; exact hw.size
  obtain ⟨sm2, out2, e1, e2, e3, e4, e5⟩ := check_eviction_spec c { w with m_state := m1 } h hFS
    (by simp only []; omega)
  simp only [] at e2 e4 e5
  have hst : get_frame_start c h < sm2.length := by omega
  obtain ⟨sm3, out3, l1, l2, l3, l4, l5, l6⟩ := load_into_mem_spec c
    (world.mk (memory_state.mk m1.cur_var_size m1.frames_allocated m1.head m1.tail
        (sm_set_var sm2 (get_frame_start c h) (some (create_frame_key p.pid page)))
        m1.ll_quick m1.heap)
      w.state w.cur_pid w.backing_store w.cwd out2 w.executed)
    p (page * c.FRAMESIZE) (get_frame_start c h)
    (by simp only [sm_set_var_length]; omega) hfile hstart
  simp only [sm_set_var_length, sm_value_set_var] at l2 l3 l4 l5 l6
  have hpg : page * c.FRAMESIZE / c.FRAMESIZE = page := Nat.mul_div_cancel _ hFS
  have hkey1 : key_at c m1 h = key_at c w.m_state h := by unfold key_at; rw [g3]
  refine ⟨m1, sm3, out3, ?_, ?_, g4, ?_, ?_, ?_, ?_, ?_⟩
  · unfold load_from_backing_store
    rw [g1]
    simp only []
    rw [e1]
    simp only []
    rw [set_var_eq _ _ _ (by simpa using hst), hpg]
    simp only []
    rw [l1]
  · constructor
    · exact lru_wf_congr c m1 _ _ g2 rfl rfl rfl rfl
    · simp only []; rw [l2, e2, hsz1]
    · intro f hf hk
      by_cases hfh : f = h
      · subst hfh; exact hot_congr m1 _ _ _ g6 rfl
      · apply hot_congr m1 _ _ _ _ rfl
        apply g7
        apply hw.keyed_hot f hf
        have hne : get_frame_start c f ≠ get_frame_start c h := by
          have := frame_disjoint c f h 0 0 hfh hFS hFS
          simpa using this
        simp only [key_at] at hk ⊢
        rw [l3, sm_var_set_var _ _ _ _ hst, if_neg hne, e4 _ hne, g3] at hk
        exact hk
  · intro j hj
    rw [l3, sm_var_set_var _ _ _ _ hst, if_neg hj, e4 _ hj, g3]
  · rw [l3, sm_var_set_var _ _ _ _ hst, if_pos rfl]
  · intro j hj
    rw [l4 j hj, e5]
    have : ¬ (key_at c m1 h ≠ none ∧ get_frame_start c h ≤ j ∧
        j < get_frame_start c h + c.FRAMESIZE) := fun hh => hj hh.2
    rw [if_neg this, g3]
  · rcases l5 with l5 | ⟨content, hc, l5⟩
    · left
      intro i hi
      rw [l5, e5, hkey1, g3]
      by_cases hk : key_at c w.m_state h ≠ none
      · have : key_at c w.m_state h ≠ none ∧ get_frame_start c h ≤ get_frame_start c h + i ∧
            get_frame_start c h + i < get_frame_start c h + c.FRAMESIZE := ⟨hk, by omega, by omega⟩
        rw [if_pos this, if_pos hk]
      · have : ¬ (key_at c w.m_state h ≠ none ∧ get_frame_start c h ≤ get_frame_start c h + i ∧
            get_frame_start c h + i < get_frame_start c h + c.FRAMESIZE) := fun hh => hk hh.1
        rw [if_neg this, if_neg hk]
    · right
      exact ⟨content, hc, l5⟩
  · exact l6


theorem page_start_lt (c : Config) (bound page : Nat) (hFS : 0 < c.FRAMESIZE)
    (h : page < n_pages c bound) : page * c.FRAMESIZE < bound := by
  unfold n_pages at h
  have h1 : page + 1 ≤ (bound + c.FRAMESIZE - 1) / c.FRAMESIZE := h
  rw [Nat.le_div_iff_mul_le hFS, Nat.add_mul] at h1
  omega

theorem page_of_pc_lt (c : Config) (bound pc : Nat) (hFS : 0 < c.FRAMESIZE) (h : pc < bound) :
    pc / c.FRAMESIZE < n_pages c bound := by
  unfold n_pages
  have h1 : pc / c.FRAMESIZE + 1 ≤ (bound + c.FRAMESIZE - 1) / c.FRAMESIZE := by
    rw [Nat.le_div_iff_mul_le hFS, Nat.add_mul]
    have := Nat.div_mul_le_self pc c.FRAMESIZE
    omega
  exact h1

/-- What `load_page` does to a well-formed memory. -/
theorem load_page_spec (c : Config) (w : world) (p : pcb) (page h : Nat)
    (t : List Nat) (hFS : 0 < c.FRAMESIZE) (hw : mem_wf c w.m_state (h :: t))
    (hfile : file_ok w p) (hstart : page * c.FRAMESIZE ≤ p.bound)
    (hpage : page < p.pagetable.length) :
    ∃ (m1 : memory_state) (sm : List memory_struct) (out : cstr),
      load_page c w p page =
        .ok ({ p with pagetable := p.pagetable.set page (some h) },
             { w with m_state := { m1 with shellmemory := sm, frames_allocated := 1 }
                      stdout := out }) ∧
      mem_wf c { m1 with shellmemory := sm, frames_allocated := 1 } (t ++ [h]) ∧
      m1.cur_var_size = w.m_state.cur_var_size ∧
      (∀ j, j ≠ get_frame_start c h → sm_var sm j = sm_var w.m_state.shellmemory j) ∧
      sm_var sm (get_frame_start c h) = some (create_frame_key p.pid page) ∧
      (∀ j, ¬ (get_frame_start c h ≤ j ∧ j < get_frame_start c h + c.FRAMESIZE) →
        sm_value sm j = sm_value w.m_state.shellmemory j) ∧
      ((∀ i, i < c.FRAMESIZE → sm_value sm (get_frame_start c h + i) =
          if key_at c w.m_state h ≠ none then none
          else sm_value w.m_state.shellmemory (get_frame_start c h + i)) ∨
        ∃ content, w.backing_store.lookup p.pid = some content ∧
          ∀ i, i < c.FRAMESIZE → sm_value sm (get_frame_start c h + i) =
            if page * c.FRAMESIZE + i < p.bound then
              (script_lines content)[page * c.FRAMESIZE + i]? else none) ∧
      (∀ content, w.backing_store.lookup p.pid = some content → is_text content →
        page * c.FRAMESIZE < p.bound →
        p.pc + min c.FRAMESIZE (p.bound - page * c.FRAMESIZE) ≤ p.bound →
        ∀ i, i < c.FRAMESIZE → sm_value sm (get_frame_start c h + i) =
            if page * c.FRAMESIZE + i < p.bound then
              (script_lines content)[page * c.FRAMESIZE + i]? else none) := by
  obtain ⟨m1, sm, out, h1, h2⟩ := load_from_backing_store_spec c w p page h t hFS hw hfile hstart
  refine ⟨m1, sm, out, ?_, h2⟩
  unfold load_page
  rw [h1]
  simp only [hpage, if_true]


theorem sm_var_replicate (n j : Nat) :
    sm_var (List.replicate n (memory_struct.mk none none)) j = none := by
  unfold sm_var
  by_cases h : j < n
  · simp [List.getElem?_replicate, h]
  · simp [List.getElem?_replicate, h]

theorem init_shell_wf (c : Config) (files : List (cstr × cstr)) (hN : 0 < c.NFRAMES) :
    ∃ w, init_shell c files = .ok w ∧ mem_wf c w.m_state (List.range c.NFRAMES) ∧
      w.m_state.shellmemory = List.replicate c.SHELLMEMSIZE (memory_struct.mk none none) ∧
      w.backing_store = [] ∧ w.cwd = files ∧ w.cur_pid = 0 ∧ w.stdout = [] ∧ w.executed = [] ∧
      w.state = { np := 0, queue := [], tail := none, cur := none, cur_priority := 0,
                  mode := .NONE, fresh := 0 } ∧
      w.m_state.frames_allocated = 0 := by
  obtain ⟨m, h1, h2, h3, h4, h5, h6⟩ := init_memory_wf c hN
  refine ⟨init_scheduler { world_zero c files with m_state := m, backing_store := [] },
    ?_, ?_, ?_, rfl, rfl, rfl, rfl, rfl, rfl, ?_⟩
  · unfold init_shell
    have : (world_zero c files).m_state = m_state_zero c := rfl
    rw [this, h1]
  · simp only [init_scheduler]
    constructor
    · exact h2
    · rw [h3]; simp
    · intro f _ hk
      exfalso; apply hk
      unfold key_at
      rw [h3]; exact sm_var_replicate _ _
  · simp only [init_scheduler]; exact h3
  · simp only [init_scheduler]; exact h5

theorem demo_world_wf : mem_wf demo_config demo_world.m_state [0, 1, 2] := by
  obtain ⟨w, h1, h2, -⟩ := init_shell_wf demo_config demo_files (by decide)
  have e : demo_world = w := by
    unfold demo_world
    rw [h1]; rfl
  rw [e]
  exact h2


theorem mem_wf_move_to_back (c : Config) (m : memory_state) (l : List Nat) (f : Nat)
    (hw : mem_wf c m l) (hf : f < c.NFRAMES) (hk : key_at c m f ≠ none) :
    ∃ m1, move_to_back m f = .ok m1 ∧ mem_wf c m1 (l.erase f ++ [f]) ∧
      m1.shellmemory = m.shellmemory ∧ m1.cur_var_size = m.cur_var_size ∧
      m1.frames_allocated = m.frames_allocated := by
  have hfl : f ∈ l := by
    apply hw.lru.perm.mem_iff.mpr
    simpa using hf
  have hh := hw.keyed_hot f hf hk
  obtain ⟨m1, h1, h2, h3, h4, h5, h6⟩ := move_to_back_wf c m l f hw.lru hfl (by
    rcases hh with h | h
    · exact Or.inl h
    · exact Or.inr (Or.inr h))
  refine ⟨m1, h1, ⟨h2, by rw [h3]; exact hw.size, ?_⟩, h3, h4, h5⟩
  intro g hg hkg
  apply h6
  apply hw.keyed_hot g hg
  unfold key_at at hkg ⊢
  rwa [h3] at hkg

theorem key_at_eq (c : Config) (m : memory_state) (l : List Nat) (f : Nat)
    (hw : mem_wf c m l) (hFS : 0 < c.FRAMESIZE) (hf : f < c.NFRAMES) :
    ∃ s, m.shellmemory[get_frame_start c f]? = some s ∧ key_at c m f = s.var := by
  have := frame_in_memory c f hf
  have hlt : get_frame_start c f < m.shellmemory.length := by rw [hw.size]; omega
  exact ⟨_, List.getElem?_eq_getElem hlt, by simp [key_at, sm_var, List.getElem?_eq_getElem hlt]⟩

/-- The case of `read_instruction` in which the page is found in its frame. -/
theorem read_instruction_hit (c : Config) (w : world) (p : pcb) (l : List Nat) (f : Nat)
    (hFS : 0 < c.FRAMESIZE) (hw : mem_wf c w.m_state l) (hf : f < c.NFRAMES)
    (hpt : p.pagetable[p.pc / c.FRAMESIZE]? = some (some f))
    (hkey : key_at c w.m_state f = some (create_frame_key p.pid (p.pc / c.FRAMESIZE))) :
    ∃ m1, move_to_back w.m_state f = .ok m1 ∧ mem_wf c m1 (l.erase f ++ [f]) ∧
      m1.shellmemory = w.m_state.shellmemory ∧ m1.cur_var_size = w.m_state.cur_var_size ∧
      m1.frames_allocated = w.m_state.frames_allocated ∧
      read_instruction c w p =
        match slot_value c w.m_state f (p.pc % c.FRAMESIZE) with
        | some line => .ok (some line, p, { w with m_state := m1 })
        | none => .error .undefined := by
  obtain ⟨m1, h1, h2, h3, h4, h5⟩ := mem_wf_move_to_back c w.m_state l f hw hf
    (by rw [hkey]; simp)
  refine ⟨m1, h1, h2, h3, h4, h5, ?_⟩
  obtain ⟨s, hs, hks⟩ := key_at_eq c w.m_state l f hw hFS hf
  unfold read_instruction
  simp only [hpt, hs]
  rw [hkey] at hks
  have hcond : ¬ (s.var = none ∨ s.var ≠ some (create_frame_key p.pid (p.pc / c.FRAMESIZE))) := by
    rw [← hks]; simp
  rw [if_neg hcond, h1]
  simp only [h3]
  have hoff : p.pc % c.FRAMESIZE < c.FRAMESIZE := Nat.mod_lt _ hFS
  have := frame_in_memory c f hf
  have hlt : get_frame_start c f + p.pc % c.FRAMESIZE < w.m_state.shellmemory.length := by
    rw [hw.size]; omega
  unfold slot_value sm_value
  rw [List.getElem?_eq_getElem hlt]
  simp only [Option.some_bind]
  rcases hx : w.m_state.shellmemory[get_frame_start c f + p.pc % c.FRAMESIZE] with ⟨vr, vl⟩
  cases vl <;> rfl

/-- The case of `read_instruction` in which the page has to be loaded. -/
theorem read_instruction_fault (c : Config) (w : world) (p : pcb) (l : List Nat)
    (hFS : 0 < c.FRAMESIZE) (hw : mem_wf c w.m_state l)
    (hfr : ∀ (k f : Nat), p.pagetable[k]? = some (some f) → f < c.NFRAMES)
    (hcond : p.pagetable[p.pc / c.FRAMESIZE]? = some none ∨
      ∃ f, p.pagetable[p.pc / c.FRAMESIZE]? = some (some f) ∧
        key_at c w.m_state f ≠ some (create_frame_key p.pid (p.pc / c.FRAMESIZE))) :
    read_instruction c w p =
      match load_page c w p (p.pc / c.FRAMESIZE) with
      | .error e => .error e
      | .ok (p1, w1) => .ok (none, p1, w1) := by
  rcases hcond with h | ⟨f, h, hk⟩
  · unfold read_instruction
    simp only [h]
  · obtain ⟨s, hs, hks⟩ := key_at_eq c w.m_state l f hw hFS (hfr _ _ h)
    unfold read_instruction
    simp only [h, hs]
    have hc : s.var = none ∨ s.var ≠ some (create_frame_key p.pid (p.pc / c.FRAMESIZE)) := by
      right; rw [← hks]; exact hk
    rw [if_pos hc]


theorem demo_loaded_wf : mem_wf demo_config demo_loaded.m_state [0, 1, 2] := demo_world_wf

theorem demo_file_ok : file_ok demo_loaded demo_pcb := by
  intro content h
  have e : content = "a1\na2\na3\na4\n".toList := by
    simp [demo_loaded, demo_pcb, List.lookup] at h
    exact h.symm
  subst e
  decide

theorem demo_pcb_ok : pcb_ok demo_config demo_pcb := by
  constructor
  · decide
  · decide
  · intro k f h
    match k with
    | 0 => simp [demo_pcb] at h
    | 1 => simp [demo_pcb] at h
    | k + 2 => simp [demo_pcb] at h


/-! ## The scheduler: lemmas -/

theorem link_after_last (newNode : ll) : ∀ (q : List ll) (last : ll),
    (q.map ll.id).Nodup → q.getLast? = some last →
    link_after last.id newNode q = some (q ++ [newNode]) := by
  intro q
  induction q with
  | nil => intro last _ h; simp at h
  | cons x r ih =>
    intro last hnd hl
    cases r with
    | nil =>
      simp at hl; subst hl
      simp [link_after]
    | cons y r' =>
      rw [List.getLast?_cons_cons] at hl
      have hmem : last ∈ y :: r' := List.mem_of_getLast?_eq_some hl
      have hne : x.id ≠ last.id := by
        intro e
        simp only [List.map_cons, List.nodup_cons] at hnd
        apply hnd.1
        rw [e]
        exact List.mem_map_of_mem ll.id hmem
      rw [link_after, if_neg hne,
        ih last (by simp only [List.map_cons, List.nodup_cons] at hnd ⊢; exact hnd.2) hl]
      rfl

theorem insert_walk_eq (newNode : ll) : ∀ (rest : List ll) (cur : ll),
    (insert_walk newNode cur rest).1 =
      cur :: (rest.takeWhile (fun n => decide (n.priority ≤ newNode.priority)) ++
        newNode :: rest.dropWhile (fun n => decide (n.priority ≤ newNode.priority))) := by
  intro rest
  induction rest with
  | nil => intro cur; simp [insert_walk]
  | cons nx r ih =>
    intro cur
    by_cases h : nx.priority ≤ newNode.priority
    · simp [insert_walk, h, ih nx, List.takeWhile, List.dropWhile]
    · simp [insert_walk, h, List.takeWhile, List.dropWhile]

theorem add_with_priority_eq (w : world) (data : pcb) (priority : Int) :
    ∃ tl, add_with_priority w data priority =
      { w with state := { w.state with
          queue := ordered_insert { p := data, priority := priority, id := w.state.fresh }
            w.state.queue
          tail := tl
          fresh := w.state.fresh + 1 } } ∧ (w.state.tail = none → tl = none) := by
  unfold add_with_priority ordered_insert
  cases hq : w.state.queue with
  | nil => exact ⟨w.state.tail, by simp [hq], fun h => h⟩
  | cons h rest =>
    simp only []
    by_cases hp : priority < h.priority
    · have : ¬ (h.priority ≤ priority) := by omega
      exact ⟨w.state.tail, by simp [hq, hp, this, List.takeWhile, List.dropWhile], fun h => h⟩
    · have hle : h.priority ≤ priority := by omega
      simp only [hq, hp, if_false]
      refine ⟨if some (insert_walk { p := data, priority := priority, id := w.state.fresh }
          h rest).2 = w.state.tail then some w.state.fresh else w.state.tail, ?_, ?_⟩
      · rw [insert_walk_eq]
        simp only [List.takeWhile, List.dropWhile, hle, decide_True, List.cons_append]
      · intro ht
        simp [ht]

theorem add_back_fifo (w : world) (d : pcb) (hq : fifo_wf w.state) :
    ∃ w', add_back w (some d) = .ok w' ∧
      w' = { w with state := { w.state with
        queue := w.state.queue ++ [{ p := d, priority := -1, id := w.state.fresh }]
        tail := some w.state.fresh
        fresh := w.state.fresh + 1 } } ∧ fifo_wf w'.state := by
  have hwf : fifo_wf { w.state with
        queue := w.state.queue ++ [{ p := d, priority := -1, id := w.state.fresh }]
        tail := some w.state.fresh
        fresh := w.state.fresh + 1 } := by
    constructor
    · simp only [List.map_append, List.map_cons, List.map_nil]
      rw [List.nodup_append]
      refine ⟨hq.nodup, by simp, ?_⟩
      intro a ha hb
      simp at hb
      subst hb
      obtain ⟨n, hn, hid⟩ := List.mem_map.mp ha
      have := hq.fresh n hn
      omega
    · intro n hn
      simp only [List.mem_append, List.mem_singleton] at hn
      rcases hn with hn | hn
      · have := hq.fresh n hn
        simp only []; omega
      · subst hn; simp
    · simp
  cases hqq : w.state.queue with
  | nil =>
    have ht : w.state.tail = none := by rw [hq.tail_eq, hqq]; rfl
    refine ⟨_, ?_, rfl, by simpa [hqq] using hwf⟩
    unfold add_back
    simp [hqq, ht]
  | cons x r =>
    obtain ⟨last, hl⟩ : ∃ last, (x :: r).getLast? = some last := by
      cases h : (x :: r).getLast? with
      | none => simp at h
      | some y => exact ⟨y, rfl⟩
    have ht : w.state.tail = some last.id := by rw [hq.tail_eq, hqq, hl]; rfl
    refine ⟨_, ?_, rfl, by simpa [hqq] using hwf⟩
    unfold add_back
    have hnd := hq.nodup
    rw [hqq] at hnd
    simp [hqq, ht, link_after_last _ (x :: r) last hnd hl]


/-! ## What the memory operations leave alone -/

theorem set_next_sm (m m' : memory_state) (p v : ptr) (h : set_next m p v = .ok m') :
    m'.shellmemory = m.shellmemory ∧ m'.tail = m.tail ∧ m'.head = m.head := by
  unfold set_next at h
  split at h
  · split at h
    · injection h with h; subst h; exact ⟨rfl, rfl, rfl⟩
    · cases h
  · cases h

theorem set_prev_sm (m m' : memory_state) (p v : ptr) (h : set_prev m p v = .ok m') :
    m'.shellmemory = m.shellmemory ∧ m'.tail = m.tail ∧ m'.head = m.head := by
  unfold set_prev at h
  split at h
  · split at h
    · injection h with h; subst h; exact ⟨rfl, rfl, rfl⟩
    · cases h
  · cases h

theorem bind_ok {α β : Type} (x : Except halt α) (f : α → Except halt β) (b : β)
    (h : Except.bind x f = .ok b) : ∃ a, x = .ok a ∧ f a = .ok b := by
  cases x with
  | error e => cases h
  | ok a => exact ⟨a, rfl, h⟩

theorem move_to_back_tail (m : memory_state) (frame : ptr) (m1 m' : memory_state)
    (h : (Except.bind (deref m1 frame) fun fr1 =>
      Except.bind (set_prev m1 fr1.next fr1.prev) fun m2 =>
      Except.bind (set_next m2 frame .null) fun m3 =>
      Except.bind (set_prev m3 frame m3.tail) fun m4 =>
      Except.bind (set_next m4 m4.tail frame) fun m5 =>
      Except.ok { m5 with tail := frame }) = Except.ok m')
    (e1 : m1.shellmemory = m.shellmemory) : m'.shellmemory = m.shellmemory := by
  obtain ⟨fr1, _, h⟩ := bind_ok _ _ _ h
  obtain ⟨m2, h2, h⟩ := bind_ok _ _ _ h
  obtain ⟨m3, h3, h⟩ := bind_ok _ _ _ h
  obtain ⟨m4, h4, h⟩ := bind_ok _ _ _ h
  obtain ⟨m5, h5, h⟩ := bind_ok _ _ _ h
  injection h with h
  subst h
  simp only []
  rw [(set_next_sm _ _ _ _ h5).1, (set_prev_sm _ _ _ _ h4).1,
    (set_next_sm _ _ _ _ h3).1, (set_prev_sm _ _ _ _ h2).1, e1]

theorem move_to_back_sm (m m' : memory_state) (f : Nat) (h : move_to_back m f = .ok m') :
    m'.shellmemory = m.shellmemory := by
  unfold move_to_back at h
  split at h
  · cases h
  · rename_i frame _
    split at h
    · injection h with h; subst h; rfl
    · simp only [bind, pure, Except.pure] at h
      obtain ⟨fr, _, h⟩ := bind_ok _ _ _ h
      by_cases hh : m.head = frame
      · simp only [hh, if_true] at h
        exact move_to_back_tail m frame _ m' h rfl
      · simp only [hh, if_false] at h
        obtain ⟨m1, hs, h⟩ := bind_ok _ _ _ h
        exact move_to_back_tail m frame m1 m' h (set_next_sm _ _ _ _ hs).1

theorem get_next_frame_sm (m m' : memory_state) (f : Nat) (h : get_next_frame m = .ok (f, m')) :
    m'.shellmemory = m.shellmemory := by
  unfold get_next_frame at h
  simp only [bind, pure, Except.pure] at h
  obtain ⟨fr, _, h⟩ := bind_ok _ _ _ h
  obtain ⟨m1, h1, h⟩ := bind_ok _ _ _ h
  injection h with h
  injection h with _ h
  subst h
  exact move_to_back_sm _ _ _ h1

theorem set_value_len (m m' : memory_state) (i : Nat) (v : Option cstr)
    (h : set_value m i v = .ok m') : m'.shellmemory.length = m.shellmemory.length := by
  unfold set_value at h
  split at h
  · injection h with h; subst h; simp
  · cases h

theorem set_var_len (m m' : memory_state) (i : Nat) (v : Option cstr)
    (h : set_var m i v = .ok m') : m'.shellmemory.length = m.shellmemory.length := by
  unfold set_var at h
  split at h
  · injection h with h; subst h; simp
  · cases h

theorem check_eviction_loop_len (start : Nat) : ∀ (n i : Nat) (m m' : memory_state)
    (out out' : cstr), check_eviction_loop start n i m out = .ok (m', out') →
    m'.shellmemory.length = m.shellmemory.length := by
  intro n
  induction n with
  | zero =>
    intro i m m' out out' h
    simp only [check_eviction_loop] at h
    injection h with h; injection h with h _; subst h; rfl
  | succ n ih =>
    intro i m m' out out' h
    unfold check_eviction_loop at h
    split at h
    · cases h
    · split at h
      · have := ih _ _ _ _ _ h
        simpa using this
      · exact ih _ _ _ _ _ h

theorem check_eviction_core (c : Config) (w w' : world) (f : Nat)
    (h : check_eviction c w f = .ok w') : same_core w w' := by
  unfold check_eviction at h
  simp only [] at h
  split at h
  · cases h
  · split at h
    · injection h with h; subst h; exact ⟨rfl, rfl, rfl, rfl, rfl, rfl⟩
    · split at h
      · cases h
      · rename_i m1 out1 hl
        split at h
        · cases h
        · rename_i m2 hs
          injection h with h; subst h
          refine ⟨rfl, rfl, rfl, rfl, rfl, ?_⟩
          simp only []
          rw [set_var_len _ _ _ _ hs, check_eviction_loop_len _ _ _ _ _ _ _ hl]

theorem load_lines_loop_len (mem_loc : List Nat) : ∀ (n i : Nat) (buffer : Option cstr)
    (stream : List Char) (m m' : memory_state),
    load_lines_loop mem_loc n i buffer stream m = .ok m' →
    m'.shellmemory.length = m.shellmemory.length := by
  intro n
  induction n with
  | zero =>
    intro i buffer stream m m' h
    simp only [load_lines_loop] at h
    injection h with h; subst h; rfl
  | succ n ih =>
    intro i buffer stream m m' h
    unfold load_lines_loop at h
    simp only [] at h
    split at h
    · split at h
      · rename_i m1 hs
        rw [ih _ _ _ _ _ h, set_value_len _ _ _ _ hs]
      · cases h
    · cases h

theorem clear_lines_loop_len (mem_loc : List Nat) : ∀ (n i : Nat) (m m' : memory_state),
    clear_lines_loop mem_loc n i m = .ok m' →
    m'.shellmemory.length = m.shellmemory.length := by
  intro n
  induction n with
  | zero =>
    intro i m m' h
    simp only [clear_lines_loop] at h
    injection h with h; subst h; rfl
  | succ n ih =>
    intro i m m' h
    unfold clear_lines_loop at h
    split at h
    · split at h
      · rename_i m1 hs
        rw [ih _ _ _ h, set_value_len _ _ _ _ hs]
      · cases h
    · cases h

theorem load_into_mem_core (c : Config) (w w' : world) (p : pcb) (start : Nat)
    (mem_loc : List Nat) (h : load_into_mem c w p start mem_loc = .ok w') : same_core w w' := by
  unfold load_into_mem at h
  split at h
  · injection h with h; subst h; exact ⟨rfl, rfl, rfl, rfl, rfl, rfl⟩
  · rename_i content _
    simp only [] at h
    generalize (if start + c.FRAMESIZE > p.bound then (p.bound : Int) - start
      else (c.FRAMESIZE : Int)) = nl at h
    by_cases h1 : (skip_lines start 0 (some 'a') content).1 = none
    · rw [if_pos h1] at h
      injection h with h; subst h; exact ⟨rfl, rfl, rfl, rfl, rfl, rfl⟩
    · rw [if_neg h1] at h
      split at h
      · injection h with h; subst h; exact ⟨rfl, rfl, rfl, rfl, rfl, rfl⟩
      · split at h
        · cases h
        · split at h
          · cases h
          · rename_i m1 h1
            split at h
            · cases h
            · rename_i m2 h2
              injection h with h; subst h
              refine ⟨rfl, rfl, rfl, rfl, rfl, ?_⟩
              simp only []
              rw [clear_lines_loop_len _ _ _ _ _ h2, load_lines_loop_len _ _ _ _ _ _ _ h1]


theorem same_core.trans {w1 w2 w3 : world} (h1 : same_core w1 w2) (h2 : same_core w2 w3) :
    same_core w1 w3 := by
  refine ⟨h2.1.trans h1.1, h2.2.1.trans h1.2.1, h2.2.2.1.trans h1.2.2.1,
    h2.2.2.2.1.trans h1.2.2.2.1, h2.2.2.2.2.1.trans h1.2.2.2.2.1,
    h2.2.2.2.2.2.trans h1.2.2.2.2.2⟩

theorem load_from_backing_store_core (c : Config) (w w' : world) (p : pcb) (start_line f : Nat)
    (h : load_from_backing_store c w p start_line = .ok (f, w')) : same_core w w' := by
  unfold load_from_backing_store at h
  split at h
  · cases h
  · rename_i framenum m1 hg
    split at h
    · cases h
    · rename_i w2 hc
      simp only [] at h
      split at h
      · cases h
      · rename_i m3 hs
        split at h
        · cases h
        · rename_i w4 hl
          injection h with h
          injection h with _ h
          subst h
          have c1 := check_eviction_core c _ _ _ hc
          have c2 := load_into_mem_core c _ _ _ _ _ hl
          obtain ⟨a1, a2, a3, a4, a5, a6⟩ := c1
          obtain ⟨b1, b2, b3, b4, b5, b6⟩ := c2
          simp only [] at a1 a2 a3 a4 a5 a6 b1 b2 b3 b4 b5 b6
          refine ⟨b1.trans a1, b2.trans a2, b3.trans a3, b4.trans a4, b5.trans a5, ?_⟩
          simp only []
          rw [b6, set_var_len _ _ _ _ hs, a6, get_next_frame_sm _ _ _ hg]

theorem load_page_core (c : Config) (w w' : world) (p p' : pcb) (page : Nat)
    (h : load_page c w p page = .ok (p', w')) :
    same_core w w' ∧ p'.pid = p.pid ∧ p'.bound = p.bound ∧ p'.pc = p.pc ∧
      p'.pagetable.length = p.pagetable.length := by
  unfold load_page at h
  split at h
  · cases h
  · rename_i framenum w1 hl
    split at h
    · injection h with h
      injection h with h1 h2
      subst h1; subst h2
      exact ⟨load_from_backing_store_core c _ _ _ _ _ hl, rfl, rfl, rfl, by simp⟩
    · cases h

theorem read_instruction_core (c : Config) (w w' : world) (p p' : pcb) (r : Option cstr)
    (h : read_instruction c w p = .ok (r, p', w')) :
    same_core w w' ∧ p'.pid = p.pid ∧ p'.bound = p.bound ∧ p'.pc = p.pc ∧
      p'.pagetable.length = p.pagetable.length ∧
      (r ≠ none → p' = p ∧ w'.stdout = w.stdout ∧
        w'.m_state.shellmemory = w.m_state.shellmemory) := by
  unfold read_instruction at h
  simp only [] at h
  split at h
  · cases h
  · split at h
    · cases h
    · rename_i p1 w1 hl
      injection h with h
      injection h with h0 h
      injection h with h1 h2
      subst h0; subst h1; subst h2
      obtain ⟨a, b, c', d, e⟩ := load_page_core c _ _ _ _ _ hl
      exact ⟨a, b, c', d, e, fun hn => absurd rfl hn⟩
  · split at h
    · cases h
    · split at h
      · split at h
        · cases h
        · rename_i p1 w1 hl
          injection h with h
          injection h with h0 h
          injection h with h1 h2
          subst h0; subst h1; subst h2
          obtain ⟨a, b, c', d, e⟩ := load_page_core c _ _ _ _ _ hl
          exact ⟨a, b, c', d, e, fun hn => absurd rfl hn⟩
      · split at h
        · cases h
        · rename_i m1 hm
          split at h
          · injection h with h
            injection h with h0 h
            injection h with h1 h2
            subst h0; subst h1; subst h2
            have := move_to_back_sm _ _ _ hm
            exact ⟨⟨rfl, rfl, rfl, rfl, rfl, by simp only []; rw [this]⟩, rfl, rfl, rfl, rfl,
              fun _ => ⟨rfl, rfl, this⟩⟩
          · cases h


theorem mem_reset_frames_loop_spec : ∀ (n i : Nat) (m : memory_state),
    i + n ≤ m.shellmemory.length →
    ∃ sm, mem_reset_frames_loop n i m = .ok { m with shellmemory := sm } ∧
      sm.length = m.shellmemory.length ∧
      ∀ j, sm[j]? = if i ≤ j ∧ j < i + n then some (memory_struct.mk none none)
        else m.shellmemory[j]? := by
  intro n
  induction n with
  | zero =>
    intro i m _
    refine ⟨m.shellmemory, rfl, rfl, fun j => ?_⟩
    have : ¬ (i ≤ j ∧ j < i + 0) := by omega
    rw [if_neg this]
  | succ n ih =>
    intro i m hlen
    have hi : i < m.shellmemory.length := by omega
    unfold mem_reset_frames_loop
    rw [if_pos hi]
    obtain ⟨sm, h1, h2, h3⟩ := ih (i + 1)
      { m with shellmemory := m.shellmemory.set i (memory_struct.mk none none) }
      (by simp; omega)
    refine ⟨sm, h1, by simpa using h2, ?_⟩
    intro j
    rw [h3]
    simp only [List.getElem?_set]
    by_cases hj : i = j
    · subst hj
      have c1 : ¬ (i + 1 ≤ i ∧ i < i + 1 + n) := by omega
      have c2 : i ≤ i ∧ i < i + (n + 1) := by omega
      simp [c1, c2, hi]
    · by_cases hr : i + 1 ≤ j ∧ j < i + 1 + n
      · have c2 : i ≤ j ∧ j < i + (n + 1) := by omega
        simp [hr, c2]
      · have c2 : ¬ (i ≤ j ∧ j < i + (n + 1)) := by omega
        simp [hr, c2, hj]

theorem mem_reset_frames_spec (c : Config) (m : memory_state)
    (hsize : m.shellmemory.length = c.SHELLMEMSIZE) :
    ∃ sm, mem_reset_frames c m = .ok { m with shellmemory := sm, frames_allocated := 0 } ∧
      sm.length = m.shellmemory.length ∧
      (∀ j, j < c.VARMEMSIZE → sm[j]? = m.shellmemory[j]?) ∧
      (m.frames_allocated = 0 → sm = m.shellmemory) ∧
      (m.frames_allocated ≠ 0 → ∀ j, c.VARMEMSIZE ≤ j → j < c.SHELLMEMSIZE →
        sm[j]? = some (memory_struct.mk none none)) := by
  unfold mem_reset_frames
  by_cases h0 : m.frames_allocated = 0
  · rw [if_pos h0]
    refine ⟨m.shellmemory, ?_, rfl, fun _ _ => rfl, fun _ => rfl, fun h => absurd h0 h⟩
    congr 1
    cases m
    simp only [] at h0
    subst h0
    rfl
  · rw [if_neg h0]
    obtain ⟨sm, h1, h2, h3⟩ := mem_reset_frames_loop_spec (c.SHELLMEMSIZE - c.VARMEMSIZE)
      c.VARMEMSIZE m (by
        rw [hsize]
        unfold Config.SHELLMEMSIZE
        omega)
    rw [h1]
    refine ⟨sm, rfl, h2, ?_, fun h => absurd h h0, ?_⟩
    · intro j hj
      rw [h3]
      have : ¬ (c.VARMEMSIZE ≤ j ∧ j < c.VARMEMSIZE + (c.SHELLMEMSIZE - c.VARMEMSIZE)) := by omega
      rw [if_neg this]
    · intro _ j hj1 hj2
      rw [h3]
      have : c.VARMEMSIZE ≤ j ∧ j < c.VARMEMSIZE + (c.SHELLMEMSIZE - c.VARMEMSIZE) := by omega
      rw [if_pos this]

theorem lookup_filter_ne (pid : Nat) : ∀ (l : List (Nat × cstr)),
    (l.filter (fun e => decide (e.1 ≠ pid))).lookup pid = none ∧
      ∀ q, q ≠ pid → (l.filter (fun e => decide (e.1 ≠ pid))).lookup q = l.lookup q := by
  intro l
  induction l with
  | nil => simp
  | cons x r ih =>
    obtain ⟨k, v⟩ := x
    by_cases hk : k = pid
    · subst hk
      simp only [List.filter, ne_eq, not_true_eq_false, decide_False]
      refine ⟨ih.1, ?_⟩
      intro q hq
      rw [ih.2 q hq, List.lookup_cons]
      have : (q == k) = false := by simpa using hq
      rw [this]
    · simp only [List.filter, ne_eq, hk, not_false_eq_true, decide_True]
      constructor
      · rw [List.lookup_cons]
        have : (pid == k) = false := by simpa using (Ne.symm hk)
        rw [this]; exact ih.1
      · intro q hq
        rw [List.lookup_cons, List.lookup_cons]
        cases (q == k)
        · exact ih.2 q hq
        · rfl

theorem remove_process_store_spec (w : world) (p : pcb) :
    (remove_process_store w p).backing_store.lookup p.pid = none ∧
      (∀ q, q ≠ p.pid → (remove_process_store w p).backing_store.lookup q =
        w.backing_store.lookup q) ∧
      (remove_process_store w p).state = w.state ∧
      (remove_process_store w p).m_state = w.m_state ∧
      (remove_process_store w p).executed = w.executed ∧
      (remove_process_store w p).cwd = w.cwd ∧
      (remove_process_store w p).cur_pid = w.cur_pid := by
  unfold remove_process_store
  cases h : w.backing_store.lookup p.pid with
  | none => exact ⟨h, fun _ _ => rfl, rfl, rfl, rfl, rfl, rfl⟩
  | some v =>
    exact ⟨(lookup_filter_ne p.pid _).1, (lookup_filter_ne p.pid _).2, rfl, rfl, rfl, rfl, rfl⟩


theorem remove_process_store_eq (w : world) (p : pcb) :
    ∃ B S, remove_process_store w p = { w with backing_store := B, stdout := S } ∧
      B.lookup p.pid = none ∧ (∀ q, q ≠ p.pid → B.lookup q = w.backing_store.lookup q) ∧
      (∀ q content, B.lookup q = some content → w.backing_store.lookup q = some content) := by
  unfold remove_process_store
  cases h : w.backing_store.lookup p.pid with
  | none =>
    refine ⟨w.backing_store, _, rfl, h, fun _ _ => rfl, fun _ _ hh => hh⟩
  | some v =>
    refine ⟨_, w.stdout, rfl, (lookup_filter_ne p.pid _).1, (lookup_filter_ne p.pid _).2, ?_⟩
    intro q content hq
    by_cases hqp : q = p.pid
    · subst hqp
      rw [(lookup_filter_ne p.pid _).1] at hq
      cases hq
    · rw [(lookup_filter_ne p.pid _).2 q hqp] at hq
      exact hq


theorem demo_faulting_fifo : fifo_wf demo_faulting.state :=
  ⟨by decide, by decide, by decide⟩


/-! ## The invariant of the paging system: lemmas -/

theorem nodup_of_subperm {α : Type} {l1 l2 : List α} (h : l1.Subperm l2) (d : l2.Nodup) :
    l1.Nodup := by
  obtain ⟨l, hp, hs⟩ := h
  exact hp.nodup_iff.mp (d.sublist hs)

theorem cp_loop_copied : ∀ (content : List Char) (n : Nat) (acc : cstr),
    cp_loop content n acc = (n + (copied content).count '\n', acc ++ copied content)
  | [], n, acc => by simp [cp_loop, copied]
  | x :: rest, n, acc => by
    rw [cp_loop]
    by_cases he : x = char_EOF
    · rw [if_pos he]
      simp [copied, he]
    · rw [if_neg he, cp_loop_copied rest]
      have hc : copied (x :: rest) = x :: copied rest := by
        simp [copied, he]
      rw [hc]
      by_cases hx : x = '\n'
      · subst hx
        simp [List.count_cons]
        omega
      · have : ('\n' == x) = false := by
          simp only [beq_eq_false_iff_ne, ne_eq]
          exact fun h => hx h.symm
        simp [List.count_cons, hx, this]

theorem copied_text (content : cstr) (h : is_text content) : copied content = content := by
  unfold copied
  rw [List.takeWhile_eq_self_iff]
  intro x hx
  simp only [bne_iff_ne, ne_eq]
  intro e
  exact h (e ▸ hx)

theorem copied_no_EOF (content : cstr) : is_text (copied content) := by
  intro h
  have := List.mem_takeWhile_imp h
  simp at this

theorem cp_loop_spec (content : List Char) (n : Nat) (acc : cstr) (h : is_text content) :
    cp_loop content n acc = (n + content.count '\n', acc ++ content) := by
  rw [cp_loop_copied, copied_text content h]

theorem lookup_text (files : List (cstr × cstr)) (file content : cstr)
    (ht : text_files files) (hf : files.lookup file = some content) : is_text content := by
  induction files with
  | nil => cases hf
  | cons x rest ih =>
    obtain ⟨k, v⟩ := x
    rw [List.lookup_cons] at hf
    split at hf
    · injection hf with hf
      subst hf
      exact ht (k, v) (List.mem_cons_self _ _)
    · exact ih (fun f hf => ht f (List.mem_cons_of_mem _ hf)) hf

theorem script_lines_from_length : ∀ (content : List Char) (cur : cstr),
    (script_lines_from content cur).length =
      content.count '\n' +
        (if content = [] then (if cur = [] then 0 else 1)
         else if content.getLast? = some '\n' then 0 else 1)
  | [], cur => by
    by_cases h : cur = [] <;> simp [script_lines_from, h]
  | x :: rest, cur => by
    rw [script_lines_from]
    by_cases hx : x = '\n'
    · subst hx
      rw [if_pos rfl, List.length_cons, script_lines_from_length rest []]
      cases rest with
      | nil => simp
      | cons y r =>
        simp [List.count_cons, List.getLast?_cons_cons]
        omega
    · rw [if_neg hx, script_lines_from_length rest (cur ++ [x])]
      have : ('\n' == x) = false := by
        simp only [beq_eq_false_iff_ne, ne_eq]
        exact fun h => hx h.symm
      cases rest with
      | nil => simp [List.count_cons, hx, this]
      | cons y r =>
        simp [List.count_cons, List.getLast?_cons_cons, this, hx]

theorem script_lines_length (content : List Char) (h : content ≠ []) :
    (script_lines content).length =
      content.count '\n' + (if content.getLast? = some '\n' then 0 else 1) := by
  rw [script_lines, script_lines_from_length, if_neg h]


theorem frame_slot_ge (c : Config) (f i : Nat) : c.VARMEMSIZE ≤ get_frame_start c f + i := by
  unfold get_frame_start
  omega

theorem key_at_congr (c : Config) (m m' : memory_state) (f : Nat)
    (h : ∀ j, c.VARMEMSIZE ≤ j → m'.shellmemory[j]? = m.shellmemory[j]?) :
    key_at c m' f = key_at c m f := by
  unfold key_at sm_var
  have := h _ (frame_slot_ge c f 0)
  rw [Nat.add_zero] at this
  rw [this]

theorem slot_value_congr (c : Config) (m m' : memory_state) (f i : Nat)
    (h : ∀ j, c.VARMEMSIZE ≤ j → m'.shellmemory[j]? = m.shellmemory[j]?) :
    slot_value c m' f i = slot_value c m f i := by
  unfold slot_value sm_value
  rw [h _ (frame_slot_ge c f i)]

theorem frames_inv_congr (c : Config) (w w' : world) (p : pcb)
    (hb : w'.backing_store.lookup p.pid = w.backing_store.lookup p.pid)
    (hs : ∀ j, c.VARMEMSIZE ≤ j → w'.m_state.shellmemory[j]? = w.m_state.shellmemory[j]?)
    (h : frames_inv c w p) : frames_inv c w' p := by
  intro k f i content l h1 h2 h3 h4 h5
  rw [key_at_congr c _ _ f hs] at h2
  rw [slot_value_congr c _ _ f i hs] at h5
  rw [hb] at h3
  exact h k f i content l h1 h2 h3 h4 h5

theorem unkeyed_empty_congr (c : Config) (m m' : memory_state)
    (hs : ∀ j, c.VARMEMSIZE ≤ j → m'.shellmemory[j]? = m.shellmemory[j]?)
    (h : unkeyed_empty c m) : unkeyed_empty c m' := by
  intro f i hf hi hk
  rw [key_at_congr c _ _ f hs] at hk
  rw [slot_value_congr c _ _ f i hs]
  exact h f i hf hi hk

theorem mem_wf_congr (c : Config) (m m' : memory_state) (l : List Nat) (hw : mem_wf c m l)
    (h1 : m'.heap = m.heap) (h2 : m'.ll_quick = m.ll_quick) (h3 : m'.head = m.head)
    (h4 : m'.tail = m.tail) (hlen : m'.shellmemory.length = m.shellmemory.length)
    (hs : ∀ j, c.VARMEMSIZE ≤ j → m'.shellmemory[j]? = m.shellmemory[j]?) :
    mem_wf c m' l := by
  refine ⟨lru_wf_congr c m m' l hw.lru h1 h2 h3 h4, by rw [hlen]; exact hw.size, ?_⟩
  intro f hf hk
  rw [key_at_congr c _ _ f hs] at hk
  exact hot_congr m m' l f (hw.keyed_hot f hf hk) h1

theorem pcb_inv_congr (c : Config) (w w' : world) (p : pcb)
    (hb : w'.backing_store.lookup p.pid = w.backing_store.lookup p.pid)
    (hs : ∀ j, c.VARMEMSIZE ≤ j → w'.m_state.shellmemory[j]? = w.m_state.shellmemory[j]?)
    (h : pcb_inv c w p) : pcb_inv c w' p :=
  ⟨h.ok, by rw [hb]; exact h.file, frames_inv_congr c w w' p hb hs h.frames⟩

theorem sys_inv_congr (c : Config) (w w' : world) (ps : List pcb)
    (hb : ∀ p, p ∈ ps → w'.backing_store.lookup p.pid = w.backing_store.lookup p.pid)
    (h1 : w'.m_state.heap = w.m_state.heap) (h2 : w'.m_state.ll_quick = w.m_state.ll_quick)
    (h3 : w'.m_state.head = w.m_state.head) (h4 : w'.m_state.tail = w.m_state.tail)
    (hlen : w'.m_state.shellmemory.length = w.m_state.shellmemory.length)
    (hs : ∀ j, c.VARMEMSIZE ≤ j → w'.m_state.shellmemory[j]? = w.m_state.shellmemory[j]?)
    (ht : text_files w.cwd → text_files w'.cwd)
    (h : sys_inv c w ps) : sys_inv c w' ps := by
  obtain ⟨l, hl⟩ := h.mem
  exact ⟨⟨l, mem_wf_congr c _ _ l hl h1 h2 h3 h4 hlen hs⟩,
    unkeyed_empty_congr c _ _ hs h.empty, h.pids,
    fun p hp => pcb_inv_congr c w w' p (hb p hp) hs (h.pcbs p hp), ht h.text⟩

theorem sys_inv_of_eq (c : Config) (w w' : world) (ps : List pcb)
    (hb : w'.backing_store = w.backing_store) (hm : w'.m_state = w.m_state)
    (h : sys_inv c w ps) (hc : w'.cwd = w.cwd) : sys_inv c w' ps :=
  sys_inv_congr c w w' ps (fun _ _ => by rw [hb]) (by rw [hm]) (by rw [hm]) (by rw [hm])
    (by rw [hm]) (by rw [hm]) (fun _ _ => by rw [hm]) (fun ht => by rw [hc]; exact ht) h

theorem sys_inv_same_paging (c : Config) (w w' : world) (ps : List pcb)
    (hp : same_paging c w w') (h : sys_inv c w ps) : sys_inv c w' ps := by
  obtain ⟨_, _, hb, _, _, h3, h4, h2, h1, hlen, hs, ht⟩ := hp
  exact sys_inv_congr c w w' ps (fun _ _ => by rw [hb]) h1 h2 h3 h4 hlen hs ht h

theorem sys_inv_sub (c : Config) (w : world) (ps ps' : List pcb) (hsub : ps'.Subperm ps)
    (h : sys_inv c w ps) : sys_inv c w ps' :=
  ⟨h.mem, h.empty, by
    obtain ⟨l, hp, hs⟩ := hsub
    exact nodup_of_subperm ⟨l.map pcb.pid, hp.map _, hs.map _⟩ h.pids,
    fun p hp => h.pcbs p (hsub.subset hp), h.text⟩


/-- What a page load does to the invariant: the frame at the head of the LRU list
takes the key of the loaded page, and the frames of every other process keep
their meaning. -/
theorem load_page_inv (c : Config) (w w' : world) (p p' : pcb) (page : Nat)
    (hFS : 0 < c.FRAMESIZE) (hmem : ∃ l, mem_wf c w.m_state l)
    (hempty : unkeyed_empty c w.m_state) (hfile : file_ok w p)
    (hstart : page * c.FRAMESIZE ≤ p.bound) (hpage : page < p.pagetable.length)
    (h : load_page c w p page = .ok (p', w')) :
    (∃ l, mem_wf c w'.m_state l) ∧ unkeyed_empty c w'.m_state ∧
      w'.backing_store = w.backing_store ∧ w'.state = w.state ∧ w'.cur_pid = w.cur_pid ∧
      w'.cwd = w.cwd ∧ w'.executed = w.executed ∧
      (∃ f, f < c.NFRAMES ∧ p' = { p with pagetable := p.pagetable.set page (some f) }) ∧
      (∀ q, q.pid ≠ p.pid → frames_inv c w q → frames_inv c w' q) ∧
      (frames_inv c w p → frames_inv c w' p') := by
  obtain ⟨l, hl⟩ := hmem
  obtain ⟨hd, t, rfl⟩ := hl.lru.ne_nil
  obtain ⟨m1, sm, out, heq, hwf, _, hvar, hkey, hval, hdich, _⟩ :=
    load_page_spec c w p page hd t hFS hl hfile hstart hpage
  rw [heq] at h
  injection h with h
  injection h with hp hw
  subst hp hw
  have hhd : hd < c.NFRAMES := by
    have := hl.lru.perm.mem_iff.mp (List.mem_cons_self hd t)
    simpa using this
  have hk' : ∀ g, g ≠ hd → key_at c { m1 with shellmemory := sm, frames_allocated := 1 } g
      = key_at c w.m_state g := by
    intro g hg
    have := frame_disjoint c g hd 0 0 hg hFS hFS
    simp only [Nat.add_zero] at this
    exact hvar _ this
  have hs' : ∀ g i, g ≠ hd → i < c.FRAMESIZE →
      slot_value c { m1 with shellmemory := sm, frames_allocated := 1 } g i
        = slot_value c w.m_state g i := by
    intro g i hg hi
    apply hval
    intro ⟨h1, h2⟩
    exact frame_disjoint c g hd i (get_frame_start c g + i - get_frame_start c hd) hg hi
      (by omega) (by omega)
  have hkhd : key_at c { m1 with shellmemory := sm, frames_allocated := 1 } hd
      = some (create_frame_key p.pid page) := hkey
  refine ⟨⟨_, hwf⟩, ?_, rfl, rfl, rfl, rfl, rfl, ⟨hd, hhd, rfl⟩, ?_, ?_⟩
  · intro g i hg hi hk
    by_cases hgh : g = hd
    · subst hgh
      rw [hkhd] at hk
      cases hk
    · rw [hk' g hgh] at hk
      rw [hs' g i hgh hi]
      exact hempty g i hg hi hk
  · intro q hq hinv k f i content ln h1 h2 h3 h4 h5
    by_cases hfh : f = hd
    · subst hfh
      rw [hkhd] at h2
      have := create_frame_key_inj _ _ _ _ (Option.some.inj h2)
      exact absurd this.1.symm hq
    · rw [hk' f hfh] at h2
      rw [hs' f i hfh h4] at h5
      exact hinv k f i content ln h1 h2 h3 h4 h5
  · intro hinv k f i content ln h1 h2 h3 h4 h5
    simp only at h1 h2 h3 h5
    by_cases hkp : k = page
    · subst hkp
      rw [List.getElem?_set_self hpage] at h1
      have hf : f = hd := (Option.some.inj (Option.some.inj h1)).symm
      subst hf
      rcases hdich with hd1 | ⟨content', hc', hd2⟩
      · have h6 : slot_value c { m1 with shellmemory := sm, frames_allocated := 1 } f i
            = _ := hd1 i h4
        rw [h5] at h6
        by_cases hkk : key_at c w.m_state f ≠ none
        · rw [if_pos hkk] at h6
          cases h6
        · rw [if_neg hkk] at h6
          have hkn : key_at c w.m_state f = none := by
            by_contra hne
            exact hkk hne
          have := hempty f i hhd h4 hkn
          unfold slot_value at this
          rw [this] at h6
          cases h6
      · rw [hc'] at h3
        cases h3
        have h6 : slot_value c { m1 with shellmemory := sm, frames_allocated := 1 } f i
            = _ := hd2 i h4
        rw [h5] at h6
        by_cases hb : k * c.FRAMESIZE + i < p.bound
        · rw [if_pos hb] at h6
          exact h6.symm
        · rw [if_neg hb] at h6
          cases h6
    · rw [List.getElem?_set_ne (fun e => hkp e.symm)] at h1
      by_cases hfh : f = hd
      · subst hfh
        rw [hkhd] at h2
        have := create_frame_key_inj _ _ _ _ (Option.some.inj h2)
        exact absurd this.2.symm hkp
      · rw [hk' f hfh] at h2
        rw [hs' f i hfh h4] at h5
        exact hinv k f i content ln h1 h2 h3 h4 h5


theorem read_instruction_none (c : Config) (w w1 : world) (p p1 : pcb)
    (h : read_instruction c w p = .ok (none, p1, w1)) :
    load_page c w p (p.pc / c.FRAMESIZE) = .ok (p1, w1) := by
  unfold read_instruction at h
  simp only at h
  split at h
  · cases h
  · split at h
    · cases h
    · rename_i q1 q2 hq
      cases h
      exact hq
  · split at h
    · cases h
    · split at h
      · split at h
        · cases h
        · rename_i q1 q2 hq
          cases h
          exact hq
      · split at h
        · cases h
        · split at h
          · cases h
          · cases h

theorem read_instruction_some (c : Config) (w w1 : world) (p p1 : pcb) (line : cstr)
    (h : read_instruction c w p = .ok (some line, p1, w1)) :
    ∃ f m1, p.pagetable[p.pc / c.FRAMESIZE]? = some (some f) ∧
      key_at c w.m_state f = some (create_frame_key p.pid (p.pc / c.FRAMESIZE)) ∧
      move_to_back w.m_state f = .ok m1 ∧ w1 = { w with m_state := m1 } ∧ p1 = p ∧
      slot_value c w.m_state f (p.pc % c.FRAMESIZE) = some line := by
  unfold read_instruction at h
  simp only at h
  split at h
  · cases h
  · split at h
    · cases h
    · cases h
  · rename_i f hpt
    split at h
    · cases h
    · rename_i s hs
      split at h
      · split at h
        · cases h
        · cases h
      · rename_i hk
        split at h
        · cases h
        · rename_i m1 hm
          split at h
          · rename_i v ln hsl
            cases h
            refine ⟨f, m1, hpt, ?_, hm, rfl, rfl, ?_⟩
            · unfold key_at sm_var
              rw [hs]
              simp only [Option.some_bind]
              by_contra hne
              apply hk
              by_cases hn : s.var = none
              · exact Or.inl hn
              · exact Or.inr hne
            · unfold slot_value sm_value
              rw [← move_to_back_sm _ _ _ hm, hsl]
              rfl
          · cases h


theorem pop_front_live (w : world) (h : w.state.cur = none) :
    live (pop_front w) = live w ∧ (pop_front w).m_state = w.m_state ∧
      (pop_front w).backing_store = w.backing_store ∧
      (pop_front w).cur_pid = w.cur_pid ∧ (pop_front w).state.mode = w.state.mode := by
  unfold pop_front
  cases hq : w.state.queue with
  | nil => simp [live, print, hq]
  | cons x rest => simp [live, hq, h]

theorem link_after_sublist (t : Nat) (n : ll) : ∀ (q q' : List ll),
    link_after t n q = some q' → (q'.map ll.p).Sublist (q.map ll.p ++ [n.p])
  | [], q', h => by simp [link_after] at h
  | x :: rest, q', h => by
    rw [link_after] at h
    split at h
    · cases h
      simp only [List.map_cons, List.map_nil, List.cons_append]
      exact List.Sublist.cons₂ _ (List.sublist_append_right _ _)
    · split at h
      · rename_i r hr
        cases h
        simp only [List.map_cons, List.cons_append]
        exact List.Sublist.cons₂ _ (link_after_sublist t n rest r hr)
      · cases h

theorem add_back_cwd (w w' : world) (d : pcb) (h : add_back w (some d) = .ok w') :
    w'.cwd = w.cwd := by
  unfold add_back at h
  simp only at h
  repeat' split at h
  all_goals first
    | (cases h; done)
    | (cases h; rfl)

theorem add_with_priority_cwd (w : world) (d : pcb) (pr : Int) :
    (add_with_priority w d pr).cwd = w.cwd := by
  obtain ⟨tl, heq, _⟩ := add_with_priority_eq w d pr
  rw [heq]

theorem pop_front_cwd (w : world) : (pop_front w).cwd = w.cwd := by
  unfold pop_front
  split <;> rfl

theorem add_back_live (w w' : world) (d : pcb) (h : add_back w (some d) = .ok w') :
    w'.m_state = w.m_state ∧ w'.backing_store = w.backing_store ∧ w'.cur_pid = w.cur_pid ∧
      w'.state.cur = w.state.cur ∧ w'.state.mode = w.state.mode ∧
      (w'.state.queue.map ll.p).Sublist (w.state.queue.map ll.p ++ [d]) := by
  unfold add_back at h
  simp only at h
  split at h
  · rename_i hc
    cases h
    simp [hc.1]
  · split at h
    · cases h
    · split at h
      · cases h
      · split at h
        · cases h
        · rename_i t ht q hq
          cases h
          exact ⟨rfl, rfl, rfl, rfl, rfl, link_after_sublist _ _ _ _ hq⟩

theorem ordered_insert_perm (n : ll) (q : List ll) : (ordered_insert n q).Perm (n :: q) := by
  unfold ordered_insert
  refine List.perm_middle.trans (List.Perm.cons _ ?_)
  rw [List.takeWhile_append_dropWhile]

theorem add_with_priority_live (w : world) (d : pcb) (pr : Int) :
    (add_with_priority w d pr).m_state = w.m_state ∧
      (add_with_priority w d pr).backing_store = w.backing_store ∧
      (add_with_priority w d pr).cur_pid = w.cur_pid ∧
      (add_with_priority w d pr).state.cur = w.state.cur ∧
      (add_with_priority w d pr).state.mode = w.state.mode ∧
      ((add_with_priority w d pr).state.queue.map ll.p).Perm (d :: w.state.queue.map ll.p) := by
  obtain ⟨tl, heq, _⟩ := add_with_priority_eq w d pr
  rw [heq]
  refine ⟨rfl, rfl, rfl, rfl, rfl, ?_⟩
  exact (ordered_insert_perm _ _).map ll.p

theorem decr_priorities_live (w : world) :
    live (decr_priorities w) = live w ∧ (decr_priorities w).m_state = w.m_state ∧
      (decr_priorities w).backing_store = w.backing_store ∧
      (decr_priorities w).cur_pid = w.cur_pid ∧
      (decr_priorities w).state.cur = w.state.cur ∧
      (decr_priorities w).state.mode = w.state.mode := by
  refine ⟨?_, rfl, rfl, rfl, rfl, rfl⟩
  unfold live decr_priorities
  simp only [List.map_map]
  congr 1
  apply List.map_congr_left
  intro n _
  simp only [Function.comp]
  split <;> rfl


theorem sys_inv_reset (c : Config) (w : world) (m : memory_state) (ps : List pcb)
    (h : sys_inv c w ps) (hm : mem_reset_frames c w.m_state = .ok m) :
    sys_inv c { w with m_state := m } ps := by
  obtain ⟨l, hl⟩ := h.mem
  obtain ⟨sm, heq, hlen, _, hz, hnz⟩ := mem_reset_frames_spec c w.m_state hl.size
  rw [heq] at hm
  injection hm with hm
  subst hm
  by_cases hfa : w.m_state.frames_allocated = 0
  · have hsm := hz hfa
    subst hsm
    exact sys_inv_congr c w _ ps (fun _ _ => rfl) rfl rfl rfl rfl rfl (fun _ _ => rfl)
      (fun ht => ht) h
  · have hnone : ∀ f i, f < c.NFRAMES → i < c.FRAMESIZE →
        sm[get_frame_start c f + i]? = some (memory_struct.mk none none) := by
      intro f i hf hi
      apply hnz hfa _ (frame_slot_ge c f i)
      have := frame_in_memory c f hf
      omega
    have hkey : ∀ f, f < c.NFRAMES → 0 < c.FRAMESIZE →
        key_at c { w.m_state with shellmemory := sm, frames_allocated := 0 } f = none := by
      intro f hf hFS
      have := hnone f 0 hf hFS
      rw [Nat.add_zero] at this
      simp [key_at, sm_var, this]
    have hFS_of : ∀ i, i < c.FRAMESIZE → 0 < c.FRAMESIZE := fun i hi => by omega
    refine ⟨⟨l, lru_wf_congr c _ _ l hl.lru rfl rfl rfl rfl, by simpa [hlen] using hl.size, ?_⟩,
      ?_, h.pids, ?_, h.text⟩
    · intro f hf hk
      by_cases hFS : 0 < c.FRAMESIZE
      · exact absurd (hkey f hf hFS) hk
      · exfalso
        apply hk
        have h0 : c.FRAMESIZE = 0 := by omega
        have hlen2 : sm.length = c.SHELLMEMSIZE := by rw [hlen]; exact hl.size
        have hge : c.SHELLMEMSIZE ≤ get_frame_start c f := by
          unfold Config.SHELLMEMSIZE Config.FRAMESTORESIZE get_frame_start
          rw [h0]
          omega
        simp only [key_at, sm_var]
        rw [List.getElem?_eq_none (by omega)]
        rfl
    · intro f i hf hi _
      simp [slot_value, sm_value, hnone f i hf hi]
    · intro p hp
      have hpi := h.pcbs p hp
      refine ⟨hpi.ok, hpi.file, ?_⟩
      intro k f i content ln h1 h2 _ h4 _
      rw [hkey f (hpi.ok.frames k f h1) (hFS_of i h4)] at h2
      cases h2


theorem pcb_inv.has_file_ok {c : Config} {w : world} {p : pcb} (h : pcb_inv c w p) : file_ok w p := by
  obtain ⟨content, hc, hb⟩ := h.file
  intro content' hc'
  rw [hc] at hc'
  cases hc'
  exact hb

theorem load_page_sys_inv (c : Config) (w w1 : world) (p p1 : pcb) (page : Nat)
    (rest : List pcb) (hFS : 0 < c.FRAMESIZE) (hi : sys_inv c w (p :: rest))
    (hstart : page * c.FRAMESIZE ≤ p.bound) (hpage : page < p.pagetable.length)
    (h : load_page c w p page = .ok (p1, w1)) :
    sys_inv c w1 (p1 :: rest) ∧ w1.state = w.state ∧ w1.cur_pid = w.cur_pid ∧
      w1.cwd = w.cwd ∧ w1.backing_store = w.backing_store ∧ w1.executed = w.executed ∧
      p1.pid = p.pid ∧ p1.bound = p.bound ∧ p1.pc = p.pc ∧
      p1.pagetable.length = p.pagetable.length := by
  have hp := hi.pcbs p (List.mem_cons_self _ _)
  obtain ⟨hmem, hempty, hbs, hst, hcp, hcwd, hex, ⟨f, hf, hp1⟩, hother, hself⟩ :=
    load_page_inv c w w1 p p1 page hFS hi.mem hi.empty hp.has_file_ok hstart hpage h
  subst hp1
  refine ⟨⟨hmem, hempty, hi.pids, ?_, by rw [hcwd]; exact hi.text⟩, hst, hcp, hcwd, hbs, hex,
    rfl, rfl, rfl, by simp⟩
  intro q hq
  rcases List.mem_cons.mp hq with rfl | hq
  · refine ⟨⟨by simpa using hp.ok.table_len, hp.ok.pc_lt, ?_⟩, by rw [hbs]; exact hp.file,
      hself hp.frames⟩
    intro k g hk
    simp only at hk
    by_cases hkp : k = page
    · subst hkp
      rw [List.getElem?_set_self hpage] at hk
      cases hk
      exact hf
    · rw [List.getElem?_set_ne (fun e => hkp e.symm)] at hk
      exact hp.ok.frames k g hk
  · have hqi := hi.pcbs q (List.mem_cons_of_mem _ hq)
    have hne : q.pid ≠ p.pid := by
      have hnd := hi.pids
      simp only [List.map_cons, List.nodup_cons, List.mem_map, not_exists, not_and] at hnd
      exact fun e => hnd.1 q hq e
    exact ⟨hqi.ok, by rw [hbs]; exact hqi.file, hother q hne hqi.frames⟩


theorem sys_inv_transfer (c : Config) (w w' : world) (ps ps' : List pcb)
    (hb : ∀ p, p ∈ ps' → w'.backing_store.lookup p.pid = w.backing_store.lookup p.pid)
    (hm : w'.m_state = w.m_state) (hsub : ps'.Subperm ps) (h : sys_inv c w ps)
    (hc : w'.cwd = w.cwd) : sys_inv c w' ps' :=
  sys_inv_congr c w w' ps' hb (by rw [hm]) (by rw [hm]) (by rw [hm]) (by rw [hm]) (by rw [hm])
    (fun _ _ => by rw [hm]) (fun ht => by rw [hc]; exact ht) (sys_inv_sub c w ps ps' hsub h)

theorem snoc_subperm_cons {α : Type} (a : α) (l l' : List α) (h : l'.Sublist (l ++ [a])) :
    l'.Subperm (a :: l) :=
  List.Subperm.trans ⟨l', List.Perm.refl _, h⟩ (List.perm_append_singleton a l).subperm

theorem requeue_back (c : Config) (w2 w3 : world) (cur1 : pcb)
    (hi : sys_inv c w2 (cur1 :: w2.state.queue.map ll.p))
    (hab : add_back w2 (some cur1) = .ok w3) :
    sys_inv c { w3 with state := { w3.state with cur := none } }
      (live { w3 with state := { w3.state with cur := none } }) := by
  obtain ⟨a1, a2, -, -, -, a6⟩ := add_back_live _ _ _ hab
  have key : sys_inv c { w3 with state := { w3.state with cur := none } }
      (w3.state.queue.map ll.p) :=
    sys_inv_transfer c w2 _ _ _ (fun _ _ => congrArg _ a2) a1 (snoc_subperm_cons _ _ _ a6) hi
      (add_back_cwd w2 w3 cur1 hab)
  exact key

theorem requeue_prio (c : Config) (w2 : world) (cur1 : pcb) (pr : Int)
    (hi : sys_inv c w2 (cur1 :: w2.state.queue.map ll.p)) :
    sys_inv c { (add_with_priority w2 cur1 pr) with
        state := { (add_with_priority w2 cur1 pr).state with cur := none } }
      (live { (add_with_priority w2 cur1 pr) with
        state := { (add_with_priority w2 cur1 pr).state with cur := none } }) := by
  obtain ⟨a1, a2, -, -, -, a6⟩ := add_with_priority_live w2 cur1 pr
  have key : sys_inv c { (add_with_priority w2 cur1 pr) with
        state := { (add_with_priority w2 cur1 pr).state with cur := none } }
      ((add_with_priority w2 cur1 pr).state.queue.map ll.p) :=
    sys_inv_transfer c w2 _ _ _ (fun _ _ => congrArg _ a2) a1 a6.subperm hi
      (add_with_priority_cwd w2 cur1 pr)
  exact key

theorem exec_process_fault_inv (c : Config) (rbl : cstr → world → Except halt world)
    (w w' w1 : world) (cur cur1 : pcb) (hFS : 0 < c.FRAMESIZE)
    (hcur : w.state.cur = some cur)
    (hi : sys_inv c w (live w))
    (hread : read_instruction c w cur = .ok (none, cur1, w1))
    (h : exec_process c rbl w = .ok w') : sys_inv c w' (live w') := by
  have hlive : live w = cur :: w.state.queue.map ll.p := by simp [live, hcur]
  rw [hlive] at hi
  have hp := hi.pcbs cur (List.mem_cons_self _ _)
  have hload := read_instruction_none _ _ _ _ _ hread
  have hpage : cur.pc / c.FRAMESIZE < cur.pagetable.length := by
    rw [hp.ok.table_len]
    exact page_of_pc_lt c _ _ hFS hp.ok.pc_lt
  have hstart : cur.pc / c.FRAMESIZE * c.FRAMESIZE ≤ cur.bound := by
    have := Nat.div_mul_le_self cur.pc c.FRAMESIZE
    have := hp.ok.pc_lt
    omega
  obtain ⟨hi1, hst, -, -, hbs, -, -, -, -, -⟩ :=
    load_page_sys_inv c w w1 cur cur1 _ _ hFS hi hstart hpage hload
  rw [← hst] at hi1
  have hi2 : sys_inv c { w1 with state := { w1.state with cur := some cur1 } }
      (cur1 :: w1.state.queue.map ll.p) :=
    sys_inv_transfer c w1 _ _ _ (fun _ _ => rfl) rfl (List.Subperm.refl _) hi1 rfl
  unfold exec_process at h
  simp only [hcur, hread] at h
  split at h
  · split at h
    · cases h
    · rename_i w3 hab
      cases h
      exact requeue_back c _ _ _ hi2 hab
  · split at h
    · cases h
    · rename_i w3 hab
      cases h
      exact requeue_back c _ _ _ hi2 hab
  · cases h
    exact requeue_prio c _ _ _ hi2
  · cases h
    exact requeue_prio c _ _ _ hi2
  · cases h
    have key := sys_inv_transfer c { w1 with state := { w1.state with cur := some cur1 } }
      (error_no_mode_selected { w1 with state := { w1.state with cur := some cur1 } }) _
      (cur1 :: w1.state.queue.map ll.p) (fun _ _ => rfl) rfl (List.Subperm.refl _) hi2 rfl
    exact key


theorem sys_inv.pid_ne {c : Config} {w : world} {p q : pcb} {rest : List pcb}
    (h : sys_inv c w (p :: rest)) (hq : q ∈ rest) : q.pid ≠ p.pid := by
  have hnd := (List.nodup_cons.mp h.pids).1
  exact fun e => hnd (List.mem_map.mpr ⟨q, hq, e⟩)

theorem read_hit_inv (c : Config) (w w1 : world) (cur cur1 : pcb) (instr : cstr)
    (rest : List pcb) (hi : sys_inv c w (cur :: rest))
    (hread : read_instruction c w cur = .ok (some instr, cur1, w1)) :
    sys_inv c w1 (cur :: rest) ∧ cur1 = cur ∧ w1.state = w.state ∧
      w1.backing_store = w.backing_store := by
  obtain ⟨f, m1, hpt, hkey, hmtb, hw1, hc1, -⟩ := read_instruction_some _ _ _ _ _ _ hread
  subst hw1 hc1
  have hp := hi.pcbs cur1 (List.mem_cons_self _ _)
  obtain ⟨l, hl⟩ := hi.mem
  obtain ⟨m1', e1, hwf, hsm, -, -⟩ := mem_wf_move_to_back c w.m_state l f hl
    (hp.ok.frames _ _ hpt) (by rw [hkey]; simp)
  rw [e1] at hmtb
  injection hmtb with hmtb
  subst hmtb
  have hs : ∀ j, c.VARMEMSIZE ≤ j →
      ({ w with m_state := m1' } : world).m_state.shellmemory[j]? = w.m_state.shellmemory[j]? :=
    fun j _ => by simp only [hsm]
  refine ⟨⟨⟨_, hwf⟩, unkeyed_empty_congr c _ _ hs hi.empty, hi.pids, ?_, hi.text⟩, rfl, rfl, rfl⟩
  intro q hq
  exact pcb_inv_congr c w _ q rfl hs (hi.pcbs q hq)

theorem exec_process_hit_inv (c : Config) (rbl : cstr → world → Except halt world)
    (w w' w1 : world) (cur cur1 : pcb) (instr : cstr)
    (hrbl : ∀ line w0 w1, sys_inv c w0 (live w0) → rbl line w0 = .ok w1 →
      sys_inv c w1 (live w1))
    (hcur : w.state.cur = some cur)
    (hi : sys_inv c w (live w))
    (hread : read_instruction c w cur = .ok (some instr, cur1, w1))
    (h : exec_process c rbl w = .ok w') : sys_inv c w' (live w') := by
  have hlive : live w = cur :: w.state.queue.map ll.p := by simp [live, hcur]
  rw [hlive] at hi
  obtain ⟨hi1, hc1, hst, hbs⟩ := read_hit_inv c w w1 cur cur1 instr _ hi hread
  subst hc1
  have hp := hi1.pcbs cur1 (List.mem_cons_self _ _)
  rw [← hst] at hi1
  unfold exec_process at h
  simp only [hcur, hread] at h
  split at h
  · cases h
  · rename_i w5 hafter
    apply hrbl _ _ _ _ h
    have hw5 : sys_inv c w5 (live w5) := by
      split at hafter
      · rename_i hdone
        obtain ⟨B, S, hB, hBn, hBo, -⟩ := remove_process_store_eq
          { w1 with state := { w1.state with cur := some { cur1 with pc := cur1.pc + 1 } } }
          { cur1 with pc := cur1.pc + 1 }
        have hi4 : sys_inv c
            { w1 with backing_store := B, stdout := S,
                      state := { w1.state with cur := none, np := w1.state.np - 1 } }
            (w1.state.queue.map ll.p) := by
          refine sys_inv_transfer c w1 _ _ _ ?_ rfl
            (List.sublist_cons_self _ _).subperm hi1 rfl
          intro q hq
          exact hBo _ (hi1.pid_ne hq)
        simp only [free_process] at hafter
        rw [hB] at hafter
        simp only at hafter
        split at hafter
        · split at hafter
          · cases hafter
          · rename_i m hm
            cases hafter
            exact sys_inv_reset c _ m _ hi4 hm
        · cases hafter
          exact hi4
      · rename_i hdone
        cases hafter
        have key : sys_inv c w1
            ({ cur1 with pc := cur1.pc + 1 } :: w1.state.queue.map ll.p) := by
          refine ⟨hi1.mem, hi1.empty, hi1.pids, ?_, hi1.text⟩
          intro q hq
          rcases List.mem_cons.mp hq with rfl | hq
          · refine ⟨⟨hp.ok.table_len, ?_, hp.ok.frames⟩, hp.file, hp.frames⟩
            simp only [ge_iff_le, not_le] at hdone
            exact hdone
          · exact hi1.pcbs q (List.mem_cons_of_mem _ hq)
        have key2 := sys_inv_transfer c w1
          { w1 with state := { w1.state with cur := some { cur1 with pc := cur1.pc + 1 } } }
          _ ({ cur1 with pc := cur1.pc + 1 } :: w1.state.queue.map ll.p)
          (fun _ _ => rfl) rfl (List.Subperm.refl _) key rfl
        exact key2
    exact sys_inv_transfer c w5 _ _ _ (fun _ _ => rfl) rfl (List.Subperm.refl _) hw5 rfl


theorem exec_process_inv (c : Config) (rbl : cstr → world → Except halt world)
    (w w' : world) (hFS : 0 < c.FRAMESIZE)
    (hrbl : ∀ line w0 w1, sys_inv c w0 (live w0) → rbl line w0 = .ok w1 →
      sys_inv c w1 (live w1))
    (hi : sys_inv c w (live w))
    (h : exec_process c rbl w = .ok w') : sys_inv c w' (live w') := by
  cases hcur : w.state.cur with
  | none =>
    unfold exec_process at h
    simp only [hcur] at h
    cases h
  | some cur =>
    cases hread : read_instruction c w cur with
    | error e =>
      unfold exec_process at h
      simp only [hcur, hread] at h
      cases h
    | ok r =>
      obtain ⟨instr, cur1, w1⟩ := r
      cases instr with
      | none => exact exec_process_fault_inv c rbl w w' w1 cur cur1 hFS hcur hi hread h
      | some instr =>
        exact exec_process_hit_inv c rbl w w' w1 cur cur1 instr hrbl hcur hi hread h

theorem lookup_append_ne (bs : List (Nat × cstr)) (pid q : Nat) (x : cstr) (h : q ≠ pid) :
    (bs ++ [(pid, x)]).lookup q = bs.lookup q := by
  induction bs with
  | nil =>
    have : (q == pid) = false := by simpa using h
    simp [List.lookup, this]
  | cons e rest ih =>
    obtain ⟨k, v⟩ := e
    simp only [List.cons_append, List.lookup]
    split
    · rfl
    · exact ih

theorem lookup_append_self (bs : List (Nat × cstr)) (pid : Nat) (x : cstr)
    (h : bs.lookup pid = none) : (bs ++ [(pid, x)]).lookup pid = some x := by
  induction bs with
  | nil => simp [List.lookup]
  | cons e rest ih =>
    obtain ⟨k, v⟩ := e
    simp only [List.cons_append, List.lookup] at h ⊢
    split
    · rename_i hk
      rw [hk] at h
      cases h
    · rename_i hk
      rw [hk] at h
      exact ih h

theorem cp_to_store_cases (w : world) (file : cstr) (pid : Nat) :
    cp_to_store w file pid = (-1, error_copy_failed w) ∨
    ∃ content, w.cwd.lookup file = some content ∧ w.backing_store.lookup pid = none ∧
      cp_to_store w file pid =
        ((((copied content).count '\n' +
            (if content.getLast? = some '\n' then 0 else 1) : Nat) : Int),
          { w with backing_store := w.backing_store ++ [(pid, copied content)] }) := by
  unfold cp_to_store
  cases hf : w.cwd.lookup file with
  | none => exact Or.inl rfl
  | some content =>
    cases hb : w.backing_store.lookup pid with
    | some x => exact Or.inl rfl
    | none =>
      refine Or.inr ⟨content, rfl, rfl, ?_⟩
      simp only [cp_loop_copied, Nat.zero_add, List.nil_append]
      by_cases hl : content.getLast? = some '\n'
      · simp [hl]
      · simp [hl]

theorem cp_to_store_spec (w : world) (file : cstr) (pid : Nat) (ht : text_files w.cwd) :
    cp_to_store w file pid = (-1, error_copy_failed w) ∨
    ∃ content, w.cwd.lookup file = some content ∧ w.backing_store.lookup pid = none ∧
      cp_to_store w file pid =
        (((content.count '\n' + (if content.getLast? = some '\n' then 0 else 1) : Nat) : Int),
          { w with backing_store := w.backing_store ++ [(pid, content)] }) := by
  unfold cp_to_store
  cases hf : w.cwd.lookup file with
  | none => exact Or.inl rfl
  | some content =>
    cases hb : w.backing_store.lookup pid with
    | some x => exact Or.inl rfl
    | none =>
      refine Or.inr ⟨content, rfl, rfl, ?_⟩
      simp only [cp_loop_spec content 0 [] (lookup_text _ _ _ ht hf), Nat.zero_add,
        List.nil_append]
      by_cases hl : content.getLast? = some '\n'
      · simp [hl]
      · simp [hl]

theorem load_into_mem_empty (c : Config) (w : world) (p : pcb) (mem_loc : List Nat)
    (hFS : 0 < c.FRAMESIZE)
    (hfile : w.backing_store.lookup p.pid = some []) (hpc : p.pc = 0) (hb : p.bound = 1) :
    load_into_mem c w p 0 mem_loc = .error .undefined := by
  unfold load_into_mem
  simp only [hfile, skip_lines, hpc, hb]
  have h1 : ¬ ((if 0 < 0 then ((none : Option Char), ([] : List Char)) else (some 'a', [])).1
      = none) := by simp
  rw [if_neg h1]
  have h2 : (if 0 + c.FRAMESIZE > 1 then ((1 : Nat) : Int) - ((0 : Nat) : Int)
      else (c.FRAMESIZE : Int)) = 1 := by
    split
    · simp
    · have : c.FRAMESIZE = 1 := by omega
      simp [this]
  simp only [h2]
  simp [load_lines_loop, getline]

theorem load_page_empty (c : Config) (w w' : world) (p p' : pcb) (hFS : 0 < c.FRAMESIZE)
    (hfile : w.backing_store.lookup p.pid = some []) (hpc : p.pc = 0) (hb : p.bound = 1)
    (h : load_page c w p 0 = .ok (p', w')) : False := by
  unfold load_page at h
  split at h
  · cases h
  · rename_i f w1 hl
    unfold load_from_backing_store at hl
    split at hl
    · cases hl
    · rename_i fr m1 hg
      split at hl
      · cases hl
      · rename_i w2 hce
        have hcore := check_eviction_core c _ _ _ hce
        simp only at hl
        split at hl
        · cases hl
        · rename_i m3 hsv
          rw [Nat.zero_mul, load_into_mem_empty c _ p _ hFS (by
            show w2.backing_store.lookup p.pid = some []
            rw [hcore.2.2.1]
            exact hfile) hpc hb] at hl
          cases hl


theorem sys_inv_new_file (c : Config) (w w' : world) (ps : List pcb) (pid : Nat) (x : cstr)
    (hb : w.backing_store.lookup pid = none)
    (hb' : w'.backing_store = w.backing_store ++ [(pid, x)])
    (hm : w'.m_state = w.m_state) (hcw : w'.cwd = w.cwd) (h : sys_inv c w ps) :
    sys_inv c w' ps ∧ pid ∉ ps.map pcb.pid := by
  have hne : ∀ p, p ∈ ps → p.pid ≠ pid := by
    intro p hp e
    obtain ⟨content, hc, -⟩ := (h.pcbs p hp).file
    rw [e, hb] at hc
    cases hc
  refine ⟨sys_inv_transfer c w w' ps ps ?_ hm (List.Subperm.refl _) h hcw, ?_⟩
  · intro p hp
    rw [hb', lookup_append_ne _ _ _ _ (hne p hp)]
  · intro hmem
    obtain ⟨p, hp, e⟩ := List.mem_map.mp hmem
    exact hne p hp e

theorem load_script_inv (c : Config) (w w1 : world) (file : cstr) (r : Option pcb)
    (ps : List pcb) (hFS : 0 < c.FRAMESIZE) (hi : sys_inv c w ps)
    (h : load_script c w file = .ok (r, w1)) :
    sys_inv c w1 (r.toList ++ ps) ∧ w1.state = w.state := by
  unfold load_script at h
  simp only at h
  rcases cp_to_store_spec { w with cur_pid := (w.cur_pid + 1) % 2 ^ 64 } file w.cur_pid
    hi.text with hc | ⟨content, -, hbs, hc⟩
  · rw [hc] at h
    simp only at h
    rw [if_pos (by decide)] at h
    cases h
    exact ⟨sys_inv_transfer c w _ _ _ (fun _ _ => rfl) rfl (List.Subperm.refl _) hi rfl, rfl⟩
  · rw [hc] at h
    simp only [Int.toNat_ofNat] at h
    obtain ⟨hi0, hnew⟩ := sys_inv_new_file c w
      { w with cur_pid := (w.cur_pid + 1) % 2 ^ 64
               backing_store := w.backing_store ++ [(w.cur_pid, content)] }
      ps w.cur_pid content hbs rfl rfl rfl hi
    have hlen : content ≠ [] → (script_lines content).length =
        List.count '\n' content + (if content.getLast? = some '\n' then 0 else 1) :=
      script_lines_length content
    have hempty : content = [] →
        List.count '\n' content + (if content.getLast? = some '\n' then 0 else 1) = 1 := by
      intro e
      subst e
      rfl
    generalize hnd : (List.count '\n' content +
      if content.getLast? = some '\n' then 0 else 1) = n at h hlen hempty
    by_cases hn : (n : Int) ≤ 0
    · rw [if_pos hn] at h
      cases h
      exact ⟨hi0, rfl⟩
    · rw [if_neg hn] at h
      have hn0 : 0 < n := by omega
      have hlook : (w.backing_store ++ [(w.cur_pid, content)]).lookup w.cur_pid = some content :=
        lookup_append_self _ _ _ hbs
      split at h
      · cases h
      · rename_i ret1 w1' hl1
        by_cases hcont : content = []
        · exact absurd hl1 (fun hl => load_page_empty c _ _ _ _ hFS (hcont ▸ hlook) rfl
            (hempty hcont) hl)
        · have hnp : 0 < (n + c.FRAMESIZE - 1) / c.FRAMESIZE := by
            apply Nat.div_pos
            · omega
            · exact hFS
          have hi1 : sys_inv c
              { w with cur_pid := (w.cur_pid + 1) % 2 ^ 64
                       backing_store := w.backing_store ++ [(w.cur_pid, content)] }
              ({ pid := w.cur_pid, bound := n, pc := 0,
                 pagetable := List.replicate ((n + c.FRAMESIZE - 1) / c.FRAMESIZE) none } :: ps) := by
            refine ⟨hi0.mem, hi0.empty, List.nodup_cons.mpr ⟨hnew, hi0.pids⟩, ?_, hi0.text⟩
            intro q hq
            rcases List.mem_cons.mp hq with rfl | hq
            · refine ⟨⟨by simp [n_pages], hn0, ?_⟩, ⟨content, hlook, by rw [hlen hcont]⟩, ?_⟩
              · intro k f hk
                simp only [List.getElem?_replicate] at hk
                split at hk <;> cases hk
              · intro k f i ct l hk
                simp only [List.getElem?_replicate] at hk
                split at hk <;> cases hk
            · exact hi0.pcbs q hq
          obtain ⟨hi2, hst2, -, -, -, -, hpid, hbound, hpc, hlen2⟩ :=
            load_page_sys_inv c _ _ _ _ 0 ps hFS hi1 (by simp) (by simpa using hnp) hl1
          split at h
          · rename_i hbig
            split at h
            · cases h
            · rename_i ret2 w2 hl2
              cases h
              obtain ⟨hi3, hst3, -⟩ :=
                load_page_sys_inv c _ _ _ _ 1 ps hFS hi2 (by rw [hbound]; simp; omega) (by
                  rw [hlen2]
                  simp only [List.length_replicate]
                  have : 1 + 1 ≤ (n + c.FRAMESIZE - 1) / c.FRAMESIZE := by
                    rw [Nat.le_div_iff_mul_le hFS]
                    omega
                  omega) hl2
              exact ⟨hi3, by rw [hst3, hst2]⟩
          · cases h
            exact ⟨hi2, hst2⟩


theorem set_scheduler_mode_inv (c : Config) (w : world) (m : sched_mode_t) (ps : List pcb)
    (hi : sys_inv c w ps) :
    sys_inv c (set_scheduler_mode w m).2 ps ∧
      live (set_scheduler_mode w m).2 = live w := by
  unfold set_scheduler_mode
  split
  · exact ⟨hi, rfl⟩
  · split
    · exact ⟨sys_inv_transfer c w _ _ _ (fun _ _ => rfl) rfl (List.Subperm.refl _) hi rfl, rfl⟩
    · exact ⟨sys_inv_transfer c w _ _ _ (fun _ _ => rfl) rfl (List.Subperm.refl _) hi rfl, rfl⟩

theorem add_process_inv (c : Config) (w w' : world) (p : pcb)
    (hi : sys_inv c w (p :: live w)) (h : add_process w p = .ok w') :
    sys_inv c w' (live w') := by
  unfold add_process at h
  split at h
  · split at h
    · cases h
    · rename_i w1 hab
      cases h
      obtain ⟨a1, a2, -, a4, -, a6⟩ := add_back_live _ _ _ hab
      refine sys_inv_transfer c w _ _ _ (fun _ _ => congrArg _ a2) a1 ?_ hi
        (add_back_cwd w w1 p hab)
      show (w1.state.cur.toList ++ w1.state.queue.map ll.p).Subperm _
      rw [a4]
      refine List.Subperm.trans ?_ (List.perm_append_singleton p (live w)).subperm
      unfold live
      rw [List.append_assoc]
      exact (List.Sublist.append_left a6 _).subperm
  · split at h
    · cases h
    · rename_i w1 hab
      cases h
      obtain ⟨a1, a2, -, a4, -, a6⟩ := add_back_live _ _ _ hab
      refine sys_inv_transfer c w _ _ _ (fun _ _ => congrArg _ a2) a1 ?_ hi
        (add_back_cwd w w1 p hab)
      show (w1.state.cur.toList ++ w1.state.queue.map ll.p).Subperm _
      rw [a4]
      refine List.Subperm.trans ?_ (List.perm_append_singleton p (live w)).subperm
      unfold live
      rw [List.append_assoc]
      exact (List.Sublist.append_left a6 _).subperm
  · cases h
    obtain ⟨a1, a2, -, a4, -, a6⟩ := add_with_priority_live w p p.bound
    refine sys_inv_transfer c w _ _ _ (fun _ _ => congrArg _ a2) a1 ?_ hi
      (add_with_priority_cwd w p p.bound)
    show ((add_with_priority w p p.bound).state.cur.toList ++
      (add_with_priority w p p.bound).state.queue.map ll.p).Subperm _
    rw [a4]
    refine List.Perm.subperm ?_
    unfold live
    exact (List.Perm.append_left _ a6).trans List.perm_middle
  · cases h
    obtain ⟨a1, a2, -, a4, -, a6⟩ := add_with_priority_live w p p.bound
    refine sys_inv_transfer c w _ _ _ (fun _ _ => congrArg _ a2) a1 ?_ hi
      (add_with_priority_cwd w p p.bound)
    show ((add_with_priority w p p.bound).state.cur.toList ++
      (add_with_priority w p p.bound).state.queue.map ll.p).Subperm _
    rw [a4]
    refine List.Perm.subperm ?_
    unfold live
    exact (List.Perm.append_left _ a6).trans List.perm_middle
  · cases h
    exact sys_inv_transfer c w _ _ _ (fun _ _ => rfl) rfl
      (List.sublist_cons_self _ _).subperm hi rfl


theorem print_inv (c : Config) (w : world) (msg : String) (hi : sys_inv c w (live w)) :
    sys_inv c (print w msg) (live (print w msg)) :=
  sys_inv_transfer c w _ _ _ (fun _ _ => rfl) rfl (List.Subperm.refl _) hi rfl

theorem run_inv (c : Config) (w w' : world) (script : cstr) (code : Int)
    (hFS : 0 < c.FRAMESIZE) (hi : sys_inv c w (live w))
    (h : run c w script = .ok (code, w')) : sys_inv c w' (live w') := by
  unfold run at h
  split at h
  · cases h
    exact print_inv c w _ hi
  · split at h
    · cases h
    · rename_i w1 hl
      cases h
      obtain ⟨h1, hst⟩ := load_script_inv c w w1 script none _ hFS hi hl
      apply print_inv
      have : live w1 = live w := by unfold live; rw [hst]
      rw [this]
      exact h1
    · rename_i p w1 hl
      split at h
      · cases h
      · rename_i w2 ha
        cases h
        obtain ⟨h1, hst⟩ := load_script_inv c w w1 script (some p) _ hFS hi hl
        have hl1 : live w1 = live w := by unfold live; rw [hst]
        obtain ⟨h2, hl2⟩ := set_scheduler_mode_inv c w1 .FCFS _ h1
        apply add_process_inv c _ _ p _ ha
        rw [hl2, hl1]
        exact h2

theorem exec_loop_inv (c : Config) (hFS : 0 < c.FRAMESIZE) : ∀ (progs : List cstr)
    (w w' : world) (code : Int), sys_inv c w (live w) →
    exec_loop c progs w = .ok (code, w') → sys_inv c w' (live w')
  | [], w, w', code, hi, h => by
    rw [exec_loop] at h
    cases h
    exact hi
  | a :: rest, w, w', code, hi, h => by
    rw [exec_loop] at h
    split at h
    · cases h
    · rename_i w1 hl
      cases h
      obtain ⟨h1, hst⟩ := load_script_inv c w w1 a none _ hFS hi hl
      apply print_inv
      have : live w1 = live w := by unfold live; rw [hst]
      rw [this]
      exact h1
    · rename_i p w1 hl
      split at h
      · cases h
      · rename_i w2 ha
        obtain ⟨h1, hst⟩ := load_script_inv c w w1 a (some p) _ hFS hi hl
        have hl1 : live w1 = live w := by unfold live; rw [hst]
        refine exec_loop_inv c hFS rest w2 w' code ?_ h
        apply add_process_inv c _ _ p _ ha
        rw [hl1]
        exact h1

theorem exec_inv (c : Config) (w w' : world) (progs : List cstr) (policy : cstr) (code : Int)
    (hFS : 0 < c.FRAMESIZE) (hi : sys_inv c w (live w))
    (h : exec c w progs policy = .ok (code, w')) : sys_inv c w' (live w') := by
  unfold exec at h
  split at h
  · cases h
    exact print_inv c w _ hi
  · split at h
    · cases h
      exact print_inv c w _ hi
    · rename_i mode hm
      obtain ⟨h2, hl2⟩ := set_scheduler_mode_inv c w mode _ hi
      refine exec_loop_inv c hFS progs _ w' code ?_ h
      rw [hl2]
      exact h2

theorem cmd_step_inv (c : Config) (w w' : world) (hFS : 0 < c.FRAMESIZE)
    (hi : sys_inv c w (live w)) (h : cmd_step c w w') : sys_inv c w' (live w') := by
  cases h with
  | other hp =>
    have : live w' = live w := by unfold live; rw [hp.1]
    rw [this]
    exact sys_inv_same_paging c w w' _ hp hi
  | run script code hr => exact run_inv c w w' script code hFS hi hr
  | exec progs policy code he => exact exec_inv c w w' progs policy code hFS hi he

theorem cmd_steps_inv (c : Config) (w w' : world) (hFS : 0 < c.FRAMESIZE)
    (hi : sys_inv c w (live w)) (h : Relation.ReflTransGen (cmd_step c) w w') :
    sys_inv c w' (live w') := by
  induction h with
  | refl => exact hi
  | tail _ hs ih => exact cmd_step_inv c _ _ hFS ih hs

theorem rbl_ok_inv (c : Config) (rbl : cstr → world → Except halt world)
    (hFS : 0 < c.FRAMESIZE) (hr : rbl_ok c rbl) :
    ∀ line w0 w1, sys_inv c w0 (live w0) → rbl line w0 = .ok w1 → sys_inv c w1 (live w1) :=
  fun line w0 w1 hi h => cmd_steps_inv c w0 w1 hFS hi (hr line w0 w1 h)


theorem pop_front_inv (c : Config) (w : world) (hcur : w.state.cur = none)
    (hi : sys_inv c w (live w)) : sys_inv c (pop_front w) (live (pop_front w)) := by
  obtain ⟨h1, h2, h3, -, -⟩ := pop_front_live w hcur
  rw [h1]
  exact sys_inv_transfer c w _ _ _ (fun _ _ => congrArg _ h3) h2 (List.Subperm.refl _) hi
    (pop_front_cwd w)

theorem run_RR_loop_inv (c : Config) (rbl : cstr → world → Except halt world)
    (hFS : 0 < c.FRAMESIZE)
    (hrbl : ∀ line w0 w1, sys_inv c w0 (live w0) → rbl line w0 = .ok w1 →
      sys_inv c w1 (live w1)) :
    ∀ (n : Nat) (w w' : world), sys_inv c w (live w) → run_RR_loop c rbl n w = .ok w' →
      sys_inv c w' (live w')
  | 0, w, w', hi, h => by
    rw [run_RR_loop] at h
    cases h
    exact hi
  | n + 1, w, w', hi, h => by
    rw [run_RR_loop] at h
    split at h
    · cases h
      exact hi
    · split at h
      · cases h
      · rename_i w1 he
        exact run_RR_loop_inv c rbl hFS hrbl n w1 w' (exec_process_inv c rbl w w1 hFS hrbl hi he) h

theorem run_RR_inv (c : Config) (rbl : cstr → world → Except halt world) (w w' : world)
    (hFS : 0 < c.FRAMESIZE)
    (hrbl : ∀ line w0 w1, sys_inv c w0 (live w0) → rbl line w0 = .ok w1 →
      sys_inv c w1 (live w1))
    (hi : sys_inv c w (live w)) (h : run_RR c rbl w = .ok w') : sys_inv c w' (live w') := by
  unfold run_RR at h
  split at h
  · cases h
  · rename_i w1 hl
    have hi1 := run_RR_loop_inv c rbl hFS hrbl _ w w1 hi hl
    split at h
    · rename_i hne
      split at h
      · cases h
      · rename_i w2 hab
        cases h
        cases hc : w1.state.cur with
        | none => exact absurd hc hne
        | some cur =>
          rw [hc] at hab
          refine requeue_back c w1 w2 cur ?_ hab
          have : live w1 = cur :: w1.state.queue.map ll.p := by simp [live, hc]
          rw [← this]
          exact hi1
    · cases h
      exact hi1

theorem run_AGING_inv (c : Config) (rbl : cstr → world → Except halt world) (w w' : world)
    (hFS : 0 < c.FRAMESIZE)
    (hrbl : ∀ line w0 w1, sys_inv c w0 (live w0) → rbl line w0 = .ok w1 →
      sys_inv c w1 (live w1))
    (hi : sys_inv c w (live w)) (h : run_AGING c rbl w = .ok w') : sys_inv c w' (live w') := by
  unfold run_AGING at h
  split at h
  · cases h
  · rename_i w1 he
    have hi1 := exec_process_inv c rbl w w1 hFS hrbl hi he
    obtain ⟨d1, d2, d3, -, -, -⟩ := decr_priorities_live w1
    have hi2 : sys_inv c (decr_priorities w1) (live (decr_priorities w1)) := by
      rw [d1]
      exact sys_inv_transfer c w1 _ _ _ (fun _ _ => congrArg _ d3) d2 (List.Subperm.refl _) hi1
        rfl
    simp only at h
    split at h
    · rename_i cur hd tl hc hq
      split at h
      · cases h
        refine requeue_prio c (decr_priorities w1) cur _ ?_
        have : live (decr_priorities w1) = cur :: (decr_priorities w1).state.queue.map ll.p := by
          simp [live, hc]
        rw [← this]
        exact hi2
      · cases h
        exact hi2
    · cases h
      exact hi2

theorem run_scheduler_body_inv (c : Config) (rbl : cstr → world → Except halt world)
    (w w' : world) (r : Option Int) (hFS : 0 < c.FRAMESIZE)
    (hrbl : ∀ line w0 w1, sys_inv c w0 (live w0) → rbl line w0 = .ok w1 →
      sys_inv c w1 (live w1))
    (hi : sys_inv c w (live w)) (h : run_scheduler_body c rbl w = .ok (r, w')) :
    sys_inv c w' (live w') := by
  unfold run_scheduler_body at h
  have hi1 : sys_inv c (if w.state.cur = none then pop_front w else w)
      (live (if w.state.cur = none then pop_front w else w)) := by
    split
    · rename_i hc
      exact pop_front_inv c w hc hi
    · exact hi
  simp only at h
  split at h
  · split at h
    · cases h
    · rename_i w2 hr
      cases h
      exact exec_process_inv c rbl _ _ hFS hrbl hi1 hr
  · split at h
    · cases h
    · rename_i w2 hr
      cases h
      exact exec_process_inv c rbl _ _ hFS hrbl hi1 hr
  · split at h
    · cases h
    · rename_i w2 hr
      cases h
      exact run_RR_inv c rbl _ _ hFS hrbl hi1 hr
  · split at h
    · cases h
    · rename_i w2 hr
      cases h
      exact run_AGING_inv c rbl _ _ hFS hrbl hi1 hr
  · cases h
    exact print_inv c _ _ hi1

theorem init_shell_inv (c : Config) (files : List (cstr × cstr)) (w : world)
    (ht : text_files files) (h : init_shell c files = .ok w) (hN : 0 < c.NFRAMES) :
    sys_inv c w (live w) := by
  obtain ⟨w0, e, hwf, hsm, -, hcwd, -, -, -, hst, -⟩ := init_shell_wf c files hN
  rw [e] at h
  cases h
  have hl : live w = [] := by simp [live, hst]
  rw [hl]
  refine ⟨⟨_, hwf⟩, ?_, List.nodup_nil, fun p hp => absurd hp (List.not_mem_nil p),
    by rw [hcwd]; exact ht⟩
  intro f i hf hi _
  unfold slot_value sm_value
  rw [hsm]
  have := frame_in_memory c f hf
  rw [List.getElem?_replicate, if_pos (by omega)]
  rfl

theorem sys_reach_inv (c : Config) (files : List (cstr × cstr)) (w : world)
    (hFS : 0 < c.FRAMESIZE) (hN : 0 < c.NFRAMES) (h : sys_reach c files w) :
    sys_inv c w (live w) := by
  induction h with
  | init w ht h0 => exact init_shell_inv c files w ht h0 hN
  | cmd w w' _ hs ih => exact cmd_step_inv c w w' hFS ih hs
  | pop w _ hc ih => exact pop_front_inv c w hc ih
  | step w w' rbl _ hr he ih =>
    exact exec_process_inv c rbl w w' hFS (rbl_ok_inv c rbl hFS hr) ih he
  | tick w w' rbl r _ hr he ih =>
    exact run_scheduler_body_inv c rbl w w' r hFS (rbl_ok_inv c rbl hFS hr) ih he


theorem demo_running_reach : sys_reach demo_config demo_files demo_running := by
  have h0 : sys_reach demo_config demo_files demo_world := sys_reach.init _ (by decide) (by rfl)
  have h1 : sys_reach demo_config demo_files (world_of demo_config
      (match run demo_config demo_world "a".toList with
       | .ok r => .ok r.2
       | .error e => .error e)) :=
    sys_reach.cmd _ _ h0 (cmd_step.run _ _ "a".toList 0 (by rfl))
  exact sys_reach.pop _ h1 (by decide)


/-! ## Three one-page scripts on two frames: lemmas -/

theorem pop_front_fifo (w : world) (x : ll) (rest : List ll) (h : fifo_wf w.state)
    (hq : w.state.queue = x :: rest) :
    pop_front w = { w with state := { w.state with
        queue := rest
        cur := some x.p
        cur_priority := x.priority
        tail := (rest.getLast?).map ll.id } } ∧
      fifo_wf { w.state with
        queue := rest
        cur := some x.p
        cur_priority := x.priority
        tail := (rest.getLast?).map ll.id } := by
  have hnd := h.nodup
  rw [hq] at hnd
  simp only [List.map_cons, List.nodup_cons] at hnd
  have htail : (if w.state.tail = some x.id then none else w.state.tail)
      = (rest.getLast?).map ll.id := by
    rw [h.tail_eq, hq]
    cases rest with
    | nil => simp
    | cons y r =>
      rw [List.getLast?_cons_cons]
      cases hl : (y :: r).getLast? with
      | none => simp
      | some z =>
        have hz : z ∈ y :: r := List.mem_of_getLast?_eq_some hl
        have : z.id ≠ x.id := fun e => hnd.1 (List.mem_map.mpr ⟨z, hz, e⟩)
        simp [this]
  refine ⟨?_, ⟨hnd.2, ?_, rfl⟩⟩
  · unfold pop_front
    simp only [hq]
    rw [htail]
  · intro n hn
    exact h.fresh n (by rw [hq]; exact List.mem_cons_of_mem _ hn)


theorem exec_process_fault_back (c : Config) (rbl : cstr → world → Except halt world)
    (w w1 : world) (cur cur1 : pcb) (hcur : w.state.cur = some cur)
    (hmode : w.state.mode = .FCFS ∨ w.state.mode = .RR)
    (hread : read_instruction c w cur = .ok (none, cur1, w1)) (hq : fifo_wf w.state) :
    exec_process c rbl w = .ok { w1 with state := { w.state with
        queue := w.state.queue ++ [{ p := cur1, priority := -1, id := w.state.fresh }]
        tail := some w.state.fresh
        fresh := w.state.fresh + 1
        cur := none } } ∧
      fifo_wf { w.state with
        queue := w.state.queue ++ [{ p := cur1, priority := -1, id := w.state.fresh }]
        tail := some w.state.fresh
        fresh := w.state.fresh + 1
        cur := none } := by
  obtain ⟨⟨s1, -⟩, -⟩ := read_instruction_core c _ _ _ _ _ hread
  obtain ⟨w3, a1, a2, a3⟩ := add_back_fifo
    { w1 with state := { w1.state with cur := some cur1 } } cur1 (by
      simp only [s1]; exact ⟨hq.nodup, hq.fresh, hq.tail_eq⟩)
  have hres : exec_process c rbl w = .ok { w3 with state := { w3.state with cur := none } } := by
    rcases hmode with hm | hm
    · unfold exec_process
      simp only [hcur, hread, s1, hm]
      simp only [s1, hm] at a1
      rw [a1]
    · unfold exec_process
      simp only [hcur, hread, s1, hm]
      simp only [s1, hm] at a1
      rw [a1]
  subst a2
  refine ⟨?_, ?_⟩
  · rw [hres]
    simp only [s1]
  · simp only [s1] at a3
    exact ⟨a3.nodup, a3.fresh, a3.tail_eq⟩

theorem exec_process_fault_prio (c : Config) (rbl : cstr → world → Except halt world)
    (w w1 : world) (cur cur1 : pcb) (hcur : w.state.cur = some cur)
    (hmode : w.state.mode = .SJF ∨ w.state.mode = .AGING)
    (hread : read_instruction c w cur = .ok (none, cur1, w1)) :
    ∃ tl, exec_process c rbl w = .ok { w1 with state := { w.state with
        queue := ordered_insert { p := cur1, priority := w.state.cur_priority,
                                  id := w.state.fresh } w.state.queue
        tail := tl
        fresh := w.state.fresh + 1
        cur := none } } := by
  obtain ⟨⟨s1, -⟩, -⟩ := read_instruction_core c _ _ _ _ _ hread
  obtain ⟨tl, a1, -⟩ := add_with_priority_eq
    { w1 with state := { w1.state with cur := some cur1 } } cur1 w1.state.cur_priority
  refine ⟨tl, ?_⟩
  rcases hmode with hm | hm
  · unfold exec_process
    simp only [hcur, hread, s1, hm]
    simp only [s1, hm] at a1
    rw [a1]
  · unfold exec_process
    simp only [hcur, hread, s1, hm]
    simp only [s1, hm] at a1
    rw [a1]


theorem thrash_tick (w : world) (P Q R : pcb) (x y : Nat) (h : thrash_inv w P Q R x y)
    (rbl : cstr → world → Except halt world) :
    ∃ w' P', run_scheduler_body demo_config2 rbl w = .ok (none, w') ∧
      thrash_inv w' Q R P' y x := by
  have hFS : 0 < demo_config2.FRAMESIZE := by decide
  obtain ⟨hpq, hpr, hqr⟩ := h.pids
  obtain ⟨⟨pc0, pb, plen, pfr⟩, hQ, hR⟩ := h.pcbs
  obtain ⟨fP, fQ, fR⟩ := h.files
  -- the queue holds three nodes
  have hqm := h.queue
  cases hq : w.state.queue with
  | nil => rw [hq] at hqm; cases hqm
  | cons nP rest =>
    rw [hq] at hqm
    simp only [List.map_cons, List.cons.injEq] at hqm
    obtain ⟨hnP, hrest⟩ := hqm
    obtain ⟨hpop, hfifo1⟩ := pop_front_fifo w nP rest h.fifo hq
    -- the first read of `P` faults
    have hmem : ∀ f, f < 2 → f = x ∨ f = y := by
      intro f hf
      have : f ∈ [x, y] := h.mem.lru.perm.mem_iff.mpr (by
        show f ∈ List.range 2
        simpa using hf)
      simpa using this
    have hcond : P.pagetable[P.pc / demo_config2.FRAMESIZE]? = some none ∨
        ∃ f, P.pagetable[P.pc / demo_config2.FRAMESIZE]? = some (some f) ∧
          key_at demo_config2 w.m_state f ≠
            some (create_frame_key P.pid (P.pc / demo_config2.FRAMESIZE)) := by
      rw [pc0]
      have h0 : (0 : Nat) / demo_config2.FRAMESIZE = 0 := by decide
      rw [h0]
      cases he : P.pagetable[0]? with
      | none =>
        have := List.getElem?_eq_none_iff.mp he
        omega
      | some e =>
        cases e with
        | none => exact Or.inl rfl
        | some f =>
          refine Or.inr ⟨f, rfl, ?_⟩
          rcases hmem f (pfr 0 f he) with rfl | rfl
          · rw [h.key_x]
            intro e
            exact hpq (create_frame_key_inj _ _ _ _ (Option.some.inj e)).1.symm
          · rw [h.key_y]
            intro e
            exact hpr (create_frame_key_inj _ _ _ _ (Option.some.inj e)).1.symm
    have hpage0 : P.pc / demo_config2.FRAMESIZE = 0 := by rw [pc0]; decide
    obtain ⟨m1, sm, out, hload, hwf, -, hvar, hkey, -, -, -⟩ :=
      load_page_spec demo_config2 (pop_front w) P 0 x [y] hFS (by rw [hpop]; exact h.mem)
        (by rw [hpop]; exact fP) (by simp) (by omega)
    have hread : read_instruction demo_config2 (pop_front w) P =
        .ok (none, { P with pagetable := P.pagetable.set 0 (some x) },
          { pop_front w with m_state := { m1 with shellmemory := sm, frames_allocated := 1 }
                             stdout := out }) := by
      rw [read_instruction_fault demo_config2 (pop_front w) P [x, y] hFS
        (by rw [hpop]; exact h.mem) pfr (by rw [hpop]; exact hcond), hpage0, hload]
    have hst1 : (pop_front w).state = { w.state with
        queue := rest
        cur := some nP.p
        cur_priority := nP.priority
        tail := (rest.getLast?).map ll.id } := by rw [hpop]
    have hbs1 : (pop_front w).backing_store = w.backing_store := by rw [hpop]
    have hex1 : (pop_front w).executed = w.executed := by rw [hpop]
    have hsm1 : (pop_front w).m_state = w.m_state := by rw [hpop]
    have hcur1 : (pop_front w).state.cur = some P := by rw [hst1, hnP]
    have hmode1 : (pop_front w).state.mode = .FCFS := by rw [hst1]; exact h.mode
    obtain ⟨hexec, hfifo3⟩ := exec_process_fault_back demo_config2 rbl (pop_front w) _ P _ hcur1
      (Or.inl hmode1) hread (by rw [hst1]; exact hfifo1)
    have hbody : ∀ w', exec_process demo_config2 rbl (pop_front w) = .ok w' →
        run_scheduler_body demo_config2 rbl w = .ok (none, w') := by
      intro w' he
      unfold run_scheduler_body
      simp only [h.cur, if_true, hmode1, run_basic]
      rw [he]
    refine ⟨_, { P with pagetable := P.pagetable.set 0 (some x) }, hbody _ hexec, ?_⟩
    · refine ⟨?_, ?_, rfl, hfifo3, ?_, ?_, hwf, ?_, ?_, ⟨hqr, hpq.symm, hpr.symm⟩,
        ⟨hQ, hR, ⟨pc0, pb, by simp [plen], ?_⟩⟩, ⟨?_, ?_, ?_⟩⟩
      · show (pop_front w).state.np = 3
        rw [hst1]; exact h.np
      · exact hmode1
      · show ((pop_front w).state.queue ++ _).map ll.p = _
        rw [hst1]
        simp [hrest]
      · show (pop_front w).executed = []
        rw [hex1]; exact h.executed
      · show sm_var sm (get_frame_start demo_config2 y) = _
        rw [hvar, hsm1]
        · exact h.key_y
        · have hxy : x ≠ y := by
            have := h.mem.lru.perm.nodup_iff.mpr (List.nodup_range 2)
            simp at this
            exact this
          have := frame_disjoint demo_config2 y x 0 0 (fun e => hxy e.symm) hFS hFS
          simpa using this
      · exact hkey
      · intro k f hk
        simp only at hk
        by_cases hk0 : k = 0
        · subst hk0
          rw [List.getElem?_set_self (by omega)] at hk
          cases hk
          have : x ∈ List.range 2 := h.mem.lru.perm.mem_iff.mp (by simp)
          simpa using this
        · rw [List.getElem?_set_ne (fun e => hk0 e.symm)] at hk
          exact pfr k f hk
      · intro content hc
        exact fQ content (by rw [← hbs1]; exact hc)
      · intro content hc
        exact fR content (by rw [← hbs1]; exact hc)
      · intro content hc
        exact fP content (by rw [← hbs1]; exact hc)


theorem thrash_forever (rbl : cstr → world → Except halt world) : ∀ (n : Nat) (w : world)
    (P Q R : pcb) (x y : Nat), thrash_inv w P Q R x y →
    ∃ w', run_scheduler demo_config2 rbl n w = .ok (none, w') ∧ w'.executed = [] ∧
      w'.state.np = 3
  | 0, w, P, Q, R, x, y, h => by
    refine ⟨w, ?_, h.executed, h.np⟩
    rw [run_scheduler, if_pos (by rw [h.np]; decide)]
  | n + 1, w, P, Q, R, x, y, h => by
    obtain ⟨w1, P', hb, h1⟩ := thrash_tick w P Q R x y h rbl
    obtain ⟨w', hr, he, hn⟩ := thrash_forever rbl n w1 Q R P' y x h1
    refine ⟨w', ?_, he, hn⟩
    rw [run_scheduler, if_pos (by rw [h.np]; decide), hb]
    exact hr

theorem demo_thrash_exec :
    ∃ w0, init_shell demo_config2 demo_files = .ok w0 ∧
      exec demo_config2 w0 ["s".toList, "s".toList, "s".toList] "FCFS".toList
        = .ok (0, demo_thrash) :=
  ⟨_, rfl, by rfl⟩

theorem demo_thrash_inv :
    thrash_inv demo_thrash { pid := 0, bound := 1, pc := 0, pagetable := [some 0] }
      { pid := 1, bound := 1, pc := 0, pagetable := [some 1] }
      { pid := 2, bound := 1, pc := 0, pagetable := [some 0] } 1 0 := by
  have hreach : sys_reach demo_config2 demo_files demo_thrash := by
    obtain ⟨w0, h0, h1⟩ := demo_thrash_exec
    exact sys_reach.cmd _ _ (sys_reach.init _ (by decide) h0) (cmd_step.exec _ _ _ _ _ h1)
  obtain ⟨l, hl⟩ := (sys_reach_inv demo_config2 demo_files demo_thrash (by decide) (by decide)
    hreach).mem
  have hlo : lru_order demo_thrash.m_state = [1, 0] := by decide
  rw [lru_order_eq _ _ _ hl.lru] at hlo
  subst hlo
  have hfile : ∀ p : pcb, p.pid < 3 → p.bound = 1 → file_ok demo_thrash p := by
    intro p hp hb content hc
    have h3 : ∀ i, i < 3 → demo_thrash.backing_store.lookup i = some "s1\n".toList := by decide
    rw [h3 p.pid hp] at hc
    cases hc
    rw [hb]
    decide
  refine ⟨by decide, by decide, by decide, ⟨by decide, by decide, by decide⟩, by decide,
    by decide, hl, by decide, by decide, by decide, ?_, ?_⟩
  · refine ⟨⟨rfl, rfl, rfl, ?_⟩, ⟨rfl, rfl, rfl, ?_⟩, ⟨rfl, rfl, rfl, ?_⟩⟩ <;>
    · intro k f hk
      cases k with
      | zero => cases hk; decide
      | succ k => cases hk
  · exact ⟨hfile _ (by decide) rfl, hfile _ (by decide) rfl, hfile _ (by decide) rfl⟩


/-! ## Scripts that fit into the frame store: lemmas -/

theorem count_none_set (l : List (Option Nat)) (i h : Nat) (hi : l[i]? = some none) :
    (l.set i (some h)).count none + 1 = l.count none := by
  induction l generalizing i with
  | nil => simp at hi
  | cons x rest ih =>
    cases i with
    | zero =>
      simp only [List.getElem?_cons_zero, Option.some.injEq] at hi
      subst hi
      simp [List.count_cons]
    | succ i =>
      simp only [List.getElem?_cons_succ] at hi
      simp only [List.set_cons_succ, List.count_cons]
      have := ih i hi
      omega

theorem missing_pos (p : pcb) (k : Nat) (h : p.pagetable[k]? = some none) : 0 < missing p := by
  unfold missing
  rw [List.count_pos_iff]
  exact List.getElem?_mem h


theorem fit_pcb.fit_file_ok {c : Config} {w : world} {spec : Nat → Option (List cstr)} {p : pcb}
    (h : fit_pcb c w spec p) : file_ok w p := by
  obtain ⟨content, hc, hb, -⟩ := h.file
  intro content' hc'
  rw [hc] at hc'
  cases hc'
  exact Nat.le_of_eq hb

/-- Loading a page that was never loaded, in a system with room for it: the
frame at the head of the LRU list has no key, takes the page completely, and
nothing else changes. -/
theorem fit_load (c : Config) (w : world) (spec : Nat → Option (List cstr)) (p : pcb)
    (rest : List pcb) (slack : Nat) (u v : List Nat) (page : Nat) (hFS : 0 < c.FRAMESIZE)
    (hi : fit_inv c w spec (p :: rest) slack u v)
    (hpt : p.pagetable[page]? = some none)
    (hlt : page * c.FRAMESIZE < p.bound)
    (hfull : p.pc + min c.FRAMESIZE (p.bound - page * c.FRAMESIZE) ≤ p.bound)
    (hfresh : p.pc / c.FRAMESIZE ≠ page →
      p.pagetable[p.pc / c.FRAMESIZE]? = some none → p.pc % c.FRAMESIZE = 0) :
    ∃ h u' w1, u = h :: u' ∧
      load_page c w p page = .ok ({ p with pagetable := p.pagetable.set page (some h) }, w1) ∧
      fit_inv c w1 spec ({ p with pagetable := p.pagetable.set page (some h) } :: rest)
        slack u' (v ++ [h]) ∧
      w1.state = w.state ∧ w1.backing_store = w.backing_store ∧ w1.executed = w.executed ∧
      w1.cwd = w.cwd ∧ w1.cur_pid = w.cur_pid := by
  have hp := hi.pcbs p (List.mem_cons_self _ _)
  have hb := hi.budget
  simp only [List.map_cons, List.sum_cons] at hb
  have hm := missing_pos p page hpt
  cases u with
  | nil => simp at hb; omega
  | cons h u' =>
    have hpage : page < p.pagetable.length := by
      by_contra hn
      rw [List.getElem?_eq_none (by omega)] at hpt
      cases hpt
    obtain ⟨content, hc, hbd, hspec, hex⟩ := hp.file
    obtain ⟨m1, sm, out, heq, hwf, -, hvar, hkey, hval, -, hslots⟩ :=
      load_page_spec c w p page h (u' ++ v) hFS hi.mem hp.fit_file_ok (Nat.le_of_lt hlt) hpage
    have hnd : (h :: (u' ++ v)).Nodup :=
      hi.mem.lru.perm.nodup_iff.mpr (List.nodup_range _)
    have hhd : h < c.NFRAMES := by
      have := hi.mem.lru.perm.mem_iff.mp (List.mem_cons_self h (u' ++ v))
      simpa using this
    have hkh : key_at c w.m_state h = none := hi.unkeyed h (List.mem_cons_self _ _)
    have hk' : ∀ g, g ≠ h → key_at c { m1 with shellmemory := sm, frames_allocated := 1 } g
        = key_at c w.m_state g := by
      intro g hg
      have := frame_disjoint c g h 0 0 hg hFS hFS
      simp only [Nat.add_zero] at this
      exact hvar _ this
    have hs' : ∀ g i, g ≠ h → i < c.FRAMESIZE →
        slot_value c { m1 with shellmemory := sm, frames_allocated := 1 } g i
          = slot_value c w.m_state g i := by
      intro g i hg hi'
      apply hval
      intro ⟨h1, h2⟩
      exact frame_disjoint c g h i (get_frame_start c g + i - get_frame_start c h) hg hi'
        (by omega) (by omega)
    have hkeyed_ne : ∀ g x, key_at c w.m_state g = some x → g ≠ h := by
      intro g x hg e
      rw [e, hkh] at hg
      cases hg
    refine ⟨h, u', _, rfl, heq, ⟨?_, ?_, ?_, hi.pids, ?_, ?_⟩, rfl, rfl, rfl, rfl, rfl⟩
    · rw [← List.append_assoc]
      exact hwf
    · intro g hg
      have hgh : g ≠ h := by
        intro e
        subst e
        exact (List.nodup_cons.mp hnd).1 (List.mem_append_left _ hg)
      rw [hk' g hgh]
      exact hi.unkeyed g (List.mem_cons_of_mem _ hg)
    · simp only [List.map_cons, List.sum_cons, List.length_cons] at hb ⊢
      have := count_none_set p.pagetable page h hpt
      unfold missing at hb ⊢
      simp only
      omega
    · intro q hq
      rcases List.mem_cons.mp hq with rfl | hq
      · refine ⟨⟨by simpa using hp.ok.table_len, hp.ok.pc_lt, ?_⟩, hp.pid_lt,
          ⟨content, hc, hbd, hspec, hex⟩, ?_, ?_, ?_⟩
        · intro k g hk
          simp only at hk
          by_cases hkp : k = page
          · subst hkp
            rw [List.getElem?_set_self hpage] at hk
            cases hk
            exact hhd
          · rw [List.getElem?_set_ne (fun e => hkp e.symm)] at hk
            exact hp.ok.frames k g hk
        · intro k g hk
          simp only at hk
          by_cases hkp : k = page
          · subst hkp
            rw [List.getElem?_set_self hpage] at hk
            cases hk
            exact hkey
          · rw [List.getElem?_set_ne (fun e => hkp e.symm)] at hk
            have := hp.keyed k g hk
            rw [hk' g (hkeyed_ne g _ this)]
            exact this
        · intro k g i ct hk hct hi' hlt'
          simp only at hk hct
          rw [hc] at hct
          cases hct
          by_cases hkp : k = page
          · subst hkp
            rw [List.getElem?_set_self hpage] at hk
            cases hk
            have := hslots content hc hex.2 hlt hfull i hi'
            rw [if_pos hlt'] at this
            exact this
          · rw [List.getElem?_set_ne (fun e => hkp e.symm)] at hk
            rw [hs' g i (hkeyed_ne g _ (hp.keyed k g hk)) hi']
            exact hp.loaded k g i content hk hc hi' hlt'
        · intro hnone
          simp only at hnone
          by_cases hkp : p.pc / c.FRAMESIZE = page
          · rw [hkp, List.getElem?_set_self hpage] at hnone
            cases hnone
          · rw [List.getElem?_set_ne (fun e => hkp e.symm)] at hnone
            exact hfresh hkp hnone
      · have hqi := hi.pcbs q (List.mem_cons_of_mem _ hq)
        refine ⟨hqi.ok, hqi.pid_lt, hqi.file, ?_, ?_, hqi.fresh_page⟩
        · intro k g hk
          have := hqi.keyed k g hk
          rw [hk' g (hkeyed_ne g _ this)]
          exact this
        · intro k g i ct hk hct hi' hlt'
          rw [hs' g i (hkeyed_ne g _ (hqi.keyed k g hk)) hi']
          exact hqi.loaded k g i ct hk hct hi' hlt'
    · intro pid lines hpid hsp hne
      exact hi.done_ok pid lines hpid hsp (by
        intro q hq
        rcases List.mem_cons.mp hq with e | hq
        · rw [e]
          exact hne { p with pagetable := p.pagetable.set page (some h) }
            (List.mem_cons_self _ _)
        · exact hne q (List.mem_cons_of_mem _ hq))


theorem fit_pcb_congr (c : Config) (w w' : world) (spec : Nat → Option (List cstr)) (p : pcb)
    (hb : w'.backing_store.lookup p.pid = w.backing_store.lookup p.pid)
    (hs : ∀ j, c.VARMEMSIZE ≤ j → w'.m_state.shellmemory[j]? = w.m_state.shellmemory[j]?)
    (he : ex_of w' p.pid = ex_of w p.pid) (hc : w.cur_pid ≤ w'.cur_pid)
    (h : fit_pcb c w spec p) : fit_pcb c w' spec p := by
  refine ⟨h.ok, Nat.lt_of_lt_of_le h.pid_lt hc, by rw [hb, he]; exact h.file, ?_, ?_,
    h.fresh_page⟩
  · intro k f hk
    rw [key_at_congr c _ _ f hs]
    exact h.keyed k f hk
  · intro k f i ct hk hct hi hlt
    rw [slot_value_congr c _ _ f i hs]
    rw [hb] at hct
    exact h.loaded k f i ct hk hct hi hlt

theorem fit_inv_congr (c : Config) (w w' : world) (spec : Nat → Option (List cstr))
    (ps : List pcb) (slack : Nat) (u v : List Nat)
    (hb : w'.backing_store = w.backing_store)
    (h1 : w'.m_state.heap = w.m_state.heap) (h2 : w'.m_state.ll_quick = w.m_state.ll_quick)
    (h3 : w'.m_state.head = w.m_state.head) (h4 : w'.m_state.tail = w.m_state.tail)
    (hlen : w'.m_state.shellmemory.length = w.m_state.shellmemory.length)
    (hs : ∀ j, c.VARMEMSIZE ≤ j → w'.m_state.shellmemory[j]? = w.m_state.shellmemory[j]?)
    (he : w'.executed = w.executed) (hc : w'.cur_pid = w.cur_pid)
    (h : fit_inv c w spec ps slack u v) : fit_inv c w' spec ps slack u v := by
  have hex : ∀ pid, ex_of w' pid = ex_of w pid := fun pid => by unfold ex_of; rw [he]
  refine ⟨mem_wf_congr c _ _ _ h.mem h1 h2 h3 h4 hlen hs, ?_, h.budget, h.pids, ?_, ?_⟩
  · intro f hf
    rw [key_at_congr c _ _ f hs]
    exact h.unkeyed f hf
  · intro p hp
    exact fit_pcb_congr c w w' spec p (by rw [hb]) hs (hex _) (by rw [hc]) (h.pcbs p hp)
  · intro pid lines hpid hsp hne
    rw [hex]
    rw [hc] at hpid
    exact h.done_ok pid lines hpid hsp hne

theorem fit_inv_state (c : Config) (w w' : world) (spec : Nat → Option (List cstr))
    (ps : List pcb) (slack : Nat) (u v : List Nat)
    (hb : w'.backing_store = w.backing_store) (hm : w'.m_state = w.m_state)
    (he : w'.executed = w.executed) (hc : w'.cur_pid = w.cur_pid)
    (h : fit_inv c w spec ps slack u v) : fit_inv c w' spec ps slack u v :=
  fit_inv_congr c w w' spec ps slack u v hb (by rw [hm]) (by rw [hm]) (by rw [hm]) (by rw [hm])
    (by rw [hm]) (fun _ _ => by rw [hm]) he hc h

theorem fit_inv_perm (c : Config) (w : world) (spec : Nat → Option (List cstr))
    (ps ps' : List pcb) (slack : Nat) (u v : List Nat) (hp : ps'.Perm ps)
    (h : fit_inv c w spec ps slack u v) : fit_inv c w spec ps' slack u v := by
  refine ⟨h.mem, h.unkeyed, ?_, (hp.map _).nodup_iff.mpr h.pids,
    fun p hq => h.pcbs p (hp.mem_iff.mp hq), ?_⟩
  · rw [(hp.map missing).sum_eq]
    exact h.budget
  · intro pid lines hpid hsp hne
    exact h.done_ok pid lines hpid hsp (fun p hq => hne p (hp.mem_iff.mpr hq))

/-- Reading an instruction whose page is in memory, in a system without
evictions: the line at `pc` of the script is returned and only the LRU order
changes. -/
theorem fit_hit (c : Config) (w : world) (spec : Nat → Option (List cstr)) (p : pcb)
    (rest : List pcb) (slack : Nat) (u v : List Nat) (f : Nat) (hFS : 0 < c.FRAMESIZE)
    (hi : fit_inv c w spec (p :: rest) slack u v)
    (hpt : p.pagetable[p.pc / c.FRAMESIZE]? = some (some f)) :
    ∃ m1 line content, read_instruction c w p = .ok (some line, p, { w with m_state := m1 }) ∧
      w.backing_store.lookup p.pid = some content ∧
      (script_lines content)[p.pc]? = some line ∧
      fit_inv c { w with m_state := m1 } spec (p :: rest) slack u (v.erase f ++ [f]) := by
  have hp := hi.pcbs p (List.mem_cons_self _ _)
  have hkey := hp.keyed _ f hpt
  have hf := hp.ok.frames _ f hpt
  obtain ⟨content, hc, hbd, -, -⟩ := hp.file
  obtain ⟨m1, -, hwf, hsm, -, -, hread⟩ :=
    read_instruction_hit c w p (u ++ v) f hFS hi.mem hf hpt hkey
  have hpc : p.pc / c.FRAMESIZE * c.FRAMESIZE + p.pc % c.FRAMESIZE = p.pc :=
    Nat.div_add_mod' _ _
  have hslot := hp.loaded _ f (p.pc % c.FRAMESIZE) content hpt hc (Nat.mod_lt _ hFS)
    (by rw [hpc]; exact hp.ok.pc_lt)
  rw [hpc] at hslot
  have hlt : p.pc < (script_lines content).length := by rw [← hbd]; exact hp.ok.pc_lt
  rw [List.getElem?_eq_getElem hlt] at hslot
  rw [hslot] at hread
  refine ⟨m1, _, content, hread, hc, List.getElem?_eq_getElem hlt, ?_⟩
  have hfu : f ∉ u := by
    intro hmem
    rw [hi.unkeyed f hmem] at hkey
    cases hkey
  have hs : ∀ j, c.VARMEMSIZE ≤ j →
      ({ w with m_state := m1 } : world).m_state.shellmemory[j]? = w.m_state.shellmemory[j]? :=
    fun j _ => by simp only [hsm]
  have hex : ∀ pid, ex_of ({ w with m_state := m1 } : world) pid = ex_of w pid := fun _ => rfl
  refine ⟨?_, ?_, hi.budget, hi.pids, ?_, hi.done_ok⟩
  · rw [List.erase_append_right _ hfu, List.append_assoc] at hwf
    exact hwf
  · intro g hg
    rw [key_at_congr c _ _ g hs]
    exact hi.unkeyed g hg
  · intro q hq
    exact fit_pcb_congr c w _ spec q rfl hs (hex _) (Nat.le_refl _) (hi.pcbs q hq)


theorem exec_process_cont (c : Config) (w w1 : world) (cur : pcb) (instr : cstr)
    (hcur : w.state.cur = some cur)
    (hread : read_instruction c w cur = .ok (some instr, cur, w1)) (hst : w1.state = w.state)
    (hnot : cur.pc + 1 < cur.bound) :
    exec_process c rbl_inert w = .ok { w1 with
      state := { w.state with cur := some { cur with pc := cur.pc + 1 } }
      executed := w1.executed ++ [(cur.pid, instr)] } := by
  unfold exec_process
  simp only [hcur, hread, hst]
  rw [if_neg (by simp only [ge_iff_le, not_le]; exact hnot)]
  rfl

theorem exec_process_done (c : Config) (w w1 : world) (cur : pcb) (instr : cstr)
    (hcur : w.state.cur = some cur)
    (hread : read_instruction c w cur = .ok (some instr, cur, w1)) (hst : w1.state = w.state)
    (hdone : cur.bound ≤ cur.pc + 1)
    (hsize : w1.m_state.shellmemory.length = c.SHELLMEMSIZE) :
    ∃ B S m, exec_process c rbl_inert w = .ok { w1 with
        m_state := m
        backing_store := B
        stdout := S
        state := { w.state with cur := none, np := w.state.np - 1 }
        executed := w1.executed ++ [(cur.pid, instr)] } ∧
      B.lookup cur.pid = none ∧
      (∀ q, q ≠ cur.pid → B.lookup q = w1.backing_store.lookup q) ∧
      (w.state.np - 1 ≠ 0 → m = w1.m_state) ∧
      (w.state.np - 1 = 0 → mem_reset_frames c w1.m_state = .ok m) := by
  obtain ⟨B, S, hB, hBn, hBo, -⟩ := remove_process_store_eq
    { w1 with state := { w.state with cur := some { cur with pc := cur.pc + 1 } } }
    { cur with pc := cur.pc + 1 }
  obtain ⟨sm, hreset, -⟩ := mem_reset_frames_spec c w1.m_state hsize
  by_cases hnp : w.state.np - 1 = 0
  · refine ⟨B, S, { w1.m_state with shellmemory := sm, frames_allocated := 0 }, ?_, hBn, hBo,
      fun h => absurd hnp h, fun _ => hreset⟩
    unfold exec_process
    simp only [hcur, hread, hst, free_process]
    rw [if_pos (by simp only [ge_iff_le]; exact hdone), hB]
    simp only [hnp, if_true, hreset]
    rfl
  · refine ⟨B, S, w1.m_state, ?_, hBn, hBo, fun _ => rfl, fun h => absurd h hnp⟩
    unfold exec_process
    simp only [hcur, hread, hst, free_process]
    rw [if_pos (by simp only [ge_iff_le]; exact hdone), hB]
    simp only [hnp, if_false]
    rfl


theorem ex_of_append (w w' : world) (q : Nat) (instr : cstr)
    (he : w'.executed = w.executed ++ [(q, instr)]) (pid : Nat) :
    ex_of w' pid = if pid = q then ex_of w pid ++ [instr] else ex_of w pid := by
  unfold ex_of
  rw [he, List.filter_append, List.map_append]
  by_cases h : pid = q
  · subst h
    simp
  · have : ¬ q = pid := fun e => h e.symm
    simp [h, this]

theorem next_page_start (pc FS : Nat) (h : (pc + 1) / FS ≠ pc / FS) : (pc + 1) % FS = 0 := by
  rw [Nat.succ_div] at h
  by_cases hd : FS ∣ pc + 1
  · exact Nat.mod_eq_zero_of_dvd hd
  · simp [hd] at h

theorem fit_advance (c : Config) (w w' : world) (spec : Nat → Option (List cstr)) (p : pcb)
    (rest : List pcb) (slack : Nat) (u v : List Nat) (line content : cstr) (f : Nat)
    (hi : fit_inv c w spec (p :: rest) slack u v)
    (hpt : p.pagetable[p.pc / c.FRAMESIZE]? = some (some f))
    (hc : w.backing_store.lookup p.pid = some content)
    (hline : (script_lines content)[p.pc]? = some line)
    (hm : w'.m_state = w.m_state) (he : w'.executed = w.executed ++ [(p.pid, line)])
    (hcp : w'.cur_pid = w.cur_pid) (hb : w'.backing_store = w.backing_store)
    (hnot : p.pc + 1 < p.bound) :
    fit_inv c w' spec ({ p with pc := p.pc + 1 } :: rest) slack u v := by
  have hp := hi.pcbs p (List.mem_cons_self _ _)
  have hs : ∀ j, c.VARMEMSIZE ≤ j → w'.m_state.shellmemory[j]? = w.m_state.shellmemory[j]? :=
    fun _ _ => by rw [hm]
  have hex := ex_of_append w w' p.pid line he
  refine ⟨by rw [hm]; exact hi.mem, fun g hg => by rw [hm]; exact hi.unkeyed g hg, hi.budget,
    hi.pids, ?_, ?_⟩
  · intro q hq
    rcases List.mem_cons.mp hq with rfl | hq
    · obtain ⟨content', hc', hbd, hspec, hexp, htx⟩ := hp.file
      rw [hc] at hc'
      cases hc'
      refine ⟨⟨hp.ok.table_len, hnot, hp.ok.frames⟩, by rw [hcp]; exact hp.pid_lt,
        ⟨content, by rw [hb]; exact hc, hbd, hspec, ?_, htx⟩, ?_, ?_, ?_⟩
      · show ex_of w' p.pid = (script_lines content).take (p.pc + 1)
        rw [hex p.pid, if_pos rfl, hexp, List.take_succ, hline]
        rfl
      · intro k g hk
        rw [hm]
        exact hp.keyed k g hk
      · intro k g i ct hk hct hi' hlt
        rw [hm]
        rw [hb] at hct
        exact hp.loaded k g i ct hk hct hi' hlt
      · intro hnone
        simp only at hnone
        by_cases hsame : (p.pc + 1) / c.FRAMESIZE = p.pc / c.FRAMESIZE
        · rw [hsame, hpt] at hnone
          cases hnone
        · exact next_page_start _ _ hsame
    · have hne : q.pid ≠ p.pid := by
        have hnd := (List.nodup_cons.mp hi.pids).1
        exact fun e => hnd (List.mem_map.mpr ⟨q, hq, e⟩)
      exact fit_pcb_congr c w w' spec q (by rw [hb]) hs (by rw [hex, if_neg hne])
        (by rw [hcp]) (hi.pcbs q (List.mem_cons_of_mem _ hq))
  · intro pid lines hpid hsp hne
    have hpp : pid ≠ p.pid := fun e =>
      hne { p with pc := p.pc + 1 } (List.mem_cons_self _ _) e.symm
    rw [hex, if_neg hpp]
    rw [hcp] at hpid
    exact hi.done_ok pid lines hpid hsp (by
      intro q hq
      rcases List.mem_cons.mp hq with e | hq
      · rw [e]; exact fun e' => hpp e'.symm
      · exact hne q (List.mem_cons_of_mem _ hq))

theorem fit_finish (c : Config) (w w' : world) (spec : Nat → Option (List cstr)) (p : pcb)
    (rest : List pcb) (slack : Nat) (u v : List Nat) (line content : cstr)
    (hi : fit_inv c w spec (p :: rest) slack u v)
    (hc : w.backing_store.lookup p.pid = some content)
    (hline : (script_lines content)[p.pc]? = some line)
    (hm : w'.m_state = w.m_state) (he : w'.executed = w.executed ++ [(p.pid, line)])
    (hcp : w'.cur_pid = w.cur_pid)
    (hb : ∀ q, q ≠ p.pid → w'.backing_store.lookup q = w.backing_store.lookup q)
    (hdone : p.bound ≤ p.pc + 1) :
    fit_inv c w' spec rest slack u v := by
  have hp := hi.pcbs p (List.mem_cons_self _ _)
  have hs : ∀ j, c.VARMEMSIZE ≤ j → w'.m_state.shellmemory[j]? = w.m_state.shellmemory[j]? :=
    fun _ _ => by rw [hm]
  have hex := ex_of_append w w' p.pid line he
  have hpne : ∀ q, q ∈ rest → q.pid ≠ p.pid := by
    intro q hq
    have hnd := (List.nodup_cons.mp hi.pids).1
    exact fun e => hnd (List.mem_map.mpr ⟨q, hq, e⟩)
  have hbud := hi.budget
  simp only [List.map_cons, List.sum_cons] at hbud
  refine ⟨by rw [hm]; exact hi.mem, fun g hg => by rw [hm]; exact hi.unkeyed g hg, by omega,
    (List.nodup_cons.mp hi.pids).2, ?_, ?_⟩
  · intro q hq
    exact fit_pcb_congr c w w' spec q (hb _ (hpne q hq)) hs (by rw [hex, if_neg (hpne q hq)])
      (by rw [hcp]) (hi.pcbs q (List.mem_cons_of_mem _ hq))
  · intro pid lines hpid hsp hne
    rw [hcp] at hpid
    by_cases hpp : pid = p.pid
    · subst hpp
      obtain ⟨content', hc', hbd, hspec, hexp, -⟩ := hp.file
      rw [hc] at hc'
      cases hc'
      rw [hspec] at hsp
      cases hsp
      rw [hex, if_pos rfl, hexp]
      have hlt := hp.ok.pc_lt
      have : (script_lines content).take (p.pc + 1) = script_lines content :=
        List.take_of_length_le (by omega)
      rw [List.take_succ, hline] at this
      exact this
    · rw [hex, if_neg hpp]
      exact hi.done_ok pid lines hpid hsp (by
        intro q hq
        rcases List.mem_cons.mp hq with e | hq
        · rw [e]; exact fun e' => hpp e'.symm
        · exact hne q hq)


theorem work_set (p : pcb) (page h : Nat) (hpt : p.pagetable[page]? = some none) :
    work { p with pagetable := p.pagetable.set page (some h) } + 1 = work p := by
  unfold work missing
  have := count_none_set p.pagetable page h hpt
  simp only
  omega

theorem fit_exec_fault (c : Config) (w : world) (spec : Nat → Option (List cstr))
    (slack : Nat) (u v : List Nat) (p : pcb) (hFS : 0 < c.FRAMESIZE)
    (hs : sched_fit c w spec slack u v) (hcur : w.state.cur = some p)
    (hpt : p.pagetable[p.pc / c.FRAMESIZE]? = some none) :
    ∃ w', exec_process c rbl_inert w = .ok w' ∧ w'.cur_pid = w.cur_pid ∧
      w'.state.mode = w.state.mode ∧
      ∃ u' v', sched_fit c w' spec slack u' v' ∧ total_work w' < total_work w := by
  have hlive : live w = p :: w.state.queue.map ll.p := by simp [live, hcur]
  have hi := hs.fit
  rw [hlive] at hi
  have hp := hi.pcbs p (List.mem_cons_self _ _)
  have hmod := hp.fresh_page hpt
  have hpc : p.pc / c.FRAMESIZE * c.FRAMESIZE = p.pc := by
    have := Nat.div_add_mod' p.pc c.FRAMESIZE
    omega
  have hlt := hp.ok.pc_lt
  obtain ⟨h, u', w1, hu, hload, hfit, hst, hbs, hex, hcwd, hcp⟩ :=
    fit_load c w spec p _ slack u v (p.pc / c.FRAMESIZE) hFS hi hpt (by omega)
      (by rw [hpc]; have := Nat.min_le_right c.FRAMESIZE (p.bound - p.pc); omega)
      (fun hne => absurd rfl hne)
  have hread : read_instruction c w p = .ok (none,
      { p with pagetable := p.pagetable.set (p.pc / c.FRAMESIZE) (some h) }, w1) := by
    rw [read_instruction_fault c w p (u ++ v) hFS hi.mem hp.ok.frames (Or.inl hpt), hload]
  have hnp := hs.np
  rw [hlive] at hnp
  have hwork : ∀ l : List pcb, l.Perm
      ({ p with pagetable := p.pagetable.set (p.pc / c.FRAMESIZE) (some h) } ::
        w.state.queue.map ll.p) → (l.map work).sum < total_work w := by
    intro l hl
    rw [(hl.map work).sum_eq]
    unfold total_work
    rw [hlive]
    simp only [List.map_cons, List.sum_cons]
    have := work_set p (p.pc / c.FRAMESIZE) h hpt
    omega
  cases hm : w.state.mode with
  | NONE => exact absurd hm hs.mode
  | FCFS =>
    obtain ⟨hexec, hfifo⟩ := exec_process_fault_back c rbl_inert w w1 p _ hcur (Or.inl hm) hread
      (hs.fifo (Or.inl hm))
    refine ⟨_, hexec, hcp, hm, u', v ++ [h], ⟨?_, ?_, by simp only [hm]; decide, fun _ => hfifo⟩, ?_⟩
    · refine fit_inv_perm c _ spec _ _ slack u' (v ++ [h]) ?_
        (fit_inv_state c w1 _ spec _ slack u' (v ++ [h]) rfl rfl rfl rfl hfit)
      simp only [live, Option.toList, List.nil_append, List.map_append, List.map_cons,
        List.map_nil]
      exact List.perm_append_singleton _ _
    · simp only [live, Option.toList, List.nil_append, List.map_append, List.map_cons,
        List.map_nil, List.length_append, List.length_cons, List.length_nil]
      simp only [List.length_cons] at hnp
      exact hnp
    · apply hwork
      simp only [live, Option.toList, List.nil_append, List.map_append, List.map_cons,
        List.map_nil]
      exact List.perm_append_singleton _ _
  | RR =>
    obtain ⟨hexec, hfifo⟩ := exec_process_fault_back c rbl_inert w w1 p _ hcur (Or.inr hm) hread
      (hs.fifo (Or.inr hm))
    refine ⟨_, hexec, hcp, hm, u', v ++ [h], ⟨?_, ?_, by simp only [hm]; decide, fun _ => hfifo⟩, ?_⟩
    · refine fit_inv_perm c _ spec _ _ slack u' (v ++ [h]) ?_
        (fit_inv_state c w1 _ spec _ slack u' (v ++ [h]) rfl rfl rfl rfl hfit)
      simp only [live, Option.toList, List.nil_append, List.map_append, List.map_cons,
        List.map_nil]
      exact List.perm_append_singleton _ _
    · simp only [live, Option.toList, List.nil_append, List.map_append, List.map_cons,
        List.map_nil, List.length_append, List.length_cons, List.length_nil]
      simp only [List.length_cons] at hnp
      exact hnp
    · apply hwork
      simp only [live, Option.toList, List.nil_append, List.map_append, List.map_cons,
        List.map_nil]
      exact List.perm_append_singleton _ _
  | SJF =>
    obtain ⟨tl, hexec⟩ := exec_process_fault_prio c rbl_inert w w1 p _ hcur (Or.inl hm) hread
    refine ⟨_, hexec, hcp, hm, u', v ++ [h], ⟨?_, ?_, by simp only [hm]; decide, ?_⟩, ?_⟩
    · refine fit_inv_perm c _ spec _ _ slack u' (v ++ [h]) ?_
        (fit_inv_state c w1 _ spec _ slack u' (v ++ [h]) rfl rfl rfl rfl hfit)
      simp only [live, Option.toList, List.nil_append]
      exact ((ordered_insert_perm _ _).map ll.p)
    · simp only [live, Option.toList, List.nil_append, List.length_map,
        ((ordered_insert_perm _ _).length_eq), List.length_cons]
      simp only [List.length_cons, List.length_map] at hnp
      exact hnp
    · rintro (h' | h') <;> simp only [hm] at h' <;> cases h'
    · apply hwork
      simp only [live, Option.toList, List.nil_append]
      exact ((ordered_insert_perm _ _).map ll.p)
  | AGING =>
    obtain ⟨tl, hexec⟩ := exec_process_fault_prio c rbl_inert w w1 p _ hcur (Or.inr hm) hread
    refine ⟨_, hexec, hcp, hm, u', v ++ [h], ⟨?_, ?_, by simp only [hm]; decide, ?_⟩, ?_⟩
    · refine fit_inv_perm c _ spec _ _ slack u' (v ++ [h]) ?_
        (fit_inv_state c w1 _ spec _ slack u' (v ++ [h]) rfl rfl rfl rfl hfit)
      simp only [live, Option.toList, List.nil_append]
      exact ((ordered_insert_perm _ _).map ll.p)
    · simp only [live, Option.toList, List.nil_append, List.length_map,
        ((ordered_insert_perm _ _).length_eq), List.length_cons]
      simp only [List.length_cons, List.length_map] at hnp
      exact hnp
    · rintro (h' | h') <;> simp only [hm] at h' <;> cases h'
    · apply hwork
      simp only [live, Option.toList, List.nil_append]
      exact ((ordered_insert_perm _ _).map ll.p)


theorem fit_exec_hit (c : Config) (w : world) (spec : Nat → Option (List cstr))
    (slack : Nat) (u v : List Nat) (p : pcb) (f : Nat) (hFS : 0 < c.FRAMESIZE)
    (hs : sched_fit c w spec slack u v) (hcur : w.state.cur = some p)
    (hpt : p.pagetable[p.pc / c.FRAMESIZE]? = some (some f)) :
    ∃ w', exec_process c rbl_inert w = .ok w' ∧ w'.cur_pid = w.cur_pid ∧
      w'.state.mode = w.state.mode ∧
      ((all_done w' spec ∧ w'.state.cur = none) ∨
        ∃ u' v', sched_fit c w' spec slack u' v' ∧ total_work w' < total_work w) := by
  have hlive : live w = p :: w.state.queue.map ll.p := by simp [live, hcur]
  have hi := hs.fit
  rw [hlive] at hi
  have hp := hi.pcbs p (List.mem_cons_self _ _)
  have hlt := hp.ok.pc_lt
  obtain ⟨m1, line, content, hread, hc, hline, hfit⟩ :=
    fit_hit c w spec p _ slack u v f hFS hi hpt
  have hnp := hs.np
  rw [hlive] at hnp
  simp only [List.length_cons, List.length_map] at hnp
  have hfifo : ∀ (cur' : Option pcb) (n : Int),
      (w.state.mode = .FCFS ∨ w.state.mode = .RR) →
      fifo_wf { w.state with cur := cur', np := n } := by
    intro cur' n hm
    have := hs.fifo hm
    exact ⟨this.nodup, this.fresh, this.tail_eq⟩
  have htw : total_work w = work p + ((w.state.queue.map ll.p).map work).sum := by
    unfold total_work
    rw [hlive]
    simp
  by_cases hdone : p.bound ≤ p.pc + 1
  · obtain ⟨B, S, m, hexec, hBn, hBo, hm1, hm2⟩ :=
      exec_process_done c w { w with m_state := m1 } p line hcur hread rfl hdone hfit.mem.size
    refine ⟨_, hexec, rfl, rfl, ?_⟩
    have hfin := fit_finish c { w with m_state := m1 }
      { w with m_state := m1, backing_store := B, stdout := S
               state := { w.state with cur := none, np := w.state.np - 1 }
               executed := w.executed ++ [(p.pid, line)] }
      spec p _ slack u (v.erase f ++ [f]) line content hfit hc hline rfl rfl rfl hBo hdone
    by_cases hnp0 : w.state.np - 1 = 0
    · left
      refine ⟨⟨hnp0, ?_⟩, rfl⟩
      intro pid lines hpid hsp
      have hq : w.state.queue = [] := by
        have : w.state.queue.length = 0 := by omega
        exact List.length_eq_zero.mp this
      exact hfin.done_ok pid lines hpid hsp (by
        intro q hq'
        rw [hq] at hq'
        cases hq')
    · right
      have hm := hm1 hnp0
      subst hm
      refine ⟨u, v.erase f ++ [f], ⟨?_, ?_, hs.mode, hfifo _ _⟩, ?_⟩
      · exact hfin
      · show w.state.np - 1 = ((w.state.queue.map ll.p).length : Int)
        simp only [List.length_map]
        omega
      · rw [htw]
        show ((w.state.queue.map ll.p).map work).sum < _
        unfold work
        omega
  · have hnot : p.pc + 1 < p.bound := by omega
    have hexec := exec_process_cont c w { w with m_state := m1 } p line hcur hread rfl hnot
    refine ⟨_, hexec, rfl, rfl, Or.inr ⟨u, v.erase f ++ [f], ⟨?_, ?_, hs.mode, hfifo _ _⟩, ?_⟩⟩
    · exact fit_advance c { w with m_state := m1 } _ spec p _ slack u (v.erase f ++ [f]) line
        content f hfit hpt hc hline rfl rfl rfl rfl hnot
    · show w.state.np = (({ p with pc := p.pc + 1 } :: w.state.queue.map ll.p).length : Int)
      simp only [List.length_cons, List.length_map]
      exact hnp
    · rw [htw]
      show (({ p with pc := p.pc + 1 } :: w.state.queue.map ll.p).map work).sum < _
      simp only [List.map_cons, List.sum_cons]
      unfold work missing
      simp only
      omega

theorem fit_exec (c : Config) (w : world) (spec : Nat → Option (List cstr))
    (slack : Nat) (u v : List Nat) (p : pcb) (hFS : 0 < c.FRAMESIZE)
    (hs : sched_fit c w spec slack u v) (hcur : w.state.cur = some p) :
    ∃ w', exec_process c rbl_inert w = .ok w' ∧ w'.cur_pid = w.cur_pid ∧
      w'.state.mode = w.state.mode ∧
      ((all_done w' spec ∧ w'.state.cur = none) ∨
        ∃ u' v', sched_fit c w' spec slack u' v' ∧ total_work w' < total_work w) := by
  have hp := hs.fit.pcbs p (by simp [live, hcur])
  have hin : p.pc / c.FRAMESIZE < p.pagetable.length := by
    rw [hp.ok.table_len]
    exact page_of_pc_lt c _ _ hFS hp.ok.pc_lt
  cases he : p.pagetable[p.pc / c.FRAMESIZE]? with
  | none =>
    rw [List.getElem?_eq_none_iff] at he
    omega
  | some e =>
    cases e with
    | none =>
      obtain ⟨w', h1, h2, h3, h4⟩ := fit_exec_fault c w spec slack u v p hFS hs hcur he
      exact ⟨w', h1, h2, h3, Or.inr h4⟩
    | some f => exact fit_exec_hit c w spec slack u v p f hFS hs hcur he


theorem sched_fit_of_live (c : Config) (w w' : world) (spec : Nat → Option (List cstr))
    (slack : Nat) (u v : List Nat) (hs : sched_fit c w spec slack u v)
    (hl : (live w').Perm (live w)) (hm : w'.m_state = w.m_state)
    (hb : w'.backing_store = w.backing_store) (he : w'.executed = w.executed)
    (hc : w'.cur_pid = w.cur_pid) (hnp : w'.state.np = w.state.np)
    (hmode : w'.state.mode = w.state.mode)
    (hfifo : w.state.mode = .FCFS ∨ w.state.mode = .RR → fifo_wf w.state → fifo_wf w'.state) :
    sched_fit c w' spec slack u v ∧ total_work w' = total_work w := by
  refine ⟨⟨fit_inv_perm c w' spec _ _ slack u v hl
      (fit_inv_state c w w' spec _ slack u v hb hm he hc hs.fit), ?_, by rw [hmode]; exact hs.mode,
      ?_⟩, ?_⟩
  · rw [hnp, hs.np, hl.length_eq]
  · intro h
    rw [hmode] at h
    exact hfifo h (hs.fifo h)
  · unfold total_work
    exact (hl.map work).sum_eq

theorem fit_pop (c : Config) (w : world) (spec : Nat → Option (List cstr))
    (slack : Nat) (u v : List Nat) (hs : sched_fit c w spec slack u v)
    (hcur : w.state.cur = none) (hnp : w.state.np > 0) :
    (∃ p, (pop_front w).state.cur = some p) ∧ sched_fit c (pop_front w) spec slack u v ∧
      total_work (pop_front w) = total_work w ∧ (pop_front w).cur_pid = w.cur_pid ∧
      (pop_front w).state.mode = w.state.mode := by
  have hn := hs.np
  have hlive : live w = w.state.queue.map ll.p := by simp [live, hcur]
  rw [hlive, List.length_map] at hn
  cases hq : w.state.queue with
  | nil =>
    rw [hq] at hn
    simp at hn
    omega
  | cons x rest =>
    obtain ⟨h1, h2, h3, h4, h5⟩ := pop_front_live w hcur
    have heq : pop_front w = { w with state := { w.state with
        queue := rest
        cur := some x.p
        cur_priority := x.priority
        tail := if w.state.tail = some x.id then none else w.state.tail } } := by
      unfold pop_front
      simp only [hq]
    obtain ⟨hsf, htw⟩ := sched_fit_of_live c w (pop_front w) spec slack u v hs
      (by rw [h1]) h2 h3 (by rw [heq]) h4 (by rw [heq]) h5 (by
        intro _ hf
        obtain ⟨e1, e2⟩ := pop_front_fifo w x rest hf hq
        rw [e1]
        exact e2)
    exact ⟨⟨x.p, by rw [heq]⟩, hsf, htw, h4, h5⟩

theorem fit_rr_end (c : Config) (w : world) (spec : Nat → Option (List cstr))
    (slack : Nat) (u v : List Nat) (q : pcb) (hs : sched_fit c w spec slack u v)
    (hmode : w.state.mode = .RR) (hcur : w.state.cur = some q) :
    ∃ w2, add_back w (some q) = .ok w2 ∧
      sched_fit c { w2 with state := { w2.state with cur := none } } spec slack u v ∧
      total_work { w2 with state := { w2.state with cur := none } } = total_work w ∧
      w2.cur_pid = w.cur_pid := by
  obtain ⟨w2, a1, a2, a3⟩ := add_back_fifo w q (hs.fifo (Or.inr hmode))
  refine ⟨w2, a1, ?_⟩
  subst a2
  obtain ⟨hsf, htw⟩ := sched_fit_of_live c w
    { w with state := { w.state with
        queue := w.state.queue ++ [{ p := q, priority := -1, id := w.state.fresh }]
        tail := some w.state.fresh
        fresh := w.state.fresh + 1
        cur := none } } spec slack u v hs
    (by
      simp only [live, hcur, Option.toList, List.nil_append, List.map_append, List.map_cons,
        List.map_nil, List.singleton_append]
      exact List.perm_append_singleton _ _)
    rfl rfl rfl rfl rfl rfl (fun _ _ => ⟨a3.nodup, a3.fresh, a3.tail_eq⟩)
  exact ⟨hsf, htw, rfl⟩

theorem all_done_loop (c : Config) (rbl : cstr → world → Except halt world) (w : world)
    (hcur : w.state.cur = none) : ∀ n, run_RR_loop c rbl n w = .ok w
  | 0 => by rw [run_RR_loop]
  | n + 1 => by rw [run_RR_loop, if_pos hcur]

theorem fit_rr_loop (c : Config) (spec : Nat → Option (List cstr)) (slack : Nat)
    (hFS : 0 < c.FRAMESIZE) : ∀ (n : Nat) (w : world) (u v : List Nat),
    sched_fit c w spec slack u v →
    ∃ w', run_RR_loop c rbl_inert n w = .ok w' ∧ w'.cur_pid = w.cur_pid ∧
      w'.state.mode = w.state.mode ∧
      ((all_done w' spec ∧ w'.state.cur = none) ∨
        ∃ u' v', sched_fit c w' spec slack u' v' ∧ total_work w' ≤ total_work w ∧
          (0 < n → w.state.cur ≠ none → total_work w' < total_work w))
  | 0, w, u, v, hs => by
    refine ⟨w, by rw [run_RR_loop], rfl, rfl, Or.inr ⟨u, v, hs, Nat.le_refl _, ?_⟩⟩
    intro h
    omega
  | n + 1, w, u, v, hs => by
    cases hcur : w.state.cur with
    | none =>
      refine ⟨w, by rw [run_RR_loop, if_pos hcur], rfl, rfl,
        Or.inr ⟨u, v, hs, Nat.le_refl _, ?_⟩⟩
      intro _ hne
      exact absurd rfl hne
    | some p =>
      obtain ⟨w1, h1, h2, h3, h4⟩ := fit_exec c w spec slack u v p hFS hs hcur
      have hstep : run_RR_loop c rbl_inert (n + 1) w = run_RR_loop c rbl_inert n w1 := by
        rw [run_RR_loop, if_neg (by rw [hcur]; simp), h1]
      rcases h4 with ⟨hd, hc1⟩ | ⟨u1, v1, hs1, hlt⟩
      · exact ⟨w1, by rw [hstep]; exact all_done_loop c _ w1 hc1 n, h2, h3, Or.inl ⟨hd, hc1⟩⟩
      · obtain ⟨w', e1, e2, e3, e4⟩ := fit_rr_loop c spec slack hFS n w1 u1 v1 hs1
        refine ⟨w', by rw [hstep]; exact e1, by rw [e2, h2], by rw [e3, h3], ?_⟩
        rcases e4 with hd | ⟨u2, v2, hs2, hle, -⟩
        · exact Or.inl hd
        · exact Or.inr ⟨u2, v2, hs2, by omega, fun _ _ => by omega⟩


theorem fit_run_RR (c : Config) (w : world) (spec : Nat → Option (List cstr))
    (slack : Nat) (u v : List Nat) (p : pcb) (hFS : 0 < c.FRAMESIZE)
    (hs : sched_fit c w spec slack u v) (hcur : w.state.cur = some p)
    (hmode : w.state.mode = .RR) :
    ∃ w', run_RR c rbl_inert w = .ok w' ∧ w'.cur_pid = w.cur_pid ∧
      (all_done w' spec ∨
        ∃ u' v', sched_fit c w' spec slack u' v' ∧ total_work w' < total_work w) := by
  obtain ⟨w1, h1, h2, h3, h4⟩ := fit_rr_loop c spec slack hFS RR_PREEMPT_FREQ w u v hs
  rcases h4 with ⟨hd, hc1⟩ | ⟨u1, v1, hs1, -, hlt⟩
  · refine ⟨w1, ?_, h2, Or.inl hd⟩
    unfold run_RR
    simp only [h1, hc1]
    rfl
  · have hlt' := hlt (by decide) (by rw [hcur]; simp)
    cases hc1 : w1.state.cur with
    | none =>
      refine ⟨w1, ?_, h2, Or.inr ⟨u1, v1, hs1, hlt'⟩⟩
      unfold run_RR
      simp only [h1, hc1]
      rfl
    | some q =>
      obtain ⟨w2, a1, a2, a3, a4⟩ := fit_rr_end c w1 spec slack u1 v1 q hs1
        (by rw [h3]; exact hmode) hc1
      refine ⟨{ w2 with state := { w2.state with cur := none } }, ?_, by rw [← h2, ← a4],
        Or.inr ⟨u1, v1, a2, by rw [a3]; exact hlt'⟩⟩
      unfold run_RR
      simp only [h1, hc1, a1]
      rfl

theorem fit_run_AGING (c : Config) (w : world) (spec : Nat → Option (List cstr))
    (slack : Nat) (u v : List Nat) (p : pcb) (hFS : 0 < c.FRAMESIZE)
    (hs : sched_fit c w spec slack u v) (hcur : w.state.cur = some p)
    (hmode : w.state.mode = .AGING) :
    ∃ w', run_AGING c rbl_inert w = .ok w' ∧ w'.cur_pid = w.cur_pid ∧
      (all_done w' spec ∨
        ∃ u' v', sched_fit c w' spec slack u' v' ∧ total_work w' < total_work w) := by
  obtain ⟨w1, h1, h2, h3, h4⟩ := fit_exec c w spec slack u v p hFS hs hcur
  obtain ⟨d1, d2, d3, d4, d5, d6⟩ := decr_priorities_live w1
  have hm1 : w1.state.mode = .AGING := by rw [h3]; exact hmode
  have hnofifo : ∀ st : scheduler_state,
      w1.state.mode = .FCFS ∨ w1.state.mode = .RR → fifo_wf w1.state → fifo_wf st := by
    intro st h
    rw [hm1] at h
    rcases h with h | h <;> cases h
  rcases h4 with ⟨hd, hc1⟩ | ⟨u1, v1, hs1, hlt⟩
  · refine ⟨decr_priorities w1, ?_, by rw [d4, h2], Or.inl ⟨hd.1, ?_⟩⟩
    · unfold run_AGING
      simp only [h1]
      have : (decr_priorities w1).state.cur = none := by rw [d5]; exact hc1
      simp only [this]
    · intro pid lines hpid hsp
      exact hd.2 pid lines hpid hsp
  · obtain ⟨hs2, ht2⟩ := sched_fit_of_live c w1 (decr_priorities w1) spec slack u1 v1 hs1
      (by rw [d1]) d2 d3 rfl d4 rfl d6 (hnofifo _)
    cases hc2 : (decr_priorities w1).state.cur with
    | none =>
      refine ⟨decr_priorities w1, ?_, by rw [d4, h2], Or.inr ⟨u1, v1, hs2, by rw [ht2]; exact hlt⟩⟩
      unfold run_AGING
      simp only [h1, hc2]
    | some q =>
      cases hq2 : (decr_priorities w1).state.queue with
      | nil =>
        refine ⟨decr_priorities w1, ?_, by rw [d4, h2],
          Or.inr ⟨u1, v1, hs2, by rw [ht2]; exact hlt⟩⟩
        unfold run_AGING
        simp only [h1, hc2, hq2]
      | cons hd tl =>
        by_cases hcond : (decr_priorities w1).state.np > 1 ∧
            hd.priority < (decr_priorities w1).state.cur_priority
        · obtain ⟨a1, a2, a3, a4, a5, a6⟩ := add_with_priority_live (decr_priorities w1) q
            (decr_priorities w1).state.cur_priority
          obtain ⟨tl', aeq, -⟩ := add_with_priority_eq (decr_priorities w1) q
            (decr_priorities w1).state.cur_priority
          obtain ⟨hs3, ht3⟩ := sched_fit_of_live c (decr_priorities w1)
            { (add_with_priority (decr_priorities w1) q
                (decr_priorities w1).state.cur_priority) with
              state := { (add_with_priority (decr_priorities w1) q
                (decr_priorities w1).state.cur_priority).state with cur := none } }
            spec slack u1 v1 hs2
            (by
              show ([] ++ (add_with_priority (decr_priorities w1) q
                (decr_priorities w1).state.cur_priority).state.queue.map ll.p).Perm _
              rw [List.nil_append]
              refine a6.trans ?_
              simp [live, hc2])
            a1 a2 (by rw [aeq]) a3 (by rw [aeq]) a5 (by
              intro h
              rw [d6, hm1] at h
              rcases h with h | h <;> cases h)
          refine ⟨_, ?_, ?_, Or.inr ⟨u1, v1, hs3, by rw [ht3, ht2]; exact hlt⟩⟩
          · unfold run_AGING
            simp only [h1, hc2, hq2]
            rw [if_pos hcond]
          · show (add_with_priority (decr_priorities w1) q
              (decr_priorities w1).state.cur_priority).cur_pid = w.cur_pid
            rw [a3, d4, h2]
        · refine ⟨decr_priorities w1, ?_, by rw [d4, h2],
            Or.inr ⟨u1, v1, hs2, by rw [ht2]; exact hlt⟩⟩
          unfold run_AGING
          simp only [h1, hc2, hq2]
          rw [if_neg hcond]


theorem fit_tick (c : Config) (w : world) (spec : Nat → Option (List cstr))
    (slack : Nat) (u v : List Nat) (hFS : 0 < c.FRAMESIZE)
    (hs : sched_fit c w spec slack u v) (hnp : w.state.np > 0) :
    ∃ w', run_scheduler_body c rbl_inert w = .ok (none, w') ∧ w'.cur_pid = w.cur_pid ∧
      (all_done w' spec ∨
        ∃ u' v', sched_fit c w' spec slack u' v' ∧ total_work w' < total_work w) := by
  -- the state after the optional `pop_front`
  have hpop : ∃ p, (if w.state.cur = none then pop_front w else w).state.cur = some p ∧
      sched_fit c (if w.state.cur = none then pop_front w else w) spec slack u v ∧
      total_work (if w.state.cur = none then pop_front w else w) = total_work w ∧
      (if w.state.cur = none then pop_front w else w).cur_pid = w.cur_pid ∧
      (if w.state.cur = none then pop_front w else w).state.mode = w.state.mode := by
    cases hcur : w.state.cur with
    | none =>
      obtain ⟨⟨p, hp⟩, h2, h3, h4, h5⟩ := fit_pop c w spec slack u v hs hcur hnp
      exact ⟨p, by simpa using hp, by simpa using h2, by simpa using h3, by simpa using h4,
        by simpa using h5⟩
    | some p => exact ⟨p, by simpa using hcur, by simpa using hs, by simp, by simp, by simp⟩
  obtain ⟨p, hcur1, hs1, htw1, hcp1, hm1⟩ := hpop
  obtain ⟨w1, hw1⟩ : ∃ w1, w1 = (if w.state.cur = none then pop_front w else w) := ⟨_, rfl⟩
  rw [← hw1] at hcur1 hs1 htw1 hcp1 hm1
  have hbody : ∀ (w2 : world),
      (w1.state.mode = .FCFS ∨ w1.state.mode = .SJF → run_basic c rbl_inert w1 = .ok w2) →
      (w1.state.mode = .RR → run_RR c rbl_inert w1 = .ok w2) →
      (w1.state.mode = .AGING → run_AGING c rbl_inert w1 = .ok w2) →
      w1.state.mode ≠ .NONE → run_scheduler_body c rbl_inert w = .ok (none, w2) := by
    intro w2 h1 h2 h3 hne
    unfold run_scheduler_body
    simp only
    rw [← hw1]
    cases hm : w1.state.mode with
    | NONE => exact absurd hm hne
    | FCFS => simp only [h1 (Or.inl hm)]
    | SJF => simp only [h1 (Or.inr hm)]
    | RR => simp only [h2 hm]
    | AGING => simp only [h3 hm]
  cases hm : w1.state.mode with
  | NONE => exact absurd hm hs1.mode
  | FCFS =>
    obtain ⟨w2, e1, e2, -, e4⟩ := fit_exec c w1 spec slack u v p hFS hs1 hcur1
    refine ⟨w2, ?_, by rw [e2, hcp1], ?_⟩
    · exact hbody w2 (fun _ => e1) (fun h => by rw [hm] at h; cases h)
        (fun h => by rw [hm] at h; cases h) hs1.mode
    · rcases e4 with ⟨hd, -⟩ | ⟨u', v', hs2, hlt⟩
      · exact Or.inl hd
      · exact Or.inr ⟨u', v', hs2, by rw [← htw1]; exact hlt⟩
  | SJF =>
    obtain ⟨w2, e1, e2, -, e4⟩ := fit_exec c w1 spec slack u v p hFS hs1 hcur1
    refine ⟨w2, ?_, by rw [e2, hcp1], ?_⟩
    · exact hbody w2 (fun _ => e1) (fun h => by rw [hm] at h; cases h)
        (fun h => by rw [hm] at h; cases h) hs1.mode
    · rcases e4 with ⟨hd, -⟩ | ⟨u', v', hs2, hlt⟩
      · exact Or.inl hd
      · exact Or.inr ⟨u', v', hs2, by rw [← htw1]; exact hlt⟩
  | RR =>
    obtain ⟨w2, e1, e2, e4⟩ := fit_run_RR c w1 spec slack u v p hFS hs1 hcur1 hm
    refine ⟨w2, ?_, by rw [e2, hcp1], ?_⟩
    · exact hbody w2 (fun h => by rw [hm] at h; rcases h with h | h <;> cases h)
        (fun _ => e1) (fun h => by rw [hm] at h; cases h) hs1.mode
    · rcases e4 with hd | ⟨u', v', hs2, hlt⟩
      · exact Or.inl hd
      · exact Or.inr ⟨u', v', hs2, by rw [← htw1]; exact hlt⟩
  | AGING =>
    obtain ⟨w2, e1, e2, e4⟩ := fit_run_AGING c w1 spec slack u v p hFS hs1 hcur1 hm
    refine ⟨w2, ?_, by rw [e2, hcp1], ?_⟩
    · exact hbody w2 (fun h => by rw [hm] at h; rcases h with h | h <;> cases h)
        (fun h => by rw [hm] at h; cases h) (fun _ => e1) hs1.mode
    · rcases e4 with hd | ⟨u', v', hs2, hlt⟩
      · exact Or.inl hd
      · exact Or.inr ⟨u', v', hs2, by rw [← htw1]; exact hlt⟩

theorem all_done_run (c : Config) (rbl : cstr → world → Except halt world) (w : world)
    (h : w.state.np = 0) : ∀ n, run_scheduler c rbl n w = .ok (some 0, w)
  | 0 => by rw [run_scheduler, if_neg (by rw [h]; decide)]
  | n + 1 => by rw [run_scheduler, if_neg (by rw [h]; decide)]

theorem fit_run (c : Config) (spec : Nat → Option (List cstr)) (slack : Nat)
    (hFS : 0 < c.FRAMESIZE) : ∀ (n : Nat) (w : world) (u v : List Nat),
    sched_fit c w spec slack u v → total_work w < n →
    ∃ w', run_scheduler c rbl_inert n w = .ok (some 0, w') ∧ all_done w' spec ∧
      w'.cur_pid = w.cur_pid
  | 0, w, u, v, hs, hn => by omega
  | n + 1, w, u, v, hs, hn => by
    by_cases hnp : w.state.np > 0
    · obtain ⟨w1, e1, e2, e3⟩ := fit_tick c w spec slack u v hFS hs hnp
      rcases e3 with hd | ⟨u', v', hs1, hlt⟩
      · refine ⟨w1, ?_, hd, e2⟩
        rw [run_scheduler, if_pos hnp, e1]
        exact all_done_run c _ w1 hd.1 n
      · obtain ⟨w', r1, r2, r3⟩ := fit_run c spec slack hFS n w1 u' v' hs1 (by omega)
        refine ⟨w', ?_, r2, by rw [r3, e2]⟩
        rw [run_scheduler, if_pos hnp, e1]
        exact r1
    · have h0 : w.state.np = 0 := by
        have := hs.np
        omega
      refine ⟨w, all_done_run c _ w h0 (n + 1), ⟨h0, ?_⟩, rfl⟩
      intro pid lines hpid hsp
      have hl : live w = [] := by
        have := hs.np
        rw [h0] at this
        exact List.length_eq_zero.mp (by exact_mod_cast this.symm)
      have := hs.fit.done_ok pid lines hpid hsp
      rw [hl] at this
      exact this (fun p hp => by cases hp)


theorem cp_to_store_ok (w : world) (file content : cstr) (pid : Nat)
    (hf : w.cwd.lookup file = some content) (hb : w.backing_store.lookup pid = none)
    (hne : content ≠ []) (ht : is_text content) :
    cp_to_store w file pid =
      ((((script_lines content).length : Nat) : Int),
        { w with backing_store := w.backing_store ++ [(pid, content)] }) := by
  unfold cp_to_store
  simp only [hf, hb, cp_loop_spec content 0 [] ht, Nat.zero_add, List.nil_append]
  rw [script_lines_length content hne]
  by_cases hl : content.getLast? = some '\n'
  · simp [hl]
  · simp [hl]

theorem script_lines_pos (content : List Char) (hne : content ≠ []) :
    0 < (script_lines content).length := by
  rw [script_lines_length content hne]
  by_cases hl : content.getLast? = some '\n'
  · rw [if_pos hl, Nat.add_zero, List.count_pos_iff]
    exact List.mem_of_getLast?_eq_some hl
  · rw [if_neg hl]
    omega

theorem n_pages_pos (c : Config) (n : Nat) (hFS : 0 < c.FRAMESIZE) (hn : 0 < n) :
    0 < n_pages c n := by
  unfold n_pages
  apply Nat.div_pos
  · omega
  · exact hFS

theorem n_pages_two (c : Config) (n : Nat) (hFS : 0 < c.FRAMESIZE) (hn : c.FRAMESIZE < n) :
    1 < n_pages c n := by
  unfold n_pages
  have : 1 + 1 ≤ (n + c.FRAMESIZE - 1) / c.FRAMESIZE := by
    rw [Nat.le_div_iff_mul_le hFS]
    omega
  omega

/-- The PCB `load_script` builds before it loads pages. -/
theorem fit_new_pcb (c : Config) (w : world) (spec : Nat → Option (List cstr))
    (ps : List pcb) (slack : Nat) (u v : List Nat) (content : cstr)
    (hi : fit_inv c w spec ps slack u v) (hne : content ≠ []) (htx : is_text content)
    (hfreshpid : w.backing_store.lookup w.cur_pid = none)
    (hspec : spec w.cur_pid = some (script_lines content))
    (hex : w.executed = [])
    (hall : ∀ pid, pid < w.cur_pid → ∃ p, p ∈ ps ∧ p.pid = pid)
    (hslack : n_pages c (script_lines content).length ≤ slack) :
    fit_inv c { w with cur_pid := w.cur_pid + 1
                       backing_store := w.backing_store ++ [(w.cur_pid, content)] } spec
      ({ pid := w.cur_pid, bound := (script_lines content).length, pc := 0,
         pagetable := List.replicate (n_pages c (script_lines content).length) none } :: ps)
      (slack - n_pages c (script_lines content).length) u v := by
  have hpos := script_lines_pos content hne
  have hlt : ∀ q, q ∈ ps → q.pid ≠ w.cur_pid := by
    intro q hq e
    have := (hi.pcbs q hq).pid_lt
    omega
  refine ⟨hi.mem, hi.unkeyed, ?_, ?_, ?_, ?_⟩
  · have := hi.budget
    simp only [List.map_cons, List.sum_cons, missing, List.count_replicate_self]
    omega
  · simp only [List.map_cons, List.nodup_cons]
    refine ⟨?_, hi.pids⟩
    intro hmem
    obtain ⟨q, hq, e⟩ := List.mem_map.mp hmem
    exact hlt q hq e
  · intro q hq
    rcases List.mem_cons.mp hq with rfl | hq
    · refine ⟨⟨by simp, hpos, ?_⟩, Nat.lt_succ_self _,
        ⟨content, lookup_append_self _ _ _ hfreshpid, rfl, hspec, ?_, htx⟩, ?_, ?_, ?_⟩
      · intro k f hk
        simp only [List.getElem?_replicate] at hk
        split at hk <;> cases hk
      · simp [ex_of, hex]
      · intro k f hk
        simp only [List.getElem?_replicate] at hk
        split at hk <;> cases hk
      · intro k f i ct hk
        simp only [List.getElem?_replicate] at hk
        split at hk <;> cases hk
      · intro _
        simp
    · exact fit_pcb_congr c w _ spec q (lookup_append_ne _ _ _ _ (hlt q hq)) (fun _ _ => rfl)
        rfl (Nat.le_succ _) (hi.pcbs q hq)
  · intro pid lines hpid hsp hnone
    exfalso
    have hne' : pid ≠ w.cur_pid := fun e => hnone _ (List.mem_cons_self _ _) e.symm
    have hpid' : pid < w.cur_pid := by
      have : pid < w.cur_pid + 1 := hpid
      omega
    obtain ⟨q, hq, e⟩ := hall pid hpid'
    exact hnone q (List.mem_cons_of_mem _ hq) e


theorem fit_load_script (c : Config) (w : world) (spec : Nat → Option (List cstr))
    (ps : List pcb) (slack : Nat) (u v : List Nat) (file content : cstr)
    (hFS : 0 < c.FRAMESIZE) (hi : fit_inv c w spec ps slack u v)
    (hcwd : w.cwd.lookup file = some content) (hne : content ≠ []) (htx : is_text content)
    (hfreshpid : ∀ pid, w.cur_pid ≤ pid → w.backing_store.lookup pid = none)
    (hpidlt : w.cur_pid + 1 < 2 ^ 64)
    (hspec : spec w.cur_pid = some (script_lines content))
    (hex : w.executed = [])
    (hall : ∀ pid, pid < w.cur_pid → ∃ p, p ∈ ps ∧ p.pid = pid)
    (hslack : n_pages c (script_lines content).length ≤ slack) :
    ∃ p w1 u1 v1, load_script c w file = .ok (some p, w1) ∧
      fit_inv c w1 spec (p :: ps) (slack - n_pages c (script_lines content).length) u1 v1 ∧
      w1.state = w.state ∧ w1.cwd = w.cwd ∧ w1.cur_pid = w.cur_pid + 1 ∧ w1.executed = [] ∧
      (∀ pid, w1.cur_pid ≤ pid → w1.backing_store.lookup pid = none) ∧ p.pid = w.cur_pid := by
  have hpos := script_lines_pos content hne
  have h0 := fit_new_pcb c w spec ps slack u v content hi hne htx (hfreshpid _ (Nat.le_refl _))
    hspec hex hall hslack
  have hnp := n_pages_pos c _ hFS hpos
  obtain ⟨h, u', w1, hu, hload, hfit1, hst1, hbs1, hex1, hcwd1, hcp1⟩ :=
    fit_load c _ spec _ ps _ u v 0 hFS h0
      (by simp only [List.getElem?_replicate, if_pos hnp])
      (by simpa using hpos) (by
        show 0 + min c.FRAMESIZE ((script_lines content).length - 0 * c.FRAMESIZE) ≤
          (script_lines content).length
        have := Nat.min_le_right c.FRAMESIZE ((script_lines content).length - 0 * c.FRAMESIZE)
        omega)
      (fun hne' => absurd (by show 0 / c.FRAMESIZE = 0; simp) hne')
  have hfresh1 : ∀ pid, w.cur_pid + 1 ≤ pid →
      (w.backing_store ++ [(w.cur_pid, content)]).lookup pid = none := by
    intro pid hpid
    rw [lookup_append_ne _ _ _ _ (by omega)]
    exact hfreshpid pid (by omega)
  have hstart : load_script c w file =
      (match load_page c
          { w with cur_pid := w.cur_pid + 1
                   backing_store := w.backing_store ++ [(w.cur_pid, content)] }
          { pid := w.cur_pid, bound := (script_lines content).length, pc := 0,
            pagetable := List.replicate (n_pages c (script_lines content).length) none } 0 with
        | .error e => .error e
        | .ok (ret1, w1) =>
          if (script_lines content).length > c.FRAMESIZE then
            match load_page c w1 ret1 1 with
            | .error e => .error e
            | .ok (ret2, w2) => .ok (some ret2, w2)
          else .ok (some ret1, w1)) := by
    unfold load_script
    simp only
    rw [Nat.mod_eq_of_lt hpidlt, cp_to_store_ok { w with cur_pid := w.cur_pid + 1 } file
      content w.cur_pid hcwd (hfreshpid _ (Nat.le_refl _)) hne htx]
    simp only [Int.toNat_ofNat]
    rw [if_neg (by omega)]
    rfl
  rw [hstart, hload]
  simp only
  by_cases hbig : (script_lines content).length > c.FRAMESIZE
  · rw [if_pos hbig]
    have hnp2 := n_pages_two c _ hFS hbig
    obtain ⟨h2, u2, w2, hu2, hload2, hfit2, hst2, hbs2, hex2, hcwd2, hcp2⟩ :=
      fit_load c w1 spec _ ps _ u' (v ++ [h]) 1 hFS hfit1
        (by
          show (List.set _ 0 _)[1]? = _
          rw [List.getElem?_set_ne (by decide)]
          simp only [List.getElem?_replicate, if_pos hnp2])
        (by simpa using hbig) (by
          show 0 + min c.FRAMESIZE ((script_lines content).length - 1 * c.FRAMESIZE) ≤
            (script_lines content).length
          have := Nat.min_le_right c.FRAMESIZE
            ((script_lines content).length - 1 * c.FRAMESIZE)
          omega)
        (fun _ hnone => by
          exfalso
          have h00 : (0 : Nat) / c.FRAMESIZE = 0 := by simp
          simp only [h00] at hnone
          rw [List.getElem?_set_self (by simpa using hnp)] at hnone
          cases hnone)
    rw [hload2]
    refine ⟨_, w2, u2, (v ++ [h]) ++ [h2], rfl, hfit2, by rw [hst2, hst1], by rw [hcwd2, hcwd1],
      by rw [hcp2, hcp1], by rw [hex2, hex1]; exact hex, ?_, rfl⟩
    intro pid hpid
    rw [hbs2, hbs1]
    rw [hcp2, hcp1] at hpid
    exact hfresh1 pid hpid
  · rw [if_neg hbig]
    refine ⟨_, w1, u', v ++ [h], rfl, hfit1, hst1, hcwd1, hcp1, by rw [hex1]; exact hex, ?_,
      rfl⟩
    intro pid hpid
    rw [hbs1]
    rw [hcp1] at hpid
    exact hfresh1 pid hpid


theorem fit_add_process (c : Config) (w : world) (spec : Nat → Option (List cstr))
    (slack : Nat) (u v : List Nat) (p : pcb)
    (hfit : fit_inv c w spec (p :: live w) slack u v)
    (hnp : w.state.np = (live w).length) (hmode : w.state.mode ≠ .NONE)
    (hfifo : w.state.mode = .FCFS ∨ w.state.mode = .RR → fifo_wf w.state) :
    ∃ w', add_process w p = .ok w' ∧ sched_fit c w' spec slack u v ∧ w'.cwd = w.cwd ∧
      w'.cur_pid = w.cur_pid ∧ w'.executed = w.executed ∧
      w'.backing_store = w.backing_store ∧ w'.state.mode = w.state.mode ∧
      (live w').Perm (p :: live w) := by
  have hback : w.state.mode = .FCFS ∨ w.state.mode = .RR →
      ∃ w', add_process w p = .ok w' ∧ sched_fit c w' spec slack u v ∧ w'.cwd = w.cwd ∧
        w'.cur_pid = w.cur_pid ∧ w'.executed = w.executed ∧
        w'.backing_store = w.backing_store ∧ w'.state.mode = w.state.mode ∧
        (live w').Perm (p :: live w) := by
    intro hm
    obtain ⟨w2, a1, a2, a3⟩ := add_back_fifo w p (hfifo hm)
    have hperm : (live { w2 with state := { w2.state with np := w2.state.np + 1 } }).Perm
        (p :: live w) := by
      subst a2
      simp only [live, List.map_append, List.map_cons, List.map_nil]
      rw [← List.append_assoc]
      exact List.perm_append_singleton _ _
    refine ⟨{ w2 with state := { w2.state with np := w2.state.np + 1 } }, ?_,
      ⟨fit_inv_perm c _ spec _ _ slack u v hperm
        (fit_inv_state c w _ spec _ slack u v (by subst a2; rfl) (by subst a2; rfl)
          (by subst a2; rfl) (by subst a2; rfl) hfit), ?_, ?_, ?_⟩,
      by subst a2; rfl, by subst a2; rfl, by subst a2; rfl, by subst a2; rfl,
      by subst a2; rfl, hperm⟩
    · unfold add_process
      rcases hm with hm | hm <;> simp only [hm, a1]
    · rw [hperm.length_eq]
      subst a2
      simp only [List.length_cons]
      rw [hnp]
      push_cast
      rfl
    · subst a2
      exact hmode
    · intro _
      exact ⟨a3.nodup, a3.fresh, a3.tail_eq⟩
  have hprio : w.state.mode = .SJF ∨ w.state.mode = .AGING →
      ∃ w', add_process w p = .ok w' ∧ sched_fit c w' spec slack u v ∧ w'.cwd = w.cwd ∧
        w'.cur_pid = w.cur_pid ∧ w'.executed = w.executed ∧
        w'.backing_store = w.backing_store ∧ w'.state.mode = w.state.mode ∧
        (live w').Perm (p :: live w) := by
    intro hm
    obtain ⟨tl, aeq, -⟩ := add_with_priority_eq w p p.bound
    have hperm : (live { (add_with_priority w p p.bound) with
        state := { (add_with_priority w p p.bound).state with
          np := (add_with_priority w p p.bound).state.np + 1 } }).Perm (p :: live w) := by
      rw [aeq]
      simp only [live]
      refine (List.Perm.append_left _ ((ordered_insert_perm _ _).map ll.p)).trans ?_
      simp only [List.map_cons]
      exact List.perm_middle
    refine ⟨_, ?_,
      ⟨fit_inv_perm c _ spec _ _ slack u v hperm
        (fit_inv_state c w _ spec _ slack u v (by rw [aeq]) (by rw [aeq])
          (by rw [aeq]) (by rw [aeq]) hfit), ?_, ?_, ?_⟩,
      by rw [aeq], by rw [aeq], by rw [aeq], by rw [aeq], by rw [aeq], hperm⟩
    · unfold add_process
      rcases hm with hm | hm <;> simp only [hm]
    · rw [hperm.length_eq]
      rw [aeq]
      simp only [List.length_cons]
      rw [hnp]
      push_cast
      rfl
    · rw [aeq]
      exact hmode
    · intro h
      rw [aeq] at h
      simp only at h
      rcases hm with hm | hm <;> rw [hm] at h <;> rcases h with h | h <;> cases h
  have hcases : w.state.mode = .FCFS ∨ w.state.mode = .RR ∨ w.state.mode = .SJF ∨
      w.state.mode = .AGING ∨ w.state.mode = .NONE := by
    cases w.state.mode <;> simp
  rcases hcases with hm | hm | hm | hm | hm
  · exact hback (Or.inl hm)
  · exact hback (Or.inr hm)
  · exact hprio (Or.inl hm)
  · exact hprio (Or.inr hm)
  · exact absurd hm hmode


theorem fit_exec_loop (c : Config) (spec : Nat → Option (List cstr)) (hFS : 0 < c.FRAMESIZE) :
    ∀ (progs : List cstr) (w : world) (slack : Nat) (u v : List Nat),
    sched_fit c w spec slack u v → w.executed = [] →
    (∀ pid, pid < w.cur_pid → ∃ p, p ∈ live w ∧ p.pid = pid) →
    (∀ pid, w.cur_pid ≤ pid → w.backing_store.lookup pid = none) →
    w.cur_pid + progs.length < 2 ^ 64 →
    (∀ (i : Nat) (s : cstr), progs[i]? = some s → ∃ content, w.cwd.lookup s = some content ∧
      content ≠ [] ∧ is_text content ∧ spec (w.cur_pid + i) = some (script_lines content)) →
    (progs.map (script_pages c w.cwd)).sum ≤ slack →
    ∃ w' slack' u' v', exec_loop c progs w = .ok (0, w') ∧
      sched_fit c w' spec slack' u' v' ∧ w'.executed = [] ∧
      w'.cur_pid = w.cur_pid + progs.length
  | [], w, slack, u, v, hs, hex, _, _, _, _, _ => by
    exact ⟨w, slack, u, v, by rw [exec_loop], hs, hex, rfl⟩
  | a :: rest, w, slack, u, v, hs, hex, hall, hfresh, hlen, hfiles, hsum => by
    obtain ⟨content, hcwd, hne, htx, hspec⟩ := hfiles 0 a (by simp)
    simp only [List.map_cons, List.sum_cons, List.length_cons] at hsum hlen
    have hpages : script_pages c w.cwd a = n_pages c (script_lines content).length := by
      unfold script_pages
      rw [hcwd]
      rfl
    obtain ⟨p, w1, u1, v1, hload, hfit1, hst1, hcwd1, hcp1, hex1, hfresh1, hpid⟩ :=
      fit_load_script c w spec (live w) slack u v a content hFS hs.fit hcwd hne htx hfresh
        (by omega) hspec hex hall (by omega)
    have hlive1 : live w1 = live w := by unfold live; rw [hst1]
    obtain ⟨w2, hadd, hs2, hcwd2, hcp2, hex2, hbs2, -, hperm2⟩ :=
      fit_add_process c w1 spec _ u1 v1 p (by rw [hlive1]; exact hfit1)
        (by rw [hlive1, hst1]; exact hs.np) (by rw [hst1]; exact hs.mode)
        (by rw [hst1]; exact hs.fifo)
    obtain ⟨w', slack', u', v', hrec, hs', hex', hcp'⟩ :=
      fit_exec_loop c spec hFS rest w2 _ u1 v1 hs2 (by rw [hex2]; exact hex1)
        (by
          intro pid hlt
          rw [hcp2, hcp1] at hlt
          by_cases hpp : pid = w.cur_pid
          · exact ⟨p, hperm2.mem_iff.mpr (List.mem_cons_self _ _), by rw [hpid, hpp]⟩
          · obtain ⟨q, hq, e⟩ := hall pid (by omega)
            exact ⟨q, hperm2.mem_iff.mpr (List.mem_cons_of_mem _ (by rw [hlive1]; exact hq)), e⟩)
        (by
          intro pid hle
          rw [hbs2]
          exact hfresh1 pid (by rw [hcp2] at hle; exact hle))
        (by rw [hcp2, hcp1]; omega)
        (by
          intro i s hi
          obtain ⟨ct, h1, h2, h2t, h3⟩ := hfiles (i + 1) s (by simpa using hi)
          refine ⟨ct, by rw [hcwd2, hcwd1]; exact h1, h2, h2t, ?_⟩
          rw [hcp2, hcp1]
          rw [← h3]
          congr 1
          omega)
        (by rw [hcwd2, hcwd1]; omega)
    refine ⟨w', slack', u', v', ?_, hs', hex', by
      rw [hcp', hcp2, hcp1, List.length_cons]; omega⟩
    rw [exec_loop, hload]
    simp only [hadd]
    exact hrec


theorem policy_of_name_cases (policy : cstr)
    (hpol : policy = "FCFS".toList ∨ policy = "SJF".toList ∨ policy = "RR".toList ∨
      policy = "AGING".toList) :
    ∃ mode, policy_of_name policy = some mode ∧ mode ≠ .NONE := by
  rcases hpol with h | h | h | h <;> subst h
  · exact ⟨.FCFS, by decide, by decide⟩
  · exact ⟨.SJF, by decide, by decide⟩
  · exact ⟨.RR, by decide, by decide⟩
  · exact ⟨.AGING, by decide, by decide⟩

/-- The state in which `exec` starts to load scripts in a shell that has just
started satisfies the invariant of a system without evictions. -/
theorem fit_start (c : Config) (files : List (cstr × cstr)) (spec : Nat → Option (List cstr))
    (mode : sched_mode_t) (hN : 0 < c.NFRAMES) (hmode : mode ≠ .NONE) :
    ∃ w0, init_shell c files = .ok w0 ∧
      (set_scheduler_mode w0 mode).2 = { w0 with state := { w0.state with mode := mode } } ∧
      sched_fit c { w0 with state := { w0.state with mode := mode } } spec c.NFRAMES
        (List.range c.NFRAMES) [] ∧
      w0.executed = [] ∧ w0.cur_pid = 0 ∧ w0.backing_store = [] ∧ w0.cwd = files := by
  obtain ⟨w0, e, hwf, hsm, hbs, hcwd, hcp, -, hex, hst, -⟩ := init_shell_wf c files hN
  have hkey : ∀ f, key_at c w0.m_state f = none := by
    intro f
    unfold key_at sm_var
    rw [hsm, List.getElem?_replicate]
    split <;> rfl
  refine ⟨w0, e, ?_, ⟨⟨?_, fun f _ => hkey f, ?_, ?_, ?_, ?_⟩, ?_, hmode, ?_⟩, hex, hcp, hbs,
    hcwd⟩
  · unfold set_scheduler_mode
    rw [hst]
    simp only
    rw [if_neg (fun h => hmode h.symm), if_neg (by simp)]
  · rw [List.append_nil]
    exact hwf
  · simp [live, hst]
  · simp [live, hst]
  · intro p hp
    simp [live, hst] at hp
  · intro pid lines hpid
    rw [hcp] at hpid
    omega
  · simp [live, hst]
  · intro _
    refine ⟨?_, ?_, ?_⟩
    · simp [hst]
    · intro n hn
      simp [hst] at hn
    · simp [hst]


/-! ## The operator log of an eviction: lemmas -/

theorem check_eviction_loop_out (start : Nat) : ∀ (n i : Nat) (m m' : memory_state)
    (out out' : cstr), check_eviction_loop start n i m out = .ok (m', out') →
    out' = out ++
      ((List.range' i n).filterMap (fun k => sm_value m.shellmemory (start + k))).flatten := by
  intro n
  induction n with
  | zero =>
    intro i m m' out out' h
    unfold check_eviction_loop at h
    injection h with h
    injection h with h1 h2
    simp [← h2]
  | succ n ih =>
    intro i m m' out out' h
    unfold check_eviction_loop at h
    cases hs : m.shellmemory[start + i]? with
    | none => rw [hs] at h; simp at h
    | some s =>
      rw [hs] at h
      simp only [] at h
      have hv0 : sm_value m.shellmemory (start + i) = s.value := by
        simp [sm_value, hs]
      rw [List.range'_succ, List.filterMap_cons]
      cases hv : s.value with
      | none =>
        rw [hv] at h
        simp only [] at h
        rw [ih _ _ _ _ _ h, hv0, hv]
      | some v =>
        rw [hv] at h
        simp only [] at h
        rw [ih _ _ _ _ _ h, hv0, hv]
        simp only [List.flatten_cons, List.append_assoc]
        congr 2
        congr 1
        apply List.filterMap_congr
        intro k hk
        have hk' : i + 1 ≤ k := by
          rw [List.mem_range'_1] at hk
          exact hk.1
        simp only [sm_value]
        rw [List.getElem?_set_ne (by omega)]

theorem check_eviction_out (c : Config) (w : world) (f : Nat) (hFS : 0 < c.FRAMESIZE)
    (hlen : get_frame_start c f + c.FRAMESIZE ≤ w.m_state.shellmemory.length)
    (hk : key_at c w.m_state f ≠ none) :
    ∃ w', check_eviction c w f = .ok w' ∧
      w'.stdout = w.stdout ++ "Page fault! Victim page contents:\n".toList ++
        frame_texts c w.m_state f ++ "End of victim page contents.\n".toList := by
  have hs : get_frame_start c f < w.m_state.shellmemory.length := by omega
  have hk' : key_at c w.m_state f = (w.m_state.shellmemory[get_frame_start c f]).var := by
    simp [key_at, sm_var, List.getElem?_eq_getElem hs]
  unfold check_eviction
  simp only []
  rw [List.getElem?_eq_getElem hs]
  simp only []
  cases hv : (w.m_state.shellmemory[get_frame_start c f]).var with
  | none => rw [hk', hv] at hk; exact absurd rfl hk
  | some k =>
    simp only []
    obtain ⟨sm, out', h1, h2, -, -⟩ := check_eviction_loop_spec (get_frame_start c f)
      c.FRAMESIZE 0 w.m_state (w.stdout ++ "Page fault! Victim page contents:\n".toList)
      (by omega)
    have ho := check_eviction_loop_out _ _ _ _ _ _ _ h1
    rw [h1]
    simp only []
    rw [set_var_eq _ _ _ (by simpa [h2] using hs)]
    simp only []
    refine ⟨_, rfl, ?_⟩
    show out' ++ _ = _
    rw [ho]
    simp only [frame_texts, slot_value, List.range_eq_range']

/-! ## The orders of the scheduler: lemmas -/

theorem dropWhile_gt (pr : Int) : ∀ (q : List ll), prio_sorted q →
    ∀ x, x ∈ q.dropWhile (fun n => decide (n.priority ≤ pr)) → pr < x.priority := by
  intro q
  induction q with
  | nil => intro _ x hx; simp at hx
  | cons y r ih =>
    intro hs x hx
    have hs' := List.pairwise_cons.mp hs
    by_cases hy : y.priority ≤ pr
    · rw [List.dropWhile_cons_of_pos (by simpa using hy)] at hx
      exact ih hs'.2 x hx
    · rw [List.dropWhile_cons_of_neg (by simpa using hy)] at hx
      rcases List.mem_cons.mp hx with rfl | hx
      · omega
      · have := hs'.1 x hx
        omega

theorem ordered_insert_sorted (n : ll) (q : List ll) (hs : prio_sorted q) :
    prio_sorted (ordered_insert n q) := by
  unfold ordered_insert prio_sorted
  rw [List.pairwise_append]
  refine ⟨hs.sublist (List.takeWhile_sublist _), ?_, ?_⟩
  · rw [List.pairwise_cons]
    exact ⟨fun x hx => le_of_lt (dropWhile_gt _ q hs x hx),
      hs.sublist (List.dropWhile_sublist _)⟩
  · intro a ha b hb
    have ha' : a.priority ≤ n.priority := by simpa using List.mem_takeWhile_imp ha
    rcases List.mem_cons.mp hb with rfl | hb
    · exact ha'
    · have := dropWhile_gt _ q hs b hb
      omega

theorem exec_process_split (c : Config) (rbl : cstr → world → Except halt world)
    (w w' : world) (h : exec_process c rbl w = .ok w') :
    (∃ cur cur1 w1, w.state.cur = some cur ∧
      read_instruction c w cur = .ok (none, cur1, w1) ∧
      exec_process c rbl_inert w = .ok w') ∨
    (∃ cur instr w1 wm, w.state.cur = some cur ∧
      read_instruction c w cur = .ok (some instr, cur, w1) ∧
      exec_process c rbl_inert w = .ok wm ∧ rbl instr wm = .ok w') := by
  cases hcur : w.state.cur with
  | none =>
    unfold exec_process at h
    simp only [hcur] at h
    cases h
  | some cur =>
    cases hread : read_instruction c w cur with
    | error e =>
      unfold exec_process at h
      simp only [hcur, hread] at h
      cases h
    | ok r =>
      obtain ⟨o, cur1, w1⟩ := r
      cases o with
      | none =>
        left
        refine ⟨cur, cur1, w1, rfl, hread, ?_⟩
        unfold exec_process at h ⊢
        simp only [hcur, hread] at h ⊢
        exact h
      | some instr =>
        right
        have hc1 : cur1 = cur := ((read_instruction_core c w w1 cur cur1 _ hread).2.2.2.2.2
          (by simp)).1
        subst hc1
        have hg : ∀ (r : cstr → world → Except halt world), exec_process c r w =
            match exec_process c rbl_inert w with
            | .error e => .error e
            | .ok wm => r instr wm := by
          intro r
          unfold exec_process
          simp only [hcur, hread]
          split <;> rfl
        rw [hg rbl] at h
        split at h
        · cases h
        · rename_i wm hm
          exact ⟨cur1, instr, w1, wm, rfl, hread, hm, h⟩

theorem exec_step_done (c : Config) (w w' w1 : world) (cur : pcb) (instr : cstr)
    (hcur : w.state.cur = some cur)
    (hread : read_instruction c w cur = .ok (some instr, cur, w1))
    (hdone : cur.bound ≤ cur.pc + 1)
    (h : exec_process c rbl_inert w = .ok w') :
    ∃ B S m, w' = { w1 with
        m_state := m
        backing_store := B
        stdout := S
        state := { w.state with cur := none, np := w.state.np - 1 }
        executed := w.executed ++ [(cur.pid, instr)] } ∧
      (w.state.np - 1 ≠ 0 → m = w1.m_state) ∧
      (w.state.np - 1 = 0 → mem_reset_frames c w1.m_state = .ok m) := by
  obtain ⟨⟨hst, -, -, -, hex, -⟩, -⟩ := read_instruction_core c _ _ _ _ _ hread
  obtain ⟨B, S, hB, -, -, -⟩ := remove_process_store_eq
    { w1 with state := { w.state with cur := some { cur with pc := cur.pc + 1 } } }
    { cur with pc := cur.pc + 1 }
  unfold exec_process at h
  simp only [hcur, hread, hst, free_process] at h
  rw [if_pos (by simp only [ge_iff_le]; exact hdone), hB] at h
  by_cases hnp : w.state.np - 1 = 0
  · simp only [hnp, if_true] at h
    cases hr : mem_reset_frames c w1.m_state with
    | error e => rw [hr] at h; cases h
    | ok m =>
      rw [hr] at h
      refine ⟨B, S, m, ?_, fun hh => absurd hnp hh, fun _ => rfl⟩
      simp only [rbl_inert] at h
      injection h with h
      rw [← h, hex, hnp]
  · simp only [hnp, if_false] at h
    refine ⟨B, S, w1.m_state, ?_, fun _ => rfl, fun hh => absurd hh hnp⟩
    simp only [rbl_inert] at h
    injection h with h
    rw [← h, hex]

theorem exec_step_cases (c : Config) (w w' : world) (p : pcb)
    (hcur : w.state.cur = some p) (hmode : w.state.mode ≠ .NONE)
    (hfifo : w.state.mode = .FCFS ∨ w.state.mode = .RR → fifo_wf w.state)
    (h : exec_process c rbl_inert w = .ok w') :
    (∃ p1 w1 tl, read_instruction c w p = .ok (none, p1, w1) ∧
      w' = { w1 with state := { w.state with
        queue := if w.state.mode = .FCFS ∨ w.state.mode = .RR then
            w.state.queue ++ [{ p := p1, priority := -1, id := w.state.fresh }]
          else ordered_insert { p := p1, priority := w.state.cur_priority,
                                id := w.state.fresh } w.state.queue
        tail := tl
        fresh := w.state.fresh + 1
        cur := none } } ∧
      (w.state.mode = .FCFS ∨ w.state.mode = .RR → fifo_wf w'.state)) ∨
    (∃ instr w1, read_instruction c w p = .ok (some instr, p, w1) ∧ p.pc + 1 < p.bound ∧
      w' = { w1 with
        state := { w.state with cur := some { p with pc := p.pc + 1 } }
        executed := w.executed ++ [(p.pid, instr)] }) ∨
    (∃ instr w1 B S m, read_instruction c w p = .ok (some instr, p, w1) ∧
      p.bound ≤ p.pc + 1 ∧
      w' = { w1 with
        m_state := m
        backing_store := B
        stdout := S
        state := { w.state with cur := none, np := w.state.np - 1 }
        executed := w.executed ++ [(p.pid, instr)] } ∧
      (w.state.np - 1 ≠ 0 → m = w1.m_state) ∧
      (w.state.np - 1 = 0 → mem_reset_frames c w1.m_state = .ok m)) := by
  cases hread : read_instruction c w p with
  | error e =>
    unfold exec_process at h
    simp only [hcur, hread] at h
    cases h
  | ok r =>
    obtain ⟨o, p1, w1⟩ := r
    obtain ⟨⟨hst, -, -, -, hex, -⟩, -, -, -, -, hsome⟩ := read_instruction_core c _ _ _ _ _ hread
    cases o with
    | none =>
      left
      by_cases hm : w.state.mode = .FCFS ∨ w.state.mode = .RR
      · obtain ⟨e1, e2⟩ := exec_process_fault_back c rbl_inert w w1 p p1 hcur hm hread (hfifo hm)
        rw [e1] at h
        injection h with h
        refine ⟨p1, w1, some w.state.fresh, rfl, ?_, fun _ => ?_⟩
        · rw [← h, if_pos hm]
        · rw [← h]; exact e2
      · have hm' : w.state.mode = .SJF ∨ w.state.mode = .AGING := by
          cases hmm : w.state.mode <;> simp [hmm] at hm hmode ⊢
        obtain ⟨tl, e1⟩ := exec_process_fault_prio c rbl_inert w w1 p p1 hcur hm' hread
        rw [e1] at h
        injection h with h
        refine ⟨p1, w1, tl, rfl, ?_, fun hh => absurd hh hm⟩
        rw [← h, if_neg hm]
    | some instr =>
      right
      have hp1 : p1 = p := (hsome (by simp)).1
      subst hp1
      by_cases hd : p1.pc + 1 < p1.bound
      · left
        have e1 := exec_process_cont c w w1 p1 instr hcur hread hst hd
        rw [e1] at h
        injection h with h
        refine ⟨instr, w1, rfl, hd, ?_⟩
        rw [← h, hex]
      · right
        obtain ⟨B, S, m, e1, e2, e3⟩ := exec_step_done c w w' w1 p1 instr hcur hread
          (by omega) h
        exact ⟨instr, w1, B, S, m, rfl, by omega, e1, e2, e3⟩

/-! ## The invariant of the scheduler: lemmas -/

theorem clean_inv_dirty (c : Config) (np : Int) (m : memory_state)
    (hf : m.frames_allocated = 1) (hnp : np ≠ 0) : clean_inv c np m :=
  ⟨Or.inr hf, fun h => absurd h hnp, fun h => by rw [hf] at h; cases h⟩

theorem clean_inv_congr (c : Config) (np : Int) (m m' : memory_state)
    (hf : m'.frames_allocated = m.frames_allocated)
    (hs : ∀ j, c.VARMEMSIZE ≤ j → m'.shellmemory[j]? = m.shellmemory[j]?)
    (h : clean_inv c np m) : clean_inv c np m' :=
  ⟨by rw [hf]; exact h.flag01,
   fun hn j h1 h2 => by rw [hs j h1]; exact h.idle hn j h1 h2,
   fun hz j h1 h2 => by rw [hs j h1]; exact h.flag (hf ▸ hz) j h1 h2⟩

theorem clean_inv_np (c : Config) (np np' : Int) (m : memory_state)
    (hnp : np' = 0 → np = 0) (h : clean_inv c np m) : clean_inv c np' m :=
  ⟨h.flag01, fun hn => h.idle (hnp hn), h.flag⟩

theorem clean_inv_reset (c : Config) (np np' : Int) (m m' : memory_state)
    (hsize : m.shellmemory.length = c.SHELLMEMSIZE)
    (h : clean_inv c np m) (hr : mem_reset_frames c m = .ok m') : clean_inv c np' m' := by
  obtain ⟨sm, heq, -, -, hz, hnz⟩ := mem_reset_frames_spec c m hsize
  rw [heq] at hr
  injection hr with hr
  subst hr
  have hc : frames_clean c { m with shellmemory := sm, frames_allocated := 0 } := by
    by_cases h0 : m.frames_allocated = 0
    · intro j h1 h2
      show sm[j]? = _
      rw [hz h0]
      exact h.flag h0 j h1 h2
    · exact hnz h0
  exact ⟨Or.inl rfl, fun _ => hc, fun _ => hc⟩

theorem load_page_flag (c : Config) (w w' : world) (p p' : pcb) (page : Nat)
    (h : load_page c w p page = .ok (p', w')) : w'.m_state.frames_allocated = 1 := by
  unfold load_page at h
  split at h
  · cases h
  · rename_i f w1 hl
    split at h
    · injection h with h
      injection h with _ h
      subst h
      unfold load_from_backing_store at hl
      split at hl
      · cases hl
      · split at hl
        · cases hl
        · simp only [] at hl
          split at hl
          · cases hl
          · split at hl
            · cases hl
            · injection hl with hl
              injection hl with _ hl
              subst hl
              rfl
    · cases h

theorem load_script_flag (c : Config) (w w1 : world) (file : cstr) (r : Option pcb)
    (h : load_script c w file = .ok (r, w1)) :
    (r = none → w1.m_state = w.m_state) ∧ (r ≠ none → w1.m_state.frames_allocated = 1) := by
  unfold load_script at h
  simp only at h
  split at h
  · injection h with h
    injection h with h1 h2
    subst h1 h2
    refine ⟨fun _ => ?_, fun hh => absurd rfl hh⟩
    unfold cp_to_store
    split
    · rfl
    · split <;> rfl
  · split at h
    · cases h
    · rename_i ret1 w2 hl1
      split at h
      · split at h
        · cases h
        · rename_i ret2 w3 hl2
          injection h with h
          injection h with h1 h2
          subst h1 h2
          exact ⟨fun hh => (by cases hh), fun _ => load_page_flag _ _ _ _ _ _ hl2⟩
      · injection h with h
        injection h with h1 h2
        subst h1 h2
        exact ⟨fun hh => (by cases hh), fun _ => load_page_flag _ _ _ _ _ _ hl1⟩

theorem queue_ok.pop (np : Int) (x : ll) (rest : List ll) (cp : Int) (mode : sched_mode_t)
    (h : queue_ok np (x :: rest) none cp mode) : queue_ok np rest (some x.p) x.priority mode := by
  refine ⟨?_, h.none_idle, fun hm => (List.pairwise_cons.mp (h.sorted hm)).2,
    fun hm n hn => h.nonneg hm n (List.mem_cons_of_mem _ hn),
    fun hm _ => h.nonneg hm x (List.mem_cons_self _ _)⟩
  have := h.count
  simp only [Option.toList, List.length_cons, List.length_nil] at this ⊢
  omega

theorem fifo_not_prio (mode : sched_mode_t) (hm : mode = .FCFS ∨ mode = .RR) :
    ¬ (mode = .SJF ∨ mode = .AGING) := by
  rcases hm with h | h <;> subst h <;> simp

theorem queue_ok.enq_fifo (np : Int) (q q' : List ll) (cur : Option pcb) (cp : Int)
    (mode : sched_mode_t) (h : queue_ok np q cur cp mode) (hm : mode = .FCFS ∨ mode = .RR)
    (hl : q'.length ≤ q.length + 1) : queue_ok (np + 1) q' cur cp mode := by
  have hn := fifo_not_prio mode hm
  refine ⟨?_, fun h0 => ?_, fun h0 => absurd h0 hn, fun h0 => absurd h0 hn,
    fun h0 => absurd h0 hn⟩
  · have := h.count
    push_cast at this ⊢
    omega
  · rcases hm with h1 | h1 <;> rw [h1] at h0 <;> cases h0

theorem queue_ok.requeue_fifo (np : Int) (q q' : List ll) (p : pcb) (cp : Int)
    (mode : sched_mode_t) (h : queue_ok np q (some p) cp mode) (hm : mode = .FCFS ∨ mode = .RR)
    (hl : q'.length ≤ q.length + 1) : queue_ok np q' none cp mode := by
  have hn := fifo_not_prio mode hm
  refine ⟨?_, h.none_idle, fun h0 => absurd h0 hn, fun h0 => absurd h0 hn,
    fun h0 => absurd h0 hn⟩
  have := h.count
  simp only [Option.toList, List.length_cons, List.length_nil] at this ⊢
  push_cast at this ⊢
  omega

theorem ordered_insert_length (n : ll) (q : List ll) :
    (ordered_insert n q).length = q.length + 1 := (ordered_insert_perm n q).length_eq

theorem ordered_insert_mem (n x : ll) (q : List ll) (h : x ∈ ordered_insert n q) :
    x = n ∨ x ∈ q := by
  have := (ordered_insert_perm n q).mem_iff.mp h
  exact List.mem_cons.mp this

theorem queue_ok.enq_prio (np : Int) (q : List ll) (cur : Option pcb) (cp : Int)
    (mode : sched_mode_t) (n : ll) (h : queue_ok np q cur cp mode)
    (hm : mode = .SJF ∨ mode = .AGING) (hpr : 0 ≤ n.priority) :
    queue_ok (np + 1) (ordered_insert n q) cur cp mode := by
  refine ⟨?_, fun h0 => ?_, fun _ => ordered_insert_sorted _ _ (h.sorted hm), ?_, h.cur_nonneg⟩
  · have := h.count
    rw [ordered_insert_length]
    push_cast at this ⊢
    omega
  · rcases hm with h1 | h1 <;> rw [h1] at h0 <;> cases h0
  · intro _ x hx
    rcases ordered_insert_mem _ _ _ hx with rfl | hx
    · exact hpr
    · exact h.nonneg hm x hx

theorem queue_ok.reinsert (np : Int) (q : List ll) (p d : pcb) (cp : Int) (id : Nat)
    (mode : sched_mode_t) (h : queue_ok np q (some p) cp mode) :
    queue_ok np (ordered_insert { p := d, priority := cp, id := id } q) none cp mode := by
  refine ⟨?_, h.none_idle, fun hm => ordered_insert_sorted _ _ (h.sorted hm), ?_,
    fun _ h0 => absurd rfl h0⟩
  · have := h.count
    rw [ordered_insert_length]
    simp only [Option.toList, List.length_cons, List.length_nil] at this ⊢
    push_cast at this ⊢
    omega
  · intro hm x hx
    rcases ordered_insert_mem _ _ _ hx with rfl | hx
    · exact h.cur_nonneg hm (by simp)
    · exact h.nonneg hm x hx

theorem queue_ok.cont (np : Int) (q : List ll) (p p' : pcb) (cp : Int) (mode : sched_mode_t)
    (h : queue_ok np q (some p) cp mode) : queue_ok np q (some p') cp mode :=
  ⟨h.count, h.none_idle, h.sorted, h.nonneg, fun hm _ => h.cur_nonneg hm (by simp)⟩

theorem queue_ok.done (np : Int) (q : List ll) (p : pcb) (cp : Int) (mode : sched_mode_t)
    (h : queue_ok np q (some p) cp mode) : queue_ok (np - 1) q none cp mode := by
  have hc := h.count
  simp only [Option.toList, List.length_cons, List.length_nil] at hc
  refine ⟨?_, fun h0 => ?_, h.sorted, h.nonneg, fun _ h0 => absurd rfl h0⟩
  · simp only [Option.toList, List.length_nil]
    push_cast at hc ⊢
    omega
  · have := h.none_idle h0
    push_cast at hc
    omega

/-- The priority of a queued entry after `decr_priorities`. -/
theorem decr_mono (a b : Int) (h : a ≤ b) :
    (if a > 0 then a - 1 else a) ≤ (if b > 0 then b - 1 else b) := by
  split <;> split <;> omega

theorem queue_ok.decr (np : Int) (q : List ll) (cur : Option pcb) (cp : Int)
    (mode : sched_mode_t) (h : queue_ok np q cur cp mode) :
    queue_ok np (q.map (fun n => if n.priority > 0 then { n with priority := n.priority - 1 }
      else n)) cur cp mode := by
  have hp : ∀ n : ll, (if n.priority > 0 then { n with priority := n.priority - 1 } else n).priority
      = if n.priority > 0 then n.priority - 1 else n.priority := by
    intro n
    split <;> rfl
  refine ⟨by simpa using h.count, h.none_idle, fun hm => ?_, fun hm x hx => ?_, h.cur_nonneg⟩
  · unfold prio_sorted
    rw [List.pairwise_map]
    refine (h.sorted hm).imp ?_
    intro a b hab
    rw [hp a, hp b]
    exact decr_mono _ _ hab
  · obtain ⟨y, hy, rfl⟩ := List.mem_map.mp hx
    have := h.nonneg hm y hy
    rw [hp y]
    split <;> omega

theorem queue_ok.set_mode (q : List ll) (cur : Option pcb) (cp : Int) (mode m : sched_mode_t)
    (h : queue_ok 0 q cur cp mode) (hm : m ≠ .NONE) : queue_ok 0 q cur cp m := by
  have hc := h.count
  have hq : q = [] := by
    cases q with
    | nil => rfl
    | cons x r => simp only [List.length_cons] at hc; push_cast at hc; omega
  have hcur : cur = none := by
    cases cur with
    | none => rfl
    | some p => simp only [Option.toList, List.length_cons] at hc; push_cast at hc; omega
  subst hq hcur
  exact ⟨h.count, fun h0 => absurd h0 hm, fun _ => List.Pairwise.nil,
    fun _ n hn => absurd hn (List.not_mem_nil n), fun _ h0 => absurd rfl h0⟩



theorem add_back_state (w w' : world) (d : pcb) (h : add_back w (some d) = .ok w') :
    ∃ q tl, w' = { w with state := { w.state with
        queue := q, tail := tl, fresh := w.state.fresh + 1 } } ∧
      q.length ≤ w.state.queue.length + 1 := by
  unfold add_back at h
  simp only at h
  split at h
  · rename_i hc
    cases h
    exact ⟨_, _, rfl, by simp [hc.1]⟩
  · split at h
    · cases h
    · split at h
      · cases h
      · rename_i t ht
        split at h
        · cases h
        · rename_i q hq
          cases h
          refine ⟨q, _, rfl, ?_⟩
          have := (link_after_sublist _ _ _ _ hq).length_le
          simpa using this

theorem exec_process_fault_fifo (c : Config) (rbl : cstr → world → Except halt world)
    (w w' w1 : world) (cur cur1 : pcb) (hcur : w.state.cur = some cur)
    (hmode : w.state.mode = .FCFS ∨ w.state.mode = .RR)
    (hread : read_instruction c w cur = .ok (none, cur1, w1))
    (h : exec_process c rbl w = .ok w') :
    ∃ q tl, w' = { w1 with state := { w.state with
        queue := q, tail := tl, fresh := w.state.fresh + 1, cur := none } } ∧
      q.length ≤ w.state.queue.length + 1 := by
  obtain ⟨⟨s1, -⟩, -⟩ := read_instruction_core c _ _ _ _ _ hread
  unfold exec_process at h
  simp only [hcur, hread, s1] at h
  have key : ∀ w3, add_back { w1 with state := { w.state with cur := some cur1 } } (some cur1)
      = .ok w3 → w' = { w3 with state := { w3.state with cur := none } } →
      ∃ q tl, w' = { w1 with state := { w.state with
        queue := q, tail := tl, fresh := w.state.fresh + 1, cur := none } } ∧
      q.length ≤ w.state.queue.length + 1 := by
    intro w3 h3 hw
    obtain ⟨q, tl, e, hl⟩ := add_back_state _ _ _ h3
    subst e
    exact ⟨q, tl, hw, hl⟩
  split at h
  · split at h
    · cases h
    · rename_i w3 h3
      injection h with h
      exact key w3 h3 h.symm
  · split at h
    · cases h
    · rename_i w3 h3
      injection h with h
      exact key w3 h3 h.symm
  · rename_i hm; rw [hm] at hmode; simp at hmode
  · rename_i hm; rw [hm] at hmode; simp at hmode
  · rename_i hm; rw [hm] at hmode; simp at hmode


theorem queue_ok.np_nonneg (np : Int) (q : List ll) (cur : Option pcb) (cp : Int)
    (mode : sched_mode_t) (h : queue_ok np q cur cp mode) : 0 ≤ np := by
  have := h.count
  omega

theorem queue_ok.np_pos (np : Int) (q : List ll) (p : pcb) (cp : Int)
    (mode : sched_mode_t) (h : queue_ok np q (some p) cp mode) : 0 < np ∧ mode ≠ .NONE := by
  have hc := h.count
  simp only [Option.toList, List.length_cons, List.length_nil] at hc
  push_cast at hc
  refine ⟨by omega, fun h0 => ?_⟩
  have := h.none_idle h0
  omega

theorem sched_inv_pop (c : Config) (w : world) (h : sched_inv c w) (hc : w.state.cur = none) :
    sched_inv c (pop_front w) := by
  unfold pop_front
  cases hq : w.state.queue with
  | nil => exact h
  | cons x rest =>
    have h1 := h.1
    unfold queue_inv at h1
    rw [hq, hc] at h1
    exact ⟨queue_ok.pop _ _ _ _ _ h1, h.2⟩

theorem add_process_sched (c : Config) (w w' : world) (p : pcb) (h : queue_inv w.state)
    (hm : w.state.mode ≠ .NONE) (hf : w.m_state.frames_allocated = 1)
    (ha : add_process w p = .ok w') :
    sched_inv c w' ∧ w'.state.mode = w.state.mode ∧ w'.state.cur = w.state.cur ∧
      w'.m_state = w.m_state := by
  have hnp := queue_ok.np_nonneg _ _ _ _ _ h
  have hd : clean_inv c (w.state.np + 1) w.m_state := clean_inv_dirty c _ _ hf (by omega)
  unfold add_process at ha
  split at ha
  · rename_i hmm
    split at ha
    · cases ha
    · rename_i w1 hab
      cases ha
      obtain ⟨q, tl, e, hl⟩ := add_back_state _ _ _ hab
      subst e
      exact ⟨⟨queue_ok.enq_fifo _ _ _ _ _ _ h (Or.inl hmm) hl, hd⟩, rfl, rfl, rfl⟩
  · rename_i hmm
    split at ha
    · cases ha
    · rename_i w1 hab
      cases ha
      obtain ⟨q, tl, e, hl⟩ := add_back_state _ _ _ hab
      subst e
      exact ⟨⟨queue_ok.enq_fifo _ _ _ _ _ _ h (Or.inr hmm) hl, hd⟩, rfl, rfl, rfl⟩
  · rename_i hmm
    cases ha
    obtain ⟨tl, e, -⟩ := add_with_priority_eq w p p.bound
    rw [e]
    exact ⟨⟨queue_ok.enq_prio _ _ _ _ _ _ h (Or.inl hmm) (by simp), hd⟩, rfl, rfl, rfl⟩
  · rename_i hmm
    cases ha
    obtain ⟨tl, e, -⟩ := add_with_priority_eq w p p.bound
    rw [e]
    exact ⟨⟨queue_ok.enq_prio _ _ _ _ _ _ h (Or.inr hmm) (by simp), hd⟩, rfl, rfl, rfl⟩
  · rename_i hmm
    exact absurd hmm hm

theorem set_scheduler_mode_queue (w : world) (m : sched_mode_t)
    (h : queue_inv w.state) (hm : m ≠ .NONE) :
    queue_inv (set_scheduler_mode w m).2.state ∧
      (set_scheduler_mode w m).2.state.mode ≠ .NONE ∧
      (set_scheduler_mode w m).2.state.cur = w.state.cur ∧
      (set_scheduler_mode w m).2.state.np = w.state.np ∧
      (set_scheduler_mode w m).2.m_state = w.m_state ∧
      (w.state.np ≠ 0 → (set_scheduler_mode w m).2.state.mode = w.state.mode) := by
  unfold set_scheduler_mode
  split
  · rename_i he
    exact ⟨h, by rw [he]; exact hm, rfl, rfl, rfl, fun _ => rfl⟩
  · split
    · rename_i hn
      exact ⟨h, fun h0 => hn (h.none_idle h0), rfl, rfl, rfl, fun _ => rfl⟩
    · rename_i hn
      have hn0 : w.state.np = 0 := by simpa using hn
      refine ⟨?_, hm, rfl, rfl, rfl, fun h0 => absurd hn0 h0⟩
      have h1 := h
      unfold queue_inv at h1 ⊢
      rw [hn0] at h1
      show queue_ok w.state.np _ _ _ m
      rw [hn0]
      exact queue_ok.set_mode _ _ _ _ _ h1 hm

theorem sched_inv_of_eq (c : Config) (w w' : world) (hs : w'.state = w.state)
    (hm : w'.m_state = w.m_state) (h : sched_inv c w) : sched_inv c w' := by
  unfold sched_inv
  rw [hs, hm]
  exact h

theorem submit_sched (c : Config) (w w1 : world) (file : cstr) (p : pcb) (ps : List pcb)
    (hFS : 0 < c.FRAMESIZE) (hi : sys_inv c w ps)
    (hl : load_script c w file = .ok (some p, w1)) :
    w1.state = w.state ∧ w1.m_state.frames_allocated = 1 :=
  ⟨(load_script_inv c w w1 file (some p) ps hFS hi hl).2,
   (load_script_flag c w w1 file (some p) hl).2 (by simp)⟩

theorem failed_load_sched (c : Config) (w w1 : world) (file : cstr) (ps : List pcb)
    (msg : String) (hFS : 0 < c.FRAMESIZE) (hi : sys_inv c w ps) (h : sched_inv c w)
    (hl : load_script c w file = .ok (none, w1)) :
    sched_inv c (print w1 msg) ∧ (print w1 msg).state = w.state :=
  ⟨sched_inv_of_eq c w _ (load_script_inv c w w1 file none ps hFS hi hl).2
    ((load_script_flag c w w1 file none hl).1 rfl) h,
   (load_script_inv c w w1 file none ps hFS hi hl).2⟩

theorem run_sched (c : Config) (w w' : world) (script : cstr) (code : Int)
    (hFS : 0 < c.FRAMESIZE) (hi : sys_inv c w (live w)) (h : sched_inv c w)
    (hr : run c w script = .ok (code, w')) :
    sched_inv c w' ∧ w'.state.cur = w.state.cur ∧
      (w.state.np ≠ 0 → w'.state.mode = w.state.mode) := by
  unfold run at hr
  split at hr
  · cases hr
    exact ⟨h, rfl, fun _ => rfl⟩
  · split at hr
    · cases hr
    · rename_i w1 hl
      cases hr
      obtain ⟨h1, h2⟩ := failed_load_sched c w w1 script _ _ hFS hi h hl
      exact ⟨h1, by rw [h2], fun _ => by rw [h2]⟩
    · rename_i p w1 hl
      split at hr
      · cases hr
      · rename_i w2 ha
        cases hr
        obtain ⟨hst, hfl⟩ := submit_sched c w w1 script p _ hFS hi hl
        obtain ⟨s1, s2, s3, s4, s5, s6⟩ := set_scheduler_mode_queue w1 .FCFS
          (by rw [hst]; exact h.1) (by simp)
        obtain ⟨a1, a2, a3, -⟩ := add_process_sched c _ _ p s1 s2 (by rw [s5]; exact hfl) ha
        refine ⟨a1, by rw [a3, s3, hst], fun hn => ?_⟩
        rw [a2, s6 (by rw [hst]; exact hn), hst]

theorem exec_loop_sched (c : Config) (hFS : 0 < c.FRAMESIZE) : ∀ (progs : List cstr)
    (w w' : world) (code : Int), sys_inv c w (live w) → sched_inv c w →
    w.state.mode ≠ .NONE → exec_loop c progs w = .ok (code, w') →
    sched_inv c w' ∧ w'.state.cur = w.state.cur ∧ w'.state.mode = w.state.mode
  | [], w, w', code, hi, h, hm, he => by
    rw [exec_loop] at he
    cases he
    exact ⟨h, rfl, rfl⟩
  | a :: rest, w, w', code, hi, h, hm, he => by
    rw [exec_loop] at he
    split at he
    · cases he
    · rename_i w1 hl
      cases he
      obtain ⟨h1, h2⟩ := failed_load_sched c w w1 a _ _ hFS hi h hl
      exact ⟨h1, by rw [h2], by rw [h2]⟩
    · rename_i p w1 hl
      split at he
      · cases he
      · rename_i w2 ha
        obtain ⟨hst, hfl⟩ := submit_sched c w w1 a p _ hFS hi hl
        obtain ⟨a1, a2, a3, -⟩ := add_process_sched c w1 w2 p (by rw [hst]; exact h.1)
          (by rw [hst]; exact hm) hfl ha
        obtain ⟨h1, -⟩ := load_script_inv c w w1 a (some p) _ hFS hi hl
        have hl1 : live w1 = live w := by unfold live; rw [hst]
        have hi2 : sys_inv c w2 (live w2) := by
          apply add_process_inv c _ _ p _ ha
          rw [hl1]
          exact h1
        obtain ⟨b1, b2, b3⟩ := exec_loop_sched c hFS rest w2 w' code hi2 a1
          (by rw [a2, hst]; exact hm) he
        exact ⟨b1, by rw [b2, a3, hst], by rw [b3, a2, hst]⟩

theorem policy_not_none (name : cstr) (m : sched_mode_t) (h : policy_of_name name = some m) :
    m ≠ .NONE := by
  unfold policy_of_name at h
  split at h
  · cases h; simp
  · split at h
    · cases h; simp
    · split at h
      · cases h; simp
      · split at h
        · cases h; simp
        · cases h

theorem exec_sched (c : Config) (w w' : world) (progs : List cstr) (policy : cstr)
    (code : Int) (hFS : 0 < c.FRAMESIZE) (hi : sys_inv c w (live w)) (h : sched_inv c w)
    (he : exec c w progs policy = .ok (code, w')) :
    sched_inv c w' ∧ w'.state.cur = w.state.cur ∧
      (w.state.np ≠ 0 → w'.state.mode = w.state.mode) := by
  unfold exec at he
  split at he
  · cases he
    exact ⟨h, rfl, fun _ => rfl⟩
  · split at he
    · cases he
      exact ⟨h, rfl, fun _ => rfl⟩
    · rename_i mode hm
      obtain ⟨s1, s2, s3, s4, s5, s6⟩ := set_scheduler_mode_queue w mode h.1
        (policy_not_none _ _ hm)
      obtain ⟨h2, hl2⟩ := set_scheduler_mode_inv c w mode _ hi
      have hs : sched_inv c (set_scheduler_mode w mode).2 :=
        ⟨s1, by rw [s4, s5]; exact h.2⟩
      obtain ⟨b1, b2, b3⟩ := exec_loop_sched c hFS progs _ w' code
        (by rw [hl2]; exact h2) hs s2 he
      exact ⟨b1, by rw [b2, s3], fun hn => by rw [b3, s6 hn]⟩

theorem cmd_step_sched (c : Config) (w w' : world) (hFS : 0 < c.FRAMESIZE)
    (hi : sys_inv c w (live w)) (h : sched_inv c w) (hs : cmd_step c w w') :
    sched_inv c w' ∧ w'.state.cur = w.state.cur ∧
      (w.state.np ≠ 0 → w'.state.mode = w.state.mode) := by
  cases hs with
  | other hp =>
    obtain ⟨p1, -, -, -, p5, -, -, -, -, -, p11, -⟩ := hp
    refine ⟨⟨by rw [p1]; exact h.1, ?_⟩, by rw [p1], fun _ => by rw [p1]⟩
    rw [p1]
    exact clean_inv_congr c _ _ _ p5 p11 h.2
  | run script code hr => exact run_sched c w w' script code hFS hi h hr
  | exec progs policy code he => exact exec_sched c w w' progs policy code hFS hi h he

theorem cmd_steps_sched (c : Config) (w w' : world) (hFS : 0 < c.FRAMESIZE)
    (hi : sys_inv c w (live w)) (h : sched_inv c w)
    (hs : Relation.ReflTransGen (cmd_step c) w w') :
    sched_inv c w' ∧ w'.state.cur = w.state.cur ∧
      (w.state.cur ≠ none → w'.state.mode = w.state.mode) := by
  induction hs with
  | refl => exact ⟨h, rfl, fun _ => rfl⟩
  | tail hab hbc ih =>
    rename_i b d
    obtain ⟨i1, i2, i3⟩ := ih
    have hib := cmd_steps_inv c w b hFS hi hab
    obtain ⟨j1, j2, j3⟩ := cmd_step_sched c b d hFS hib i1 hbc
    refine ⟨j1, by rw [j2, i2], fun hc => ?_⟩
    have hcb : b.state.cur ≠ none := by rw [i2]; exact hc
    cases hcur : b.state.cur with
    | none => exact absurd hcur hcb
    | some p =>
      have hq := i1.1
      unfold queue_inv at hq
      rw [hcur] at hq
      have := (queue_ok.np_pos _ _ _ _ _ hq).1
      rw [j3 (by omega), i3 hc]


theorem read_hit_mem (c : Config) (w w1 : world) (cur : pcb) (instr : cstr)
    (hi : sys_inv c w (live w)) (hcur : w.state.cur = some cur)
    (hread : read_instruction c w cur = .ok (some instr, cur, w1)) :
    w1.state = w.state ∧ w1.m_state.shellmemory = w.m_state.shellmemory ∧
      w1.m_state.frames_allocated = w.m_state.frames_allocated := by
  obtain ⟨f, m1, hpt, hkey, hmtb, hw1, -, -⟩ := read_instruction_some _ _ _ _ _ _ hread
  subst hw1
  have hp := hi.pcbs cur (by simp [live, hcur])
  obtain ⟨l, hl⟩ := hi.mem
  obtain ⟨m1', e1, -, hsm, -, hfa⟩ := mem_wf_move_to_back c w.m_state l f hl
    (hp.ok.frames _ _ hpt) (by rw [hkey]; simp)
  rw [e1] at hmtb
  injection hmtb with hmtb
  subst hmtb
  exact ⟨rfl, hsm, hfa⟩

theorem exec_inert_sched (c : Config) (w w' : world) (hi : sys_inv c w (live w))
    (h : sched_inv c w) (he : exec_process c rbl_inert w = .ok w') :
    sched_inv c w' ∧ w'.state.mode = w.state.mode := by
  cases hcur : w.state.cur with
  | none =>
    unfold exec_process at he
    simp only [hcur] at he
    cases he
  | some p =>
    have hq := h.1
    unfold queue_inv at hq
    rw [hcur] at hq
    obtain ⟨hnp, hmn⟩ := queue_ok.np_pos _ _ _ _ _ hq
    cases hread : read_instruction c w p with
    | error e =>
      unfold exec_process at he
      simp only [hcur, hread] at he
      cases he
    | ok r =>
      obtain ⟨o, p1, w1⟩ := r
      cases o with
      | none =>
        have hfl := load_page_flag _ _ _ _ _ _ (read_instruction_none _ _ _ _ _ hread)
        have hd : clean_inv c w.state.np w1.m_state := clean_inv_dirty c _ _ hfl (by omega)
        by_cases hm : w.state.mode = .FCFS ∨ w.state.mode = .RR
        · obtain ⟨q, tl, e, hl⟩ := exec_process_fault_fifo c rbl_inert w w' w1 p p1 hcur hm
            hread he
          subst e
          exact ⟨⟨queue_ok.requeue_fifo _ _ _ _ _ _ hq hm hl, hd⟩, rfl⟩
        · have hm' : w.state.mode = .SJF ∨ w.state.mode = .AGING := by
            cases hmm : w.state.mode <;> simp [hmm] at hm hmn ⊢
          obtain ⟨tl, e1⟩ := exec_process_fault_prio c rbl_inert w w1 p p1 hcur hm' hread
          rw [e1] at he
          injection he with he
          subst he
          exact ⟨⟨queue_ok.reinsert _ _ _ _ _ _ _ hq, hd⟩, rfl⟩
      | some instr =>
        have hp1 : p1 = p := ((read_instruction_core c _ _ _ _ _ hread).2.2.2.2.2
          (by simp)).1
        subst hp1
        obtain ⟨hst, hsm, hfa⟩ := read_hit_mem c w w1 p1 instr hi hcur hread
        have hc1 : clean_inv c w.state.np w1.m_state :=
          clean_inv_congr c _ _ _ hfa (fun j _ => by rw [hsm]) h.2
        by_cases hd : p1.pc + 1 < p1.bound
        · have e1 := exec_process_cont c w w1 p1 instr hcur hread hst hd
          rw [e1] at he
          injection he with he
          subst he
          exact ⟨⟨queue_ok.cont _ _ _ _ _ _ hq, hc1⟩, rfl⟩
        · obtain ⟨B, S, m, e1, e2, e3⟩ := exec_step_done c w w' w1 p1 instr hcur hread
            (by omega) he
          subst e1
          refine ⟨⟨queue_ok.done _ _ _ _ _ hq, ?_⟩, rfl⟩
          show clean_inv c (w.state.np - 1) m
          by_cases hz : w.state.np - 1 = 0
          · obtain ⟨l, hl⟩ := hi.mem
            exact clean_inv_reset c _ _ _ _ (by rw [hsm]; exact hl.size) hc1 (e3 hz)
          · rw [e2 hz]
            exact clean_inv_np c _ _ _ (fun h0 => absurd h0 hz) hc1

theorem exec_process_sched (c : Config) (rbl : cstr → world → Except halt world)
    (w w' : world) (hFS : 0 < c.FRAMESIZE) (hrbl : rbl_ok c rbl)
    (hi : sys_inv c w (live w)) (h : sched_inv c w)
    (he : exec_process c rbl w = .ok w') :
    sched_inv c w' ∧ (w'.state.cur ≠ none → w'.state.mode = w.state.mode) := by
  rcases exec_process_split c rbl w w' he with ⟨cur, cur1, w1, -, -, h1⟩ |
    ⟨cur, instr, w1, wm, -, -, h1, h2⟩
  · obtain ⟨a, b⟩ := exec_inert_sched c w w' hi h h1
    exact ⟨a, fun _ => b⟩
  · obtain ⟨a, b⟩ := exec_inert_sched c w wm hi h h1
    have him : sys_inv c wm (live wm) :=
      exec_process_inv c rbl_inert w wm hFS (fun _ _ _ h0 e => by cases e; exact h0) hi h1
    obtain ⟨d1, d2, d3⟩ := cmd_steps_sched c wm w' hFS him a (hrbl instr wm w' h2)
    exact ⟨d1, fun hc => by rw [d3 (by rw [← d2]; exact hc), b]⟩

theorem run_RR_loop_idle (c : Config) (rbl : cstr → world → Except halt world) (n : Nat)
    (w : world) (h : w.state.cur = none) : run_RR_loop c rbl n w = .ok w := by
  cases n with
  | zero => rfl
  | succ n => rw [run_RR_loop, if_pos h]

theorem run_RR_loop_sched (c : Config) (rbl : cstr → world → Except halt world)
    (hFS : 0 < c.FRAMESIZE) (hrbl : rbl_ok c rbl) :
    ∀ (n : Nat) (w w' : world), sys_inv c w (live w) → sched_inv c w →
      run_RR_loop c rbl n w = .ok w' →
      sched_inv c w' ∧ (w'.state.cur ≠ none → w'.state.mode = w.state.mode)
  | 0, w, w', hi, h, he => by
    rw [run_RR_loop] at he
    cases he
    exact ⟨h, fun _ => rfl⟩
  | n + 1, w, w', hi, h, he => by
    rw [run_RR_loop] at he
    split at he
    · cases he
      exact ⟨h, fun _ => rfl⟩
    · split at he
      · cases he
      · rename_i w1 h1
        obtain ⟨a, b⟩ := exec_process_sched c rbl w w1 hFS hrbl hi h h1
        have hi1 := exec_process_inv c rbl w w1 hFS (rbl_ok_inv c rbl hFS hrbl) hi h1
        obtain ⟨d1, d2⟩ := run_RR_loop_sched c rbl hFS hrbl n w1 w' hi1 a he
        refine ⟨d1, fun hc => ?_⟩
        by_cases hc1 : w1.state.cur = none
        · rw [run_RR_loop_idle c rbl n w1 hc1] at he
          cases he
          exact absurd hc1 hc
        · rw [d2 hc, b hc1]

theorem run_RR_sched (c : Config) (rbl : cstr → world → Except halt world) (w w' : world)
    (hFS : 0 < c.FRAMESIZE) (hrbl : rbl_ok c rbl) (hi : sys_inv c w (live w))
    (h : sched_inv c w) (hm : w.state.mode = .RR) (he : run_RR c rbl w = .ok w') :
    sched_inv c w' := by
  unfold run_RR at he
  split at he
  · cases he
  · rename_i w1 hl
    obtain ⟨a, b⟩ := run_RR_loop_sched c rbl hFS hrbl _ w w1 hi h hl
    split at he
    · rename_i hne
      split at he
      · cases he
      · rename_i w2 hab
        cases he
        cases hcur : w1.state.cur with
        | none => exact absurd hcur hne
        | some p =>
          rw [hcur] at hab
          obtain ⟨q, tl, e, hlen⟩ := add_back_state _ _ _ hab
          subst e
          have hq := a.1
          unfold queue_inv at hq
          rw [hcur] at hq
          exact ⟨queue_ok.requeue_fifo _ _ _ _ _ _ hq (Or.inr (by rw [b hne, hm])) hlen, a.2⟩
    · cases he
      exact a

theorem run_AGING_sched (c : Config) (rbl : cstr → world → Except halt world) (w w' : world)
    (hFS : 0 < c.FRAMESIZE) (hrbl : rbl_ok c rbl) (hi : sys_inv c w (live w))
    (h : sched_inv c w) (he : run_AGING c rbl w = .ok w') : sched_inv c w' := by
  unfold run_AGING at he
  split at he
  · cases he
  · rename_i w1 h1
    obtain ⟨a, -⟩ := exec_process_sched c rbl w w1 hFS hrbl hi h h1
    have h2 : sched_inv c (decr_priorities w1) := ⟨queue_ok.decr _ _ _ _ _ a.1, a.2⟩
    simp only [] at he
    split at he
    · rename_i cur hd tl hc hq
      split at he
      · cases he
        obtain ⟨t, e, -⟩ := add_with_priority_eq (decr_priorities w1) cur
          (decr_priorities w1).state.cur_priority
        rw [e]
        have hq2 := h2.1
        unfold queue_inv at hq2
        rw [hc] at hq2
        exact ⟨queue_ok.reinsert _ _ _ _ _ _ _ hq2, h2.2⟩
      · cases he
        exact h2
    · cases he
      exact h2

theorem run_scheduler_body_sched (c : Config) (rbl : cstr → world → Except halt world)
    (w w' : world) (r : Option Int) (hFS : 0 < c.FRAMESIZE) (hrbl : rbl_ok c rbl)
    (hi : sys_inv c w (live w)) (h : sched_inv c w)
    (he : run_scheduler_body c rbl w = .ok (r, w')) : sched_inv c w' := by
  unfold run_scheduler_body at he
  have hi1 : sys_inv c (if w.state.cur = none then pop_front w else w)
      (live (if w.state.cur = none then pop_front w else w)) := by
    split
    · rename_i hc
      exact pop_front_inv c w hc hi
    · exact hi
  have h1 : sched_inv c (if w.state.cur = none then pop_front w else w) := by
    split
    · rename_i hc
      exact sched_inv_pop c w h hc
    · exact h
  obtain ⟨w1, hw1⟩ : ∃ w1, w1 = (if w.state.cur = none then pop_front w else w) := ⟨_, rfl⟩
  rw [← hw1] at he hi1 h1
  simp only [] at he
  split at he
  · split at he
    · cases he
    · rename_i w2 h2
      cases he
      exact (exec_process_sched c rbl w1 _ hFS hrbl hi1 h1 h2).1
  · split at he
    · cases he
    · rename_i w2 h2
      cases he
      exact (exec_process_sched c rbl w1 _ hFS hrbl hi1 h1 h2).1
  · rename_i hm
    split at he
    · cases he
    · rename_i w2 h2
      cases he
      exact run_RR_sched c rbl w1 _ hFS hrbl hi1 h1 hm h2
  · split at he
    · cases he
    · rename_i w2 h2
      cases he
      exact run_AGING_sched c rbl w1 _ hFS hrbl hi1 h1 h2
  · cases he
    exact h1

theorem init_shell_sched (c : Config) (files : List (cstr × cstr)) (w : world)
    (h : init_shell c files = .ok w) (hN : 0 < c.NFRAMES) : sched_inv c w := by
  obtain ⟨w0, e, -, hsm, -, -, -, -, -, hst, hfa⟩ := init_shell_wf c files hN
  rw [e] at h
  cases h
  have hc : frames_clean c w.m_state := by
    intro j _ h2
    rw [hsm, List.getElem?_replicate, if_pos h2]
  refine ⟨?_, Or.inl hfa, fun _ => hc, fun _ => hc⟩
  unfold queue_inv
  rw [hst]
  exact ⟨by simp, fun _ => rfl, fun _ => List.Pairwise.nil,
    fun _ n hn => absurd hn (List.not_mem_nil n), fun _ h0 => absurd rfl h0⟩

theorem sys_reach_sched (c : Config) (files : List (cstr × cstr)) (w : world)
    (hFS : 0 < c.FRAMESIZE) (hN : 0 < c.NFRAMES) (h : sys_reach c files w) :
    sched_inv c w := by
  induction h with
  | init w _ h0 => exact init_shell_sched c files w h0 hN
  | cmd w w' hw hs ih =>
    exact (cmd_step_sched c w w' hFS (sys_reach_inv c files w hFS hN hw) ih hs).1
  | pop w _ hc ih => exact sched_inv_pop c w ih hc
  | step w w' rbl hw hr he ih =>
    exact (exec_process_sched c rbl w w' hFS hr (sys_reach_inv c files w hFS hN hw) ih he).1
  | tick w w' rbl r hw hr he ih =>
    exact run_scheduler_body_sched c rbl w w' r hFS hr (sys_reach_inv c files w hFS hN hw) ih he

theorem run_scheduler_reach (c : Config) (files : List (cstr × cstr))
    (rbl : cstr → world → Except halt world) (hrbl : rbl_ok c rbl) :
    ∀ (fuel : Nat) (w w' : world) (r : Option Int), sys_reach c files w →
      run_scheduler c rbl fuel w = .ok (r, w') → sys_reach c files w'
  | 0, w, w', r, hw, he => by
    rw [run_scheduler] at he
    split at he <;> cases he <;> exact hw
  | fuel + 1, w, w', r, hw, he => by
    rw [run_scheduler] at he
    split at he
    · split at he
      · cases he
      · rename_i r1 w1 hb
        cases he
        exact sys_reach.tick w _ rbl _ hw hrbl hb
      · rename_i w1 hb
        exact run_scheduler_reach c files rbl hrbl fuel w1 w' r
          (sys_reach.tick w _ rbl _ hw hrbl hb) he
    · cases he
      exact hw

theorem rbl_inert_ok (c : Config) : rbl_ok c rbl_inert := by
  intro line w w' h
  cases h
  exact Relation.ReflTransGen.refl

theorem demo_rr_exec :
    ∃ w0, init_shell demo_config sched_files = .ok w0 ∧
      exec demo_config w0 ["A".toList, "B".toList] "RR".toList = .ok (0, demo_rr) :=
  ⟨_, rfl, by rfl⟩

theorem demo_rr_reach : sys_reach demo_config sched_files demo_rr := by
  obtain ⟨w0, h0, h1⟩ := demo_rr_exec
  exact sys_reach.cmd _ _ (sys_reach.init _ (by decide) h0) (cmd_step.exec _ _ _ _ _ h1)

theorem demo_aging_exec :
    ∃ w0, init_shell demo_config sched_files = .ok w0 ∧
      exec demo_config w0 ["L".toList, "M".toList] "AGING".toList = .ok (0, demo_aging) :=
  ⟨_, rfl, by rfl⟩

theorem demo_aging_reach : sys_reach demo_config sched_files demo_aging := by
  obtain ⟨w0, h0, h1⟩ := demo_aging_exec
  exact sys_reach.cmd _ _ (sys_reach.init _ (by decide) h0) (cmd_step.exec _ _ _ _ _ h1)

/-! ## The ticks of the scheduler: lemmas -/

theorem body_basic (c : Config) (rbl : cstr → world → Except halt world) (w w' : world)
    (r : Option Int) (hm : w.state.mode = .FCFS ∨ w.state.mode = .SJF)
    (hb : run_scheduler_body c rbl w = .ok (r, w')) :
    r = none ∧ exec_process c rbl (if w.state.cur = none then pop_front w else w) = .ok w' := by
  unfold run_scheduler_body at hb
  have hm1 : (if w.state.cur = none then pop_front w else w).state.mode = w.state.mode := by
    split
    · rename_i hc
      exact (pop_front_live w hc).2.2.2.2
    · rfl
  obtain ⟨w1, hw1⟩ : ∃ w1, w1 = (if w.state.cur = none then pop_front w else w) := ⟨_, rfl⟩
  rw [← hw1] at hb hm1 ⊢
  rw [← hm1] at hm
  simp only [] at hb
  unfold run_basic at hb
  split at hb
  · split at hb
    · cases hb
    · rename_i w2 h2
      cases hb
      exact ⟨rfl, h2⟩
  · split at hb
    · cases hb
    · rename_i w2 h2
      cases hb
      exact ⟨rfl, h2⟩
  · rename_i h0; rw [h0] at hm; simp at hm
  · rename_i h0; rw [h0] at hm; simp at hm
  · rename_i h0; rw [h0] at hm; simp at hm

theorem fifo_step (c : Config) (w w' : world) (p : pcb)
    (hm : w.state.mode = .FCFS ∨ w.state.mode = .RR) (hf : fifo_wf w.state)
    (hcur : w.state.cur = some p) (he : exec_process c rbl_inert w = .ok w') :
    w'.state.mode = w.state.mode ∧ fifo_wf w'.state ∧
    ((∃ instr, w'.executed = w.executed ++ [(p.pid, instr)] ∧ p.pc + 1 < p.bound ∧
        w'.state.cur = some { p with pc := p.pc + 1 } ∧
        w'.state.queue = w.state.queue ∧ w'.state.np = w.state.np ∧
        w'.state.fresh = w.state.fresh) ∨
     (∃ instr, w'.executed = w.executed ++ [(p.pid, instr)] ∧ p.bound ≤ p.pc + 1 ∧
        w'.state.cur = none ∧
        w'.state.queue = w.state.queue ∧ w'.state.np = w.state.np - 1 ∧
        w'.state.fresh = w.state.fresh) ∨
     (w'.executed = w.executed ∧ w'.state.cur = none ∧ w'.state.np = w.state.np ∧
        w'.state.fresh = w.state.fresh + 1 ∧
        ∃ p1, p1.pid = p.pid ∧ p1.pc = p.pc ∧ p1.bound = p.bound ∧
          w'.state.queue = w.state.queue ++ [{ p := p1, priority := -1, id := w.state.fresh }])) := by
  have hmn : w.state.mode ≠ .NONE := by
    rcases hm with h | h <;> rw [h] <;> simp
  rcases exec_step_cases c w w' p hcur hmn (fun _ => hf) he with
    ⟨p1, w1, tl, hread, e, hf'⟩ | ⟨instr, w1, hread, hlt, e⟩ |
    ⟨instr, w1, B, S, m, hread, hge, e, -, -⟩
  · obtain ⟨⟨-, -, -, -, hex, -⟩, h1, h2, h3, -, -⟩ := read_instruction_core c _ _ _ _ _ hread
    have hf2 := hf' hm
    subst e
    refine ⟨rfl, hf2, Or.inr (Or.inr ⟨hex, rfl, rfl, rfl, p1, h1, h3, h2, ?_⟩)⟩
    show (if w.state.mode = .FCFS ∨ w.state.mode = .RR then _ else _) = _
    rw [if_pos hm]
  · subst e
    exact ⟨rfl, ⟨hf.nodup, hf.fresh, hf.tail_eq⟩,
      Or.inl ⟨instr, rfl, hlt, rfl, rfl, rfl, rfl⟩⟩
  · subst e
    exact ⟨rfl, ⟨hf.nodup, hf.fresh, hf.tail_eq⟩,
      Or.inr (Or.inl ⟨instr, rfl, hge, rfl, rfl, rfl, rfl⟩)⟩


theorem fcfs_select (c : Config) (w w' : world) (r : Option Int)
    (hm : w.state.mode = .FCFS) (hf : fifo_wf w.state)
    (hb : run_scheduler_body c rbl_inert w = .ok (r, w')) :
    r = none ∧ ∃ w1 p, w1.state.cur = some p ∧ w1.state.mode = .FCFS ∧ fifo_wf w1.state ∧
      w1.executed = w.executed ∧ exec_process c rbl_inert w1 = .ok w' ∧
      (w.state.cur ≠ none → w1 = w) := by
  obtain ⟨hr, he⟩ := body_basic c rbl_inert w w' r (Or.inl hm) hb
  refine ⟨hr, ?_⟩
  cases hcur : w.state.cur with
  | some p =>
    rw [hcur, if_neg (by simp)] at he
    exact ⟨w, p, hcur, hm, hf, rfl, he, fun _ => rfl⟩
  | none =>
    rw [hcur] at he
    simp only [if_true] at he
    cases hq : w.state.queue with
    | nil =>
      have hp : pop_front w = print w "Error: Expected a process on queue but found none!\n" := by
        unfold pop_front
        rw [hq]
      rw [hp] at he
      unfold exec_process at he
      simp only [print, hcur] at he
      cases he
    | cons x rest =>
      obtain ⟨e, hf1⟩ := pop_front_fifo w x rest hf hq
      refine ⟨pop_front w, x.p, by rw [e], by rw [e]; exact hm, by rw [e]; exact hf1,
        by rw [e], he, fun h => absurd rfl h⟩

theorem fcfs_run_extends (c : Config) : ∀ (n : Nat) (w w' : world) (r : Option Int),
    w.state.mode = .FCFS → fifo_wf w.state →
    run_scheduler c rbl_inert n w = .ok (r, w') → ∃ new, w'.executed = w.executed ++ new
  | 0, w, w', r, _, _, h => by
    rw [run_scheduler] at h
    split at h <;> cases h <;> exact ⟨[], by simp⟩
  | n + 1, w, w', r, hm, hf, h => by
    rw [run_scheduler] at h
    split at h
    · split at h
      · cases h
      · rename_i r1 w1 hb
        have := (fcfs_select c w w1 _ hm hf hb).1
        cases this
      · rename_i w1 hb
        obtain ⟨-, w0, p, h1, h2, h3, h4, h5, -⟩ := fcfs_select c w w1 _ hm hf hb
        obtain ⟨s1, s2, s3⟩ := fifo_step c w0 w1 p (Or.inl h2) h3 h1 h5
        obtain ⟨new, hn⟩ := fcfs_run_extends c n w1 w' r (by rw [s1, h2]) s2 h
        rcases s3 with ⟨i, e, -⟩ | ⟨i, e, -⟩ | ⟨e, -⟩
        · exact ⟨(p.pid, i) :: new, by rw [hn, e, h4]; simp⟩
        · exact ⟨(p.pid, i) :: new, by rw [hn, e, h4]; simp⟩
        · exact ⟨new, by rw [hn, e, h4]⟩
    · cases h
      exact ⟨[], by simp⟩

theorem run_scheduler_succ (c : Config) (rbl : cstr → world → Except halt world) (n : Nat)
    (w w1 : world) (hnp : w.state.np > 0)
    (hb : run_scheduler_body c rbl w = .ok (none, w1)) :
    run_scheduler c rbl (n + 1) w = run_scheduler c rbl n w1 := by
  rw [run_scheduler, if_pos hnp, hb]

theorem rr_loop_two (c : Config) (rbl : cstr → world → Except halt world) (w wL : world)
    (hcur : w.state.cur ≠ none) (h : run_RR_loop c rbl RR_PREEMPT_FREQ w = .ok wL) :
    ∃ wA, exec_process c rbl w = .ok wA ∧
      ((wA.state.cur = none ∧ wL = wA) ∨
       (wA.state.cur ≠ none ∧ exec_process c rbl wA = .ok wL)) := by
  unfold RR_PREEMPT_FREQ at h
  rw [run_RR_loop, if_neg hcur] at h
  split at h
  · cases h
  · rename_i wA hA
    refine ⟨wA, hA, ?_⟩
    rw [run_RR_loop] at h
    split at h
    · rename_i hc
      cases h
      exact Or.inl ⟨hc, rfl⟩
    · rename_i hc
      split at h
      · cases h
      · rename_i wB hB
        rw [run_RR_loop] at h
        cases h
        exact Or.inr ⟨hc, hB⟩

theorem run_RR_cases (c : Config) (w w' : world) (p : pcb)
    (hm : w.state.mode = .RR) (hf : fifo_wf w.state) (hcur : w.state.cur = some p)
    (h : run_RR c rbl_inert w = .ok w') :
    w'.state.cur = none ∧ w'.state.mode = .RR ∧ fifo_wf w'.state ∧
    ∃ new, w'.executed = w.executed ++ new ∧ new.length ≤ RR_PREEMPT_FREQ ∧
      (∀ e, e ∈ new → e.1 = p.pid) ∧
      ((p.bound ≤ p.pc + new.length ∧ w'.state.np = w.state.np - 1 ∧
          w'.state.queue = w.state.queue) ∨
       (w'.state.np = w.state.np ∧ ∃ p', p'.pid = p.pid ∧ p'.bound = p.bound ∧
          p'.pc = p.pc + new.length ∧
          w'.state.queue = w.state.queue ++
            [{ p := p', priority := -1, id := w.state.fresh }])) := by
  unfold run_RR at h
  split at h
  · cases h
  · rename_i wL hL
    obtain ⟨wA, hA, hcase⟩ := rr_loop_two c rbl_inert w wL (by rw [hcur]; simp) hL
    obtain ⟨a1, a2, a3⟩ := fifo_step c w wA p (Or.inr hm) hf hcur hA
    rcases hcase with ⟨hc, e⟩ | ⟨hc, hB⟩
    · subst e
      rw [if_neg (by simp [hc])] at h
      cases h
      refine ⟨hc, by rw [a1, hm], a2, ?_⟩
      rcases a3 with ⟨i, e, hlt, c1, c2, c3, c4⟩ | ⟨i, e, hge, c1, c2, c3, c4⟩ |
        ⟨e, c1, c3, c4, p1, q1, q2, q3, c2⟩
      · rw [c1] at hc; cases hc
      · exact ⟨[(p.pid, i)], e, (by simp [RR_PREEMPT_FREQ]), by simp,
          Or.inl ⟨by simpa using hge, c3, c2⟩⟩
      · exact ⟨[], by rw [e]; simp, (by simp [RR_PREEMPT_FREQ]), by simp,
          Or.inr ⟨c3, p1, q1, q3, by simpa using q2, c2⟩⟩
    · rcases a3 with ⟨i, e, hlt, c1, c2, c3, c4⟩ | ⟨i, e, hge, c1, c2, c3, c4⟩ |
        ⟨e, c1, c3, c4, p1, q1, q2, q3, c2⟩
      · obtain ⟨b1, b2, b3⟩ := fifo_step c wA wL { p with pc := p.pc + 1 }
          (Or.inr (by rw [a1, hm])) a2 c1 hB
        rcases b3 with ⟨j, e', hlt', d1, d2, d3, d4⟩ | ⟨j, e', hge', d1, d2, d3, d4⟩ |
          ⟨e', d1, d3, d4, p2, r1, r2, r3, d2⟩
        · rw [if_pos (by rw [d1]; simp)] at h
          rw [d1] at h
          obtain ⟨w2, g1, g2, g3⟩ := add_back_fifo wL { p with pc := p.pc + 1 + 1 } b2
          rw [g1] at h
          cases h
          subst g2
          refine ⟨rfl, by show wL.state.mode = _; rw [b1, a1, hm],
            ⟨g3.nodup, g3.fresh, g3.tail_eq⟩, [(p.pid, i), (p.pid, j)],
            by show wL.executed = _; rw [e', e]; simp, (by simp [RR_PREEMPT_FREQ]), ?_, Or.inr ⟨?_, ?_⟩⟩
          · intro x hx
            simp only [List.mem_cons, List.mem_singleton, List.not_mem_nil, or_false] at hx
            rcases hx with rfl | rfl <;> rfl
          · show wL.state.np = _
            rw [d3, c3]
          · refine ⟨{ p with pc := p.pc + 1 + 1 }, rfl, rfl, rfl, ?_⟩
            show wL.state.queue ++ [{ p := _, priority := -1, id := wL.state.fresh }] = _
            rw [d2, c2, d4, c4]
        · rw [if_neg (by simp [d1])] at h
          cases h
          refine ⟨d1, by rw [b1, a1, hm], b2, [(p.pid, i), (p.pid, j)],
            by rw [e', e]; simp, (by simp [RR_PREEMPT_FREQ]), ?_, Or.inl ⟨?_, by rw [d3, c3], by rw [d2, c2]⟩⟩
          · intro x hx
            simp only [List.mem_cons, List.mem_singleton, List.not_mem_nil, or_false] at hx
            rcases hx with rfl | rfl <;> rfl
          · simp only [List.length_cons, List.length_nil]
            simp only [] at hge'
            omega
        · rw [if_neg (by simp [d1])] at h
          cases h
          refine ⟨d1, by rw [b1, a1, hm], b2, [(p.pid, i)],
            by rw [e', e], (by simp [RR_PREEMPT_FREQ]), by simp, Or.inr ⟨by rw [d3, c3], p2, r1, r3, ?_, ?_⟩⟩
          · simpa using r2
          · rw [d2, c2, c4]
      · rw [c1] at hc; exact absurd rfl hc
      · rw [c1] at hc; exact absurd rfl hc


theorem body_rr (c : Config) (rbl : cstr → world → Except halt world) (w w' : world)
    (r : Option Int) (hm : w.state.mode = .RR)
    (hb : run_scheduler_body c rbl w = .ok (r, w')) :
    r = none ∧ run_RR c rbl (if w.state.cur = none then pop_front w else w) = .ok w' := by
  unfold run_scheduler_body at hb
  have hm1 : (if w.state.cur = none then pop_front w else w).state.mode = w.state.mode := by
    split
    · rename_i hc
      exact (pop_front_live w hc).2.2.2.2
    · rfl
  obtain ⟨w1, hw1⟩ : ∃ w1, w1 = (if w.state.cur = none then pop_front w else w) := ⟨_, rfl⟩
  rw [← hw1] at hb hm1 ⊢
  rw [← hm1] at hm
  simp only [] at hb
  split at hb
  · rename_i h0; rw [h0] at hm; cases hm
  · rename_i h0; rw [h0] at hm; cases hm
  · split at hb
    · cases hb
    · rename_i w2 h2
      cases hb
      exact ⟨rfl, h2⟩
  · rename_i h0; rw [h0] at hm; cases hm
  · rename_i h0; rw [h0] at hm; cases hm

theorem decr_eq_aged (q : List ll) (h : ∀ n, n ∈ q → 0 ≤ n.priority) :
    q.map (fun n => if n.priority > 0 then { n with priority := n.priority - 1 } else n) =
      aged_floor q := by
  unfold aged_floor
  apply List.map_congr_left
  intro n hn
  have h0 := h n hn
  split
  · rename_i hp
    rw [max_eq_right (by omega)]
  · rename_i hp
    have : n.priority = 0 := by omega
    cases n
    simp only at this
    subst this
    rfl

theorem body_aging (c : Config) (rbl : cstr → world → Except halt world) (w w' : world)
    (r : Option Int) (hm : w.state.mode = .AGING)
    (hb : run_scheduler_body c rbl w = .ok (r, w')) :
    r = none ∧ run_AGING c rbl (if w.state.cur = none then pop_front w else w) = .ok w' := by
  unfold run_scheduler_body at hb
  have hm1 : (if w.state.cur = none then pop_front w else w).state.mode = w.state.mode := by
    split
    · rename_i hc
      exact (pop_front_live w hc).2.2.2.2
    · rfl
  obtain ⟨w1, hw1⟩ : ∃ w1, w1 = (if w.state.cur = none then pop_front w else w) := ⟨_, rfl⟩
  rw [← hw1] at hb hm1 ⊢
  rw [← hm1] at hm
  simp only [] at hb
  split at hb
  · rename_i h0; rw [h0] at hm; cases hm
  · rename_i h0; rw [h0] at hm; cases hm
  · rename_i h0; rw [h0] at hm; cases hm
  · split at hb
    · cases hb
    · rename_i w2 h2
      cases hb
      exact ⟨rfl, h2⟩
  · rename_i h0; rw [h0] at hm; cases hm

theorem aging_tail (c : Config) (w1 : world) (h : sched_inv c w1)
    (hm1 : w1.state.mode = .AGING) :
    decr_priorities w1 = { w1 with state := { w1.state with
      queue := aged_floor w1.state.queue } } ∧
    prio_sorted (aged_floor w1.state.queue) := by
  have hq := h.1
  unfold queue_inv at hq
  have e := decr_eq_aged w1.state.queue (hq.nonneg (Or.inr hm1))
  refine ⟨?_, ?_⟩
  · unfold decr_priorities
    rw [e]
  · rw [← e]
    exact (queue_ok.decr _ _ _ _ _ hq).sorted (Or.inr hm1)

theorem run_AGING_cases (c : Config) (rbl : cstr → world → Except halt world)
    (w w1 w' : world) (he : exec_process c rbl w = .ok w1)
    (hrun : run_AGING c rbl w = .ok w') :
    (∀ p x rest, (decr_priorities w1).state.cur = some p →
      (decr_priorities w1).state.queue = x :: rest →
      ((decr_priorities w1).state.np > 1 ∧
        x.priority < (decr_priorities w1).state.cur_priority) →
      w' = { add_with_priority (decr_priorities w1) p (decr_priorities w1).state.cur_priority
        with state := { (add_with_priority (decr_priorities w1) p
          (decr_priorities w1).state.cur_priority).state with cur := none } }) ∧
    (∀ p x rest, (decr_priorities w1).state.cur = some p →
      (decr_priorities w1).state.queue = x :: rest →
      ¬ ((decr_priorities w1).state.np > 1 ∧
        x.priority < (decr_priorities w1).state.cur_priority) →
      w' = decr_priorities w1) ∧
    ((decr_priorities w1).state.cur = none → w' = decr_priorities w1) ∧
    ((decr_priorities w1).state.queue = [] → w' = decr_priorities w1) := by
  unfold run_AGING at hrun
  rw [he] at hrun
  simp only [] at hrun
  split at hrun
  · rename_i cur h tl hc hq
    split at hrun
    · rename_i hcond
      injection hrun with hrun
      refine ⟨fun p x rest h1 h2 _ => ?_, fun p x rest h1 h2 h3 => ?_, fun h1 => ?_,
        fun h1 => ?_⟩
      · rw [hc] at h1
        injection h1 with h1
        subst h1
        exact hrun.symm
      · rw [hq] at h2
        injection h2 with h2 _
        subst h2
        exact absurd hcond h3
      · rw [hc] at h1; cases h1
      · rw [hq] at h1; cases h1
    · rename_i hcond
      injection hrun with hrun
      refine ⟨fun p x rest h1 h2 h3 => ?_, fun _ _ _ _ _ _ => hrun.symm, fun _ => hrun.symm,
        fun _ => hrun.symm⟩
      rw [hq] at h2
      injection h2 with h2 _
      subst h2
      exact absurd h3 hcond
  · rename_i hno
    injection hrun with hrun
    refine ⟨fun p x rest h1 h2 _ => ?_, fun _ _ _ _ _ _ => hrun.symm, fun _ => hrun.symm,
      fun _ => hrun.symm⟩
    exact absurd h2 (fun h2 => hno p x rest h1 h2)

theorem add_process_cp (w w' : world) (p : pcb) (ha : add_process w p = .ok w') :
    w'.state.cur_priority = w.state.cur_priority := by
  unfold add_process at ha
  split at ha
  · split at ha
    · cases ha
    · rename_i w1 hab
      cases ha
      obtain ⟨q, tl, e, -⟩ := add_back_state _ _ _ hab
      subst e
      rfl
  · split at ha
    · cases ha
    · rename_i w1 hab
      cases ha
      obtain ⟨q, tl, e, -⟩ := add_back_state _ _ _ hab
      subst e
      rfl
  · cases ha
    obtain ⟨tl, e, -⟩ := add_with_priority_eq w p p.bound
    rw [e]
  · cases ha
    obtain ⟨tl, e, -⟩ := add_with_priority_eq w p p.bound
    rw [e]
  · cases ha
    rfl

theorem set_scheduler_mode_cp (w : world) (m : sched_mode_t) :
    (set_scheduler_mode w m).2.state.cur_priority = w.state.cur_priority := by
  unfold set_scheduler_mode
  split
  · rfl
  · split <;> rfl

theorem exec_loop_cp (c : Config) (hFS : 0 < c.FRAMESIZE) : ∀ (progs : List cstr)
    (w w' : world) (code : Int), sys_inv c w (live w) →
    exec_loop c progs w = .ok (code, w') → w'.state.cur_priority = w.state.cur_priority
  | [], w, w', code, hi, he => by
    rw [exec_loop] at he
    cases he
    rfl
  | a :: rest, w, w', code, hi, he => by
    rw [exec_loop] at he
    split at he
    · cases he
    · rename_i w1 hl
      cases he
      show w1.state.cur_priority = _
      rw [(load_script_inv c w w1 a none _ hFS hi hl).2]
    · rename_i p w1 hl
      split at he
      · cases he
      · rename_i w2 ha
        obtain ⟨h1, hst⟩ := load_script_inv c w w1 a (some p) _ hFS hi hl
        have hl1 : live w1 = live w := by unfold live; rw [hst]
        have hi2 : sys_inv c w2 (live w2) := by
          apply add_process_inv c _ _ p _ ha
          rw [hl1]
          exact h1
        rw [exec_loop_cp c hFS rest w2 w' code hi2 he, add_process_cp _ _ _ ha, hst]

theorem cmd_step_cp (c : Config) (w w' : world) (hFS : 0 < c.FRAMESIZE)
    (hi : sys_inv c w (live w)) (hs : cmd_step c w w') :
    w'.state.cur_priority = w.state.cur_priority := by
  cases hs with
  | other hp => rw [hp.1]
  | run script code hr =>
    unfold run at hr
    split at hr
    · cases hr
      rfl
    · split at hr
      · cases hr
      · rename_i w1 hl
        cases hr
        show w1.state.cur_priority = _
        rw [(load_script_inv c w w1 script none _ hFS hi hl).2]
      · rename_i p w1 hl
        split at hr
        · cases hr
        · rename_i w2 ha
          cases hr
          rw [add_process_cp _ _ _ ha, set_scheduler_mode_cp,
            (load_script_inv c w w1 script (some p) _ hFS hi hl).2]
  | exec progs policy code he =>
    unfold exec at he
    split at he
    · cases he
      rfl
    · split at he
      · cases he
        rfl
      · rename_i mode hm
        obtain ⟨h2, hl2⟩ := set_scheduler_mode_inv c w mode _ hi
        rw [exec_loop_cp c hFS progs _ w' code (by rw [hl2]; exact h2) he,
          set_scheduler_mode_cp]

theorem cmd_steps_cp (c : Config) (w w' : world) (hFS : 0 < c.FRAMESIZE)
    (hi : sys_inv c w (live w)) (hs : Relation.ReflTransGen (cmd_step c) w w') :
    w'.state.cur_priority = w.state.cur_priority := by
  induction hs with
  | refl => rfl
  | tail hab hbc ih =>
    rename_i b d
    rw [cmd_step_cp c b d hFS (cmd_steps_inv c w b hFS hi hab) hbc, ih]

theorem exec_inert_cp (c : Config) (w w' : world) (hq : queue_inv w.state)
    (he : exec_process c rbl_inert w = .ok w') :
    w'.state.cur_priority = w.state.cur_priority := by
  cases hcur : w.state.cur with
  | none =>
    unfold exec_process at he
    simp only [hcur] at he
    cases he
  | some p =>
    unfold queue_inv at hq
    rw [hcur] at hq
    obtain ⟨-, hmn⟩ := queue_ok.np_pos _ _ _ _ _ hq
    cases hread : read_instruction c w p with
    | error e =>
      unfold exec_process at he
      simp only [hcur, hread] at he
      cases he
    | ok r =>
      obtain ⟨o, p1, w1⟩ := r
      cases o with
      | none =>
        by_cases hm : w.state.mode = .FCFS ∨ w.state.mode = .RR
        · obtain ⟨q, tl, e, -⟩ := exec_process_fault_fifo c rbl_inert w w' w1 p p1 hcur hm
            hread he
          subst e
          rfl
        · have hm' : w.state.mode = .SJF ∨ w.state.mode = .AGING := by
            cases hmm : w.state.mode <;> simp [hmm] at hm hmn ⊢
          obtain ⟨tl, e1⟩ := exec_process_fault_prio c rbl_inert w w1 p p1 hcur hm' hread
          rw [e1] at he
          injection he with he
          subst he
          rfl
      | some instr =>
        have hp1 : p1 = p := ((read_instruction_core c _ _ _ _ _ hread).2.2.2.2.2
          (by simp)).1
        subst hp1
        obtain ⟨⟨hst, -⟩, -⟩ := read_instruction_core c _ _ _ _ _ hread
        by_cases hd : p1.pc + 1 < p1.bound
        · have e1 := exec_process_cont c w w1 p1 instr hcur hread hst hd
          rw [e1] at he
          injection he with he
          subst he
          rfl
        · obtain ⟨B, S, m, e1, -, -⟩ := exec_step_done c w w' w1 p1 instr hcur hread
            (by omega) he
          subst e1
          rfl

theorem exec_process_cp (c : Config) (rbl : cstr → world → Except halt world)
    (w w' : world) (hFS : 0 < c.FRAMESIZE) (hrbl : rbl_ok c rbl)
    (hi : sys_inv c w (live w)) (h : sched_inv c w)
    (he : exec_process c rbl w = .ok w') :
    w'.state.cur_priority = w.state.cur_priority := by
  rcases exec_process_split c rbl w w' he with ⟨cur, cur1, w1, -, -, h1⟩ |
    ⟨cur, instr, w1, wm, -, -, h1, h2⟩
  · exact exec_inert_cp c w w' h.1 h1
  · have him : sys_inv c wm (live wm) :=
      exec_process_inv c rbl_inert w wm hFS (fun _ _ _ h0 e => by cases e; exact h0) hi h1
    rw [cmd_steps_cp c wm w' hFS him (hrbl instr wm w' h2), exec_inert_cp c w wm h.1 h1]

theorem demo_aging_tie_exec :
    ∃ w0, init_shell demo_config sched_files = .ok w0 ∧
      exec demo_config w0 ["A".toList, "B".toList] "AGING".toList = .ok (0, demo_aging_tie) :=
  ⟨_, rfl, by rfl⟩

theorem demo_aging_tie_reach : sys_reach demo_config sched_files demo_aging_tie := by
  obtain ⟨w0, h0, h1⟩ := demo_aging_tie_exec
  exact sys_reach.cmd _ _ (sys_reach.init _ (by decide) h0) (cmd_step.exec _ _ _ _ _ h1)

/-! ## Shortest job first: lemmas -/

theorem sjf_inv_pop (β : Nat → Nat) (E0 : List (Nat × cstr)) (w : world)
    (h : sjf_inv β E0 w) (hc : w.state.cur = none) : sjf_inv β E0 (pop_front w) := by
  unfold pop_front
  cases hq : w.state.queue with
  | nil => exact ⟨h.mode, h.prio, h.len, h.sorted, h.cur_min, h.log⟩
  | cons x rest =>
    have hs := h.sorted
    rw [hq] at hs
    have hs' := List.pairwise_cons.mp hs
    have hlive : ∀ q, q ∈ live { w with state := { w.state with
        queue := rest
        cur := some x.p
        cur_priority := x.priority
        tail := if w.state.tail = some x.id then none else w.state.tail } } → q ∈ live w := by
      intro q hq'
      simp only [live, Option.toList, List.cons_append, List.nil_append, List.mem_cons,
        List.mem_map] at hq'
      simp only [live, hc, hq, Option.toList, List.nil_append, List.map_cons, List.mem_cons,
        List.mem_map]
      exact hq'
    have hx := h.prio x (by rw [hq]; exact List.mem_cons_self _ _)
    refine ⟨h.mode, fun n hn => h.prio n (by rw [hq]; exact List.mem_cons_of_mem _ hn),
      fun q hq' => h.len q (hlive q hq'), hs'.2, ?_, ?_⟩
    · intro p hp
      simp only [Option.some.injEq] at hp
      subst hp
      exact ⟨hx, fun n hn => by rw [← hx]; exact hs'.1 n hn⟩
    · obtain ⟨new, e1, e2, e3⟩ := h.log
      exact ⟨new, e1, e2, fun e he q hq' => e3 e he q (hlive q hq')⟩

theorem sjf_inv_step (c : Config) (β : Nat → Nat) (E0 : List (Nat × cstr)) (w w' : world)
    (h : sjf_inv β E0 w) (he : exec_process c rbl_inert w = .ok w') : sjf_inv β E0 w' := by
  cases hcur : w.state.cur with
  | none =>
    unfold exec_process at he
    simp only [hcur] at he
    cases he
  | some p =>
    have hp_live : p ∈ live w := by simp [live, hcur]
    have hq_live : ∀ n, n ∈ w.state.queue → n.p ∈ live w := by
      intro n hn
      simp only [live, List.mem_append, List.mem_map]
      exact Or.inr ⟨n, hn, rfl⟩
    obtain ⟨hcp, hmin⟩ := h.cur_min p hcur
    obtain ⟨new, e1, e2, e3⟩ := h.log
    rcases exec_step_cases c w w' p hcur (by rw [h.mode]; simp)
      (fun hm => by rw [h.mode] at hm; simp at hm) he with
      ⟨p1, w1, tl, hread, e, -⟩ | ⟨instr, w1, hread, hlt, e⟩ |
      ⟨instr, w1, B, S, m, hread, hge, e, -, -⟩
    · obtain ⟨⟨-, -, -, -, hex, -⟩, h1, h2, -, -, -⟩ := read_instruction_core c _ _ _ _ _ hread
      have hnot : ¬ (w.state.mode = .FCFS ∨ w.state.mode = .RR) := by rw [h.mode]; simp
      rw [if_neg hnot] at e
      subst e
      have hmem : ∀ n, n ∈ ordered_insert
          { p := p1, priority := w.state.cur_priority, id := w.state.fresh } w.state.queue →
          n = { p := p1, priority := w.state.cur_priority, id := w.state.fresh } ∨
            n ∈ w.state.queue := fun n hn => ordered_insert_mem _ _ _ hn
      have hlive : ∀ q, q ∈ live { w1 with state := { w.state with
          queue := ordered_insert
            { p := p1, priority := w.state.cur_priority, id := w.state.fresh } w.state.queue
          tail := tl
          fresh := w.state.fresh + 1
          cur := none } } → q = p1 ∨ q ∈ live w := by
        intro q hq
        simp only [live, Option.toList, List.nil_append, List.mem_map] at hq
        obtain ⟨n, hn, rfl⟩ := hq
        rcases hmem n hn with rfl | hn
        · exact Or.inl rfl
        · exact Or.inr (hq_live n hn)
      refine ⟨h.mode, ?_, ?_, ordered_insert_sorted _ _ h.sorted, fun q hq => (by cases hq),
        new, by rw [← e1]; exact hex, e2, ?_⟩
      · intro n hn
        rcases hmem n hn with rfl | hn
        · show w.state.cur_priority = _
          rw [hcp, h2]
        · exact h.prio n hn
      · intro q hq
        rcases hlive q hq with hq1 | hq
        · rw [hq1, h1, h2]
          exact h.len p hp_live
        · exact h.len q hq
      · intro x hx q hq
        rcases hlive q hq with hq1 | hq
        · rw [hq1, h2]
          exact e3 x hx p hp_live
        · exact e3 x hx q hq
    · subst e
      have hlive : ∀ q, q ∈ live { w1 with
          state := { w.state with cur := some { p with pc := p.pc + 1 } }
          executed := w.executed ++ [(p.pid, instr)] } →
          (q.pid = p.pid ∧ q.bound = p.bound) ∨ (∃ n, n ∈ w.state.queue ∧ n.p = q) := by
        intro q hq
        simp only [live, Option.toList, List.cons_append, List.nil_append, List.mem_cons,
          List.mem_map] at hq
        rcases hq with rfl | hq
        · exact Or.inl ⟨rfl, rfl⟩
        · exact Or.inr hq
      have hb : ∀ q, q ∈ live { w1 with
          state := { w.state with cur := some { p with pc := p.pc + 1 } }
          executed := w.executed ++ [(p.pid, instr)] } →
          β q.pid = q.bound ∧ p.bound ≤ q.bound ∧ ∀ e, e ∈ new → β e.1 ≤ q.bound := by
        intro q hq
        rcases hlive q hq with ⟨a, b⟩ | ⟨n, hn, rfl⟩
        · rw [a, b]
          exact ⟨h.len p hp_live, le_refl _, fun e he => e3 e he p hp_live⟩
        · refine ⟨h.len _ (hq_live n hn), ?_, fun e he => e3 e he _ (hq_live n hn)⟩
          have := hmin n hn
          rw [h.prio n hn] at this
          exact_mod_cast this
      refine ⟨h.mode, h.prio, fun q hq => (hb q hq).1, h.sorted, ?_, ?_⟩
      · intro p' hp'
        simp only [Option.some.injEq] at hp'
        subst hp'
        exact ⟨hcp, hmin⟩
      · refine ⟨new ++ [(p.pid, instr)], by rw [e1, List.append_assoc], ?_, ?_⟩
        · rw [List.pairwise_append]
          refine ⟨e2, List.pairwise_singleton _ _, fun a ha b hb' => ?_⟩
          simp only [List.mem_singleton] at hb'
          subst hb'
          show β a.1 ≤ β p.pid
          rw [h.len p hp_live]
          exact e3 a ha p hp_live
        · intro e he q hq
          rcases List.mem_append.mp he with he | he
          · exact (hb q hq).2.2 e he
          · simp only [List.mem_singleton] at he
            subst he
            show β p.pid ≤ q.bound
            rw [h.len p hp_live]
            exact (hb q hq).2.1
    · subst e
      have hlive : ∀ q, q ∈ live { w1 with
          m_state := m
          backing_store := B
          stdout := S
          state := { w.state with cur := none, np := w.state.np - 1 }
          executed := w.executed ++ [(p.pid, instr)] } → ∃ n, n ∈ w.state.queue ∧ n.p = q := by
        intro q hq
        simp only [live, Option.toList, List.nil_append, List.mem_map] at hq
        exact hq
      have hb : ∀ q, q ∈ live { w1 with
          m_state := m
          backing_store := B
          stdout := S
          state := { w.state with cur := none, np := w.state.np - 1 }
          executed := w.executed ++ [(p.pid, instr)] } →
          β q.pid = q.bound ∧ p.bound ≤ q.bound ∧ ∀ e, e ∈ new → β e.1 ≤ q.bound := by
        intro q hq
        obtain ⟨n, hn, rfl⟩ := hlive q hq
        refine ⟨h.len _ (hq_live n hn), ?_, fun e he => e3 e he _ (hq_live n hn)⟩
        have := hmin n hn
        rw [h.prio n hn] at this
        exact_mod_cast this
      refine ⟨h.mode, h.prio, fun q hq => (hb q hq).1, h.sorted, fun q hq => (by cases hq), ?_⟩
      refine ⟨new ++ [(p.pid, instr)], by rw [e1, List.append_assoc], ?_, ?_⟩
      · rw [List.pairwise_append]
        refine ⟨e2, List.pairwise_singleton _ _, fun a ha b hb' => ?_⟩
        simp only [List.mem_singleton] at hb'
        subst hb'
        show β a.1 ≤ β p.pid
        rw [h.len p hp_live]
        exact e3 a ha p hp_live
      · intro e he q hq
        rcases List.mem_append.mp he with he | he
        · exact (hb q hq).2.2 e he
        · simp only [List.mem_singleton] at he
          subst he
          show β p.pid ≤ q.bound
          rw [h.len p hp_live]
          exact (hb q hq).2.1


theorem sjf_run (c : Config) (β : Nat → Nat) (E0 : List (Nat × cstr)) :
    ∀ (n : Nat) (w w' : world) (r : Option Int), sjf_inv β E0 w →
      run_scheduler c rbl_inert n w = .ok (r, w') → sjf_inv β E0 w'
  | 0, w, w', r, h, he => by
    rw [run_scheduler] at he
    split at he <;> cases he <;> exact h
  | n + 1, w, w', r, h, he => by
    rw [run_scheduler] at he
    split at he
    · split at he
      · cases he
      · rename_i r1 w1 hb
        have := (body_basic c rbl_inert w w1 _ (Or.inr h.mode) hb).1
        cases this
      · rename_i w1 hb
        obtain ⟨-, h1⟩ := body_basic c rbl_inert w w1 _ (Or.inr h.mode) hb
        have h0 : sjf_inv β E0 (if w.state.cur = none then pop_front w else w) := by
          split
          · rename_i hc
            exact sjf_inv_pop β E0 w h hc
          · exact h
        exact sjf_run c β E0 n w1 w' r (sjf_inv_step c β E0 _ w1 h0 h1) he
    · cases he
      exact h

theorem bound_fun (ps : List pcb) (hnd : (ps.map pcb.pid).Nodup) :
    ∃ β : Nat → Nat, ∀ q, q ∈ ps → β q.pid = q.bound := by
  induction ps with
  | nil => exact ⟨fun _ => 0, fun q hq => absurd hq (List.not_mem_nil q)⟩
  | cons x rest ih =>
    rw [List.map_cons, List.nodup_cons] at hnd
    obtain ⟨β, hβ⟩ := ih hnd.2
    refine ⟨fun i => if i = x.pid then x.bound else β i, fun q hq => ?_⟩
    rcases List.mem_cons.mp hq with rfl | hq
    · simp
    · have hne : q.pid ≠ x.pid := by
        intro e
        apply hnd.1
        rw [← e]
        exact List.mem_map_of_mem _ hq
      simp only [hne, if_false]
      exact hβ q hq

theorem sjf_order (c : Config) (n : Nat) (w w' : world) (r : Option Int) (S L : pcb)
    (hm : w.state.mode = .SJF) (hc : w.state.cur = none)
    (hp : ∀ x, x ∈ w.state.queue → x.priority = (x.p.bound : Int))
    (hs : prio_sorted w.state.queue) (hnd : ((live w).map pcb.pid).Nodup)
    (hS : S ∈ live w) (hL : L ∈ live w) (hlt : S.bound < L.bound)
    (he : run_scheduler c rbl_inert n w = .ok (r, w')) :
    ∃ new, w'.executed = w.executed ++ new ∧
      ∀ i j : Nat, i ≤ j → (new[i]?).map Prod.fst = some L.pid →
        (new[j]?).map Prod.fst ≠ some S.pid := by
  obtain ⟨β, hβ⟩ := bound_fun (live w) hnd
  have h0 : sjf_inv β w.executed w :=
    ⟨hm, hp, hβ, hs, fun p hp' => (by rw [hc] at hp'; cases hp'),
      [], by simp, List.Pairwise.nil, fun e he' => absurd he' (List.not_mem_nil e)⟩
  obtain ⟨new, e1, e2, -⟩ := (sjf_run c β w.executed n w w' r h0 he).log
  refine ⟨new, e1, fun i j hij hi hj => ?_⟩
  cases hni : new[i]? with
  | none => rw [hni] at hi; cases hi
  | some a =>
    cases hnj : new[j]? with
    | none => rw [hnj] at hj; cases hj
    | some b =>
      rw [hni] at hi
      rw [hnj] at hj
      simp only [Option.map_some', Option.some.injEq] at hi hj
      have hb := hj
      have hle : β a.1 ≤ β b.1 := by
        rcases Nat.lt_or_eq_of_le hij with hlt' | heq
        · have hi' : i < new.length := by
            by_contra hcon
            rw [List.getElem?_eq_none (by omega)] at hni
            cases hni
          have hj' : j < new.length := by
            by_contra hcon
            rw [List.getElem?_eq_none (by omega)] at hnj
            cases hnj
          rw [List.getElem?_eq_getElem hi'] at hni
          rw [List.getElem?_eq_getElem hj'] at hnj
          injection hni with hni
          injection hnj with hnj
          rw [← hni, ← hnj]
          exact List.pairwise_iff_getElem.mp e2 i j hi' hj' hlt'
        · subst heq
          rw [hni] at hnj
          injection hnj with hnj
          rw [hnj]
      rw [hi, hb, hβ L hL, hβ S hS] at hle
      omega


theorem add_process_sjf (w w' : world) (p : pcb) (hm : w.state.mode = .SJF)
    (ha : add_process w p = .ok w') :
    w'.state.mode = .SJF ∧
      w'.state.queue = ordered_insert { p := p, priority := p.bound, id := w.state.fresh }
        w.state.queue := by
  unfold add_process at ha
  rw [hm] at ha
  simp only [] at ha
  injection ha with ha
  obtain ⟨tl, e, -⟩ := add_with_priority_eq w p p.bound
  rw [e] at ha
  subst ha
  exact ⟨hm, rfl⟩

theorem exec_loop_prio (c : Config) (hFS : 0 < c.FRAMESIZE) : ∀ (progs : List cstr)
    (w w' : world) (code : Int), sys_inv c w (live w) → w.state.mode = .SJF →
    (∀ x, x ∈ w.state.queue → x.priority = (x.p.bound : Int)) →
    exec_loop c progs w = .ok (code, w') →
    w'.state.mode = .SJF ∧ ∀ x, x ∈ w'.state.queue → x.priority = (x.p.bound : Int)
  | [], w, w', code, hi, hm, hp, he => by
    rw [exec_loop] at he
    cases he
    exact ⟨hm, hp⟩
  | a :: rest, w, w', code, hi, hm, hp, he => by
    rw [exec_loop] at he
    split at he
    · cases he
    · rename_i w1 hl
      cases he
      have hst := (load_script_inv c w w1 a none _ hFS hi hl).2
      show w1.state.mode = _ ∧ ∀ x, x ∈ w1.state.queue → _
      rw [hst]
      exact ⟨hm, hp⟩
    · rename_i p w1 hl
      split at he
      · cases he
      · rename_i w2 ha
        obtain ⟨h1, hst⟩ := load_script_inv c w w1 a (some p) _ hFS hi hl
        have hl1 : live w1 = live w := by unfold live; rw [hst]
        have hi2 : sys_inv c w2 (live w2) := by
          apply add_process_inv c _ _ p _ ha
          rw [hl1]
          exact h1
        obtain ⟨m2, q2⟩ := add_process_sjf w1 w2 p (by rw [hst]; exact hm) ha
        refine exec_loop_prio c hFS rest w2 w' code hi2 m2 ?_ he
        intro x hx
        rw [q2] at hx
        rcases ordered_insert_mem _ _ _ hx with rfl | hx
        · rfl
        · rw [hst] at hx
          exact hp x hx

theorem set_scheduler_mode_ready (w : world) (m : sched_mode_t) (h : w.state.np = 0) :
    set_scheduler_mode w m = (0, { w with state := { w.state with mode := m } }) := by
  unfold set_scheduler_mode
  by_cases hm : w.state.mode = m
  · rw [if_pos hm]
    subst hm
    rfl
  · rw [if_neg hm, if_neg (by simp [h])]

theorem load_script_store (c : Config) (w w1 : world) (file : cstr) (r : Option pcb)
    (h : load_script c w file = .ok (r, w1)) :
    w1.state = w.state ∧
    (∀ q, w.backing_store.lookup q ≠ none → w1.backing_store.lookup q ≠ none) ∧
    (∀ p, r = some p → p.pid = w.cur_pid ∧ w.backing_store.lookup p.pid = none ∧
      w1.backing_store.lookup p.pid ≠ none) := by
  have hR : (cp_to_store { w with cur_pid := (w.cur_pid + 1) % 2 ^ 64 } file w.cur_pid).2.state
        = w.state ∧
      (∀ q, w.backing_store.lookup q ≠ none →
        (cp_to_store { w with cur_pid := (w.cur_pid + 1) % 2 ^ 64 } file
          w.cur_pid).2.backing_store.lookup q ≠ none) ∧
      (¬ (cp_to_store { w with cur_pid := (w.cur_pid + 1) % 2 ^ 64 } file w.cur_pid).1 ≤ 0 →
        w.backing_store.lookup w.cur_pid = none ∧
        (cp_to_store { w with cur_pid := (w.cur_pid + 1) % 2 ^ 64 } file
          w.cur_pid).2.backing_store.lookup w.cur_pid ≠ none) := by
    rcases cp_to_store_cases { w with cur_pid := (w.cur_pid + 1) % 2 ^ 64 } file w.cur_pid with
      e | ⟨content, -, hb, e⟩
    · rw [e]
      exact ⟨rfl, fun q hq => hq, fun hpos => absurd (show ((-1 : Int)) ≤ 0 by decide) hpos⟩
    · rw [e]
      refine ⟨rfl, fun q hq => ?_, fun _ => ⟨hb, ?_⟩⟩
      · show (w.backing_store ++ [(w.cur_pid, copied content)]).lookup q ≠ none
        by_cases hqp : q = w.cur_pid
        · subst hqp
          exact absurd hb hq
        · rw [lookup_append_ne _ _ _ _ hqp]
          exact hq
      · show (w.backing_store ++ [(w.cur_pid, copied content)]).lookup w.cur_pid ≠ none
        rw [lookup_append_self _ _ _ hb]
        exact fun hh => by cases hh
  obtain ⟨r1, r2, r3⟩ := hR
  unfold load_script at h
  simp only [] at h
  split at h
  · cases h
    exact ⟨r1, r2, fun p hp => by cases hp⟩
  · rename_i hpos
    obtain ⟨r4, r5⟩ := r3 hpos
    split at h
    · cases h
    · rename_i ret1 w2 h1
      obtain ⟨⟨a1, -, a3, -⟩, a5, -⟩ := load_page_core c _ _ _ _ _ h1
      split at h
      · split at h
        · cases h
        · rename_i ret2 w3 h2
          obtain ⟨⟨b1, -, b3, -⟩, b5, -⟩ := load_page_core c _ _ _ _ _ h2
          cases h
          refine ⟨by rw [b1, a1]; exact r1, fun q hq => by rw [b3, a3]; exact r2 q hq,
            fun p hp => ?_⟩
          injection hp with hp
          subst hp
          rw [b5, a5]
          exact ⟨rfl, r4, by rw [b3, a3]; exact r5⟩
      · cases h
        refine ⟨by rw [a1]; exact r1, fun q hq => by rw [a3]; exact r2 q hq, fun p hp => ?_⟩
        injection hp with hp
        subst hp
        rw [a5]
        exact ⟨rfl, r4, by rw [a3]; exact r5⟩

theorem exec_loop_sjf (c : Config) : ∀ (progs : List cstr) (w w' : world) (code : Int),
    w.state.mode = .SJF → w.state.cur = none →
    (∀ x, x ∈ w.state.queue → x.priority = (x.p.bound : Int)) →
    prio_sorted w.state.queue → ((w.state.queue.map ll.p).map pcb.pid).Nodup →
    (∀ x, x ∈ w.state.queue → w.backing_store.lookup x.p.pid ≠ none) →
    exec_loop c progs w = .ok (code, w') →
    w'.state.mode = .SJF ∧ w'.state.cur = none ∧
      (∀ x, x ∈ w'.state.queue → x.priority = (x.p.bound : Int)) ∧
      prio_sorted w'.state.queue ∧ ((w'.state.queue.map ll.p).map pcb.pid).Nodup
  | [], w, w', code, hm, hc, hp, hs, hn, _, he => by
    rw [exec_loop] at he
    cases he
    exact ⟨hm, hc, hp, hs, hn⟩
  | a :: rest, w, w', code, hm, hc, hp, hs, hn, hf, he => by
    rw [exec_loop] at he
    split at he
    · cases he
    · rename_i w1 hl
      cases he
      obtain ⟨hst, -, -⟩ := load_script_store c w w1 a none hl
      show w1.state.mode = .SJF ∧ w1.state.cur = none ∧
        (∀ x, x ∈ w1.state.queue → x.priority = (x.p.bound : Int)) ∧
        prio_sorted w1.state.queue ∧ ((w1.state.queue.map ll.p).map pcb.pid).Nodup
      rw [hst]
      exact ⟨hm, hc, hp, hs, hn⟩
    · rename_i p w1 hl
      obtain ⟨hst, hmono, hnew⟩ := load_script_store c w w1 a (some p) hl
      obtain ⟨hpid, hfree, hheld⟩ := hnew p rfl
      split at he
      · cases he
      · rename_i w2 ha
        obtain ⟨m2, q2⟩ := add_process_sjf w1 w2 p (by rw [hst]; exact hm) ha
        have hw2 : w2.state.cur = w1.state.cur ∧ w2.backing_store = w1.backing_store := by
          unfold add_process at ha
          rw [hst, hm] at ha
          simp only [] at ha
          injection ha with ha
          obtain ⟨-, a2, -, a4, -⟩ := add_with_priority_live w1 p p.bound
          rw [← ha]
          exact ⟨a4, a2⟩
        have hmem : ∀ x, x ∈ w2.state.queue →
            x = { p := p, priority := p.bound, id := w1.state.fresh } ∨ x ∈ w.state.queue := by
          intro x hx
          rw [q2] at hx
          rcases ordered_insert_mem _ _ _ hx with e | hx
          · exact Or.inl e
          · rw [hst] at hx
            exact Or.inr hx
        refine exec_loop_sjf c rest w2 w' code m2 (by rw [hw2.1, hst]; exact hc) ?_ ?_ ?_ ?_ he
        · intro x hx
          rcases hmem x hx with rfl | hx
          · rfl
          · exact hp x hx
        · rw [q2]
          exact ordered_insert_sorted _ _ (by rw [hst]; exact hs)
        · rw [q2]
          have hperm := ((ordered_insert_perm
            { p := p, priority := (p.bound : Int), id := w1.state.fresh } w1.state.queue).map
              ll.p).map pcb.pid
          rw [hperm.nodup_iff]
          simp only [List.map_cons]
          rw [List.nodup_cons, hst]
          refine ⟨fun hin => ?_, hn⟩
          obtain ⟨y, hy, hye⟩ := List.mem_map.mp hin
          obtain ⟨x, hx, hxe⟩ := List.mem_map.mp hy
          have := hf x hx
          rw [hxe, hye] at this
          exact this hfree
        · intro x hx
          rw [hw2.2]
          rcases hmem x hx with rfl | hx
          · exact hheld
          · exact hmono _ (hf x hx)

theorem sjf_submitted (c : Config) (files : List (cstr × cstr)) (w0 w : world)
    (progs : List cstr) (code : Int) (hN : 0 < c.NFRAMES)
    (h0 : init_shell c files = .ok w0)
    (h1 : exec c w0 progs "SJF".toList = .ok (code, w)) :
    live w = [] ∨
    (w.state.mode = .SJF ∧ w.state.cur = none ∧
      (∀ x, x ∈ w.state.queue → x.priority = (x.p.bound : Int)) ∧
      prio_sorted w.state.queue ∧ ((live w).map pcb.pid).Nodup) := by
  obtain ⟨w00, e, -, -, -, -, -, -, -, hst, -⟩ := init_shell_wf c files hN
  rw [e] at h0
  injection h0 with h0
  subst h0
  unfold exec at h1
  split at h1
  · cases h1
    left
    simp [live, print, hst]
  · have hpol : policy_of_name "SJF".toList = some .SJF := by decide
    rw [hpol] at h1
    simp only [] at h1
    right
    rw [set_scheduler_mode_ready w00 .SJF (by rw [hst])] at h1
    simp only [] at h1
    obtain ⟨a1, a2, a3, a4, a5⟩ := exec_loop_sjf c progs _ w code rfl (by simp [hst])
      (by
        intro x hx
        simp [hst] at hx)
      (by simp [hst, prio_sorted]) (by simp [hst]) (by
        intro x hx
        simp [hst] at hx) h1
    refine ⟨a1, a2, a3, a4, ?_⟩
    unfold live
    rw [a2]
    exact a5

theorem demo_sjf_exec :
    ∃ w0, init_shell demo_config sched_files = .ok w0 ∧
      exec demo_config w0 ["K".toList, "S".toList] "SJF".toList = .ok (0, demo_sjf) :=
  ⟨_, rfl, by rfl⟩

/-! ## Loading a script: lemmas -/

theorem load_script_some (c : Config) (w w1 : world) (file : cstr) (p : pcb)
    (h : load_script c w file = .ok (some p, w1)) :
    p.pid = w.cur_pid ∧ p.pc = 0 ∧ 0 < p.bound ∧
      (p.bound : Int) = (cp_to_store { w with cur_pid := (w.cur_pid + 1) % 2 ^ 64 } file
        w.cur_pid).1 ∧
      p.pagetable.length = (p.bound + c.FRAMESIZE - 1) / c.FRAMESIZE := by
  unfold load_script at h
  simp only at h
  split at h
  · cases h
  · rename_i hpos
    have hpos' : 0 < (cp_to_store { w with cur_pid := (w.cur_pid + 1) % 2 ^ 64 } file
        w.cur_pid).1 := by omega
    have hcast : (((cp_to_store { w with cur_pid := (w.cur_pid + 1) % 2 ^ 64 } file
        w.cur_pid).1.toNat : Nat) : Int) = (cp_to_store { w with cur_pid :=
          (w.cur_pid + 1) % 2 ^ 64 } file w.cur_pid).1 := Int.toNat_of_nonneg (by omega)
    have hnat : 0 < (cp_to_store { w with cur_pid := (w.cur_pid + 1) % 2 ^ 64 } file
        w.cur_pid).1.toNat := by omega
    split at h
    · cases h
    · rename_i ret1 w2 hl1
      obtain ⟨-, a1, a2, a3, a4⟩ := load_page_core _ _ _ _ _ _ hl1
      split at h
      · split at h
        · cases h
        · rename_i ret2 w3 hl2
          obtain ⟨-, b1, b2, b3, b4⟩ := load_page_core _ _ _ _ _ _ hl2
          injection h with h
          injection h with h1 h2
          injection h1 with h1
          subst h1
          refine ⟨by rw [b1, a1], by rw [b3, a3], by rw [b2, a2]; exact hnat,
            by rw [b2, a2]; exact hcast, ?_⟩
          rw [b4, a4, b2, a2]
          simp
      · injection h with h
        injection h with h1 h2
        injection h1 with h1
        subst h1
        refine ⟨a1, a3, by rw [a2]; exact hnat, by rw [a2]; exact hcast, ?_⟩
        rw [a4, a2]
        simp

theorem load_script_none (c : Config) (w w1 : world) (file : cstr)
    (h : load_script c w file = .ok (none, w1)) :
    (cp_to_store { w with cur_pid := (w.cur_pid + 1) % 2 ^ 64 } file w.cur_pid).1 ≤ 0 ∧
      w1 = (cp_to_store { w with cur_pid := (w.cur_pid + 1) % 2 ^ 64 } file w.cur_pid).2 := by
  unfold load_script at h
  simp only at h
  split at h
  · rename_i hle
    injection h with h
    injection h with h1 h2
    exact ⟨hle, h2.symm⟩
  · split at h
    · cases h
    · split at h
      · split at h
        · cases h
        · injection h with h
          injection h with h1 h2
          cases h1
      · injection h with h
        injection h with h1 h2
        cases h1

theorem cp_to_store_fail (w : world) (file : cstr) (pid : Nat)
    (h : w.cwd.lookup file = none ∨ w.backing_store.lookup pid ≠ none) :
    cp_to_store w file pid = (-1, error_copy_failed w) := by
  unfold cp_to_store
  cases hf : w.cwd.lookup file with
  | none => rfl
  | some content =>
    cases hb : w.backing_store.lookup pid with
    | some x => rfl
    | none =>
      rcases h with h | h
      · rw [hf] at h; cases h
      · exact absurd hb h

theorem cp_to_store_count (w : world) (file content : cstr) (pid : Nat)
    (hf : w.cwd.lookup file = some content) (hb : w.backing_store.lookup pid = none) :
    cp_to_store w file pid =
      ((((copied content).count '\n' +
          (if content.getLast? = some '\n' then 0 else 1) : Nat) : Int),
        { w with backing_store := w.backing_store ++ [(pid, copied content)] }) := by
  rcases cp_to_store_cases w file pid with h | ⟨content', h1, h2, h3⟩
  · unfold cp_to_store at h
    simp only [hf, hb] at h
    injection h with h1 h2
    split at h1 <;> omega
  · rw [hf] at h1
    injection h1 with h1
    subst h1
    exact h3

/-- For a text the copy is verbatim and the count is the number of lines. -/
theorem cp_to_store_text (w : world) (file content : cstr) (pid : Nat)
    (hne : content ≠ []) (ht : is_text content) (hf : w.cwd.lookup file = some content)
    (hb : w.backing_store.lookup pid = none) :
    cp_to_store w file pid =
      (((content.count '\n' + (if content.getLast? = some '\n' then 0 else 1) : Nat) : Int),
        { w with backing_store := w.backing_store ++ [(pid, content)] }) ∧
    (content.count '\n' + (if content.getLast? = some '\n' then 0 else 1) =
      (script_lines content).length) := by
  have h := cp_to_store_count w file content pid hf hb
  rw [copied_text content ht] at h
  exact ⟨h, (script_lines_length content hne).symm⟩

theorem line_count_pos (content : cstr) :
    0 < content.count '\n' + (if content.getLast? = some '\n' then 0 else 1) := by
  by_cases hl : content.getLast? = some '\n'
  · rw [if_pos hl, Nat.add_zero, List.count_pos_iff]
    exact List.mem_of_getLast?_eq_some hl
  · rw [if_neg hl]
    omega

theorem load_script_fail (c : Config) (w : world) (file : cstr)
    (h : w.cwd.lookup file = none ∨ w.backing_store.lookup w.cur_pid ≠ none) :
    load_script c w file =
      .ok (none, error_copy_failed { w with cur_pid := (w.cur_pid + 1) % 2 ^ 64 }) := by
  unfold load_script
  simp only
  rw [cp_to_store_fail { w with cur_pid := (w.cur_pid + 1) % 2 ^ 64 } file w.cur_pid h]
  simp

/-! ## Example states: reachability -/

theorem demo_rr2_exec :
    ∃ w0, init_shell demo_config2 demo_files = .ok w0 ∧
      exec demo_config2 w0 ["a".toList, "b".toList] "RR".toList = .ok (0, demo_rr2) :=
  ⟨_, rfl, by rfl⟩

theorem demo_rr2_reach : sys_reach demo_config2 demo_files demo_rr2 := by
  obtain ⟨w0, h0, h1⟩ := demo_rr2_exec
  exact sys_reach.cmd _ _ (sys_reach.init _ (by decide) h0) (cmd_step.exec _ _ _ _ _ h1)

theorem demo_unfilled_reach : sys_reach demo_config2 demo_files demo_unfilled :=
  run_scheduler_reach demo_config2 demo_files rbl_inert (rbl_inert_ok _) 6 demo_rr2
    demo_unfilled none demo_rr2_reach (by rfl)

theorem load_into_mem_quiet (c : Config) (w w' : world) (p : pcb) (start : Nat)
    (refs : List Nat) (content : cstr) (hl : w.backing_store.lookup p.pid = some content)
    (htx : is_text content) (hs : start < (script_lines content).length)
    (h : load_into_mem c w p start refs = .ok w') : w'.stdout = w.stdout := by
  unfold load_into_mem at h
  simp only [hl] at h
  rw [if_neg (skip_lines_ok start content htx hs)] at h
  repeat' split at h
  all_goals first
    | (cases h; rfl)
    | cases h

theorem check_eviction_null (c : Config) (w : world) (f : Nat)
    (hlen : get_frame_start c f < w.m_state.shellmemory.length)
    (hk : key_at c w.m_state f = none) : check_eviction c w f = .ok w := by
  unfold check_eviction
  simp only []
  rw [List.getElem?_eq_getElem hlen]
  simp only []
  have hv : (w.m_state.shellmemory[get_frame_start c f]).var = none := by
    simpa [key_at, sm_var, List.getElem?_eq_getElem hlen] using hk
  rw [hv]

theorem load_page_quiet (c : Config) (w w' : world) (p p' : pcb) (page h : Nat)
    (t : List Nat) (content : cstr) (hpos : 0 < c.FRAMESIZE)
    (hw : mem_wf c w.m_state (h :: t))
    (hl : w.backing_store.lookup p.pid = some content) (htx : is_text content)
    (hs : page * c.FRAMESIZE < (script_lines content).length)
    (hk : key_at c w.m_state h = none)
    (he : load_page c w p page = .ok (p', w')) : w'.stdout = w.stdout := by
  obtain ⟨m1, g1, g2, g3, -⟩ := get_next_frame_wf c w.m_state h t hw.lru
  have hhN : h < c.NFRAMES := by
    have := hw.lru.lt c _ _ h (by simp)
    rwa [hw.lru.heap_len] at this
  have hfit := frame_in_memory c h hhN
  have hsz := hw.size
  have hlen1 : get_frame_start c h < m1.shellmemory.length := by rw [g3]; omega
  have hk1 : key_at c m1 h = none := by unfold key_at; rw [g3]; exact hk
  have hce := check_eviction_null c { w with m_state := m1 } h hlen1 hk1
  unfold load_page load_from_backing_store at he
  rw [g1] at he
  simp only [] at he
  rw [hce] at he
  simp only [] at he
  rw [set_var_eq _ _ _ hlen1] at he
  simp only [] at he
  generalize h4 : load_into_mem c _ p _ _ = r at he
  cases r with
  | error e => cases he
  | ok w4 =>
    have := load_into_mem_quiet c _ w4 p _ _ content (by exact hl) htx hs h4
    simp only [] at this
    simp only [] at he
    split at he
    · cases he
      exact this
    · cases he

/-- What `load_page` does, in terms of the frames: the page goes to the frame at
the head of the LRU list, the other frames keep key and lines, and nothing is
printed when the frame had no key. -/
theorem load_page_full (c : Config) (w : world) (p : pcb) (page h : Nat) (t : List Nat)
    (content : cstr) (hFS : 0 < c.FRAMESIZE) (hw : mem_wf c w.m_state (h :: t))
    (hl : w.backing_store.lookup p.pid = some content)
    (hb : p.bound ≤ (script_lines content).length) (htx : is_text content)
    (hpage : page < p.pagetable.length) (hlt : page * c.FRAMESIZE < p.bound)
    (hfull : p.pc + min c.FRAMESIZE (p.bound - page * c.FRAMESIZE) ≤ p.bound) :
    ∃ w1, load_page c w p page = .ok ({ p with pagetable := p.pagetable.set page (some h) }, w1) ∧
      mem_wf c w1.m_state (t ++ [h]) ∧ same_core w w1 ∧
      w1.m_state.frames_allocated = 1 ∧
      key_at c w1.m_state h = some (create_frame_key p.pid page) ∧
      (∀ g, g ≠ h → key_at c w1.m_state g = key_at c w.m_state g) ∧
      (∀ g i, g ≠ h → i < c.FRAMESIZE →
        slot_value c w1.m_state g i = slot_value c w.m_state g i) ∧
      (∀ i, i < c.FRAMESIZE → slot_value c w1.m_state h i =
        if page * c.FRAMESIZE + i < p.bound then (script_lines content)[page * c.FRAMESIZE + i]?
        else none) ∧
      (key_at c w.m_state h = none → w1.stdout = w.stdout) := by
  have hfile : file_ok w p := by
    intro content' h'
    rw [hl] at h'
    injection h' with h'
    subst h'
    exact hb
  obtain ⟨m1, sm, out, heq, hwf, -, hvar, hkey, hval, -, hslots⟩ :=
    load_page_spec c w p page h t hFS hw hfile (by omega) hpage
  refine ⟨_, heq, hwf, ?_, rfl, hkey, ?_, ?_, ?_, ?_⟩
  · obtain ⟨hc, -⟩ := load_page_core c _ _ _ _ _ heq
    exact hc
  · intro g hg
    have hne : get_frame_start c g ≠ get_frame_start c h := by
      have := frame_disjoint c g h 0 0 hg hFS hFS
      simpa using this
    exact hvar _ hne
  · intro g i hg hi
    apply hval
    intro hh
    obtain ⟨j, hj⟩ : ∃ j, get_frame_start c g + i = get_frame_start c h + j := ⟨_,
      (Nat.add_sub_cancel' hh.1).symm⟩
    exact frame_disjoint c g h i j hg hi (by omega) hj
  · exact hslots content hl htx hlt hfull
  · intro hk
    exact load_page_quiet c w _ p _ page h t content hFS hw hl htx (by omega) hk heq


/-- The start of `load_script` for a non-empty script and a free pid: the copy
succeeds and page 0 is loaded for the new PCB. -/
theorem load_script_start (c : Config) (w : world) (file content : cstr)
    (hcwd : w.cwd.lookup file = some content) (hne : content ≠ []) (htx : is_text content)
    (hb : w.backing_store.lookup w.cur_pid = none) :
    load_script c w file =
      (match load_page c
          { w with cur_pid := (w.cur_pid + 1) % 2 ^ 64
                   backing_store := w.backing_store ++ [(w.cur_pid, content)] }
          { pid := w.cur_pid, bound := (script_lines content).length, pc := 0,
            pagetable := List.replicate (n_pages c (script_lines content).length) none } 0 with
        | .error e => .error e
        | .ok (ret1, w1) =>
          if (script_lines content).length > c.FRAMESIZE then
            match load_page c w1 ret1 1 with
            | .error e => .error e
            | .ok (ret2, w2) => .ok (some ret2, w2)
          else .ok (some ret1, w1)) := by
  have hpos := script_lines_pos content hne
  unfold load_script
  simp only
  rw [cp_to_store_ok { w with cur_pid := (w.cur_pid + 1) % 2 ^ 64 } file
    content w.cur_pid hcwd hb hne htx]
  simp only [Int.toNat_ofNat]
  rw [if_neg (by omega)]
  rfl

/-- The result of `load_script` for a script of at most `FRAMESIZE` lines. -/
theorem load_script_small (c : Config) (w : world) (file content : cstr) (f0 : Nat)
    (t : List Nat) (hFS : 0 < c.FRAMESIZE) (hw : mem_wf c w.m_state (f0 :: t))
    (hcwd : w.cwd.lookup file = some content) (hne : content ≠ []) (htx : is_text content)
    (hb : w.backing_store.lookup w.cur_pid = none)
    (hn : (script_lines content).length ≤ c.FRAMESIZE) :
    ∃ w1, load_script c w file = .ok (some
        { pid := w.cur_pid, bound := (script_lines content).length, pc := 0,
          pagetable := (List.replicate (n_pages c (script_lines content).length) none).set 0
            (some f0) }, w1) ∧
      mem_wf c w1.m_state (t ++ [f0]) ∧
      w1.state = w.state ∧ w1.cur_pid = (w.cur_pid + 1) % 2 ^ 64 ∧
      w1.backing_store = w.backing_store ++ [(w.cur_pid, content)] ∧ w1.cwd = w.cwd ∧
      w1.executed = w.executed ∧ w1.m_state.frames_allocated = 1 ∧
      key_at c w1.m_state f0 = some (create_frame_key w.cur_pid 0) ∧
      (∀ g, g ≠ f0 → key_at c w1.m_state g = key_at c w.m_state g) ∧
      (∀ i, i < c.FRAMESIZE → slot_value c w1.m_state f0 i =
        if i < (script_lines content).length then (script_lines content)[i]? else none) ∧
      (key_at c w.m_state f0 = none → w1.stdout = w.stdout) := by
  have hpos := script_lines_pos content hne
  have hnp := n_pages_pos c _ hFS hpos
  obtain ⟨w1, h1, h2, h3, h4, h5, h6, -, h8, h9⟩ := load_page_full c
    { w with cur_pid := (w.cur_pid + 1) % 2 ^ 64
             backing_store := w.backing_store ++ [(w.cur_pid, content)] }
    { pid := w.cur_pid, bound := (script_lines content).length, pc := 0,
      pagetable := List.replicate (n_pages c (script_lines content).length) none }
    0 f0 t content hFS hw (lookup_append_self _ _ _ hb) (Nat.le_refl _) htx
    (by simpa using hnp) (by simpa using hpos) (by
      show 0 + min c.FRAMESIZE ((script_lines content).length - 0 * c.FRAMESIZE) ≤
        (script_lines content).length
      have := Nat.min_le_right c.FRAMESIZE ((script_lines content).length - 0 * c.FRAMESIZE)
      omega)
  obtain ⟨c1, c2, c3, c4, c5, -⟩ := h3
  refine ⟨w1, ?_, h2, c1, c2, c3, c4, c5, h4, h5, h6, ?_, h9⟩
  · rw [load_script_start c w file content hcwd hne htx hb, h1]
    simp only
    rw [if_neg (by omega)]
  · intro i hi
    have := h8 i hi
    simpa using this

/-- The result of `load_script` for a script of more than `FRAMESIZE` lines when
the LRU list has two frames at least. -/
theorem load_script_big (c : Config) (w : world) (file content : cstr) (f0 f1 : Nat)
    (t : List Nat) (hFS : 0 < c.FRAMESIZE) (hw : mem_wf c w.m_state (f0 :: f1 :: t))
    (hcwd : w.cwd.lookup file = some content) (hne : content ≠ []) (htx : is_text content)
    (hb : w.backing_store.lookup w.cur_pid = none)
    (hn : c.FRAMESIZE < (script_lines content).length) :
    ∃ w1, load_script c w file = .ok (some
        { pid := w.cur_pid, bound := (script_lines content).length, pc := 0,
          pagetable := ((List.replicate (n_pages c (script_lines content).length) none).set 0
            (some f0)).set 1 (some f1) }, w1) ∧
      mem_wf c w1.m_state (t ++ [f0] ++ [f1]) ∧ f0 ≠ f1 ∧
      w1.state = w.state ∧ w1.cur_pid = (w.cur_pid + 1) % 2 ^ 64 ∧
      w1.backing_store = w.backing_store ++ [(w.cur_pid, content)] ∧ w1.cwd = w.cwd ∧
      w1.executed = w.executed ∧ w1.m_state.frames_allocated = 1 ∧
      key_at c w1.m_state f0 = some (create_frame_key w.cur_pid 0) ∧
      key_at c w1.m_state f1 = some (create_frame_key w.cur_pid 1) ∧
      (∀ g, g ≠ f0 → g ≠ f1 → key_at c w1.m_state g = key_at c w.m_state g) ∧
      (∀ i, i < c.FRAMESIZE → slot_value c w1.m_state f0 i = (script_lines content)[i]?) ∧
      (∀ i, i < c.FRAMESIZE → slot_value c w1.m_state f1 i =
        if c.FRAMESIZE + i < (script_lines content).length then
          (script_lines content)[c.FRAMESIZE + i]? else none) ∧
      (key_at c w.m_state f0 = none → key_at c w.m_state f1 = none → w1.stdout = w.stdout) := by
  have hpos := script_lines_pos content hne
  have hnp := n_pages_pos c _ hFS hpos
  have hnp2 := n_pages_two c _ hFS hn
  have hne01 : f0 ≠ f1 := by
    have hnd : (f0 :: f1 :: t).Nodup := hw.lru.perm.nodup_iff.mpr (List.nodup_range _)
    intro h
    rw [h] at hnd
    simp at hnd
  obtain ⟨w1, h1, h2, h3, h4, h5, h6, h7, h8, h9⟩ := load_page_full c
    { w with cur_pid := (w.cur_pid + 1) % 2 ^ 64
             backing_store := w.backing_store ++ [(w.cur_pid, content)] }
    { pid := w.cur_pid, bound := (script_lines content).length, pc := 0,
      pagetable := List.replicate (n_pages c (script_lines content).length) none }
    0 f0 (f1 :: t) content hFS hw (lookup_append_self _ _ _ hb) (Nat.le_refl _) htx
    (by simpa using hnp) (by simpa using hpos) (by
      show 0 + min c.FRAMESIZE ((script_lines content).length - 0 * c.FRAMESIZE) ≤
        (script_lines content).length
      have := Nat.min_le_right c.FRAMESIZE ((script_lines content).length - 0 * c.FRAMESIZE)
      omega)
  obtain ⟨c1, c2, c3, c4, c5, -⟩ := h3
  simp only [] at c1 c2 c3 c4 c5 h6 h7 h9
  obtain ⟨w2, k1, k2, k3, k4, k5, k6, k7, k8, k9⟩ := load_page_full c w1
    { pid := w.cur_pid, bound := (script_lines content).length, pc := 0,
      pagetable := (List.replicate (n_pages c (script_lines content).length) none).set 0
        (some f0) }
    1 f1 (t ++ [f0]) content hFS (by simpa using h2)
    (by rw [c3]; exact lookup_append_self _ _ _ hb) (Nat.le_refl _) htx
    (by simpa using hnp2) (by simpa using hn) (by
      show 0 + min c.FRAMESIZE ((script_lines content).length - 1 * c.FRAMESIZE) ≤
        (script_lines content).length
      have := Nat.min_le_right c.FRAMESIZE ((script_lines content).length - 1 * c.FRAMESIZE)
      omega)
  obtain ⟨d1, d2, d3, d4, d5, -⟩ := k3
  refine ⟨w2, ?_, by simpa using k2, hne01, by rw [d1, c1], by rw [d2, c2], by rw [d3, c3],
    by rw [d4, c4], by rw [d5, c5], k4, ?_, k5, ?_, ?_, ?_, ?_⟩
  · rw [load_script_start c w file content hcwd hne htx hb, h1]
    simp only
    rw [if_pos hn, k1]
  · rw [k6 f0 hne01]
    exact h5
  · intro g hg0 hg1
    rw [k6 g hg1]
    exact h6 g hg0
  · intro i hi
    rw [k7 f0 i hne01 hi, h8 i hi]
    simp only [Nat.zero_mul, Nat.zero_add]
    rw [if_pos (by omega)]
  · intro i hi
    have := k8 i hi
    simpa using this
  · intro hk0 hk1
    rw [k9 (by rw [h6 f1 (Ne.symm hne01)]; exact hk1)]
    exact h9 hk0

theorem script_lines_ne (content : cstr) (h : 1 ≤ (script_lines content).length) :
    content ≠ [] := by
  intro h0
  subst h0
  simp [script_lines, script_lines_from] at h

theorem lru_two (c : Config) (m : memory_state) (l : List Nat) (hN : 2 ≤ c.NFRAMES)
    (hw : mem_wf c m l) : ∃ f0 f1 t, l = f0 :: f1 :: t ∧ f0 < c.NFRAMES ∧ f1 < c.NFRAMES := by
  have hlen : l.length = c.NFRAMES := by
    rw [hw.lru.perm.length_eq, List.length_range]
  have hmem : ∀ x, x ∈ l → x < c.NFRAMES := by
    intro x hx
    simpa using hw.lru.perm.mem_iff.mp hx
  match l, hlen, hmem with
  | [], hlen, _ => simp at hlen; omega
  | [_], hlen, _ => simp at hlen; omega
  | f0 :: f1 :: t, _, hmem =>
    exact ⟨f0, f1, t, rfl, hmem f0 (by simp), hmem f1 (by simp)⟩

/-! ## A single script in a clean system: lemmas -/

theorem set_scheduler_mode_idle (w : world) (m : sched_mode_t) (h : w.state.np = 0) :
    set_scheduler_mode w m = (0, { w with state := { w.state with mode := m } }) := by
  unfold set_scheduler_mode
  by_cases hm : w.state.mode = m
  · rw [if_pos hm]
    subst hm
    rfl
  · rw [if_neg hm, if_neg (by simp [h])]

theorem run_scheduler_idle (c : Config) (rbl : cstr → world → Except halt world) (fuel : Nat)
    (w : world) (h : w.state.np = 0) : run_scheduler c rbl fuel w = .ok (some 0, w) := by
  cases fuel with
  | zero => rw [run_scheduler, if_neg (by simp [h])]
  | succ n => rw [run_scheduler, if_neg (by simp [h])]

theorem run_scheduler_stop (c : Config) (rbl : cstr → world → Except halt world) (fuel : Nat)
    (w : world) (h : ¬ w.state.np > 0) : run_scheduler c rbl fuel w = .ok (some 0, w) := by
  cases fuel with
  | zero => rw [run_scheduler, if_neg h]
  | succ n => rw [run_scheduler, if_neg h]

theorem body_fcfs_cur (c : Config) (rbl : cstr → world → Except halt world) (w w' : world)
    (p : pcb) (hcur : w.state.cur = some p) (hm : w.state.mode = .FCFS)
    (he : exec_process c rbl w = .ok w') : run_scheduler_body c rbl w = .ok (none, w') := by
  unfold run_scheduler_body
  rw [if_neg (by rw [hcur]; simp)]
  simp only [hm, run_basic, he]

theorem remove_process_store_some (w : world) (p : pcb) (v : cstr)
    (h : w.backing_store.lookup p.pid = some v) :
    remove_process_store w p =
      { w with backing_store := w.backing_store.filter (fun e => e.1 ≠ p.pid) } := by
  unfold remove_process_store
  rw [h]

/-- The step of `exec_process` that executes the last instruction of the only
process, whose file is in the backing store: the file is removed, the frames are
reset and nothing is printed. -/
theorem exec_process_last (c : Config) (w w1 : world) (cur : pcb) (instr v : cstr)
    (hcur : w.state.cur = some cur)
    (hread : read_instruction c w cur = .ok (some instr, cur, w1)) (hst : w1.state = w.state)
    (hdone : cur.bound ≤ cur.pc + 1) (hnp : w.state.np = 1)
    (hfile : w1.backing_store.lookup cur.pid = some v)
    (hsize : w1.m_state.shellmemory.length = c.SHELLMEMSIZE) :
    ∃ sm, exec_process c rbl_inert w = .ok { w1 with
        m_state := { w1.m_state with shellmemory := sm, frames_allocated := 0 }
        backing_store := w1.backing_store.filter (fun e => e.1 ≠ cur.pid)
        state := { w.state with cur := none, np := 0 }
        executed := w1.executed ++ [(cur.pid, instr)] } ∧
      (w1.m_state.frames_allocated ≠ 0 → ∀ j, c.VARMEMSIZE ≤ j → j < c.SHELLMEMSIZE →
        sm[j]? = some (memory_struct.mk none none)) := by
  obtain ⟨sm, hreset, -, -, -, hclean⟩ := mem_reset_frames_spec c w1.m_state hsize
  have hB := remove_process_store_some
    { w1 with state := { w.state with cur := some { cur with pc := cur.pc + 1 } } }
    { cur with pc := cur.pc + 1 } v hfile
  refine ⟨sm, ?_, hclean⟩
  unfold exec_process
  simp only [hcur, hread, hst, free_process]
  rw [if_pos (by simp only [ge_iff_le]; exact hdone), hB]
  simp only [hnp, if_true, hreset]
  rfl

theorem lookup_filter_self (bs : List (Nat × cstr)) (pid : Nat) :
    (bs.filter (fun e => e.1 ≠ pid)).lookup pid = none := (lookup_filter_ne pid bs).1

/-- The scheduler runs the only process to its end when all its pages are in
their frames: the remaining lines are executed in order, nothing is printed, and
the run ends with no process and clean frames. -/
theorem single_run_loop (c : Config) (content : cstr) (pid : Nat) (pt : List (Option Nat))
    (hFS : 0 < c.FRAMESIZE) :
    ∀ (j k e : Nat) (W : world) (l : List Nat),
      k + j + 1 = (script_lines content).length →
      mem_wf c W.m_state l → W.m_state.frames_allocated = 1 →
      W.state.cur = some { pid := pid, bound := (script_lines content).length, pc := k,
                           pagetable := pt } →
      W.state.mode = .FCFS → W.state.np = 1 → W.state.queue = [] →
      W.backing_store.lookup pid = some content →
      resident c W.m_state pid pt (script_lines content) →
      ∃ W', run_scheduler c rbl_inert (j + 1 + e) W = .ok (some 0, W') ∧
        W'.executed = W.executed ++ ((script_lines content).drop k).map (fun x => (pid, x)) ∧
        W'.stdout = W.stdout ∧ W'.state.np = 0 ∧ W'.state.cur = none ∧ W'.state.queue = [] ∧
        frames_clean c W'.m_state ∧ W'.backing_store.lookup pid = none ∧
        W'.state.mode = .FCFS ∧ W'.cur_pid = W.cur_pid ∧ W'.cwd = W.cwd := by
  intro j
  induction j with
  | zero =>
    intro k e W l hk hm hfa hcur hmode hnp hq hfile hres
    have hkn : k < (script_lines content).length := by omega
    obtain ⟨f, hf, hpt, hkey, hslot⟩ := hres k hkn
    obtain ⟨m1, -, hm1, hsm1, -, hfa1, hread⟩ := read_instruction_hit c W
      { pid := pid, bound := (script_lines content).length, pc := k, pagetable := pt } l f hFS hm
      hf hpt hkey
    simp only [] at hread
    rw [hslot, List.getElem?_eq_getElem hkn] at hread
    simp only [] at hread
    obtain ⟨sm, hex, hclean⟩ := exec_process_last c W { W with m_state := m1 } _ _ content hcur
      hread rfl (by simp only []; omega) hnp hfile hm1.size
    have hbody := body_fcfs_cur c rbl_inert W _ _ hcur hmode hex
    have hfuel : 0 + 1 + e = e + 1 := by omega
    rw [hfuel, run_scheduler_succ c rbl_inert e W _ (by omega) hbody,
      run_scheduler_idle c rbl_inert e _ rfl]
    refine ⟨_, rfl, ?_, rfl, rfl, rfl, hq, ?_, lookup_filter_self _ _, hmode, rfl, rfl⟩
    · show W.executed ++ _ = _
      rw [List.drop_eq_getElem_cons hkn, List.drop_of_length_le (by omega)]
      rfl
    · intro i h1 h2
      exact hclean (by rw [hfa1, hfa]; decide) i h1 h2
  | succ j ih =>
    intro k e W l hk hm hfa hcur hmode hnp hq hfile hres
    have hkn : k < (script_lines content).length := by omega
    obtain ⟨f, hf, hpt, hkey, hslot⟩ := hres k hkn
    obtain ⟨m1, -, hm1, hsm1, -, hfa1, hread⟩ := read_instruction_hit c W
      { pid := pid, bound := (script_lines content).length, pc := k, pagetable := pt } l f hFS hm
      hf hpt hkey
    simp only [] at hread
    rw [hslot, List.getElem?_eq_getElem hkn] at hread
    simp only [] at hread
    have hex := exec_process_cont c W { W with m_state := m1 } _ _ hcur hread rfl
      (by simp only []; omega)
    have hbody := body_fcfs_cur c rbl_inert W _ _ hcur hmode hex
    have hfuel : j + 1 + 1 + e = (j + 1 + e) + 1 := by omega
    rw [hfuel, run_scheduler_succ c rbl_inert _ W _ (by omega) hbody]
    obtain ⟨W', r1, r2, r3, r4, r5, r6, r7, r8, r9, r10, r11⟩ := ih (k + 1) e
      { W with
        m_state := m1
        state := { W.state with cur := some { pid := pid, bound := (script_lines content).length,
                                              pc := k + 1, pagetable := pt } }
        executed := W.executed ++ [(pid, (script_lines content)[k])] }
      _ (by omega) hm1
      (by show m1.frames_allocated = 1; rw [hfa1, hfa]) rfl hmode hnp hq hfile (by
        intro i hi
        obtain ⟨g, g1, g2, g3, g4⟩ := hres i hi
        refine ⟨g, g1, g2, ?_, ?_⟩
        · show sm_var m1.shellmemory _ = _
          rw [hsm1]; exact g3
        · show sm_value m1.shellmemory _ = _
          rw [hsm1]; exact g4)
    refine ⟨W', r1, ?_, r3, r4, r5, r6, r7, r8, r9, r10, r11⟩
    rw [r2]
    show W.executed ++ _ ++ _ = _
    rw [List.drop_eq_getElem_cons hkn, List.map_cons, List.append_assoc]
    rfl

theorem run_scheduler_pop (c : Config) (rbl : cstr → world → Except halt world) (fuel : Nat)
    (w : world) (hcur : w.state.cur = none) (hne : (pop_front w).state.cur ≠ none)
    (hnp : (pop_front w).state.np = w.state.np) (hpos : w.state.np > 0) :
    run_scheduler c rbl (fuel + 1) w = run_scheduler c rbl (fuel + 1) (pop_front w) := by
  have hb : run_scheduler_body c rbl w = run_scheduler_body c rbl (pop_front w) := by
    unfold run_scheduler_body
    rw [if_pos hcur, if_neg hne]
  rw [run_scheduler, run_scheduler, hnp, hb, if_pos hpos, if_pos hpos]

/-- A run of the scheduler that has returned keeps its result with more fuel. -/
theorem run_scheduler_mono (c : Config) (rbl : cstr → world → Except halt world) (e : Nat) :
    ∀ (fuel : Nat) (w w' : world) (r : Int),
      run_scheduler c rbl fuel w = .ok (some r, w') →
      run_scheduler c rbl (fuel + e) w = .ok (some r, w')
  | 0, w, w', r, h => by
    rw [run_scheduler] at h
    split at h
    · cases h
    · rename_i hnp
      cases h
      exact run_scheduler_stop c rbl _ w hnp
  | fuel + 1, w, w', r, h => by
    have hf : fuel + 1 + e = (fuel + e) + 1 := by omega
    rw [hf, run_scheduler]
    rw [run_scheduler] at h
    split at h
    · rename_i hnp
      rw [if_pos hnp]
      split at h
      · cases h
      · exact h
      · rename_i w1 hb
        exact run_scheduler_mono c rbl e fuel w1 w' r h
    · rename_i hnp
      rw [if_neg hnp]
      exact h

/-- The command `run` in a clean system, for a script of at most two pages. -/
theorem run_single (c : Config) (w : world) (file content : cstr) (l : List Nat)
    (hFS : 0 < c.FRAMESIZE) (hN : 2 ≤ c.NFRAMES) (hc : clean_sys c w l)
    (hcwd : w.cwd.lookup file = some content) (htx : is_text content)
    (hn1 : 1 ≤ (script_lines content).length)
    (hn2 : (script_lines content).length ≤ 2 * c.FRAMESIZE) :
    ∃ w1 pt l1, run c w file = .ok (0, w1) ∧ mem_wf c w1.m_state l1 ∧
      w1.m_state.frames_allocated = 1 ∧
      w1.state = { w.state with
        mode := .FCFS
        queue := [{ p := { pid := w.cur_pid, bound := (script_lines content).length, pc := 0,
                           pagetable := pt }, priority := -1, id := w.state.fresh }]
        tail := some w.state.fresh
        fresh := w.state.fresh + 1
        np := 1 } ∧
      w1.backing_store.lookup w.cur_pid = some content ∧
      resident c w1.m_state w.cur_pid pt (script_lines content) ∧
      w1.stdout = w.stdout ∧ w1.executed = w.executed ∧
      w1.cur_pid = (w.cur_pid + 1) % 2 ^ 64 ∧ w1.cwd = w.cwd := by
  have hne := script_lines_ne content hn1
  obtain ⟨f0, f1, t, hl, hf0, hf1⟩ := lru_two c w.m_state l hN hc.mem
  have hmem := hc.mem
  rw [hl] at hmem
  have hnp := n_pages_pos c _ hFS hn1
  have hrun : ∀ (p : pcb) (w1 : world), load_script c w file = .ok (some p, w1) →
      w1.state = w.state →
      run c w file = .ok (0, { w1 with state := { w.state with
        mode := .FCFS
        queue := [{ p := p, priority := -1, id := w.state.fresh }]
        tail := some w.state.fresh
        fresh := w.state.fresh + 1
        np := 1 } }) := by
    intro p w1 hload hst
    unfold run
    rw [if_neg (by rw [hcwd]; simp), hload]
    simp only
    rw [set_scheduler_mode_idle w1 .FCFS (by rw [hst]; exact hc.np)]
    simp only
    unfold add_process
    simp only
    obtain ⟨w3, a1, a2, -⟩ := add_back_fifo
      { w1 with state := { w1.state with mode := .FCFS } } p
      ⟨by simp [hst, hc.queue], by simp [hst, hc.queue], by simp [hst, hc.queue, hc.tail]⟩
    rw [a1]
    simp only
    rw [a2]
    simp only [hst, hc.queue, hc.np, List.nil_append]
    rfl
  by_cases hbig : c.FRAMESIZE < (script_lines content).length
  · obtain ⟨w1, h1, h2, h01, h3, h4, h5, h6, h7, h8, k0, k1, -, s0, s1, hout⟩ :=
      load_script_big c w file content f0 f1 t hFS hmem hcwd hne htx hc.store hbig
    have hnp2 := n_pages_two c _ hFS hbig
    refine ⟨_, _, _, hrun _ w1 h1 h3, h2, h8, rfl, ?_, ?_, hout (hc.keys f0 hf0) (hc.keys f1 hf1),
      h7, h4, h6⟩
    · show w1.backing_store.lookup w.cur_pid = some content
      rw [h5]
      exact lookup_append_self _ _ _ hc.store
    · intro i hi
      by_cases hi0 : i < c.FRAMESIZE
      · have d0 : i / c.FRAMESIZE = 0 := Nat.div_eq_of_lt hi0
        have d1 : i % c.FRAMESIZE = i := Nat.mod_eq_of_lt hi0
        refine ⟨f0, hf0, ?_, ?_, ?_⟩
        · rw [d0, List.getElem?_set_ne (by decide),
            List.getElem?_set_self (by simpa using hnp)]
        · rw [d0]; exact k0
        · rw [d1]; exact s0 i hi0
      · have d0 : i / c.FRAMESIZE = 1 := by
          apply Nat.div_eq_of_lt_le <;> omega
        have d1 : i % c.FRAMESIZE = i - c.FRAMESIZE := by
          rw [Nat.mod_eq_sub_mod (by omega), Nat.mod_eq_of_lt (by omega)]
        refine ⟨f1, hf1, ?_, ?_, ?_⟩
        · rw [d0, List.getElem?_set_self (by simpa using hnp2)]
        · rw [d0]; exact k1
        · show slot_value c w1.m_state f1 (i % c.FRAMESIZE) = _
          rw [d1, s1 _ (by omega)]
          have e : c.FRAMESIZE + (i - c.FRAMESIZE) = i := by omega
          rw [e, if_pos hi]
  · have hsmall : (script_lines content).length ≤ c.FRAMESIZE := by omega
    obtain ⟨w1, h1, h2, h3, h4, h5, h6, h7, h8, k0, -, s0, hout⟩ :=
      load_script_small c w file content f0 (f1 :: t) hFS hmem hcwd hne htx hc.store hsmall
    refine ⟨_, _, _, hrun _ w1 h1 h3, h2, h8, rfl, ?_, ?_, hout (hc.keys f0 hf0), h7, h4, h6⟩
    · show w1.backing_store.lookup w.cur_pid = some content
      rw [h5]
      exact lookup_append_self _ _ _ hc.store
    · intro i hi
      have hi0 : i < c.FRAMESIZE := by omega
      have d0 : i / c.FRAMESIZE = 0 := Nat.div_eq_of_lt hi0
      have d1 : i % c.FRAMESIZE = i := Nat.mod_eq_of_lt hi0
      refine ⟨f0, hf0, ?_, ?_, ?_⟩
      · rw [d0, List.getElem?_set_self (by simpa using hnp)]
      · rw [d0]; exact k0
      · rw [d1, s0 i hi0, if_pos hi]

theorem demo_world_clean : clean_sys demo_config demo_world [0, 1, 2] :=
  ⟨demo_world_wf, by decide, by decide, by decide, by decide, by decide, by decide⟩

/-! ## Process identifiers: lemmas -/

theorem cp_to_store_cur_pid (w : world) (file : cstr) (pid : Nat) :
    (cp_to_store w file pid).2.cur_pid = w.cur_pid := by
  rcases cp_to_store_cases w file pid with h | ⟨content, -, -, h⟩
  · rw [h]
    rfl
  · rw [h]

theorem load_script_cur_pid (c : Config) (w w' : world) (file : cstr) (r : Option pcb)
    (h : load_script c w file = .ok (r, w')) :
    w'.cur_pid = (w.cur_pid + 1) % 2 ^ 64 ∧ ∀ p, r = some p → p.pid = w.cur_pid := by
  have hcp := cp_to_store_cur_pid { w with cur_pid := (w.cur_pid + 1) % 2 ^ 64 } file w.cur_pid
  cases r with
  | none =>
    obtain ⟨-, h2⟩ := load_script_none c w w' file h
    rw [h2]
    exact ⟨hcp, fun p hp => by cases hp⟩
  | some p =>
    refine ⟨?_, fun q hq => ?_⟩
    · unfold load_script at h
      simp only [] at h
      split at h
      · cases h
      · split at h
        · cases h
        · rename_i ret1 w1 h1
          obtain ⟨⟨-, a1, -⟩, -⟩ := load_page_core c _ _ _ _ _ h1
          split at h
          · split at h
            · cases h
            · rename_i ret2 w2 h2
              obtain ⟨⟨-, a2, -⟩, -⟩ := load_page_core c _ _ _ _ _ h2
              cases h
              rw [a2, a1]
              exact hcp
          · cases h
            rw [a1]
            exact hcp
    · injection hq with hq
      rw [← hq]
      exact (load_script_some c w w' file p h).1

theorem session_cur_pid (c : Config) (w0 w : world) (n : Nat) (ps : List pcb)
    (h0 : w0.cur_pid < 2 ^ 64) (h : session c w0 n ps w) :
    w.cur_pid = (w0.cur_pid + n) % 2 ^ 64 := by
  induction h with
  | start => rw [Nat.add_zero, Nat.mod_eq_of_lt h0]
  | load n ps w w' file p _ hl ih =>
    rw [(load_script_cur_pid c w w' file _ hl).1, ih]
    omega
  | fail n ps w w' file _ hl ih =>
    rw [(load_script_cur_pid c w w' file _ hl).1, ih]
    omega
  | other n ps w w' _ hc ih => rw [hc, ih]

theorem session_pids (c : Config) (w0 w : world) (n : Nat) (ps : List pcb)
    (h0 : w0.cur_pid < 2 ^ 64) (h : session c w0 n ps w) :
    ∃ ks : List Nat, ks.Pairwise (fun a b => a < b) ∧ (∀ k, k ∈ ks → k < n) ∧
      ps.map pcb.pid = ks.map (fun k => (w0.cur_pid + k) % 2 ^ 64) := by
  induction h with
  | start => exact ⟨[], List.Pairwise.nil, fun k hk => (by cases hk), rfl⟩
  | load n ps w w' file p hs hl ih =>
    obtain ⟨ks, k1, k2, k3⟩ := ih
    refine ⟨ks ++ [n], ?_, ?_, ?_⟩
    · rw [List.pairwise_append]
      refine ⟨k1, List.pairwise_singleton _ _, fun a ha b hb => ?_⟩
      simp at hb
      subst hb
      exact k2 a ha
    · intro k hk
      rw [List.mem_append] at hk
      rcases hk with hk | hk
      · have := k2 k hk
        omega
      · simp at hk
        omega
    · rw [List.map_append, List.map_append, k3]
      simp only [List.map_cons, List.map_nil]
      rw [(load_script_cur_pid c w w' file _ hl).2 p rfl, session_cur_pid c w0 w n ps h0 hs]
  | fail n ps w w' file _ hl ih =>
    obtain ⟨ks, k1, k2, k3⟩ := ih
    exact ⟨ks, k1, fun k hk => (by have := k2 k hk; omega), k3⟩
  | other n ps w w' _ hc ih => exact ih

theorem session_fails (c : Config) (w0 : world) (file : cstr) :
    ∀ (k n : Nat) (ps : List pcb) (w : world), session c w0 n ps w →
      w.cwd.lookup file = none → w0.cur_pid < 2 ^ 64 →
      ∃ w', session c w0 (n + k) ps w' ∧ w'.m_state = w.m_state ∧
        w'.backing_store = w.backing_store ∧ w'.cwd = w.cwd ∧ w'.state = w.state
  | 0, n, ps, w, hs, _, _ => ⟨w, hs, rfl, rfl, rfl, rfl⟩
  | k + 1, n, ps, w, hs, hf, h0 => by
    obtain ⟨w1, s1, a1, a2, a3, a4⟩ := session_fails c w0 file k n ps w hs hf h0
    have hl := load_script_fail c w1 file (Or.inl (by rw [a3]; exact hf))
    exact ⟨_, session.fail _ _ _ _ _ s1 hl, a1, a2, a3, a4⟩

theorem demo_session :
    ∃ p0 p2 w1 w2 w3, load_script demo_config demo_world "a".toList = .ok (some p0, w1) ∧
      load_script demo_config w1 "zz".toList = .ok (none, w2) ∧
      load_script demo_config w2 "b".toList = .ok (some p2, w3) ∧
      [p0, p2].map pcb.pid = [0, 2] :=
  ⟨_, _, _, _, _, rfl, rfl, rfl, rfl⟩

/-! ## The exact process count: lemmas -/

theorem load_script_state (c : Config) (w w' : world) (file : cstr) (r : Option pcb)
    (h : load_script c w file = .ok (r, w')) : w'.state = w.state := by
  have hcp : (cp_to_store { w with cur_pid := (w.cur_pid + 1) % 2 ^ 64 } file w.cur_pid).2.state
      = w.state := by
    rcases cp_to_store_cases { w with cur_pid := (w.cur_pid + 1) % 2 ^ 64 } file w.cur_pid with
      h | ⟨content, -, -, h⟩
    · rw [h]
      rfl
    · rw [h]
  unfold load_script at h
  simp only [] at h
  split at h
  · cases h
    exact hcp
  · split at h
    · cases h
    · rename_i ret1 w1 h1
      obtain ⟨⟨a1, -⟩, -⟩ := load_page_core c _ _ _ _ _ h1
      split at h
      · split at h
        · cases h
        · rename_i ret2 w2 h2
          obtain ⟨⟨a2, -⟩, -⟩ := load_page_core c _ _ _ _ _ h2
          cases h
          rw [a2, a1]
          exact hcp
      · cases h
        rw [a1]
        exact hcp

theorem count_inv.idle (st : scheduler_state) (h : count_inv st) (hnp : st.np = 0) :
    st.cur = none ∧ st.queue = [] ∧ st.tail = none := by
  have hc := h.count
  rw [hnp] at hc
  have hq : st.queue = [] := by
    cases hq : st.queue with
    | nil => rfl
    | cons a b => rw [hq] at hc; simp at hc; omega
  have hcur : st.cur = none := by
    cases hcur : st.cur with
    | none => rfl
    | some p => rw [hcur] at hc; simp at hc; omega
  refine ⟨hcur, hq, ?_⟩
  by_cases hm : st.mode = .FCFS ∨ st.mode = .RR
  · have := (h.fifo hm).tail_eq
    rw [hq] at this
    exact this
  · exact h.prio hm

theorem count_inv.cur_pos (st : scheduler_state) (h : count_inv st) (p : pcb)
    (hcur : st.cur = some p) : 0 < st.np ∧ st.mode ≠ .NONE := by
  have hc := h.count
  rw [hcur] at hc
  simp at hc
  have hpos : 0 < st.np := by omega
  exact ⟨hpos, fun hm => by have := h.none_idle hm; omega⟩

theorem count_inv.switch_mode (w : world) (m : sched_mode_t) (h : count_inv w.state) :
    count_inv (set_scheduler_mode w m).2.state ∧
      (set_scheduler_mode w m).2.state.cur = w.state.cur ∧
      (set_scheduler_mode w m).2.state.queue = w.state.queue ∧
      (set_scheduler_mode w m).2.state.np = w.state.np ∧
      (w.state.np ≠ 0 → (set_scheduler_mode w m).2.state.mode = w.state.mode) := by
  unfold set_scheduler_mode
  split
  · exact ⟨h, rfl, rfl, rfl, fun _ => rfl⟩
  · split
    · exact ⟨h, rfl, rfl, rfl, fun _ => rfl⟩
    · rename_i hn
      have hn0 : w.state.np = 0 := by simpa using hn
      obtain ⟨hc, hq, ht⟩ := h.idle _ hn0
      refine ⟨⟨h.count, fun _ => ?_, fun _ => ht, fun _ => hn0⟩, rfl, rfl, rfl,
        fun h0 => absurd hn0 h0⟩
      exact ⟨by show (w.state.queue.map ll.id).Nodup; rw [hq]; exact List.nodup_nil,
        fun n hn => (by
          have : n ∈ w.state.queue := hn
          rw [hq] at this
          cases this),
        by show w.state.tail = (w.state.queue.getLast?).map ll.id; rw [hq, ht]; rfl⟩

theorem add_process_count (w w' : world) (p : pcb) (h : count_inv w.state)
    (ha : add_process w p = .ok w') :
    count_inv w'.state ∧ w'.state.mode = w.state.mode ∧ w'.state.cur = w.state.cur ∧
      (w.state.mode = .NONE → w'.state = w.state) ∧
      (w.state.mode ≠ .NONE → w'.state.np = w.state.np + 1 ∧
        w'.state.queue.length = w.state.queue.length + 1) := by
  have hfifo : w.state.mode = .FCFS ∨ w.state.mode = .RR →
      count_inv w'.state ∧ w'.state.mode = w.state.mode ∧ w'.state.cur = w.state.cur ∧
      (w.state.mode = .NONE → w'.state = w.state) ∧
      (w.state.mode ≠ .NONE → w'.state.np = w.state.np + 1 ∧
        w'.state.queue.length = w.state.queue.length + 1) := by
    intro hm
    obtain ⟨w1, a1, a2, a3⟩ := add_back_fifo w p (h.fifo hm)
    have e : w' = { w1 with state := { w1.state with np := w1.state.np + 1 } } := by
      unfold add_process at ha
      rcases hm with hm | hm <;> simp only [hm, a1] at ha <;> cases ha <;> rfl
    subst e
    subst a2
    refine ⟨⟨?_, fun _ => ⟨a3.nodup, a3.fresh, a3.tail_eq⟩, fun hn => absurd hm hn,
      fun hn => ?_⟩, rfl, rfl, fun hn => ?_, fun _ => ⟨rfl, by simp⟩⟩
    · show w.state.np + 1 = _
      rw [h.count]
      simp
      omega
    · exfalso
      have : w.state.mode = .NONE := hn
      rcases hm with hm | hm <;> rw [hm] at this <;> cases this
    · exfalso
      rcases hm with hm | hm <;> rw [hm] at hn <;> cases hn
  have hprio : w.state.mode = .SJF ∨ w.state.mode = .AGING →
      count_inv w'.state ∧ w'.state.mode = w.state.mode ∧ w'.state.cur = w.state.cur ∧
      (w.state.mode = .NONE → w'.state = w.state) ∧
      (w.state.mode ≠ .NONE → w'.state.np = w.state.np + 1 ∧
        w'.state.queue.length = w.state.queue.length + 1) := by
    intro hm
    have hnf : ¬ (w.state.mode = .FCFS ∨ w.state.mode = .RR) := by
      rcases hm with hm | hm <;> rw [hm] <;> simp
    obtain ⟨tl, a1, a2⟩ := add_with_priority_eq w p p.bound
    have htl : tl = none := a2 (h.prio hnf)
    subst htl
    have e : w' = { (add_with_priority w p p.bound) with
        state := { (add_with_priority w p p.bound).state with
          np := (add_with_priority w p p.bound).state.np + 1 } } := by
      unfold add_process at ha
      rcases hm with hm | hm <;> simp only [hm] at ha <;> cases ha <;> rfl
    rw [a1] at e
    subst e
    refine ⟨⟨?_, fun hf => absurd hf hnf, fun _ => rfl, fun hn => ?_⟩, rfl, rfl, fun hn => ?_,
      fun _ => ⟨rfl, ordered_insert_length _ _⟩⟩
    · show w.state.np + 1 = _
      rw [h.count]
      simp only [ordered_insert_length]
      push_cast
      omega
    · exfalso
      have : w.state.mode = .NONE := hn
      rcases hm with hm | hm <;> rw [hm] at this <;> cases this
    · exfalso
      rcases hm with hm | hm <;> rw [hm] at hn <;> cases hn
  cases hmode : w.state.mode with
  | FCFS => exact hmode ▸ hfifo (Or.inl hmode)
  | RR => exact hmode ▸ hfifo (Or.inr hmode)
  | SJF => exact hmode ▸ hprio (Or.inl hmode)
  | AGING => exact hmode ▸ hprio (Or.inr hmode)
  | NONE =>
    unfold add_process at ha
    simp only [hmode] at ha
    cases ha
    exact ⟨h, hmode, rfl, fun _ => rfl, fun hn => absurd rfl hn⟩

theorem run_count (c : Config) (w w' : world) (script : cstr) (code : Int)
    (h : count_inv w.state) (hr : run c w script = .ok (code, w')) :
    count_inv w'.state ∧ w'.state.cur = w.state.cur ∧
      (w.state.np ≠ 0 → w'.state.mode = w.state.mode) := by
  unfold run at hr
  split at hr
  · cases hr
    exact ⟨h, rfl, fun _ => rfl⟩
  · split at hr
    · cases hr
    · rename_i w1 hl
      cases hr
      have hst := load_script_state c w w1 script _ hl
      exact ⟨by show count_inv w1.state; rw [hst]; exact h, by show w1.state.cur = _; rw [hst],
        fun _ => by show w1.state.mode = _; rw [hst]⟩
    · rename_i p w1 hl
      split at hr
      · cases hr
      · rename_i w2 ha
        cases hr
        have hst := load_script_state c w w1 script _ hl
        obtain ⟨s1, s2, -, s4, s5⟩ := count_inv.switch_mode w1 .FCFS (by rw [hst]; exact h)
        obtain ⟨a1, a2, a3, -⟩ := add_process_count _ _ p s1 ha
        exact ⟨a1, by rw [a3, s2, hst], fun hn => by rw [a2, s5 (by rw [hst]; exact hn), hst]⟩

theorem exec_loop_count (c : Config) : ∀ (progs : List cstr) (w w' : world) (code : Int),
    count_inv w.state → exec_loop c progs w = .ok (code, w') →
    count_inv w'.state ∧ w'.state.cur = w.state.cur ∧ w'.state.mode = w.state.mode
  | [], w, w', code, h, he => by
    rw [exec_loop] at he
    cases he
    exact ⟨h, rfl, rfl⟩
  | a :: rest, w, w', code, h, he => by
    rw [exec_loop] at he
    split at he
    · cases he
    · rename_i w1 hl
      cases he
      have hst := load_script_state c w w1 a _ hl
      exact ⟨by show count_inv w1.state; rw [hst]; exact h, by show w1.state.cur = _; rw [hst],
        by show w1.state.mode = _; rw [hst]⟩
    · rename_i p w1 hl
      split at he
      · cases he
      · rename_i w2 ha
        have hst := load_script_state c w w1 a _ hl
        obtain ⟨a1, a2, a3, -⟩ := add_process_count w1 w2 p (by rw [hst]; exact h) ha
        obtain ⟨b1, b2, b3⟩ := exec_loop_count c rest w2 w' code a1 he
        exact ⟨b1, by rw [b2, a3, hst], by rw [b3, a2, hst]⟩

theorem exec_count (c : Config) (w w' : world) (progs : List cstr) (policy : cstr)
    (code : Int) (h : count_inv w.state) (he : exec c w progs policy = .ok (code, w')) :
    count_inv w'.state ∧ w'.state.cur = w.state.cur ∧
      (w.state.np ≠ 0 → w'.state.mode = w.state.mode) := by
  unfold exec at he
  split at he
  · cases he
    exact ⟨h, rfl, fun _ => rfl⟩
  · split at he
    · cases he
      exact ⟨h, rfl, fun _ => rfl⟩
    · rename_i mode hm
      obtain ⟨s1, s2, -, s4, s5⟩ := count_inv.switch_mode w mode h
      obtain ⟨b1, b2, b3⟩ := exec_loop_count c progs _ w' code s1 he
      exact ⟨b1, by rw [b2, s2], fun hn => by rw [b3, s5 hn]⟩

theorem cmd_step_count (c : Config) (w w' : world) (h : count_inv w.state)
    (hs : cmd_step c w w') :
    count_inv w'.state ∧ w'.state.cur = w.state.cur ∧
      (w.state.np ≠ 0 → w'.state.mode = w.state.mode) := by
  cases hs with
  | other hp =>
    obtain ⟨p1, -⟩ := hp
    exact ⟨by rw [p1]; exact h, by rw [p1], fun _ => by rw [p1]⟩
  | run script code hr => exact run_count c w w' script code h hr
  | exec progs policy code he => exact exec_count c w w' progs policy code h he

theorem cmd_steps_count (c : Config) (w w' : world) (h : count_inv w.state)
    (hs : Relation.ReflTransGen (cmd_step c) w w') :
    count_inv w'.state ∧ w'.state.cur = w.state.cur ∧
      (w.state.cur ≠ none → w'.state.mode = w.state.mode) := by
  induction hs with
  | refl => exact ⟨h, rfl, fun _ => rfl⟩
  | tail hab hbc ih =>
    rename_i b d
    obtain ⟨i1, i2, i3⟩ := ih
    obtain ⟨j1, j2, j3⟩ := cmd_step_count c b d i1 hbc
    refine ⟨j1, by rw [j2, i2], fun hc => ?_⟩
    cases hcur : b.state.cur with
    | none => rw [i2] at hcur; exact absurd hcur hc
    | some p =>
      have := (i1.cur_pos _ p hcur).1
      rw [j3 (by omega), i3 hc]

theorem pop_front_count (w : world) (h : count_inv w.state) (hcur : w.state.cur = none) :
    count_inv (pop_front w).state ∧ (pop_front w).state.mode = w.state.mode := by
  cases hq : w.state.queue with
  | nil =>
    have e : pop_front w = print w "Error: Expected a process on queue but found none!\n" := by
      unfold pop_front
      rw [hq]
    rw [e]
    exact ⟨h, rfl⟩
  | cons x rest =>
    have e : pop_front w = { w with state := { w.state with
        queue := rest
        cur := some x.p
        cur_priority := x.priority
        tail := if w.state.tail = some x.id then none else w.state.tail } } := by
      unfold pop_front
      rw [hq]
    by_cases hm : w.state.mode = .FCFS ∨ w.state.mode = .RR
    · obtain ⟨e2, hf⟩ := pop_front_fifo w x rest (h.fifo hm) hq
      rw [e2]
      refine ⟨⟨?_, fun _ => hf, fun hn => absurd hm hn, fun hn => ?_⟩, rfl⟩
      · show w.state.np = _
        rw [h.count, hcur, hq]
        simp
        omega
      · exfalso
        have : w.state.mode = .NONE := hn
        rcases hm with hm | hm <;> rw [hm] at this <;> cases this
    · rw [e]
      have ht := h.prio hm
      refine ⟨⟨?_, fun hf => absurd hf hm, fun _ => ?_, fun hn => ?_⟩, rfl⟩
      · show w.state.np = _
        rw [h.count, hcur, hq]
        simp
        omega
      · show (if w.state.tail = some x.id then none else w.state.tail) = none
        rw [ht]
        simp
      · exfalso
        have hnp := h.none_idle hn
        have hc := h.count
        rw [hnp, hq] at hc
        simp at hc
        omega

theorem exec_process_fault_tail (c : Config) (rbl : cstr → world → Except halt world)
    (w w1 : world) (cur cur1 : pcb) (hcur : w.state.cur = some cur)
    (hmode : w.state.mode = .SJF ∨ w.state.mode = .AGING)
    (hread : read_instruction c w cur = .ok (none, cur1, w1)) (ht : w.state.tail = none) :
    exec_process c rbl w = .ok { w1 with state := { w.state with
        queue := ordered_insert { p := cur1, priority := w.state.cur_priority,
                                  id := w.state.fresh } w.state.queue
        tail := none
        fresh := w.state.fresh + 1
        cur := none } } := by
  obtain ⟨⟨s1, -⟩, -⟩ := read_instruction_core c _ _ _ _ _ hread
  obtain ⟨tl, a1, a2⟩ := add_with_priority_eq
    { w1 with state := { w1.state with cur := some cur1 } } cur1 w1.state.cur_priority
  have htl : tl = none := a2 (by show w1.state.tail = none; rw [s1]; exact ht)
  subst htl
  rcases hmode with hm | hm
  · unfold exec_process
    simp only [hcur, hread, s1, hm]
    simp only [s1, hm] at a1
    rw [a1]
  · unfold exec_process
    simp only [hcur, hread, s1, hm]
    simp only [s1, hm] at a1
    rw [a1]

theorem exec_inert_count (c : Config) (w w' : world) (h : count_inv w.state)
    (he : exec_process c rbl_inert w = .ok w') :
    count_inv w'.state ∧ w'.state.mode = w.state.mode := by
  cases hcur : w.state.cur with
  | none =>
    unfold exec_process at he
    simp only [hcur] at he
    cases he
  | some p =>
    obtain ⟨hnp, hmn⟩ := h.cur_pos _ p hcur
    have hc := h.count
    rw [hcur] at hc
    simp only [Option.toList, List.length_singleton] at hc
    cases hread : read_instruction c w p with
    | error e =>
      unfold exec_process at he
      simp only [hcur, hread] at he
      cases he
    | ok r =>
      obtain ⟨o, p1, w1⟩ := r
      cases o with
      | none =>
        by_cases hm : w.state.mode = .FCFS ∨ w.state.mode = .RR
        · obtain ⟨e1, hf⟩ := exec_process_fault_back c rbl_inert w w1 p p1 hcur hm hread
            (h.fifo hm)
          rw [e1] at he
          injection he with he
          subst he
          refine ⟨⟨?_, fun _ => hf, fun hn => absurd hm hn, fun hn => absurd hn hmn⟩, rfl⟩
          show w.state.np = _
          rw [hc]
          simp
          omega
        · have hm' : w.state.mode = .SJF ∨ w.state.mode = .AGING := by
            cases hmm : w.state.mode <;> simp [hmm] at hm hmn ⊢
          have e1 := exec_process_fault_tail c rbl_inert w w1 p p1 hcur hm' hread (h.prio hm)
          rw [e1] at he
          injection he with he
          subst he
          refine ⟨⟨?_, fun hf => absurd hf hm, fun _ => rfl, fun hn => absurd hn hmn⟩, rfl⟩
          show w.state.np = _
          rw [hc]
          simp only [ordered_insert_length]
          simp
          omega
      | some instr =>
        obtain ⟨⟨hst, -⟩, -, -, -, -, hp1⟩ := read_instruction_core c _ _ _ _ _ hread
        have hp1' : p1 = p := (hp1 (by simp)).1
        subst hp1'
        by_cases hd : p1.pc + 1 < p1.bound
        · have e1 := exec_process_cont c w w1 p1 instr hcur hread hst hd
          rw [e1] at he
          injection he with he
          subst he
          refine ⟨⟨?_, fun hm => ?_, fun hm => h.prio hm, fun hn => absurd hn hmn⟩, rfl⟩
          · show w.state.np = _
            rw [hc]
            simp
          · have hf := h.fifo hm
            exact ⟨hf.nodup, hf.fresh, hf.tail_eq⟩
        · obtain ⟨B, S, m, e1, -, -⟩ := exec_step_done c w w' w1 p1 instr hcur hread
            (by omega) he
          subst e1
          refine ⟨⟨?_, fun hm => ?_, fun hm => h.prio hm, fun hn => absurd hn hmn⟩, rfl⟩
          · show w.state.np - 1 = _
            rw [hc]
            simp
          · have hf := h.fifo hm
            exact ⟨hf.nodup, hf.fresh, hf.tail_eq⟩

theorem exec_process_count (c : Config) (rbl : cstr → world → Except halt world)
    (w w' : world) (hrbl : rbl_ok c rbl) (h : count_inv w.state)
    (he : exec_process c rbl w = .ok w') :
    count_inv w'.state ∧ (w'.state.cur ≠ none → w'.state.mode = w.state.mode) := by
  rcases exec_process_split c rbl w w' he with ⟨cur, cur1, w1, -, -, h1⟩ |
    ⟨cur, instr, w1, wm, -, -, h1, h2⟩
  · obtain ⟨a, b⟩ := exec_inert_count c w w' h h1
    exact ⟨a, fun _ => b⟩
  · obtain ⟨a, b⟩ := exec_inert_count c w wm h h1
    obtain ⟨d1, d2, d3⟩ := cmd_steps_count c wm w' a (hrbl instr wm w' h2)
    exact ⟨d1, fun hc => by rw [d3 (by rw [← d2]; exact hc), b]⟩

theorem run_RR_loop_count (c : Config) (rbl : cstr → world → Except halt world)
    (hrbl : rbl_ok c rbl) :
    ∀ (n : Nat) (w w' : world), count_inv w.state → run_RR_loop c rbl n w = .ok w' →
      count_inv w'.state ∧ (w'.state.cur ≠ none → w'.state.mode = w.state.mode)
  | 0, w, w', h, he => by
    rw [run_RR_loop] at he
    cases he
    exact ⟨h, fun _ => rfl⟩
  | n + 1, w, w', h, he => by
    rw [run_RR_loop] at he
    split at he
    · cases he
      exact ⟨h, fun _ => rfl⟩
    · split at he
      · cases he
      · rename_i w1 h1
        obtain ⟨a, b⟩ := exec_process_count c rbl w w1 hrbl h h1
        obtain ⟨d1, d2⟩ := run_RR_loop_count c rbl hrbl n w1 w' a he
        refine ⟨d1, fun hc => ?_⟩
        by_cases hc1 : w1.state.cur = none
        · rw [run_RR_loop_idle c rbl n w1 hc1] at he
          cases he
          exact absurd hc1 hc
        · rw [d2 hc, b hc1]

theorem run_RR_count (c : Config) (rbl : cstr → world → Except halt world) (w w' : world)
    (hrbl : rbl_ok c rbl) (h : count_inv w.state) (hm : w.state.mode = .RR)
    (he : run_RR c rbl w = .ok w') : count_inv w'.state := by
  unfold run_RR at he
  split at he
  · cases he
  · rename_i w1 hl
    obtain ⟨a, b⟩ := run_RR_loop_count c rbl hrbl _ w w1 h hl
    split at he
    · rename_i hne
      split at he
      · cases he
      · rename_i w2 hab
        cases he
        cases hcur : w1.state.cur with
        | none => exact absurd hcur hne
        | some p =>
          rw [hcur] at hab
          have hm1 : w1.state.mode = .RR := by rw [b hne, hm]
          obtain ⟨hnp, hmn⟩ := a.cur_pos _ p hcur
          obtain ⟨w3, e1, e2, e3⟩ := add_back_fifo w1 p (a.fifo (Or.inr hm1))
          rw [e1] at hab
          injection hab with hab
          subst hab
          subst e2
          have hc := a.count
          rw [hcur] at hc
          simp only [Option.toList, List.length_singleton] at hc
          refine ⟨?_, fun _ => ⟨e3.nodup, e3.fresh, e3.tail_eq⟩,
            fun hn => absurd (Or.inr hm1) hn, fun hn => absurd hn hmn⟩
          show w1.state.np = _
          rw [hc]
          simp
          omega
    · cases he
      exact a

theorem decr_priorities_count (w : world) (h : count_inv w.state) :
    count_inv (decr_priorities w).state := by
  have hid : ((decr_priorities w).state.queue.map ll.id) = w.state.queue.map ll.id := by
    unfold decr_priorities
    simp only [List.map_map]
    apply List.map_congr_left
    intro n _
    simp only [Function.comp]
    split <;> rfl
  refine ⟨?_, fun hm => ?_, fun hm => h.prio hm, fun hn => h.none_idle hn⟩
  · show w.state.np = _
    rw [h.count]
    unfold decr_priorities
    simp
  · have hf := h.fifo hm
    refine ⟨by rw [hid]; exact hf.nodup, ?_, ?_⟩
    · intro n hn
      have : n.id ∈ (decr_priorities w).state.queue.map ll.id := List.mem_map_of_mem _ hn
      rw [hid] at this
      obtain ⟨n0, hn0, e⟩ := List.mem_map.mp this
      rw [← e]
      exact hf.fresh n0 hn0
    · show w.state.tail = _
      rw [hf.tail_eq, ← List.getLast?_map, ← List.getLast?_map, hid]

theorem run_AGING_count (c : Config) (rbl : cstr → world → Except halt world) (w w' : world)
    (hrbl : rbl_ok c rbl) (h : count_inv w.state) (hm : w.state.mode = .AGING)
    (he : run_AGING c rbl w = .ok w') : count_inv w'.state := by
  unfold run_AGING at he
  split at he
  · cases he
  · rename_i w1 h1
    obtain ⟨a, b⟩ := exec_process_count c rbl w w1 hrbl h h1
    have h2 := decr_priorities_count w1 a
    simp only [] at he
    split at he
    · rename_i cur hd tl hc hq
      split at he
      · cases he
        have hc1 : w1.state.cur = some cur := hc
        have hm1 : (decr_priorities w1).state.mode = .AGING := by
          show w1.state.mode = _
          rw [b (by rw [hc1]; simp), hm]
        have hnf : ¬ ((decr_priorities w1).state.mode = .FCFS ∨
            (decr_priorities w1).state.mode = .RR) := by rw [hm1]; simp
        obtain ⟨t, e, ht⟩ := add_with_priority_eq (decr_priorities w1) cur
          (decr_priorities w1).state.cur_priority
        have ht0 : t = none := ht (h2.prio hnf)
        subst ht0
        rw [e]
        have hcc := h2.count
        rw [hc] at hcc
        simp only [Option.toList, List.length_singleton] at hcc
        refine ⟨?_, fun hf => absurd hf hnf, fun _ => rfl, fun hn => ?_⟩
        · show (decr_priorities w1).state.np = _
          rw [hcc]
          simp only [ordered_insert_length]
          simp
          omega
        · exfalso
          have : (decr_priorities w1).state.mode = .NONE := hn
          rw [hm1] at this
          cases this
      · cases he
        exact h2
    · cases he
      exact h2

theorem run_scheduler_body_count (c : Config) (rbl : cstr → world → Except halt world)
    (w w' : world) (r : Option Int) (hrbl : rbl_ok c rbl) (h : count_inv w.state)
    (he : run_scheduler_body c rbl w = .ok (r, w')) : count_inv w'.state := by
  unfold run_scheduler_body at he
  have h1 : count_inv (if w.state.cur = none then pop_front w else w).state := by
    split
    · rename_i hc
      exact (pop_front_count w h hc).1
    · exact h
  obtain ⟨w1, hw1⟩ : ∃ w1, w1 = (if w.state.cur = none then pop_front w else w) := ⟨_, rfl⟩
  rw [← hw1] at he h1
  simp only [] at he
  split at he
  · split at he
    · cases he
    · rename_i w2 h2
      cases he
      exact (exec_process_count c rbl w1 _ hrbl h1 h2).1
  · split at he
    · cases he
    · rename_i w2 h2
      cases he
      exact (exec_process_count c rbl w1 _ hrbl h1 h2).1
  · rename_i hm
    split at he
    · cases he
    · rename_i w2 h2
      cases he
      exact run_RR_count c rbl w1 _ hrbl h1 hm h2
  · rename_i hm
    split at he
    · cases he
    · rename_i w2 h2
      cases he
      exact run_AGING_count c rbl w1 _ hrbl h1 hm h2
  · cases he
    exact h1

theorem init_shell_count (c : Config) (files : List (cstr × cstr)) (w : world)
    (h : init_shell c files = .ok w) : count_inv w.state := by
  unfold init_shell at h
  split at h
  · cases h
  · cases h
    exact ⟨rfl, fun hm => (by rcases hm with hm | hm <;> cases hm), fun _ => rfl, fun _ => rfl⟩

theorem sys_reach_count (c : Config) (files : List (cstr × cstr)) (w : world)
    (h : sys_reach c files w) : count_inv w.state := by
  induction h with
  | init w _ h0 => exact init_shell_count c files w h0
  | cmd w w' hw hs ih => exact (cmd_step_count c w w' ih hs).1
  | pop w _ hc ih => exact (pop_front_count w ih hc).1
  | step w w' rbl hw hr he ih => exact (exec_process_count c rbl w w' hr ih he).1
  | tick w w' rbl r hw hr he ih => exact run_scheduler_body_count c rbl w w' r hr ih he

theorem sched_reach_count (c : Config) (w : world) (h : sched_reach c w) :
    count_inv w.state := by
  induction h with
  | init w =>
    exact ⟨rfl, fun hm => (by rcases hm with hm | hm <;> cases hm), fun _ => rfl, fun _ => rfl⟩
  | add w w' p _ ha ih => exact (add_process_count w w' p ih ha).1
  | mode w m _ ih => exact (count_inv.switch_mode w m ih).1
  | cmd w w' _ hs ih => exact (cmd_step_count c w w' ih hs).1
  | pop w _ hc ih => exact (pop_front_count w ih hc).1
  | step w w' rbl _ hr he ih => exact (exec_process_count c rbl w w' hr ih he).1
  | tick w w' rbl r _ hr he ih => exact run_scheduler_body_count c rbl w w' r hr ih he

theorem sys_reach_sched_reach (c : Config) (files : List (cstr × cstr)) (w : world)
    (h : sys_reach c files w) : sched_reach c w := by
  induction h with
  | init w _ h0 =>
    unfold init_shell at h0
    split at h0
    · cases h0
    · cases h0
      exact sched_reach.init _
  | cmd w w' _ hs ih => exact sched_reach.cmd w w' ih hs
  | pop w _ hc ih => exact sched_reach.pop w ih hc
  | step w w' rbl _ hr he ih => exact sched_reach.step w w' rbl ih hr he
  | tick w w' rbl r _ hr he ih => exact sched_reach.tick w w' rbl r ih hr he

theorem demo_rr_sched_reach : sched_reach demo_config demo_rr :=
  sys_reach_sched_reach _ _ _ demo_rr_reach

/-! ## The life of a PCB: lemmas -/

theorem pcb_le_refl (p : pcb) : pcb_le p p := ⟨rfl, rfl, Nat.le_refl _⟩

theorem pcb_le_trans (p q r : pcb) (h1 : pcb_le p q) (h2 : pcb_le q r) : pcb_le p r :=
  ⟨by rw [h2.1, h1.1], by rw [h2.2.1, h1.2.1], Nat.le_trans h1.2.2 h2.2.2⟩

theorem add_process_pcbs (w w' : world) (p : pcb) (ha : add_process w p = .ok w') :
    w'.state.cur = w.state.cur ∧
      ∀ q, q ∈ w'.state.queue.map ll.p → q ∈ w.state.queue.map ll.p ∨ q = p := by
  unfold add_process at ha
  split at ha
  · split at ha
    · cases ha
    · rename_i w1 h1
      cases ha
      obtain ⟨-, -, -, a4, -, a6⟩ := add_back_live w w1 p h1
      refine ⟨a4, fun q hq => ?_⟩
      have := a6.subset hq
      simpa using this
  · split at ha
    · cases ha
    · rename_i w1 h1
      cases ha
      obtain ⟨-, -, -, a4, -, a6⟩ := add_back_live w w1 p h1
      refine ⟨a4, fun q hq => ?_⟩
      have := a6.subset hq
      simpa using this
  · cases ha
    obtain ⟨tl, e, -⟩ := add_with_priority_eq w p p.bound
    rw [e]
    refine ⟨rfl, fun q hq => ?_⟩
    obtain ⟨n, hn, rfl⟩ := List.mem_map.mp hq
    rcases ordered_insert_mem _ n _ hn with h | h
    · right; rw [h]
    · left; exact List.mem_map_of_mem _ h
  · cases ha
    obtain ⟨tl, e, -⟩ := add_with_priority_eq w p p.bound
    rw [e]
    refine ⟨rfl, fun q hq => ?_⟩
    obtain ⟨n, hn, rfl⟩ := List.mem_map.mp hq
    rcases ordered_insert_mem _ n _ hn with h | h
    · right; rw [h]
    · left; exact List.mem_map_of_mem _ h
  · cases ha
    exact ⟨rfl, fun q hq => Or.inl hq⟩

theorem set_scheduler_mode_pcbs (w : world) (m : sched_mode_t) :
    (set_scheduler_mode w m).2.state.cur = w.state.cur ∧
      (set_scheduler_mode w m).2.state.queue = w.state.queue := by
  unfold set_scheduler_mode
  split
  · exact ⟨rfl, rfl⟩
  · split <;> exact ⟨rfl, rfl⟩

theorem load_script_created (c : Config) (w w' : world) (file : cstr) (p : pcb)
    (h : load_script c w file = .ok (some p, w')) : created p := by
  obtain ⟨-, h2, h3, -⟩ := load_script_some c w w' file p h
  exact ⟨h2, h3⟩

theorem run_pcbs (c : Config) (w w' : world) (script : cstr) (code : Int)
    (hr : run c w script = .ok (code, w')) :
    w'.state.cur = w.state.cur ∧
      ∀ q, q ∈ w'.state.queue.map ll.p → q ∈ w.state.queue.map ll.p ∨ created q := by
  unfold run at hr
  split at hr
  · cases hr
    exact ⟨rfl, fun q hq => Or.inl hq⟩
  · split at hr
    · cases hr
    · rename_i w1 hl
      cases hr
      have hst := load_script_state c w w1 script _ hl
      exact ⟨by show w1.state.cur = _; rw [hst],
        fun q hq => Or.inl (by rw [← hst]; exact hq)⟩
    · rename_i p w1 hl
      split at hr
      · cases hr
      · rename_i w2 ha
        cases hr
        have hst := load_script_state c w w1 script _ hl
        obtain ⟨s1, s2⟩ := set_scheduler_mode_pcbs w1 .FCFS
        obtain ⟨a1, a2⟩ := add_process_pcbs _ _ p ha
        refine ⟨by rw [a1, s1, hst], fun q hq => ?_⟩
        rcases a2 q hq with h | h
        · left; rw [s2, hst] at h; exact h
        · right; rw [h]; exact load_script_created c w w1 script p hl

theorem exec_loop_pcbs (c : Config) : ∀ (progs : List cstr) (w w' : world) (code : Int),
    exec_loop c progs w = .ok (code, w') →
    w'.state.cur = w.state.cur ∧
      ∀ q, q ∈ w'.state.queue.map ll.p → q ∈ w.state.queue.map ll.p ∨ created q
  | [], w, w', code, he => by
    rw [exec_loop] at he
    cases he
    exact ⟨rfl, fun q hq => Or.inl hq⟩
  | a :: rest, w, w', code, he => by
    rw [exec_loop] at he
    split at he
    · cases he
    · rename_i w1 hl
      cases he
      have hst := load_script_state c w w1 a _ hl
      exact ⟨by show w1.state.cur = _; rw [hst],
        fun q hq => Or.inl (by rw [← hst]; exact hq)⟩
    · rename_i p w1 hl
      split at he
      · cases he
      · rename_i w2 ha
        have hst := load_script_state c w w1 a _ hl
        obtain ⟨a1, a2⟩ := add_process_pcbs w1 w2 p ha
        obtain ⟨b1, b2⟩ := exec_loop_pcbs c rest w2 w' code he
        refine ⟨by rw [b1, a1, hst], fun q hq => ?_⟩
        rcases b2 q hq with h | h
        · rcases a2 q h with h | h
          · left; rw [hst] at h; exact h
          · right; rw [h]; exact load_script_created c w w1 a p hl
        · exact Or.inr h

theorem cmd_step_pcbs (c : Config) (w w' : world) (hs : cmd_step c w w') :
    w'.state.cur = w.state.cur ∧
      ∀ q, q ∈ w'.state.queue.map ll.p → q ∈ w.state.queue.map ll.p ∨ created q := by
  cases hs with
  | other hp =>
    obtain ⟨p1, -⟩ := hp
    exact ⟨by rw [p1], fun q hq => Or.inl (by rw [← p1]; exact hq)⟩
  | run script code hr => exact run_pcbs c w w' script code hr
  | exec progs policy code he =>
    unfold exec at he
    split at he
    · cases he
      exact ⟨rfl, fun q hq => Or.inl hq⟩
    · split at he
      · cases he
        exact ⟨rfl, fun q hq => Or.inl hq⟩
      · rename_i mode hm
        obtain ⟨s1, s2⟩ := set_scheduler_mode_pcbs w mode
        obtain ⟨b1, b2⟩ := exec_loop_pcbs c progs _ w' code he
        refine ⟨by rw [b1, s1], fun q hq => ?_⟩
        rcases b2 q hq with h | h
        · left; rw [s2] at h; exact h
        · exact Or.inr h

theorem cmd_steps_pcbs (c : Config) (w w' : world)
    (hs : Relation.ReflTransGen (cmd_step c) w w') :
    w'.state.cur = w.state.cur ∧
      ∀ q, q ∈ w'.state.queue.map ll.p → q ∈ w.state.queue.map ll.p ∨ created q := by
  induction hs with
  | refl => exact ⟨rfl, fun q hq => Or.inl hq⟩
  | tail hab hbc ih =>
    rename_i b d
    obtain ⟨i1, i2⟩ := ih
    obtain ⟨j1, j2⟩ := cmd_step_pcbs c b d hbc
    refine ⟨by rw [j1, i1], fun q hq => ?_⟩
    rcases j2 q hq with h | h
    · exact i2 q h
    · exact Or.inr h

theorem exec_inert_pcbs (c : Config) (w w' : world) (p : pcb) (hcur : w.state.cur = some p)
    (he : exec_process c rbl_inert w = .ok w') : runs p w w' := by
  cases hread : read_instruction c w p with
  | error e =>
    unfold exec_process at he
    simp only [hcur, hread] at he
    cases he
  | ok r =>
    obtain ⟨o, p1, w1⟩ := r
    obtain ⟨⟨hst, -⟩, c1, c2, c3, -, c5⟩ := read_instruction_core c _ _ _ _ _ hread
    have hle : pcb_le p p1 := ⟨c1, c2, by rw [c3]⟩
    cases o with
    | none =>
      unfold exec_process at he
      simp only [hcur, hread] at he
      split at he
      · split at he
        · cases he
        · rename_i w3 h3
          cases he
          obtain ⟨-, -, -, -, -, a6⟩ := add_back_live _ w3 p1 h3
          refine ⟨fun q hq => (by cases hq), fun q hq => ?_⟩
          have := a6.subset hq
          simp only [List.mem_append, List.mem_singleton] at this
          rcases this with h | h
          · left; rw [← hst]; exact h
          · right; left; rw [h]; exact hle
      · split at he
        · cases he
        · rename_i w3 h3
          cases he
          obtain ⟨-, -, -, -, -, a6⟩ := add_back_live _ w3 p1 h3
          refine ⟨fun q hq => (by cases hq), fun q hq => ?_⟩
          have := a6.subset hq
          simp only [List.mem_append, List.mem_singleton] at this
          rcases this with h | h
          · left; rw [← hst]; exact h
          · right; left; rw [h]; exact hle
      · cases he
        obtain ⟨tl, e, -⟩ := add_with_priority_eq
          { w1 with state := { w1.state with cur := some p1 } } p1 w1.state.cur_priority
        rw [e]
        refine ⟨fun q hq => (by cases hq), fun q hq => ?_⟩
        obtain ⟨n, hn, rfl⟩ := List.mem_map.mp hq
        rcases ordered_insert_mem _ n _ hn with h | h
        · right; left; rw [h]; exact hle
        · left; rw [← hst]; exact List.mem_map_of_mem _ h
      · cases he
        obtain ⟨tl, e, -⟩ := add_with_priority_eq
          { w1 with state := { w1.state with cur := some p1 } } p1 w1.state.cur_priority
        rw [e]
        refine ⟨fun q hq => (by cases hq), fun q hq => ?_⟩
        obtain ⟨n, hn, rfl⟩ := List.mem_map.mp hq
        rcases ordered_insert_mem _ n _ hn with h | h
        · right; left; rw [h]; exact hle
        · left; rw [← hst]; exact List.mem_map_of_mem _ h
      · cases he
        refine ⟨fun q hq => ?_, fun q hq => Or.inl (by rw [← hst]; exact hq)⟩
        have : some p1 = some q := hq
        injection this with this
        rw [← this]
        exact hle
    | some instr =>
      have hp1 : p1 = p := (c5 (by simp)).1
      subst hp1
      by_cases hd : p1.pc + 1 < p1.bound
      · have e1 := exec_process_cont c w w1 p1 instr hcur hread hst hd
        rw [e1] at he
        injection he with he
        subst he
        refine ⟨fun q hq => ?_, fun q hq => Or.inl hq⟩
        have : some { p1 with pc := p1.pc + 1 } = some q := hq
        injection this with this
        rw [← this]
        exact ⟨rfl, rfl, Nat.le_succ _⟩
      · obtain ⟨B, S, m, e1, -, -⟩ := exec_step_done c w w' w1 p1 instr hcur hread
          (by omega) he
        subst e1
        exact ⟨fun q hq => (by cases hq), fun q hq => Or.inl hq⟩

theorem runs_then (p p1 : pcb) (w w1 w2 : world) (h1 : runs p w w1)
    (hc : w1.state.cur = some p1) (h2 : runs p1 w1 w2) : runs p w w2 := by
  have hle := h1.1 p1 hc
  refine ⟨fun q hq => pcb_le_trans _ _ _ hle (h2.1 q hq), fun q hq => ?_⟩
  rcases h2.2 q hq with h | h | h
  · exact h1.2 q h
  · exact Or.inr (Or.inl (pcb_le_trans _ _ _ hle h))
  · exact Or.inr (Or.inr h)

theorem exec_process_pcbs (c : Config) (rbl : cstr → world → Except halt world)
    (w w' : world) (p : pcb) (hrbl : rbl_ok c rbl) (hcur : w.state.cur = some p)
    (he : exec_process c rbl w = .ok w') : runs p w w' := by
  rcases exec_process_split c rbl w w' he with ⟨cur, cur1, w1, -, -, h1⟩ |
    ⟨cur, instr, w1, wm, -, -, h1, h2⟩
  · exact exec_inert_pcbs c w w' p hcur h1
  · obtain ⟨a1, a2⟩ := exec_inert_pcbs c w wm p hcur h1
    obtain ⟨d1, d2⟩ := cmd_steps_pcbs c wm w' (hrbl instr wm w' h2)
    refine ⟨fun q hq => a1 q (by rw [← d1]; exact hq), fun q hq => ?_⟩
    rcases d2 q hq with h | h
    · exact a2 q h
    · exact Or.inr (Or.inr h)

theorem run_RR_loop_pcbs (c : Config) (rbl : cstr → world → Except halt world)
    (hrbl : rbl_ok c rbl) :
    ∀ (n : Nat) (w w' : world) (p : pcb), w.state.cur = some p →
      run_RR_loop c rbl n w = .ok w' → runs p w w'
  | 0, w, w', p, hcur, he => by
    rw [run_RR_loop] at he
    cases he
    refine ⟨fun q hq => ?_, fun q hq => Or.inl hq⟩
    rw [hcur] at hq
    injection hq with hq
    rw [← hq]
    exact pcb_le_refl p
  | n + 1, w, w', p, hcur, he => by
    rw [run_RR_loop, if_neg (by rw [hcur]; simp)] at he
    split at he
    · cases he
    · rename_i w1 h1
      have r1 := exec_process_pcbs c rbl w w1 p hrbl hcur h1
      cases hc1 : w1.state.cur with
      | none =>
        rw [run_RR_loop_idle c rbl n w1 hc1] at he
        cases he
        exact r1
      | some p1 =>
        exact runs_then p p1 w w1 w' r1 hc1 (run_RR_loop_pcbs c rbl hrbl n w1 w' p1 hc1 he)

theorem run_RR_pcbs (c : Config) (rbl : cstr → world → Except halt world) (w w' : world)
    (p : pcb) (hrbl : rbl_ok c rbl) (hcur : w.state.cur = some p)
    (he : run_RR c rbl w = .ok w') : runs p w w' := by
  unfold run_RR at he
  split at he
  · cases he
  · rename_i w1 hl
    have r1 := run_RR_loop_pcbs c rbl hrbl _ w w1 p hcur hl
    split at he
    · rename_i hne
      split at he
      · cases he
      · rename_i w2 hab
        cases he
        cases hc1 : w1.state.cur with
        | none => exact absurd hc1 hne
        | some p1 =>
          rw [hc1] at hab
          obtain ⟨-, -, -, -, -, a6⟩ := add_back_live w1 w2 p1 hab
          refine ⟨fun q hq => (by cases hq), fun q hq => ?_⟩
          have := a6.subset hq
          simp only [List.mem_append, List.mem_singleton] at this
          rcases this with h | h
          · exact r1.2 q h
          · right; left; rw [h]; exact r1.1 p1 hc1
    · cases he
      exact r1

theorem run_AGING_pcbs (c : Config) (rbl : cstr → world → Except halt world) (w w' : world)
    (p : pcb) (hrbl : rbl_ok c rbl) (hcur : w.state.cur = some p)
    (he : run_AGING c rbl w = .ok w') : runs p w w' := by
  unfold run_AGING at he
  split at he
  · cases he
  · rename_i w1 h1
    have r1 := exec_process_pcbs c rbl w w1 p hrbl hcur h1
    have hq2 : (decr_priorities w1).state.queue.map ll.p = w1.state.queue.map ll.p := by
      unfold decr_priorities
      simp only [List.map_map]
      apply List.map_congr_left
      intro n _
      simp only [Function.comp]
      split <;> rfl
    have r2 : runs p w (decr_priorities w1) :=
      ⟨fun q hq => r1.1 q hq, fun q hq => r1.2 q (by rw [← hq2]; exact hq)⟩
    simp only [] at he
    split at he
    · rename_i cur hd tl hc hq
      split at he
      · cases he
        obtain ⟨t, e, -⟩ := add_with_priority_eq (decr_priorities w1) cur
          (decr_priorities w1).state.cur_priority
        rw [e]
        refine ⟨fun q hq => (by cases hq), fun q hq => ?_⟩
        obtain ⟨n, hn, rfl⟩ := List.mem_map.mp hq
        rcases ordered_insert_mem _ n _ hn with h | h
        · right; left; rw [h]; exact r2.1 cur hc
        · exact r2.2 _ (List.mem_map_of_mem _ h)
      · cases he
        exact r2
    · cases he
      exact r2

theorem runs_evolves (p : pcb) (w w' : world) (hcur : w.state.cur = some p)
    (h : runs p w w') : evolves w w' := by
  intro q hq
  have hp : p ∈ live w := by simp [live, hcur]
  unfold live at hq
  rw [List.mem_append] at hq
  rcases hq with hq | hq
  · left
    refine ⟨p, hp, h.1 q ?_⟩
    cases hc : w'.state.cur with
    | none => rw [hc] at hq; cases hq
    | some x =>
      rw [hc] at hq
      simp at hq
      rw [hq]
  · rcases h.2 q hq with h1 | h1 | h1
    · left
      exact ⟨q, by unfold live; exact List.mem_append_right _ h1, pcb_le_refl q⟩
    · left
      exact ⟨p, hp, h1⟩
    · exact Or.inr h1

theorem evolves_refl_of_live (w w' : world) (h : live w' = live w) : evolves w w' := by
  intro q hq
  rw [h] at hq
  exact Or.inl ⟨q, hq, pcb_le_refl q⟩

theorem cmd_step_evolves (c : Config) (w w' : world) (hs : cmd_step c w w') :
    evolves w w' := by
  obtain ⟨h1, h2⟩ := cmd_step_pcbs c w w' hs
  intro q hq
  unfold live at hq
  rw [List.mem_append] at hq
  rcases hq with hq | hq
  · left
    refine ⟨q, ?_, pcb_le_refl q⟩
    unfold live
    rw [← h1]
    exact List.mem_append_left _ hq
  · rcases h2 q hq with h | h
    · left
      exact ⟨q, by unfold live; exact List.mem_append_right _ h, pcb_le_refl q⟩
    · exact Or.inr h

theorem exec_process_evolves (c : Config) (rbl : cstr → world → Except halt world)
    (w w' : world) (hrbl : rbl_ok c rbl) (he : exec_process c rbl w = .ok w') :
    evolves w w' := by
  cases hcur : w.state.cur with
  | none =>
    unfold exec_process at he
    simp only [hcur] at he
    cases he
  | some p => exact runs_evolves p w w' hcur (exec_process_pcbs c rbl w w' p hrbl hcur he)

theorem run_scheduler_body_evolves (c : Config) (rbl : cstr → world → Except halt world)
    (w w' : world) (r : Option Int) (hrbl : rbl_ok c rbl)
    (he : run_scheduler_body c rbl w = .ok (r, w')) : evolves w w' := by
  unfold run_scheduler_body at he
  have hl : live (if w.state.cur = none then pop_front w else w) = live w := by
    split
    · rename_i hc
      exact (pop_front_live w hc).1
    · rfl
  obtain ⟨w1, hw1⟩ : ∃ w1, w1 = (if w.state.cur = none then pop_front w else w) := ⟨_, rfl⟩
  rw [← hw1] at he hl
  have key : evolves w1 w' → evolves w w' := by
    intro h q hq
    have := h q hq
    rw [hl] at this
    exact this
  apply key
  simp only [] at he
  split at he
  · split at he
    · cases he
    · rename_i w2 h2
      cases he
      exact exec_process_evolves c rbl w1 _ hrbl h2
  · split at he
    · cases he
    · rename_i w2 h2
      cases he
      exact exec_process_evolves c rbl w1 _ hrbl h2
  · split at he
    · cases he
    · rename_i w2 h2
      cases he
      cases hcur : w1.state.cur with
      | none =>
        unfold run_RR at h2
        rw [run_RR_loop_idle c rbl _ w1 hcur] at h2
        simp only [hcur] at h2
        cases h2
        exact evolves_refl_of_live _ _ rfl
      | some p => exact runs_evolves p w1 _ hcur (run_RR_pcbs c rbl w1 _ p hrbl hcur h2)
  · split at he
    · cases he
    · rename_i w2 h2
      cases he
      cases hcur : w1.state.cur with
      | none =>
        unfold run_AGING exec_process at h2
        simp only [hcur] at h2
        cases h2
      | some p => exact runs_evolves p w1 _ hcur (run_AGING_pcbs c rbl w1 _ p hrbl hcur h2)
  · cases he
    exact evolves_refl_of_live _ _ rfl

/-! ## The variable store and the frame store: lemmas -/

theorem slot_eq_of (sm sm' : List memory_struct) (j : Nat) (hl : sm'.length = sm.length)
    (h1 : sm_var sm' j = sm_var sm j) (h2 : sm_value sm' j = sm_value sm j) :
    sm'[j]? = sm[j]? := by
  by_cases hj : j < sm.length
  · have hj' : j < sm'.length := by rw [hl]; exact hj
    unfold sm_var at h1
    unfold sm_value at h2
    rw [List.getElem?_eq_getElem hj, List.getElem?_eq_getElem hj'] at h1 h2 ⊢
    simp only [Option.bind] at h1 h2
    congr 1
    cases ha : sm'[j] with
    | mk a b =>
      cases hb : sm[j] with
      | mk a' b' =>
        rw [ha, hb] at h1 h2
        simp only [] at h1 h2
        rw [h1, h2]
  · rw [List.getElem?_eq_none (by omega), List.getElem?_eq_none (by omega)]

theorem mem_set_value_loop_spec (var_in value_in : cstr) :
    ∀ (n i : Nat) (m : memory_state), i + n ≤ m.shellmemory.length →
      mem_set_value_loop var_in value_in n i m = .ok none ∨
      ∃ k s, i ≤ k ∧ k < i + n ∧ m.shellmemory[k]? = some s ∧
        mem_set_value_loop var_in value_in n i m = .ok (some { m with
          shellmemory := m.shellmemory.set k { s with value := some value_in } }) := by
  intro n
  induction n with
  | zero =>
    intro i m _
    exact Or.inl rfl
  | succ n ih =>
    intro i m hlen
    have hi : i < m.shellmemory.length := by omega
    rw [mem_set_value_loop, List.getElem?_eq_getElem hi]
    simp only []
    cases hv : (m.shellmemory[i]).var with
    | none =>
      simp only []
      rcases ih (i + 1) m (by omega) with h | ⟨k, s, h1, h2, h3, h4⟩
      · exact Or.inl h
      · exact Or.inr ⟨k, s, by omega, by omega, h3, h4⟩
    | some v =>
      simp only []
      by_cases hvv : v = var_in
      · rw [if_pos hvv]
        exact Or.inr ⟨i, _, Nat.le_refl _, by omega, List.getElem?_eq_getElem hi, by rw [hv]⟩
      · rw [if_neg hvv]
        rcases ih (i + 1) m (by omega) with h | ⟨k, s, h1, h2, h3, h4⟩
        · exact Or.inl h
        · exact Or.inr ⟨k, s, by omega, by omega, h3, h4⟩

/-- `mem_set_value` returns, and it writes below `VARMEMSIZE` only. -/
theorem mem_set_value_spec (c : Config) (w : world) (var_in value_in : cstr)
    (hv : w.m_state.cur_var_size ≤ c.VARMEMSIZE)
    (hs : w.m_state.shellmemory.length = c.SHELLMEMSIZE) :
    ∃ w', mem_set_value c w var_in value_in = .ok w' ∧
      (∀ j, c.VARMEMSIZE ≤ j → w'.m_state.shellmemory[j]? = w.m_state.shellmemory[j]?) ∧
      w'.m_state.cur_var_size ≤ c.VARMEMSIZE ∧
      w'.m_state.shellmemory.length = c.SHELLMEMSIZE ∧
      w'.m_state.head = w.m_state.head ∧ w'.m_state.tail = w.m_state.tail ∧
      w'.m_state.heap = w.m_state.heap ∧ w'.m_state.ll_quick = w.m_state.ll_quick ∧
      w'.m_state.frames_allocated = w.m_state.frames_allocated ∧
      w'.state = w.state ∧ w'.backing_store = w.backing_store := by
  have hsz : c.VARMEMSIZE ≤ c.SHELLMEMSIZE := by
    unfold Config.SHELLMEMSIZE
    omega
  unfold mem_set_value
  rcases mem_set_value_loop_spec var_in value_in w.m_state.cur_var_size 0 w.m_state
    (by omega) with h | ⟨k, s, h1, h2, h3, h4⟩
  · rw [h]
    simp only []
    by_cases hfull : w.m_state.cur_var_size ≥ c.VARMEMSIZE
    · rw [if_pos hfull]
      exact ⟨_, rfl, fun j _ => rfl, hv, hs, rfl, rfl, rfl, rfl, rfl, rfl, rfl⟩
    · rw [if_neg hfull]
      have hi : w.m_state.cur_var_size < w.m_state.shellmemory.length := by omega
      rw [List.getElem?_eq_getElem hi]
      simp only []
      refine ⟨_, rfl, fun j hj => ?_, ?_, ?_, rfl, rfl, rfl, rfl, rfl, rfl, rfl⟩
      · show (w.m_state.shellmemory.set _ _)[j]? = _
        rw [List.getElem?_set_ne (by omega)]
      · show w.m_state.cur_var_size + 1 ≤ _
        omega
      · show (w.m_state.shellmemory.set _ _).length = _
        rw [List.length_set, hs]
  · rw [h4]
    simp only []
    refine ⟨_, rfl, fun j hj => ?_, hv, ?_, rfl, rfl, rfl, rfl, rfl, rfl, rfl⟩
    · show (w.m_state.shellmemory.set _ _)[j]? = _
      rw [List.getElem?_set_ne (by omega)]
    · show (w.m_state.shellmemory.set _ _).length = _
      rw [List.length_set, hs]

theorem clear_shell_mem_loop_spec : ∀ (n i : Nat) (m : memory_state),
    i + n ≤ m.shellmemory.length →
    ∃ sm, clear_shell_mem_loop n i m = .ok { m with shellmemory := sm } ∧
      sm.length = m.shellmemory.length ∧
      ∀ j, sm[j]? = if i ≤ j ∧ j < i + n then some (memory_struct.mk none none)
        else m.shellmemory[j]? := by
  intro n
  induction n with
  | zero =>
    intro i m _
    refine ⟨m.shellmemory, rfl, rfl, fun j => ?_⟩
    have : ¬ (i ≤ j ∧ j < i + 0) := by omega
    rw [if_neg this]
  | succ n ih =>
    intro i m hlen
    have hi : i < m.shellmemory.length := by omega
    obtain ⟨sm, h1, h2, h3⟩ := ih (i + 1)
      { m with shellmemory := m.shellmemory.set i (memory_struct.mk none none) }
      (by simp only [List.length_set]; omega)
    refine ⟨sm, ?_, by simpa using h2, fun j => ?_⟩
    · rw [clear_shell_mem_loop, if_pos hi, h1]
    · rw [h3 j]
      simp only [List.getElem?_set]
      by_cases hj : i = j
      · subst hj
        have c1 : ¬ (i + 1 ≤ i ∧ i < i + 1 + n) := by omega
        have c2 : i ≤ i ∧ i < i + (n + 1) := by omega
        rw [if_neg c1, if_pos c2]
        simp [hi]
      · by_cases hr : i + 1 ≤ j ∧ j < i + 1 + n
        · have c2 : i ≤ j ∧ j < i + (n + 1) := by omega
          rw [if_pos hr, if_pos c2]
        · have c2 : ¬ (i ≤ j ∧ j < i + (n + 1)) := by omega
          rw [if_neg hr, if_neg c2]
          simp [hj]

/-- `clear_shell_mem` returns, and it writes below `VARMEMSIZE` only. -/
theorem clear_shell_mem_spec (c : Config) (m : memory_state)
    (hv : m.cur_var_size ≤ c.VARMEMSIZE) (hs : m.shellmemory.length = c.SHELLMEMSIZE) :
    ∃ sm, clear_shell_mem m = .ok { m with shellmemory := sm, cur_var_size := 0 } ∧
      sm.length = c.SHELLMEMSIZE ∧
      (∀ j, c.VARMEMSIZE ≤ j → sm[j]? = m.shellmemory[j]?) ∧
      (∀ j, j < m.cur_var_size → sm[j]? = some (memory_struct.mk none none)) := by
  have hsz : c.VARMEMSIZE ≤ c.SHELLMEMSIZE := by
    unfold Config.SHELLMEMSIZE
    omega
  obtain ⟨sm, h1, h2, h3⟩ := clear_shell_mem_loop_spec m.cur_var_size 0 m (by omega)
  refine ⟨sm, ?_, by rw [h2, hs], fun j hj => ?_, fun j hj => ?_⟩
  · unfold clear_shell_mem
    rw [h1]
  · rw [h3 j, if_neg (by omega)]
  · rw [h3 j, if_pos (by omega)]

theorem demo_vars_eq :
    ∃ w1, mem_set_value demo_config demo_world "x".toList "1".toList = .ok w1 ∧
      mem_set_value demo_config w1 "y".toList "2".toList = .ok demo_vars :=
  ⟨_, rfl, by rfl⟩

/-! ## Reading a command: lemmas -/

theorem skip_blanks_length (rest : List Char) : (skip_blanks rest).length ≤ rest.length := by
  induction rest with
  | nil => simp [skip_blanks]
  | cons c r ih =>
    rw [skip_blanks]
    split
    · simp only [List.length_cons]
      omega
    · exact Nat.le_refl _

theorem skip_blanks_blank (c : Char) (r : List Char) (h : c = ' ' ∨ c = '\t') :
    (skip_blanks (c :: r)).length < (c :: r).length := by
  rw [skip_blanks, if_pos h]
  have := skip_blanks_length r
  simp only [List.length_cons]
  omega

theorem read_word_length : ∀ (rest : List Char) (tmp : cstr),
    (read_word rest tmp).2.length ≤ rest.length
  | [], tmp => by simp [read_word]
  | c :: r, tmp => by
    rw [read_word]
    split
    · have := read_word_length r (tmp ++ [c])
      simp only [List.length_cons]
      omega
    · exact Nat.le_refl _

theorem read_word_stuck (rest : List Char) (tmp : cstr) (htmp : tmp.length < MAX_WORD_LEN - 1)
    (h : (read_word rest tmp).2.length = rest.length) :
    (read_word rest tmp).2 = rest ∧
      (rest = [] ∨ cur_char rest = Char.ofNat 0 ∨ cur_char rest = ' ' ∨ cur_char rest = '\n' ∨
        cur_char rest = ';') := by
  cases rest with
  | nil => exact ⟨by simp [read_word], Or.inl rfl⟩
  | cons c r =>
    rw [read_word] at h ⊢
    by_cases hc : c ≠ Char.ofNat 0 ∧ c ≠ ' ' ∧ c ≠ '\n' ∧ c ≠ ';' ∧ tmp.length < MAX_WORD_LEN - 1
    · rw [if_pos hc] at h
      have := read_word_length r (tmp ++ [c])
      simp only [List.length_cons] at h
      omega
    · rw [if_neg hc]
      refine ⟨rfl, Or.inr ?_⟩
      show c = _ ∨ c = _ ∨ c = _ ∨ c = _
      by_contra hn
      apply hc
      simp only [not_or] at hn
      exact ⟨hn.1, hn.2.1, hn.2.2.1, hn.2.2.2, htmp⟩

/-- An iteration of the `do` loop that is followed by another one has moved the
buffer position. -/
theorem read_words_progress (rest : List Char)
    (h : cur_char (skip_blanks (read_word rest []).2) ≠ Char.ofNat 0 ∧
      cur_char (skip_blanks (read_word rest []).2) ≠ '\n' ∧
      cur_char (skip_blanks (read_word rest []).2) ≠ ';') :
    (skip_blanks (read_word rest []).2).length < rest.length := by
  have h1 := read_word_length rest []
  have h2 := skip_blanks_length (read_word rest []).2
  by_cases hlt : (read_word rest []).2.length < rest.length
  · omega
  · obtain ⟨e, hc⟩ := read_word_stuck rest [] (by decide) (by omega)
    rw [e] at h ⊢
    cases rest with
    | nil => exact absurd rfl h.1
    | cons c r =>
      have hcc : cur_char (c :: r) = c := rfl
      rw [hcc] at hc
      rcases hc with hc | hc | hc | hc | hc
      · cases hc
      · rw [skip_blanks, if_neg (by rw [hc]; decide)] at h
        exact absurd hc h.1
      · exact skip_blanks_blank c r (Or.inl hc)
      · rw [skip_blanks, if_neg (by rw [hc]; decide)] at h
        exact absurd hc h.2.1
      · rw [skip_blanks, if_neg (by rw [hc]; decide)] at h
        exact absurd hc h.2.2

theorem read_words_returns : ∀ (fuel : Nat) (rest : List Char) (words : List cstr),
    rest.length < fuel → read_words fuel rest words ≠ .ok none
  | 0, rest, words, h => by omega
  | fuel + 1, rest, words, h => by
    rw [read_words]
    simp only []
    split
    · intro hh; cases hh
    · split
      · rename_i hc
        have := read_words_progress rest hc
        exact read_words_returns fuel _ _ (by omega)
      · intro hh; cases hh

/-- The bound on the iterations of the `do` loop in `readInput` is never
reached: the function returns or halts. -/
theorem readInput_returns (buffer : cstr) (buff_pos : Nat) :
    readInput buffer buff_pos ≠ .ok none := by
  unfold readInput
  split
  · intro h; cases h
  · split
    · intro h; cases h
    · simp only []
      have := read_words_returns ((skip_blanks (buffer.drop buff_pos)).length + 1)
        (skip_blanks (buffer.drop buff_pos)) [] (by omega)
      split
      · intro h; cases h
      · rename_i hh
        exact absurd hh this
      · intro h; cases h

/-- At the end of the buffer `readInput` returns -1 and leaves the position. -/
theorem readInput_at_end (buffer : cstr) (pos : Nat) (hp : pos ≤ buffer.length)
    (hc : cur_char (buffer.drop pos) = Char.ofNat 0) :
    readInput buffer pos = .ok (some (-1, [], pos)) := by
  unfold readInput
  rw [if_neg (by omega), if_pos hc]

/-- The count `readInput` returns is -1 or the number of words stored. -/
theorem readInput_count (buffer : cstr) (pos pos1 : Nat) (n : Int) (ws : List cstr)
    (h : readInput buffer pos = .ok (some (n, ws, pos1))) : n = -1 ∨ n = (ws.length : Int) := by
  unfold readInput at h
  split at h
  · cases h
  · split at h
    · cases h
      exact Or.inl rfl
    · simp only [] at h
      split at h
      · cases h
      · cases h
      · cases h
        exact Or.inr rfl

/-! ## The order of the waiting queue: lemmas -/

theorem order_inv.at_idle (st : scheduler_state) (m : sched_mode_t) (hq : st.queue = [])
    (hc : st.cur = none) : order_inv { st with mode := m } :=
  ⟨by show prio_sorted st.queue; rw [hq]; exact List.Pairwise.nil,
    fun _ n hn => (by
      have : n ∈ st.queue := hn
      rw [hq] at this
      cases this),
    fun _ n hn => (by
      have : n ∈ st.queue := hn
      rw [hq] at this
      cases this),
    fun _ hn => absurd hc hn⟩

theorem order_inv.switch (w : world) (m : sched_mode_t) (hc : count_inv w.state)
    (ho : order_inv w.state) : order_inv (set_scheduler_mode w m).2.state := by
  unfold set_scheduler_mode
  split
  · exact ho
  · split
    · exact ho
    · rename_i hn
      have hn0 : w.state.np = 0 := by simpa using hn
      obtain ⟨h1, h2, -⟩ := hc.idle _ hn0
      exact order_inv.at_idle w.state m h2 h1

theorem order_inv.append_fifo (st : scheduler_state) (d : pcb) (tl : Option Nat) (f : Nat)
    (cur : Option pcb) (np : Int)
    (hm : st.mode = .FCFS ∨ st.mode = .RR) (ho : order_inv st) :
    order_inv { st with
      queue := st.queue ++ [{ p := d, priority := -1, id := st.fresh }]
      tail := tl, fresh := f, cur := cur, np := np } := by
  refine ⟨?_, fun _ n hn => ?_, fun hn => absurd hm hn, fun hn => absurd hm hn⟩
  · unfold prio_sorted
    rw [List.pairwise_append]
    refine ⟨ho.sorted, List.pairwise_singleton _ _, fun a ha b hb => ?_⟩
    simp only [List.mem_singleton] at hb
    rw [hb, ho.fifo hm a ha]
  · have hn' : n ∈ st.queue ++ [{ p := d, priority := -1, id := st.fresh }] := hn
    rw [List.mem_append] at hn'
    rcases hn' with h | h
    · exact ho.fifo hm n h
    · simp only [List.mem_singleton] at h
      rw [h]

theorem order_inv.insert_prio (st : scheduler_state) (d : pcb) (pr : Int) (tl : Option Nat)
    (f : Nat) (cur : Option pcb) (np : Int)
    (hm : ¬ (st.mode = .FCFS ∨ st.mode = .RR)) (hpr : 0 ≤ pr) (ho : order_inv st)
    (hcur : cur ≠ none → st.cur ≠ none) :
    order_inv { st with
      queue := ordered_insert { p := d, priority := pr, id := st.fresh } st.queue
      tail := tl, fresh := f, cur := cur, np := np } := by
  refine ⟨ordered_insert_sorted _ _ ho.sorted, fun hf => absurd hf hm, fun _ n hn => ?_,
    fun _ hn => ho.cur_nonneg hm (hcur hn)⟩
  rcases ordered_insert_mem _ n _ hn with h | h
  · rw [h]
    exact hpr
  · exact ho.nonneg hm n h

theorem order_inv.keep (st : scheduler_state) (cur : Option pcb) (np : Int)
    (ho : order_inv st) (hcur : cur ≠ none → st.cur ≠ none) :
    order_inv { st with cur := cur, np := np } :=
  ⟨ho.sorted, ho.fifo, ho.nonneg, fun hm hn => ho.cur_nonneg hm (hcur hn)⟩

theorem add_process_order (w w' : world) (p : pcb) (hc : count_inv w.state)
    (ho : order_inv w.state) (ha : add_process w p = .ok w') : order_inv w'.state := by
  by_cases hm : w.state.mode = .FCFS ∨ w.state.mode = .RR
  · obtain ⟨w1, a1, a2, -⟩ := add_back_fifo w p (hc.fifo hm)
    have e : w' = { w1 with state := { w1.state with np := w1.state.np + 1 } } := by
      unfold add_process at ha
      rcases hm with hm | hm <;> simp only [hm, a1] at ha <;> cases ha <;> rfl
    subst e
    subst a2
    exact order_inv.append_fifo w.state p _ _ _ _ hm ho
  · cases hmode : w.state.mode with
    | FCFS => exact absurd (Or.inl hmode) hm
    | RR => exact absurd (Or.inr hmode) hm
    | NONE =>
      unfold add_process at ha
      simp only [hmode] at ha
      cases ha
      exact ho
    | SJF =>
      obtain ⟨tl, a1, -⟩ := add_with_priority_eq w p p.bound
      unfold add_process at ha
      simp only [hmode] at ha
      cases ha
      rw [a1]
      exact order_inv.insert_prio w.state p _ _ _ _ _ hm (by omega) ho (fun h => h)
    | AGING =>
      obtain ⟨tl, a1, -⟩ := add_with_priority_eq w p p.bound
      unfold add_process at ha
      simp only [hmode] at ha
      cases ha
      rw [a1]
      exact order_inv.insert_prio w.state p _ _ _ _ _ hm (by omega) ho (fun h => h)

theorem run_order (c : Config) (w w' : world) (script : cstr) (code : Int)
    (hc : count_inv w.state) (ho : order_inv w.state)
    (hr : run c w script = .ok (code, w')) : order_inv w'.state := by
  unfold run at hr
  split at hr
  · cases hr
    exact ho
  · split at hr
    · cases hr
    · rename_i w1 hl
      cases hr
      have hst := load_script_state c w w1 script _ hl
      show order_inv w1.state
      rw [hst]
      exact ho
    · rename_i p w1 hl
      split at hr
      · cases hr
      · rename_i w2 ha
        cases hr
        have hst := load_script_state c w w1 script _ hl
        have hc1 : count_inv w1.state := by rw [hst]; exact hc
        have ho1 : order_inv w1.state := by rw [hst]; exact ho
        exact add_process_order _ _ p (count_inv.switch_mode w1 .FCFS hc1).1
          (order_inv.switch w1 .FCFS hc1 ho1) ha

theorem exec_loop_order (c : Config) : ∀ (progs : List cstr) (w w' : world) (code : Int),
    count_inv w.state → order_inv w.state → exec_loop c progs w = .ok (code, w') →
    order_inv w'.state
  | [], w, w', code, hc, ho, he => by
    rw [exec_loop] at he
    cases he
    exact ho
  | a :: rest, w, w', code, hc, ho, he => by
    rw [exec_loop] at he
    split at he
    · cases he
    · rename_i w1 hl
      cases he
      have hst := load_script_state c w w1 a _ hl
      show order_inv w1.state
      rw [hst]
      exact ho
    · rename_i p w1 hl
      split at he
      · cases he
      · rename_i w2 ha
        have hst := load_script_state c w w1 a _ hl
        have hc1 : count_inv w1.state := by rw [hst]; exact hc
        have ho1 : order_inv w1.state := by rw [hst]; exact ho
        exact exec_loop_order c rest w2 w' code (add_process_count w1 w2 p hc1 ha).1
          (add_process_order w1 w2 p hc1 ho1 ha) he

theorem cmd_step_order (c : Config) (w w' : world) (hc : count_inv w.state)
    (ho : order_inv w.state) (hs : cmd_step c w w') : order_inv w'.state := by
  cases hs with
  | other hp =>
    obtain ⟨p1, -⟩ := hp
    rw [p1]
    exact ho
  | run script code hr => exact run_order c w w' script code hc ho hr
  | exec progs policy code he =>
    unfold exec at he
    split at he
    · cases he
      exact ho
    · split at he
      · cases he
        exact ho
      · rename_i mode hm
        exact exec_loop_order c progs _ w' code (count_inv.switch_mode w mode hc).1
          (order_inv.switch w mode hc ho) he

theorem cmd_steps_order (c : Config) (w w' : world) (hc : count_inv w.state)
    (ho : order_inv w.state) (hs : Relation.ReflTransGen (cmd_step c) w w') :
    order_inv w'.state := by
  induction hs with
  | refl => exact ho
  | tail hab hbc ih =>
    rename_i b d
    exact cmd_step_order c b d (cmd_steps_count c w b hc hab).1 ih hbc

theorem prio_sorted_tail (x : ll) (rest : List ll) (h : prio_sorted (x :: rest)) :
    prio_sorted rest ∧ ∀ n, n ∈ rest → x.priority ≤ n.priority := by
  unfold prio_sorted at h
  rw [List.pairwise_cons] at h
  exact ⟨h.2, h.1⟩

theorem pop_front_order (w : world) (ho : order_inv w.state) :
    order_inv (pop_front w).state := by
  cases hq : w.state.queue with
  | nil =>
    have e : pop_front w = print w "Error: Expected a process on queue but found none!\n" := by
      unfold pop_front
      rw [hq]
    rw [e]
    exact ho
  | cons x rest =>
    have e : pop_front w = { w with state := { w.state with
        queue := rest
        cur := some x.p
        cur_priority := x.priority
        tail := if w.state.tail = some x.id then none else w.state.tail } } := by
      unfold pop_front
      rw [hq]
    rw [e]
    have hs := ho.sorted
    rw [hq] at hs
    refine ⟨(prio_sorted_tail x rest hs).1, fun hm n hn => ?_, fun hm n hn => ?_, fun hm _ => ?_⟩
    · exact ho.fifo hm n (by rw [hq]; exact List.mem_cons_of_mem _ hn)
    · exact ho.nonneg hm n (by rw [hq]; exact List.mem_cons_of_mem _ hn)
    · exact ho.nonneg hm x (by rw [hq]; exact List.mem_cons_self _ _)

theorem exec_inert_order (c : Config) (w w' : world) (hc : count_inv w.state)
    (ho : order_inv w.state) (he : exec_process c rbl_inert w = .ok w') :
    order_inv w'.state := by
  cases hcur : w.state.cur with
  | none =>
    unfold exec_process at he
    simp only [hcur] at he
    cases he
  | some p =>
    obtain ⟨hnp, hmn⟩ := hc.cur_pos _ p hcur
    rcases exec_step_cases c w w' p hcur hmn hc.fifo he with
      ⟨p1, w1, tl, -, e, -⟩ | ⟨instr, w1, -, -, e⟩ | ⟨instr, w1, B, S, m, -, -, e, -⟩
    · subst e
      by_cases hm : w.state.mode = .FCFS ∨ w.state.mode = .RR
      · show order_inv { w.state with
          queue := if w.state.mode = .FCFS ∨ w.state.mode = .RR then
              w.state.queue ++ [{ p := p1, priority := -1, id := w.state.fresh }]
            else ordered_insert { p := p1, priority := w.state.cur_priority,
                                  id := w.state.fresh } w.state.queue
          tail := tl
          fresh := w.state.fresh + 1
          cur := none }
        rw [if_pos hm]
        exact order_inv.append_fifo w.state p1 _ _ _ _ hm ho
      · show order_inv { w.state with
          queue := if w.state.mode = .FCFS ∨ w.state.mode = .RR then
              w.state.queue ++ [{ p := p1, priority := -1, id := w.state.fresh }]
            else ordered_insert { p := p1, priority := w.state.cur_priority,
                                  id := w.state.fresh } w.state.queue
          tail := tl
          fresh := w.state.fresh + 1
          cur := none }
        rw [if_neg hm]
        exact order_inv.insert_prio w.state p1 _ _ _ _ _ hm
          (ho.cur_nonneg hm (by rw [hcur]; simp)) ho (fun h => absurd rfl h)
    · subst e
      exact order_inv.keep w.state _ _ ho (fun _ => by rw [hcur]; simp)
    · subst e
      exact order_inv.keep w.state _ _ ho (fun h => absurd rfl h)

theorem exec_process_order (c : Config) (rbl : cstr → world → Except halt world)
    (w w' : world) (hrbl : rbl_ok c rbl) (hc : count_inv w.state) (ho : order_inv w.state)
    (he : exec_process c rbl w = .ok w') : order_inv w'.state := by
  rcases exec_process_split c rbl w w' he with ⟨cur, cur1, w1, -, -, h1⟩ |
    ⟨cur, instr, w1, wm, -, -, h1, h2⟩
  · exact exec_inert_order c w w' hc ho h1
  · exact cmd_steps_order c wm w' (exec_inert_count c w wm hc h1).1
      (exec_inert_order c w wm hc ho h1) (hrbl instr wm w' h2)

theorem run_RR_loop_order (c : Config) (rbl : cstr → world → Except halt world)
    (hrbl : rbl_ok c rbl) :
    ∀ (n : Nat) (w w' : world), count_inv w.state → order_inv w.state →
      run_RR_loop c rbl n w = .ok w' → order_inv w'.state
  | 0, w, w', hc, ho, he => by
    rw [run_RR_loop] at he
    cases he
    exact ho
  | n + 1, w, w', hc, ho, he => by
    rw [run_RR_loop] at he
    split at he
    · cases he
      exact ho
    · split at he
      · cases he
      · rename_i w1 h1
        exact run_RR_loop_order c rbl hrbl n w1 w' (exec_process_count c rbl w w1 hrbl hc h1).1
          (exec_process_order c rbl w w1 hrbl hc ho h1) he

theorem run_RR_order (c : Config) (rbl : cstr → world → Except halt world) (w w' : world)
    (hrbl : rbl_ok c rbl) (hc : count_inv w.state) (ho : order_inv w.state)
    (hm : w.state.mode = .RR) (he : run_RR c rbl w = .ok w') : order_inv w'.state := by
  unfold run_RR at he
  split at he
  · cases he
  · rename_i w1 hl
    obtain ⟨a, b⟩ := run_RR_loop_count c rbl hrbl _ w w1 hc hl
    have ho1 := run_RR_loop_order c rbl hrbl _ w w1 hc ho hl
    split at he
    · rename_i hne
      split at he
      · cases he
      · rename_i w2 hab
        cases he
        cases hcur : w1.state.cur with
        | none => exact absurd hcur hne
        | some p =>
          rw [hcur] at hab
          have hm1 : w1.state.mode = .RR := by rw [b hne, hm]
          obtain ⟨w3, e1, e2, -⟩ := add_back_fifo w1 p (a.fifo (Or.inr hm1))
          rw [e1] at hab
          injection hab with hab
          subst hab
          subst e2
          exact order_inv.append_fifo w1.state p _ _ _ _ (Or.inr hm1) ho1
    · cases he
      exact ho1

theorem decr_priorities_order (w : world) (ho : order_inv w.state) :
    order_inv (decr_priorities w).state := by
  have hp : ∀ n : ll, (if n.priority > 0 then { n with priority := n.priority - 1 }
      else n).priority = if n.priority > 0 then n.priority - 1 else n.priority := by
    intro n
    split <;> rfl
  have hmem : ∀ n, n ∈ (decr_priorities w).state.queue → ∃ n0, n0 ∈ w.state.queue ∧
      n.priority = if n0.priority > 0 then n0.priority - 1 else n0.priority := by
    intro n hn
    unfold decr_priorities at hn
    obtain ⟨n0, h0, e⟩ := List.mem_map.mp hn
    exact ⟨n0, h0, by rw [← e, hp]⟩
  refine ⟨?_, fun hm n hn => ?_, fun hm n hn => ?_, fun hm hn => ho.cur_nonneg hm hn⟩
  · unfold decr_priorities prio_sorted
    simp only []
    rw [List.pairwise_map]
    refine ho.sorted.imp ?_
    intro a b hab
    rw [hp a, hp b]
    exact decr_mono _ _ hab
  · obtain ⟨n0, h0, e⟩ := hmem n hn
    have := ho.fifo hm n0 h0
    rw [e, this]
    decide
  · obtain ⟨n0, h0, e⟩ := hmem n hn
    have := ho.nonneg hm n0 h0
    rw [e]
    split <;> omega

theorem run_AGING_order (c : Config) (rbl : cstr → world → Except halt world) (w w' : world)
    (hrbl : rbl_ok c rbl) (hc : count_inv w.state) (ho : order_inv w.state)
    (hm : w.state.mode = .AGING) (he : run_AGING c rbl w = .ok w') : order_inv w'.state := by
  unfold run_AGING at he
  split at he
  · cases he
  · rename_i w1 h1
    obtain ⟨a, b⟩ := exec_process_count c rbl w w1 hrbl hc h1
    have ho1 := exec_process_order c rbl w w1 hrbl hc ho h1
    have h2 := decr_priorities_order w1 ho1
    simp only [] at he
    split at he
    · rename_i cur hd tl hcc hq
      split at he
      · cases he
        have hc1 : w1.state.cur = some cur := hcc
        have hm1 : (decr_priorities w1).state.mode = .AGING := by
          show w1.state.mode = _
          rw [b (by rw [hc1]; simp), hm]
        have hnf : ¬ ((decr_priorities w1).state.mode = .FCFS ∨
            (decr_priorities w1).state.mode = .RR) := by rw [hm1]; simp
        obtain ⟨t, e, -⟩ := add_with_priority_eq (decr_priorities w1) cur
          (decr_priorities w1).state.cur_priority
        rw [e]
        exact order_inv.insert_prio (decr_priorities w1).state cur _ _ _ _ _ hnf
          (h2.cur_nonneg hnf (by rw [hcc]; simp)) h2 (fun h => absurd rfl h)
      · cases he
        exact h2
    · cases he
      exact h2

theorem run_scheduler_body_order (c : Config) (rbl : cstr → world → Except halt world)
    (w w' : world) (r : Option Int) (hrbl : rbl_ok c rbl) (hc : count_inv w.state)
    (ho : order_inv w.state) (he : run_scheduler_body c rbl w = .ok (r, w')) :
    order_inv w'.state := by
  unfold run_scheduler_body at he
  have h1 : count_inv (if w.state.cur = none then pop_front w else w).state := by
    split
    · rename_i hcur
      exact (pop_front_count w hc hcur).1
    · exact hc
  have o1 : order_inv (if w.state.cur = none then pop_front w else w).state := by
    split
    · exact pop_front_order w ho
    · exact ho
  obtain ⟨w1, hw1⟩ : ∃ w1, w1 = (if w.state.cur = none then pop_front w else w) := ⟨_, rfl⟩
  rw [← hw1] at he h1 o1
  simp only [] at he
  split at he
  · split at he
    · cases he
    · rename_i w2 h2
      cases he
      exact exec_process_order c rbl w1 _ hrbl h1 o1 h2
  · split at he
    · cases he
    · rename_i w2 h2
      cases he
      exact exec_process_order c rbl w1 _ hrbl h1 o1 h2
  · rename_i hm
    split at he
    · cases he
    · rename_i w2 h2
      cases he
      exact run_RR_order c rbl w1 _ hrbl h1 o1 hm h2
  · rename_i hm
    split at he
    · cases he
    · rename_i w2 h2
      cases he
      exact run_AGING_order c rbl w1 _ hrbl h1 o1 hm h2
  · cases he
    exact o1

theorem sched_reach_order (c : Config) (w : world) (h : sched_reach c w) :
    order_inv w.state := by
  induction h with
  | init w =>
    exact ⟨List.Pairwise.nil, fun _ n hn => (by cases hn), fun _ n hn => (by cases hn),
      fun _ hn => absurd rfl hn⟩
  | add w w' p hw ha ih => exact add_process_order w w' p (sched_reach_count c w hw) ih ha
  | mode w m hw ih => exact order_inv.switch w m (sched_reach_count c w hw) ih
  | cmd w w' hw hs ih => exact cmd_step_order c w w' (sched_reach_count c w hw) ih hs
  | pop w _ _ ih => exact pop_front_order w ih
  | step w w' rbl hw hr he ih =>
    exact exec_process_order c rbl w w' hr (sched_reach_count c w hw) ih he
  | tick w w' rbl r hw hr he ih =>
    exact run_scheduler_body_order c rbl w w' r hr (sched_reach_count c w hw) ih he

theorem head_decides (q : List ll) (x : Int) (hs : prio_sorted q) :
    (∃ n, n ∈ q ∧ n.priority < x) ↔ ∃ h rest, q = h :: rest ∧ h.priority < x := by
  constructor
  · rintro ⟨n, hn, hlt⟩
    cases q with
    | nil => cases hn
    | cons h rest =>
      refine ⟨h, rest, rfl, ?_⟩
      rcases List.mem_cons.mp hn with e | hm
      · rw [← e]; exact hlt
      · have := (prio_sorted_tail h rest hs).2 n hm
        omega
  · rintro ⟨h, rest, e, hlt⟩
    exact ⟨h, by rw [e]; exact List.mem_cons_self _ _, hlt⟩

theorem demo_aging_sched_reach : sched_reach demo_config demo_aging :=
  sys_reach_sched_reach _ _ _ demo_aging_reach

/-! ## No call of `exit`: the functions of the paging system -/

theorem bind_no_exit {α β : Type} (x : Except halt α) (f : α → Except halt β) (k : Int)
    (hx : x ≠ .error (.exit k)) (hf : ∀ a, f a ≠ .error (.exit k)) :
    (x >>= f) ≠ .error (.exit k) := by
  cases x with
  | error e =>
    have e1 : (Except.error e >>= f) = Except.error e := rfl
    rw [e1]
    intro h
    injection h with h
    exact hx (by rw [h])
  | ok a => exact hf a

theorem deref_no_exit (m : memory_state) (p : ptr) (k : Int) :
    deref m p ≠ .error (.exit k) := by
  intro h
  unfold deref at h
  repeat' split at h
  all_goals cases h

theorem set_next_no_exit (m : memory_state) (p v : ptr) (k : Int) :
    set_next m p v ≠ .error (.exit k) := by
  intro h
  unfold set_next at h
  repeat' split at h
  all_goals cases h

theorem set_prev_no_exit (m : memory_state) (p v : ptr) (k : Int) :
    set_prev m p v ≠ .error (.exit k) := by
  intro h
  unfold set_prev at h
  repeat' split at h
  all_goals cases h

theorem move_to_back_no_exit (m : memory_state) (n : Nat) (k : Int) :
    move_to_back m n ≠ .error (.exit k) := by
  unfold move_to_back
  split
  · exact fun h => by cases h
  · split
    · exact fun h => by cases h
    · refine bind_no_exit _ _ k (deref_no_exit _ _ k) (fun fr => ?_)
      simp only []
      split <;> refine bind_no_exit _ _ k ?_ (fun m1 => ?_)
      all_goals first
        | exact set_next_no_exit _ _ _ k
        | exact fun h => by cases h
        | skip
      all_goals
        refine bind_no_exit _ _ k (deref_no_exit _ _ k) (fun fr1 => ?_)
        refine bind_no_exit _ _ k (set_prev_no_exit _ _ _ k) (fun m2 => ?_)
        refine bind_no_exit _ _ k (set_next_no_exit _ _ _ k) (fun m3 => ?_)
        refine bind_no_exit _ _ k (set_prev_no_exit _ _ _ k) (fun m4 => ?_)
        refine bind_no_exit _ _ k (set_next_no_exit _ _ _ k) (fun m5 => ?_)
        exact fun h => by cases h

theorem get_next_frame_no_exit (m : memory_state) (k : Int) :
    get_next_frame m ≠ .error (.exit k) := by
  unfold get_next_frame
  refine bind_no_exit _ _ k (deref_no_exit _ _ k) (fun fr => ?_)
  refine bind_no_exit _ _ k (move_to_back_no_exit _ _ k) (fun m1 => ?_)
  exact fun h => by cases h

theorem set_value_no_exit (m : memory_state) (i : Nat) (v : Option cstr) (k : Int) :
    set_value m i v ≠ .error (.exit k) := by
  intro h
  unfold set_value at h
  split at h <;> cases h

theorem set_var_no_exit (m : memory_state) (i : Nat) (v : Option cstr) (k : Int) :
    set_var m i v ≠ .error (.exit k) := by
  intro h
  unfold set_var at h
  split at h <;> cases h

theorem check_eviction_loop_no_exit (start : Nat) (k : Int) :
    ∀ (n i : Nat) (m : memory_state) (out : cstr),
      check_eviction_loop start n i m out ≠ .error (.exit k)
  | 0, i, m, out => by
    rw [check_eviction_loop]
    exact fun h => by cases h
  | n + 1, i, m, out => by
    rw [check_eviction_loop]
    split
    · exact fun h => by cases h
    · split
      · exact check_eviction_loop_no_exit start k n _ _ _
      · exact check_eviction_loop_no_exit start k n _ _ _

theorem check_eviction_no_exit (c : Config) (w : world) (framenum : Nat) (k : Int) :
    check_eviction c w framenum ≠ .error (.exit k) := by
  intro h
  unfold check_eviction at h
  simp only [] at h
  split at h
  · cases h
  · split at h
    · cases h
    · split at h
      · rename_i e he
        injection h with h
        subst h
        exact check_eviction_loop_no_exit _ k _ _ _ _ he
      · split at h
        · rename_i e he
          injection h with h
          subst h
          exact set_var_no_exit _ _ _ k he
        · cases h

theorem load_lines_loop_no_exit (refs : List Nat) (k : Int) :
    ∀ (n i : Nat) (buffer : Option cstr) (stream : List Char) (m : memory_state),
      load_lines_loop refs n i buffer stream m ≠ .error (.exit k)
  | 0, i, buffer, stream, m => by
    rw [load_lines_loop]
    exact fun h => by cases h
  | n + 1, i, buffer, stream, m => by
    rw [load_lines_loop]
    split
    · split
      · exact load_lines_loop_no_exit refs k n _ _ _ _
      · rename_i e he
        intro h
        injection h with h
        subst h
        exact set_value_no_exit _ _ _ k he
    · exact fun h => by cases h

theorem clear_lines_loop_no_exit (refs : List Nat) (k : Int) :
    ∀ (n i : Nat) (m : memory_state), clear_lines_loop refs n i m ≠ .error (.exit k)
  | 0, i, m => by
    rw [clear_lines_loop]
    exact fun h => by cases h
  | n + 1, i, m => by
    rw [clear_lines_loop]
    split
    · split
      · exact clear_lines_loop_no_exit refs k n _ _
      · rename_i e he
        intro h
        injection h with h
        subst h
        exact set_value_no_exit _ _ _ k he
    · exact fun h => by cases h

theorem load_into_mem_no_exit (c : Config) (w : world) (p : pcb) (start : Nat)
    (refs : List Nat) (k : Int) : load_into_mem c w p start refs ≠ .error (.exit k) := by
  intro h
  unfold load_into_mem at h
  simp only [] at h
  repeat' split at h
  all_goals first
    | (cases h; done)
    | (rename_i e he
       injection h with h
       subst h
       first
         | exact load_lines_loop_no_exit _ k _ _ _ _ _ he
         | exact clear_lines_loop_no_exit _ k _ _ _ he)

theorem load_from_backing_store_no_exit (c : Config) (w : world) (p : pcb) (start : Nat)
    (k : Int) : load_from_backing_store c w p start ≠ .error (.exit k) := by
  intro h
  unfold load_from_backing_store at h
  split at h
  · rename_i e he
    injection h with h
    subst h
    exact get_next_frame_no_exit _ k he
  · split at h
    · rename_i e he
      injection h with h
      subst h
      exact check_eviction_no_exit _ _ _ k he
    · simp only [] at h
      split at h
      · rename_i e he
        injection h with h
        subst h
        exact set_var_no_exit _ _ _ k he
      · split at h
        · rename_i e he
          injection h with h
          subst h
          exact load_into_mem_no_exit _ _ _ _ _ k he
        · cases h

theorem load_page_no_exit (c : Config) (w : world) (p : pcb) (page : Nat) (k : Int) :
    load_page c w p page ≠ .error (.exit k) := by
  intro h
  unfold load_page at h
  split at h
  · rename_i e he
    injection h with h
    subst h
    exact load_from_backing_store_no_exit _ _ _ _ k he
  · split at h <;> cases h

theorem read_instruction_no_exit (c : Config) (w : world) (p : pcb) (k : Int) :
    read_instruction c w p ≠ .error (.exit k) := by
  intro h
  unfold read_instruction at h
  simp only [] at h
  split at h
  · cases h
  · split at h
    · rename_i e he
      injection h with h
      subst h
      exact load_page_no_exit _ _ _ _ k he
    · cases h
  · split at h
    · cases h
    · split at h
      · split at h
        · rename_i e he
          injection h with h
          subst h
          exact load_page_no_exit _ _ _ _ k he
        · cases h
      · split at h
        · rename_i e he
          injection h with h
          subst h
          exact move_to_back_no_exit _ _ k he
        · split at h <;> cases h

theorem mem_reset_frames_loop_no_exit (k : Int) :
    ∀ (n i : Nat) (m : memory_state), mem_reset_frames_loop n i m ≠ .error (.exit k)
  | 0, i, m => by
    rw [mem_reset_frames_loop]
    exact fun h => by cases h
  | n + 1, i, m => by
    rw [mem_reset_frames_loop]
    split
    · exact mem_reset_frames_loop_no_exit k n _ _
    · exact fun h => by cases h

theorem mem_reset_frames_no_exit (c : Config) (m : memory_state) (k : Int) :
    mem_reset_frames c m ≠ .error (.exit k) := by
  intro h
  unfold mem_reset_frames at h
  split at h
  · cases h
  · split at h
    · rename_i e he
      injection h with h
      subst h
      exact mem_reset_frames_loop_no_exit k _ _ _ he
    · cases h

theorem load_script_no_exit (c : Config) (w : world) (file : cstr) (k : Int) :
    load_script c w file ≠ .error (.exit k) := by
  intro h
  unfold load_script at h
  simp only [] at h
  split at h
  · cases h
  · split at h
    · rename_i e he
      injection h with h
      subst h
      exact load_page_no_exit _ _ _ _ k he
    · split at h
      · split at h
        · rename_i e he
          injection h with h
          subst h
          exact load_page_no_exit _ _ _ _ k he
        · cases h
      · cases h

/-! ## No exit with code 3: the scheduler -/

theorem fifo_wf_iff (st : scheduler_state) (h : fifo_wf st) :
    st.queue = [] ↔ st.tail = none := by
  rw [h.tail_eq]
  cases hq : st.queue with
  | nil => simp
  | cons x rest =>
    simp only [reduceCtorEq, false_iff]
    rw [List.getLast?_eq_getLast _ (by simp)]
    simp

theorem add_process_ok (w : world) (p : pcb) (hc : count_inv w.state) :
    ∃ w', add_process w p = .ok w' := by
  unfold add_process
  split
  · rename_i hm
    obtain ⟨w1, h1, -⟩ := add_back_fifo w p (hc.fifo (Or.inl hm))
    rw [h1]
    exact ⟨_, rfl⟩
  · rename_i hm
    obtain ⟨w1, h1, -⟩ := add_back_fifo w p (hc.fifo (Or.inr hm))
    rw [h1]
    exact ⟨_, rfl⟩
  · exact ⟨_, rfl⟩
  · exact ⟨_, rfl⟩
  · exact ⟨_, rfl⟩

theorem exec_inert_no_exit (c : Config) (w : world) (k : Int) (hc : count_inv w.state) :
    exec_process c rbl_inert w ≠ .error (.exit k) := by
  intro h
  cases hcur : w.state.cur with
  | none =>
    unfold exec_process at h
    simp only [hcur] at h
    cases h
  | some cur =>
    cases hread : read_instruction c w cur with
    | error e =>
      unfold exec_process at h
      simp only [hcur, hread] at h
      injection h with h
      subst h
      exact read_instruction_no_exit _ _ _ k hread
    | ok r =>
      obtain ⟨o, cur1, w1⟩ := r
      cases o with
      | none =>
        by_cases hm : w.state.mode = .FCFS ∨ w.state.mode = .RR
        · rw [(exec_process_fault_back c rbl_inert w w1 cur cur1 hcur hm hread
            (hc.fifo hm)).1] at h
          cases h
        · by_cases hm2 : w.state.mode = .SJF ∨ w.state.mode = .AGING
          · rw [exec_process_fault_tail c rbl_inert w w1 cur cur1 hcur hm2 hread
              (hc.prio hm)] at h
            cases h
          · have hn : w.state.mode = .NONE := by
              cases hmode : w.state.mode
              · exact absurd (Or.inl hmode) hm
              · exact absurd (Or.inl hmode) hm2
              · exact absurd (Or.inr hmode) hm
              · exact absurd (Or.inr hmode) hm2
              · rfl
            have h0 := hc.none_idle hn
            have h1 := hc.count
            rw [h0, hcur] at h1
            simp only [Option.toList, List.length_cons, List.length_nil] at h1
            omega
      | some instr =>
        have hc1 : cur1 = cur := ((read_instruction_core c w w1 cur cur1 _ hread).2.2.2.2.2
          (by simp)).1
        subst hc1
        obtain ⟨⟨hst, -⟩, -⟩ := read_instruction_core c _ _ _ _ _ hread
        by_cases hdone : cur1.bound ≤ cur1.pc + 1
        · unfold exec_process at h
          simp only [hcur, hread, hst, free_process] at h
          rw [if_pos (by simp only [ge_iff_le]; exact hdone)] at h
          repeat' split at h
          all_goals first
            | (cases h; done)
            | (rename_i e he
               injection h with h
               subst h
               repeat' split at he
               all_goals first
                 | (cases he; done)
                 | (rename_i e2 he2
                    injection he with he
                    subst he
                    exact mem_reset_frames_no_exit _ _ k he2))
        · rw [exec_process_cont c w w1 cur1 instr hcur hread hst (by omega)] at h
          cases h

theorem exec_process_no_exit (c : Config) (rbl : cstr → world → Except halt world)
    (w : world) (hr : sched_reach c w)
    (hx : ∀ line w0, sched_reach c w0 → rbl line w0 ≠ .error (.exit 3)) :
    exec_process c rbl w ≠ .error (.exit 3) := by
  have hc := sched_reach_count c w hr
  intro h
  cases hcur : w.state.cur with
  | none =>
    unfold exec_process at h
    simp only [hcur] at h
    cases h
  | some cur =>
    cases hread : read_instruction c w cur with
    | error e =>
      unfold exec_process at h
      simp only [hcur, hread] at h
      injection h with h
      subst h
      exact read_instruction_no_exit _ _ _ 3 hread
    | ok r =>
      obtain ⟨o, cur1, w1⟩ := r
      have hg : ∀ (r : cstr → world → Except halt world) (instr : cstr), o = some instr →
          exec_process c r w =
            match exec_process c rbl_inert w with
            | .error e => .error e
            | .ok wm => r instr wm := by
        intro r instr ho
        subst ho
        unfold exec_process
        simp only [hcur, hread]
        split <;> rfl
      cases o with
      | none =>
        have e1 : exec_process c rbl w = exec_process c rbl_inert w := by
          unfold exec_process
          simp only [hcur, hread]
        rw [e1] at h
        exact exec_inert_no_exit c w 3 hc h
      | some instr =>
        rw [hg rbl instr rfl] at h
        split at h
        · rename_i e he
          injection h with h
          subst h
          exact exec_inert_no_exit c w 3 hc he
        · rename_i wm hm
          exact hx instr wm (sched_reach.step w wm rbl_inert hr (rbl_inert_ok c) hm) h

theorem run_RR_loop_no_exit (c : Config) (rbl : cstr → world → Except halt world)
    (hrbl : rbl_ok c rbl)
    (hx : ∀ line w0, sched_reach c w0 → rbl line w0 ≠ .error (.exit 3)) :
    ∀ (n : Nat) (w : world), sched_reach c w → run_RR_loop c rbl n w ≠ .error (.exit 3)
  | 0, w, _ => by
    rw [run_RR_loop]
    exact fun h => by cases h
  | n + 1, w, hr => by
    rw [run_RR_loop]
    split
    · exact fun h => by cases h
    · split
      · rename_i e he
        intro h
        injection h with h
        subst h
        exact exec_process_no_exit c rbl w hr hx he
      · rename_i w1 he
        exact run_RR_loop_no_exit c rbl hrbl hx n w1 (sched_reach.step w w1 rbl hr hrbl he)

theorem run_RR_loop_reach (c : Config) (rbl : cstr → world → Except halt world)
    (hrbl : rbl_ok c rbl) :
    ∀ (n : Nat) (w w' : world), sched_reach c w → run_RR_loop c rbl n w = .ok w' →
      sched_reach c w'
  | 0, w, w', hr, he => by
    rw [run_RR_loop] at he
    cases he
    exact hr
  | n + 1, w, w', hr, he => by
    rw [run_RR_loop] at he
    split at he
    · cases he
      exact hr
    · split at he
      · cases he
      · rename_i w1 h1
        exact run_RR_loop_reach c rbl hrbl n w1 w' (sched_reach.step w w1 rbl hr hrbl h1) he

theorem run_RR_back (c : Config) (rbl : cstr → world → Except halt world) (w w1 : world)
    (hrbl : rbl_ok c rbl) (hc : count_inv w.state) (hm : w.state.mode = .RR)
    (hl : run_RR_loop c rbl RR_PREEMPT_FREQ w = .ok w1) (hne : w1.state.cur ≠ none) :
    (w1.state.queue = [] ↔ w1.state.tail = none) ∧ ∃ w2, add_back w1 w1.state.cur = .ok w2 := by
  obtain ⟨a, b⟩ := run_RR_loop_count c rbl hrbl _ w w1 hc hl
  have hf : fifo_wf w1.state := a.fifo (Or.inr (by rw [b hne, hm]))
  refine ⟨fifo_wf_iff _ hf, ?_⟩
  cases hcur : w1.state.cur with
  | none => exact absurd hcur hne
  | some p =>
    obtain ⟨w2, h2, -⟩ := add_back_fifo w1 p hf
    exact ⟨w2, h2⟩

theorem run_RR_no_exit (c : Config) (rbl : cstr → world → Except halt world) (w : world)
    (hrbl : rbl_ok c rbl) (hr : sched_reach c w) (hm : w.state.mode = .RR)
    (hx : ∀ line w0, sched_reach c w0 → rbl line w0 ≠ .error (.exit 3)) :
    run_RR c rbl w ≠ .error (.exit 3) := by
  intro h
  unfold run_RR at h
  split at h
  · rename_i e he
    injection h with h
    subst h
    exact run_RR_loop_no_exit c rbl hrbl hx _ w hr he
  · rename_i w1 hl
    split at h
    · rename_i hne
      obtain ⟨-, w2, h2⟩ := run_RR_back c rbl w w1 hrbl (sched_reach_count c w hr) hm hl hne
      rw [h2] at h
      cases h
    · cases h

theorem run_AGING_no_exit (c : Config) (rbl : cstr → world → Except halt world) (w : world)
    (hr : sched_reach c w)
    (hx : ∀ line w0, sched_reach c w0 → rbl line w0 ≠ .error (.exit 3)) :
    run_AGING c rbl w ≠ .error (.exit 3) := by
  intro h
  unfold run_AGING at h
  split at h
  · rename_i e he
    injection h with h
    subst h
    exact exec_process_no_exit c rbl w hr hx he
  · simp only [] at h
    repeat' split at h
    all_goals cases h

theorem run_scheduler_body_no_exit (c : Config) (rbl : cstr → world → Except halt world)
    (w : world) (hrbl : rbl_ok c rbl) (hr : sched_reach c w)
    (hx : ∀ line w0, sched_reach c w0 → rbl line w0 ≠ .error (.exit 3)) :
    run_scheduler_body c rbl w ≠ .error (.exit 3) := by
  have h1 : sched_reach c (if w.state.cur = none then pop_front w else w) := by
    split
    · rename_i hc
      exact sched_reach.pop w hr hc
    · exact hr
  intro h
  unfold run_scheduler_body at h
  obtain ⟨w1, hw1⟩ : ∃ w1, w1 = (if w.state.cur = none then pop_front w else w) := ⟨_, rfl⟩
  rw [← hw1] at h h1
  simp only [] at h
  split at h
  · split at h
    · rename_i e he
      injection h with h
      subst h
      exact exec_process_no_exit c rbl w1 h1 hx he
    · cases h
  · split at h
    · rename_i e he
      injection h with h
      subst h
      exact exec_process_no_exit c rbl w1 h1 hx he
    · cases h
  · rename_i hm
    split at h
    · rename_i e he
      injection h with h
      subst h
      exact run_RR_no_exit c rbl w1 hrbl h1 hm hx he
    · cases h
  · split at h
    · rename_i e he
      injection h with h
      subst h
      exact run_AGING_no_exit c rbl w1 h1 hx he
    · cases h
  · cases h

theorem run_scheduler_no_exit (c : Config) (rbl : cstr → world → Except halt world)
    (hrbl : rbl_ok c rbl)
    (hx : ∀ line w0, sched_reach c w0 → rbl line w0 ≠ .error (.exit 3)) :
    ∀ (fuel : Nat) (w : world), sched_reach c w →
      run_scheduler c rbl fuel w ≠ .error (.exit 3)
  | 0, w, _ => by
    rw [run_scheduler]
    split <;> exact fun h => by cases h
  | fuel + 1, w, hr => by
    rw [run_scheduler]
    split
    · split
      · rename_i e he
        intro h
        injection h with h
        subst h
        exact run_scheduler_body_no_exit c rbl w hrbl hr hx he
      · exact fun h => by cases h
      · rename_i w1 he
        exact run_scheduler_no_exit c rbl hrbl hx fuel w1 (sched_reach.tick w w1 rbl none hr hrbl he)
    · exact fun h => by cases h

theorem exec_loop_no_exit (c : Config) :
    ∀ (progs : List cstr) (w : world), count_inv w.state →
      exec_loop c progs w ≠ .error (.exit 3)
  | [], w, _ => by
    rw [exec_loop]
    exact fun h => by cases h
  | a :: rest, w, hc => by
    rw [exec_loop]
    split
    · rename_i e he
      intro h
      injection h with h
      subst h
      exact load_script_no_exit c w a 3 he
    · exact fun h => by cases h
    · rename_i p w1 hl
      have hc1 : count_inv w1.state := by
        rw [load_script_state c w w1 a _ hl]
        exact hc
      obtain ⟨w2, h2⟩ := add_process_ok w1 p hc1
      rw [h2]
      exact exec_loop_no_exit c rest w2 (add_process_count w1 w2 p hc1 h2).1

theorem exec_no_exit (c : Config) (w : world) (progs : List cstr) (policy : cstr)
    (hc : count_inv w.state) : exec c w progs policy ≠ .error (.exit 3) := by
  unfold exec
  split
  · exact fun h => by cases h
  · split
    · exact fun h => by cases h
    · exact exec_loop_no_exit c progs _ (count_inv.switch_mode w _ hc).1

theorem run_no_exit (c : Config) (w : world) (script : cstr) (hc : count_inv w.state) :
    run c w script ≠ .error (.exit 3) := by
  unfold run
  split
  · exact fun h => by cases h
  · split
    · rename_i e he
      intro h
      injection h with h
      subst h
      exact load_script_no_exit c w script 3 he
    · exact fun h => by cases h
    · rename_i p w1 hl
      have hc1 : count_inv w1.state := by
        rw [load_script_state c w w1 script _ hl]
        exact hc
      obtain ⟨w2, h2⟩ := add_process_ok (set_scheduler_mode w1 .FCFS).2 p
        (count_inv.switch_mode w1 _ hc1).1
      rw [h2]
      exact fun h => by cases h

theorem rbl_exec_ok (c : Config) : rbl_ok c (rbl_exec c) := by
  intro line w w' h
  unfold rbl_exec at h
  split at h
  · split at h
    · rename_i r hr
      cases h
      exact Relation.ReflTransGen.single (cmd_step.exec w r.2 _ _ r.1 hr)
    · cases h
  · cases h
    exact Relation.ReflTransGen.refl

theorem rbl_exec_no_exit (c : Config) (line : cstr) (w : world) (hr : sched_reach c w) :
    rbl_exec c line w ≠ .error (.exit 3) := by
  intro h
  unfold rbl_exec at h
  split at h
  · split at h
    · cases h
    · rename_i e he
      injection h with h
      subst h
      exact exec_no_exit c w _ _ (sched_reach_count c w hr) he
  · cases h

theorem read_fault_fifo (c : Config) (w w1 : world) (cur cur1 : pcb)
    (hc : count_inv w.state) (hread : read_instruction c w cur = .ok (none, cur1, w1))
    (hm : w1.state.mode = .FCFS ∨ w1.state.mode = .RR) :
    (w1.state.queue = [] ↔ w1.state.tail = none) ∧
      ∃ w3, add_back { w1 with state := { w1.state with cur := some cur1 } } (some cur1)
        = .ok w3 := by
  obtain ⟨⟨s1, -⟩, -⟩ := read_instruction_core c _ _ _ _ _ hread
  have hf : fifo_wf w1.state := by
    rw [s1]
    rw [s1] at hm
    exact hc.fifo hm
  refine ⟨fifo_wf_iff _ hf, ?_⟩
  obtain ⟨w3, h3, -⟩ := add_back_fifo { w1 with state := { w1.state with cur := some cur1 } }
    cur1 ⟨hf.nodup, hf.fresh, hf.tail_eq⟩
  exact ⟨w3, h3⟩

theorem switch_needs_idle (w : world) (m : sched_mode_t) (hc : count_inv w.state)
    (hne : (set_scheduler_mode w m).2.state.mode ≠ w.state.mode) :
    w.state.cur = none ∧ w.state.queue = [] ∧ w.state.tail = none := by
  have hnp : w.state.np = 0 := by
    by_contra h0
    exact hne ((count_inv.switch_mode w m hc).2.2.2.2 h0)
  have h1 := hc.count
  rw [hnp] at h1
  have hq : w.state.queue = [] := by
    cases hq : w.state.queue with
    | nil => rfl
    | cons x rest =>
      rw [hq] at h1
      simp only [List.length_cons] at h1
      omega
  have hcur : w.state.cur = none := by
    cases hcur : w.state.cur with
    | none => rfl
    | some p =>
      rw [hcur] at h1
      simp only [Option.toList, List.length_cons, List.length_nil] at h1
      omega
  refine ⟨hcur, hq, ?_⟩
  by_cases hm : w.state.mode = .FCFS ∨ w.state.mode = .RR
  · exact (fifo_wf_iff _ (hc.fifo hm)).mp hq
  · exact hc.prio hm

theorem waiting_queue_ne (w : world) (hc : count_inv w.state) (hnp : w.state.np > 0)
    (hcur : w.state.cur = none) : w.state.queue ≠ [] := by
  intro hq
  have h1 := hc.count
  rw [hcur, hq] at h1
  simp only [Option.toList, List.length_nil] at h1
  omega

theorem demo_faulting_sched_reach : sched_reach demo_config2 demo_faulting :=
  sched_reach.pop demo_rr2 (sys_reach_sched_reach _ _ _ demo_rr2_reach) (by decide)

/-! ## Calls of `move_to_back` that the shell does not make -/

/-- Outside the calls of the shell: `init_memory` assigns no `prev` field, so a
direct call `move_to_back(1)` right after it, on a frame that is neither at an
end of the list nor was ever handed out, reads a field that was never assigned.
`move_to_back` is internal to `shellmemory.c`; `get_next_frame` calls it on the
head, and `read_instruction` on a frame that carries the key of a loaded page. -/
theorem move_to_back_untouched :
    ∃ m, init_memory (Config.mk 3 3 2) (m_state_zero (Config.mk 3 3 2)) = .ok m ∧
      lru_order m = [0, 1, 2] ∧ move_to_back m 1 = .error .undefined :=
  ⟨_, rfl, by decide, by decide⟩

/-! ## The LRU list under the calls of the shell -/

theorem lru_demo_reach :
    ∃ m0 m1 m2, init_memory (Config.mk 3 3 2) (m_state_zero (Config.mk 3 3 2)) = .ok m0 ∧
      get_next_frame m0 = .ok (0, m1) ∧ get_next_frame m1 = .ok (1, m2) ∧
      lru_order m2 = [2, 0, 1] ∧ lru_reach (Config.mk 3 3 2) m2 [1, 0] :=
  ⟨_, _, _, rfl, rfl, rfl, by decide,
    lru_reach.next _ _ _ _ (lru_reach.next _ _ _ _ (lru_reach.init _ rfl) rfl) rfl⟩

theorem touch_at_tail (c : Config) (m : memory_state) (l : List Nat) (f : Nat)
    (hw : lru_wf c m (l ++ [f])) (hf : f < c.NFRAMES) : move_to_back m f = .ok m := by
  have hq : m.ll_quick[f]? = some (.addr f) := by
    rw [hw.quick, List.getElem?_map, List.getElem?_range hf]
    rfl
  have ht : m.tail = .addr f := by
    have := hw.tail_eq
    simp at this
    exact this.symm
  unfold move_to_back
  rw [hq]
  simp only []
  rw [if_pos ht]

/-! ## An AGING tick whose instruction changes the policy -/

theorem demo_aging_order_exec :
    ∃ w0, init_shell demo_config order_files = .ok w0 ∧
      exec demo_config w0 ["p".toList] "AGING".toList = .ok (0, demo_aging_order) :=
  ⟨_, rfl, by rfl⟩

theorem demo_aging_order_reach : sys_reach demo_config order_files demo_aging_order := by
  obtain ⟨w0, h0, h1⟩ := demo_aging_order_exec
  exact sys_reach.cmd _ _ (sys_reach.init _ (by decide) h0) (cmd_step.exec _ _ _ _ _ h1)

/-! ## A PCB keeps its pid and its bound: lemmas -/

theorem persists_of_keeps (w w' : world) (he : w'.executed = w.executed)
    (hl : ∀ p, p ∈ live w → p ∈ live w') : persists w w' :=
  ⟨[], (by rw [he, List.append_nil]),
    fun p hp => Or.inl ⟨p, hl p hp, pcb_le_refl p, by simp⟩⟩

theorem persists_trans (w w1 w2 : world) (h1 : persists w w1) (h2 : persists w1 w2) :
    persists w w2 := by
  obtain ⟨n1, e1, k1⟩ := h1
  obtain ⟨n2, e2, k2⟩ := h2
  refine ⟨n1 ++ n2, (by rw [e2, e1, List.append_assoc]), fun p hp => ?_⟩
  rw [List.countP_append]
  rcases k1 p hp with ⟨p1, hp1, hle, hpc⟩ | hend
  · have hpid : p1.pid = p.pid := hle.1
    rcases k2 p1 hp1 with ⟨p2, hp2, hle2, hpc2⟩ | hend2
    · left
      refine ⟨p2, hp2, pcb_le_trans _ _ _ hle hle2, ?_⟩
      rw [hpid] at hpc2
      omega
    · right
      rw [hpid, hle.2.1] at hend2
      omega
  · right
    omega

theorem live_mono (w w' : world) (hcur : w'.state.cur = w.state.cur)
    (hq : ∀ q, q ∈ w.state.queue.map ll.p → q ∈ w'.state.queue.map ll.p) :
    ∀ p, p ∈ live w → p ∈ live w' := by
  intro p hp
  unfold live at hp ⊢
  rw [List.mem_append] at hp ⊢
  rcases hp with h | h
  · left
    rw [hcur]
    exact h
  · right
    exact hq p h

theorem add_process_keeps (w w' : world) (p : pcb) (hc : count_inv w.state)
    (ha : add_process w p = .ok w') :
    w'.executed = w.executed ∧ w'.state.cur = w.state.cur ∧
      ∀ q, q ∈ w.state.queue.map ll.p → q ∈ w'.state.queue.map ll.p := by
  have hfifo : w.state.mode = .FCFS ∨ w.state.mode = .RR →
      add_process w p = .ok w' →
      w'.executed = w.executed ∧ w'.state.cur = w.state.cur ∧
        ∀ q, q ∈ w.state.queue.map ll.p → q ∈ w'.state.queue.map ll.p := by
    intro hm ha
    obtain ⟨w1, e1, e2, -⟩ := add_back_fifo w p (hc.fifo hm)
    unfold add_process at ha
    rcases hm with hm | hm
    · rw [hm] at ha
      simp only [] at ha
      rw [e1] at ha
      simp only [] at ha
      injection ha with ha
      subst ha
      subst e2
      refine ⟨rfl, rfl, fun q hq => ?_⟩
      show q ∈ List.map ll.p (w.state.queue ++ _)
      rw [List.map_append]
      exact List.mem_append_left _ hq
    · rw [hm] at ha
      simp only [] at ha
      rw [e1] at ha
      simp only [] at ha
      injection ha with ha
      subst ha
      subst e2
      refine ⟨rfl, rfl, fun q hq => ?_⟩
      show q ∈ List.map ll.p (w.state.queue ++ _)
      rw [List.map_append]
      exact List.mem_append_left _ hq
  have hprio : w.state.mode = .SJF ∨ w.state.mode = .AGING →
      add_process w p = .ok w' →
      w'.executed = w.executed ∧ w'.state.cur = w.state.cur ∧
        ∀ q, q ∈ w.state.queue.map ll.p → q ∈ w'.state.queue.map ll.p := by
    intro hm ha
    obtain ⟨tl, e, -⟩ := add_with_priority_eq w p p.bound
    unfold add_process at ha
    rcases hm with hm | hm
    · rw [hm] at ha
      simp only [] at ha
      injection ha with ha
      rw [e] at ha
      subst ha
      refine ⟨rfl, rfl, fun q hq => ?_⟩
      obtain ⟨n, hn, rfl⟩ := List.mem_map.mp hq
      exact List.mem_map_of_mem _
        ((ordered_insert_perm _ _).mem_iff.mpr (List.mem_cons_of_mem _ hn))
    · rw [hm] at ha
      simp only [] at ha
      injection ha with ha
      rw [e] at ha
      subst ha
      refine ⟨rfl, rfl, fun q hq => ?_⟩
      obtain ⟨n, hn, rfl⟩ := List.mem_map.mp hq
      exact List.mem_map_of_mem _
        ((ordered_insert_perm _ _).mem_iff.mpr (List.mem_cons_of_mem _ hn))
  cases hmode : w.state.mode with
  | FCFS => exact hfifo (Or.inl hmode) ha
  | RR => exact hfifo (Or.inr hmode) ha
  | SJF => exact hprio (Or.inl hmode) ha
  | AGING => exact hprio (Or.inr hmode) ha
  | NONE =>
    unfold add_process at ha
    rw [hmode] at ha
    simp only [] at ha
    injection ha with ha
    subst ha
    exact ⟨rfl, rfl, fun q hq => hq⟩

theorem load_script_executed (c : Config) (w w' : world) (file : cstr) (r : Option pcb)
    (h : load_script c w file = .ok (r, w')) : w'.executed = w.executed := by
  have hcp : (cp_to_store { w with cur_pid := (w.cur_pid + 1) % 2 ^ 64 } file
      w.cur_pid).2.executed = w.executed := by
    rcases cp_to_store_cases { w with cur_pid := (w.cur_pid + 1) % 2 ^ 64 } file w.cur_pid with
      h | ⟨content, -, -, h⟩
    · rw [h]
      rfl
    · rw [h]
  unfold load_script at h
  simp only [] at h
  split at h
  · cases h
    exact hcp
  · split at h
    · cases h
    · rename_i ret1 w1 h1
      obtain ⟨⟨-, -, -, -, a1, -⟩, -⟩ := load_page_core c _ _ _ _ _ h1
      split at h
      · split at h
        · cases h
        · rename_i ret2 w2 h2
          obtain ⟨⟨-, -, -, -, a2, -⟩, -⟩ := load_page_core c _ _ _ _ _ h2
          cases h
          rw [a2, a1]
          exact hcp
      · cases h
        rw [a1]
        exact hcp

theorem set_scheduler_mode_keeps (w : world) (m : sched_mode_t) :
    (set_scheduler_mode w m).2.executed = w.executed ∧
      (set_scheduler_mode w m).2.state.cur = w.state.cur ∧
      (set_scheduler_mode w m).2.state.queue = w.state.queue := by
  unfold set_scheduler_mode
  split
  · exact ⟨rfl, rfl, rfl⟩
  · split <;> exact ⟨rfl, rfl, rfl⟩

theorem exec_loop_keeps (c : Config) : ∀ (progs : List cstr) (w w' : world) (code : Int),
    count_inv w.state → exec_loop c progs w = .ok (code, w') →
    w'.executed = w.executed ∧ w'.state.cur = w.state.cur ∧
      ∀ q, q ∈ w.state.queue.map ll.p → q ∈ w'.state.queue.map ll.p
  | [], w, w', code, _, he => by
    rw [exec_loop] at he
    cases he
    exact ⟨rfl, rfl, fun q hq => hq⟩
  | a :: rest, w, w', code, hc, he => by
    rw [exec_loop] at he
    split at he
    · cases he
    · rename_i w1 hl
      cases he
      have hst := load_script_state c w w1 a none hl
      refine ⟨load_script_executed c w w1 a none hl, ?_, fun q hq => ?_⟩
      · show w1.state.cur = w.state.cur
        rw [hst]
      · show q ∈ w1.state.queue.map ll.p
        rw [hst]
        exact hq
    · rename_i p w1 hl
      have hst := load_script_state c w w1 a (some p) hl
      have hex := load_script_executed c w w1 a (some p) hl
      have hc1 : count_inv w1.state := by rw [hst]; exact hc
      split at he
      · cases he
      · rename_i w2 ha
        obtain ⟨k1, k2, k3⟩ := add_process_keeps w1 w2 p hc1 ha
        obtain ⟨j1, j2, j3⟩ := exec_loop_keeps c rest w2 w' code
          (add_process_count w1 w2 p hc1 ha).1 he
        refine ⟨(by rw [j1, k1, hex]), (by rw [j2, k2, hst]), fun q hq => j3 q (k3 q ?_)⟩
        rw [hst]
        exact hq

theorem cmd_step_keeps (c : Config) (w w' : world) (hc : count_inv w.state)
    (hs : cmd_step c w w') :
    w'.executed = w.executed ∧ w'.state.cur = w.state.cur ∧
      ∀ q, q ∈ w.state.queue.map ll.p → q ∈ w'.state.queue.map ll.p := by
  cases hs with
  | other hp =>
    obtain ⟨p1, -, -, p4, -⟩ := hp
    exact ⟨p4, (by rw [p1]), fun q hq => (by rw [p1]; exact hq)⟩
  | run script code hr =>
    unfold run at hr
    split at hr
    · cases hr
      exact ⟨rfl, rfl, fun q hq => hq⟩
    · split at hr
      · cases hr
      · rename_i w1 hl
        cases hr
        have hst := load_script_state c w w1 script none hl
        refine ⟨load_script_executed c w w1 script none hl, ?_, fun q hq => ?_⟩
        · show w1.state.cur = w.state.cur
          rw [hst]
        · show q ∈ w1.state.queue.map ll.p
          rw [hst]
          exact hq
      · rename_i p w1 hl
        have hst := load_script_state c w w1 script (some p) hl
        have hex := load_script_executed c w w1 script (some p) hl
        have hc1 : count_inv w1.state := by rw [hst]; exact hc
        split at hr
        · cases hr
        · rename_i w2 ha
          cases hr
          obtain ⟨s1, s2, s3⟩ := set_scheduler_mode_keeps w1 .FCFS
          obtain ⟨k1, k2, k3⟩ := add_process_keeps _ _ p
            (count_inv.switch_mode w1 .FCFS hc1).1 ha
          refine ⟨(by rw [k1, s1, hex]), (by rw [k2, s2, hst]), fun q hq => k3 q ?_⟩
          rw [s3, hst]
          exact hq
  | exec progs policy code he =>
    unfold exec at he
    split at he
    · cases he
      exact ⟨rfl, rfl, fun q hq => hq⟩
    · split at he
      · cases he
        exact ⟨rfl, rfl, fun q hq => hq⟩
      · rename_i mode _
        obtain ⟨s1, s2, s3⟩ := set_scheduler_mode_keeps w mode
        obtain ⟨k1, k2, k3⟩ := exec_loop_keeps c progs _ w' code
          (count_inv.switch_mode w mode hc).1 he
        exact ⟨(by rw [k1, s1]), (by rw [k2, s2]), fun q hq => k3 q (by rw [s3]; exact hq)⟩

theorem cmd_steps_keeps (c : Config) (w w' : world) (hc : count_inv w.state)
    (hs : Relation.ReflTransGen (cmd_step c) w w') :
    count_inv w'.state ∧ w'.executed = w.executed ∧ w'.state.cur = w.state.cur ∧
      ∀ q, q ∈ w.state.queue.map ll.p → q ∈ w'.state.queue.map ll.p := by
  induction hs with
  | refl => exact ⟨hc, rfl, rfl, fun q hq => hq⟩
  | tail hab hbc ih =>
    rename_i b d
    obtain ⟨i0, i1, i2, i3⟩ := ih
    obtain ⟨j1, j2, j3⟩ := cmd_step_keeps c b d i0 hbc
    exact ⟨(cmd_step_count c b d i0 hbc).1, (by rw [j1, i1]), (by rw [j2, i2]),
      fun q hq => j3 q (i3 q hq)⟩

theorem cmd_step_persists (c : Config) (w w' : world) (hc : count_inv w.state)
    (hs : cmd_step c w w') : persists w w' := by
  obtain ⟨h1, h2, h3⟩ := cmd_step_keeps c w w' hc hs
  exact persists_of_keeps w w' h1 (live_mono w w' h2 h3)

theorem pop_front_persists (w : world) (hcur : w.state.cur = none) :
    persists w (pop_front w) := by
  refine persists_of_keeps _ _ ?_ (fun p hp => by rw [(pop_front_live w hcur).1]; exact hp)
  unfold pop_front
  split <;> rfl

theorem advances_refl (p : pcb) (w : world) (hcur : w.state.cur = some p) :
    advances p w w := by
  refine ⟨[], (by rw [List.append_nil]), fun e he => (by cases he), fun q hq => hq,
    fun p1 h1 => ?_, fun h => ?_⟩
  · rw [hcur] at h1
    injection h1 with h1
    subst h1
    exact ⟨pcb_le_refl p, rfl⟩
  · rw [hcur] at h
    cases h

theorem advances_then (p p1 : pcb) (w w1 w2 : world) (h1 : advances p w w1)
    (hc : w1.state.cur = some p1) (h2 : advances p1 w1 w2) : advances p w w2 := by
  obtain ⟨n1, a1, a2, a3, a4, -⟩ := h1
  obtain ⟨n2, b1, b2, b3, b4, b5⟩ := h2
  obtain ⟨hle, hpc⟩ := a4 p1 hc
  have hpid : p1.pid = p.pid := hle.1
  have hb : p1.bound = p.bound := hle.2.1
  refine ⟨n1 ++ n2, (by rw [b1, a1, List.append_assoc]), fun e he => ?_,
    fun q hq => b3 q (a3 q hq), fun p2 h => ?_, fun h => ?_⟩
  · rcases List.mem_append.mp he with h | h
    · exact a2 e h
    · rw [b2 e h, hpid]
  · obtain ⟨l2, e2⟩ := b4 p2 h
    refine ⟨pcb_le_trans _ _ _ hle l2, ?_⟩
    rw [e2, hpc, List.length_append]
    omega
  · rcases b5 h with ⟨p2, m2, l2, e2⟩ | hend
    · left
      refine ⟨p2, m2, pcb_le_trans _ _ _ hle l2, ?_⟩
      rw [e2, hpc, List.length_append]
      omega
    · right
      rw [List.length_append]
      omega

theorem advances_same (p : pcb) (w w1 w2 : world) (h : advances p w w1)
    (he : w2.executed = w1.executed) (hc : w2.state.cur = w1.state.cur)
    (hq : ∀ q, q ∈ w1.state.queue.map ll.p → q ∈ w2.state.queue.map ll.p) :
    advances p w w2 := by
  obtain ⟨n1, a1, a2, a3, a4, a5⟩ := h
  refine ⟨n1, (by rw [he, a1]), a2, fun q h => hq q (a3 q h),
    fun p1 h => a4 p1 (by rw [← hc]; exact h), fun h => ?_⟩
  rcases a5 (by rw [← hc]; exact h) with ⟨p1, m1, l1⟩ | hend
  · exact Or.inl ⟨p1, hq p1 m1, l1⟩
  · exact Or.inr hend

theorem advances_park (p p1 : pcb) (w w1 w2 : world) (h : advances p w w1)
    (hc1 : w1.state.cur = some p1) (he : w2.executed = w1.executed)
    (hc : w2.state.cur = none) (hp : p1 ∈ w2.state.queue.map ll.p)
    (hq : ∀ q, q ∈ w1.state.queue.map ll.p → q ∈ w2.state.queue.map ll.p) :
    advances p w w2 := by
  obtain ⟨n1, a1, a2, a3, a4, -⟩ := h
  obtain ⟨hle, hpc⟩ := a4 p1 hc1
  refine ⟨n1, (by rw [he, a1]), a2, fun q h => hq q (a3 q h), fun p2 h => ?_,
    fun _ => Or.inl ⟨p1, hp, hle, hpc⟩⟩
  rw [hc] at h
  cases h

theorem advances_persists (p : pcb) (w w' : world) (hcur : w.state.cur = some p)
    (h : advances p w w') : persists w w' := by
  obtain ⟨new, a1, a2, a3, a4, a5⟩ := h
  have hcount : new.countP (fun e => e.1 = p.pid) = new.length := by
    rw [List.countP_eq_length]
    intro e he
    simp [a2 e he]
  refine ⟨new, a1, fun q hq => ?_⟩
  unfold live at hq
  rw [hcur, List.mem_append] at hq
  rcases hq with hq | hq
  · have hqp : q = p := by simpa using hq
    subst hqp
    rw [hcount]
    cases hc : w'.state.cur with
    | none =>
      rcases a5 hc with ⟨p1, m1, l1, e1⟩ | hend
      · left
        exact ⟨p1, by unfold live; exact List.mem_append_right _ m1, l1, by omega⟩
      · exact Or.inr hend
    | some p1 =>
      obtain ⟨l1, e1⟩ := a4 p1 hc
      left
      exact ⟨p1, by unfold live; rw [hc]; simp, l1, by omega⟩
  · left
    exact ⟨q, by unfold live; exact List.mem_append_right _ (a3 q hq), pcb_le_refl q,
      Nat.le_add_right _ _⟩

theorem exec_inert_advances (c : Config) (w w' : world) (p : pcb) (hc : count_inv w.state)
    (hcur : w.state.cur = some p) (he : exec_process c rbl_inert w = .ok w') :
    advances p w w' := by
  cases hread : read_instruction c w p with
  | error e =>
    unfold exec_process at he
    simp only [hcur, hread] at he
    cases he
  | ok r =>
    obtain ⟨o, p1, w1⟩ := r
    obtain ⟨⟨hst, -, -, -, hex, -⟩, c1, c2, c3, -, c5⟩ :=
      read_instruction_core c _ _ _ _ _ hread
    have hle : pcb_le p p1 := ⟨c1, c2, by rw [c3]⟩
    cases o with
    | none =>
      have hfifo : w.state.mode = .FCFS ∨ w.state.mode = .RR → advances p w w' := by
        intro hm
        obtain ⟨e1, -⟩ := exec_process_fault_back c rbl_inert w w1 p p1 hcur hm hread
          (hc.fifo hm)
        rw [e1] at he
        injection he with he
        subst he
        refine ⟨[], (by rw [List.append_nil]; exact hex), fun e h => (by cases h),
          fun q hq => ?_, fun p2 h => (by cases h), fun _ => Or.inl ⟨p1, ?_, hle, c3⟩⟩
        · show q ∈ List.map ll.p (w.state.queue ++ _)
          rw [List.map_append]
          exact List.mem_append_left _ hq
        · show p1 ∈ List.map ll.p (w.state.queue ++ _)
          rw [List.map_append]
          exact List.mem_append_right _ (by simp)
      have hprio : w.state.mode = .SJF ∨ w.state.mode = .AGING → advances p w w' := by
        intro hm
        have e1 := exec_process_fault_tail c rbl_inert w w1 p p1 hcur hm hread
          (hc.prio (by rcases hm with h | h <;> rw [h] <;> decide))
        rw [e1] at he
        injection he with he
        subst he
        refine ⟨[], (by rw [List.append_nil]; exact hex), fun e h => (by cases h),
          fun q hq => ?_, fun p2 h => (by cases h), fun _ => Or.inl ⟨p1, ?_, hle, c3⟩⟩
        · obtain ⟨n, hn, rfl⟩ := List.mem_map.mp hq
          exact List.mem_map_of_mem _
            ((ordered_insert_perm _ _).mem_iff.mpr (List.mem_cons_of_mem _ hn))
        · exact List.mem_map.mpr ⟨_, (ordered_insert_perm _ _).mem_iff.mpr
            (List.mem_cons_self _ _), rfl⟩
      cases hmode : w.state.mode with
      | FCFS => exact hfifo (Or.inl hmode)
      | RR => exact hfifo (Or.inr hmode)
      | SJF => exact hprio (Or.inl hmode)
      | AGING => exact hprio (Or.inr hmode)
      | NONE =>
        have h0 := hc.none_idle hmode
        have h1 := hc.count
        rw [hcur, h0] at h1
        simp at h1
        omega
    | some instr =>
      have hp1 : p1 = p := (c5 (by simp)).1
      subst hp1
      by_cases hd : p1.pc + 1 < p1.bound
      · have e1 := exec_process_cont c w w1 p1 instr hcur hread hst hd
        rw [e1] at he
        injection he with he
        subst he
        refine ⟨[(p1.pid, instr)], ?_, fun e h => ?_, fun q hq => hq, fun p2 h => ?_,
          fun h => (by cases h)⟩
        · show w1.executed ++ _ = w.executed ++ _
          rw [hex]
        · rw [List.mem_singleton] at h
          rw [h]
        · have : some { p1 with pc := p1.pc + 1 } = some p2 := h
          injection this with this
          rw [← this]
          exact ⟨⟨rfl, rfl, Nat.le_succ _⟩, rfl⟩
      · obtain ⟨B, S, m, e1, -, -⟩ := exec_step_done c w w' w1 p1 instr hcur hread
          (by omega) he
        subst e1
        refine ⟨[(p1.pid, instr)], rfl, fun e h => ?_, fun q hq => hq,
          fun p2 h => (by cases h), fun _ => Or.inr ?_⟩
        · rw [List.mem_singleton] at h
          rw [h]
        · show p1.bound ≤ p1.pc + 1
          omega

theorem exec_process_advances (c : Config) (rbl : cstr → world → Except halt world)
    (w w' : world) (p : pcb) (hrbl : rbl_ok c rbl) (hc : count_inv w.state)
    (hcur : w.state.cur = some p) (he : exec_process c rbl w = .ok w') :
    advances p w w' := by
  rcases exec_process_split c rbl w w' he with ⟨cur, cur1, w1, -, -, h1⟩ |
    ⟨cur, instr, w1, wm, -, -, h1, h2⟩
  · exact exec_inert_advances c w w' p hc hcur h1
  · have a := exec_inert_advances c w wm p hc hcur h1
    obtain ⟨-, d1, d2, d3⟩ := cmd_steps_keeps c wm w' (exec_inert_count c w wm hc h1).1
      (hrbl instr wm w' h2)
    exact advances_same p w wm w' a d1 d2 d3

theorem run_RR_loop_advances (c : Config) (rbl : cstr → world → Except halt world)
    (hrbl : rbl_ok c rbl) :
    ∀ (n : Nat) (w w' : world) (p : pcb), count_inv w.state → w.state.cur = some p →
      run_RR_loop c rbl n w = .ok w' → advances p w w'
  | 0, w, w', p, _, hcur, he => by
    rw [run_RR_loop] at he
    cases he
    exact advances_refl p w hcur
  | n + 1, w, w', p, hc, hcur, he => by
    rw [run_RR_loop, if_neg (by rw [hcur]; simp)] at he
    split at he
    · cases he
    · rename_i w1 h1
      have r1 := exec_process_advances c rbl w w1 p hrbl hc hcur h1
      cases hc1 : w1.state.cur with
      | none =>
        rw [run_RR_loop_idle c rbl n w1 hc1] at he
        cases he
        exact r1
      | some p1 =>
        exact advances_then p p1 w w1 w' r1 hc1
          (run_RR_loop_advances c rbl hrbl n w1 w' p1
            (exec_process_count c rbl w w1 hrbl hc h1).1 hc1 he)

theorem run_RR_advances (c : Config) (rbl : cstr → world → Except halt world) (w w' : world)
    (p : pcb) (hrbl : rbl_ok c rbl) (hc : count_inv w.state) (hm : w.state.mode = .RR)
    (hcur : w.state.cur = some p) (he : run_RR c rbl w = .ok w') : advances p w w' := by
  unfold run_RR at he
  split at he
  · cases he
  · rename_i w1 hl
    have r1 := run_RR_loop_advances c rbl hrbl _ w w1 p hc hcur hl
    obtain ⟨k1, k2⟩ := run_RR_loop_count c rbl hrbl _ w w1 hc hl
    split at he
    · rename_i hne
      cases hc1 : w1.state.cur with
      | none => exact absurd hc1 hne
      | some p1 =>
        rw [hc1] at he
        obtain ⟨w2, e1, e2, -⟩ := add_back_fifo w1 p1
          (k1.fifo (Or.inr (by rw [k2 hne, hm])))
        rw [e1] at he
        simp only [] at he
        injection he with he
        subst he
        subst e2
        refine advances_park p p1 w w1 _ r1 hc1 rfl rfl ?_ (fun q hq => ?_)
        · show p1 ∈ List.map ll.p (w1.state.queue ++ _)
          rw [List.map_append]
          exact List.mem_append_right _ (by simp)
        · show q ∈ List.map ll.p (w1.state.queue ++ _)
          rw [List.map_append]
          exact List.mem_append_left _ hq
    · cases he
      exact r1

theorem run_AGING_advances (c : Config) (rbl : cstr → world → Except halt world)
    (w w' : world) (p : pcb) (hrbl : rbl_ok c rbl) (hc : count_inv w.state)
    (hcur : w.state.cur = some p) (he : run_AGING c rbl w = .ok w') : advances p w w' := by
  unfold run_AGING at he
  split at he
  · cases he
  · rename_i w1 h1
    have r1 := exec_process_advances c rbl w w1 p hrbl hc hcur h1
    have hq2 : (decr_priorities w1).state.queue.map ll.p = w1.state.queue.map ll.p := by
      unfold decr_priorities
      simp only [List.map_map]
      apply List.map_congr_left
      intro n _
      simp only [Function.comp]
      split <;> rfl
    have r2 : advances p w (decr_priorities w1) :=
      advances_same p w w1 _ r1 rfl rfl (fun q hq => by rw [hq2]; exact hq)
    simp only [] at he
    split at he
    · rename_i cur hd tl hcc hq
      split at he
      · cases he
        obtain ⟨t, e, -⟩ := add_with_priority_eq (decr_priorities w1) cur
          (decr_priorities w1).state.cur_priority
        rw [e]
        refine advances_park p cur w (decr_priorities w1) _ r2 hcc rfl rfl ?_
          (fun q hq => ?_)
        · exact List.mem_map.mpr ⟨_, (ordered_insert_perm _ _).mem_iff.mpr
            (List.mem_cons_self _ _), rfl⟩
        · obtain ⟨n, hn, rfl⟩ := List.mem_map.mp hq
          exact List.mem_map_of_mem _
            ((ordered_insert_perm _ _).mem_iff.mpr (List.mem_cons_of_mem _ hn))
      · cases he
        exact r2
    · cases he
      exact r2

theorem exec_process_persists (c : Config) (rbl : cstr → world → Except halt world)
    (w w' : world) (hrbl : rbl_ok c rbl) (hc : count_inv w.state)
    (he : exec_process c rbl w = .ok w') : persists w w' := by
  cases hcur : w.state.cur with
  | none =>
    unfold exec_process at he
    simp only [hcur] at he
    cases he
  | some p =>
    exact advances_persists p w w' hcur (exec_process_advances c rbl w w' p hrbl hc hcur he)

theorem run_scheduler_body_persists (c : Config) (rbl : cstr → world → Except halt world)
    (w w' : world) (r : Option Int) (hrbl : rbl_ok c rbl) (hc : count_inv w.state)
    (he : run_scheduler_body c rbl w = .ok (r, w')) : persists w w' := by
  unfold run_scheduler_body at he
  have hp : persists w (if w.state.cur = none then pop_front w else w) ∧
      count_inv (if w.state.cur = none then pop_front w else w).state := by
    split
    · rename_i hcur
      exact ⟨pop_front_persists w hcur, (pop_front_count w hc hcur).1⟩
    · exact ⟨persists_of_keeps w w rfl (fun p hp => hp), hc⟩
  obtain ⟨w1, hw1⟩ : ∃ w1, w1 = (if w.state.cur = none then pop_front w else w) := ⟨_, rfl⟩
  rw [← hw1] at he hp
  obtain ⟨hp1, hc1⟩ := hp
  refine persists_trans w w1 w' hp1 ?_
  simp only [] at he
  split at he
  · split at he
    · cases he
    · rename_i w2 h2
      cases he
      exact exec_process_persists c rbl w1 _ hrbl hc1 h2
  · split at he
    · cases he
    · rename_i w2 h2
      cases he
      exact exec_process_persists c rbl w1 _ hrbl hc1 h2
  · rename_i hmode
    split at he
    · cases he
    · rename_i w2 h2
      cases he
      cases hcur : w1.state.cur with
      | none =>
        unfold run_RR at h2
        rw [run_RR_loop_idle c rbl _ w1 hcur] at h2
        simp only [hcur] at h2
        cases h2
        exact persists_of_keeps _ _ rfl (fun p hp => hp)
      | some p =>
        exact advances_persists p w1 _ hcur
          (run_RR_advances c rbl w1 _ p hrbl hc1 hmode hcur h2)
  · split at he
    · cases he
    · rename_i w2 h2
      cases he
      cases hcur : w1.state.cur with
      | none =>
        unfold run_AGING exec_process at h2
        simp only [hcur] at h2
        cases h2
      | some p =>
        exact advances_persists p w1 _ hcur (run_AGING_advances c rbl w1 _ p hrbl hc1 hcur h2)
  · cases he
    exact persists_of_keeps _ _ rfl (fun p hp => hp)

/-! ## Main results -/

/-- C10 (allocation order). In every state of the LRU list that the shell reaches,
`get_next_frame` returns the frame at the head of the list and moves it to the
tail, all other frames keeping their order; and the first `NFRAMES` allocations
after `init_memory` return `0, 1, ..., NFRAMES - 1` in that order. -/
theorem C10_allocation_order (c : Config) (hN : 0 < c.NFRAMES) :
    (∀ m fs, lru_reach c m fs →
      ∃ h t m', lru_order m = h :: t ∧ get_next_frame m = .ok (h, m') ∧
        lru_order m' = t ++ [h]) ∧
    (∃ m0 m', init_memory c (m_state_zero c) = .ok m0 ∧
      get_next_frames c.NFRAMES m0 = .ok (List.range c.NFRAMES, m')) := by
  constructor
  · intro m fs hr
    obtain ⟨l, hw, -⟩ := lru_reach_wf c hN m fs hr
    obtain ⟨h, t, rfl⟩ := hw.ne_nil
    obtain ⟨m', h1, h2, -⟩ := get_next_frame_wf c m h t hw
    exact ⟨h, t, m', lru_order_eq c m _ hw, h1, lru_order_eq c m' _ h2⟩
  · obtain ⟨m0, h1, h2, -⟩ := init_memory_wf c hN
    obtain ⟨m', h3, -⟩ := get_next_frames_wf c c.NFRAMES m0 (List.range c.NFRAMES) []
      (by simpa using h2) (by simp)
    refine ⟨m0, m', h1, ?_⟩
    rw [h3]
    simp

/-- Witness for C10 with three frames. -/
theorem C10_allocation_order_witness :
    (0 < (Config.mk 3 3 2).NFRAMES) ∧
    ((∀ m fs, lru_reach (Config.mk 3 3 2) m fs →
      ∃ h t m', lru_order m = h :: t ∧ get_next_frame m = .ok (h, m') ∧
        lru_order m' = t ++ [h]) ∧
    (∃ m0 m', init_memory (Config.mk 3 3 2) (m_state_zero (Config.mk 3 3 2)) = .ok m0 ∧
      get_next_frames (Config.mk 3 3 2).NFRAMES m0 =
        .ok (List.range (Config.mk 3 3 2).NFRAMES, m'))) :=
  ⟨by decide, C10_allocation_order (Config.mk 3 3 2) (by decide)⟩

/-- C5 (page loader postcondition). In a well-formed memory, `load_page(pcb, page)`
for a page of the script returns; afterwards `pagetable[page]` is the frame that
was at the head of the LRU list, the key of that frame is `(pid, page)` and of no
other page, the frame is at the tail of the LRU list, the other frames keep
their order, every other page-table entry and `pid`, `bound`, `pc` of the PCB
are unchanged, and the scheduler state, which holds all other PCBs, is
unchanged. -/
theorem C5_load_page_postcondition (c : Config) (w : world) (p : pcb) (page : Nat)
    (l : List Nat) (hFS : 0 < c.FRAMESIZE) (hw : mem_wf c w.m_state l) (hfile : file_ok w p)
    (hlen : p.pagetable.length = n_pages c p.bound) (hpage : page < n_pages c p.bound) :
    ∃ f t p' w', lru_order w.m_state = f :: t ∧ load_page c w p page = .ok (p', w') ∧
      p'.pagetable[page]? = some (some f) ∧
      key_at c w'.m_state f = some (create_frame_key p.pid page) ∧
      (∀ q r, (q, r) ≠ (p.pid, page) → key_at c w'.m_state f ≠ some (create_frame_key q r)) ∧
      lru_order w'.m_state = t ++ [f] ∧
      (∀ k, k ≠ page → p'.pagetable[k]? = p.pagetable[k]?) ∧
      p'.pid = p.pid ∧ p'.bound = p.bound ∧ p'.pc = p.pc ∧ w'.state = w.state := by
  obtain ⟨f, t, rfl⟩ := hw.lru.ne_nil
  have hstart := page_start_lt c p.bound page hFS hpage
  obtain ⟨m1, sm, out, h1, h2, -, -, h5, -⟩ := load_page_spec c w p page f t hFS hw hfile
    (by omega) (by rw [hlen]; exact hpage)
  refine ⟨f, t, _, _, lru_order_eq c _ _ hw.lru, h1, ?_, h5, ?_, lru_order_eq c _ _ h2.lru,
    ?_, rfl, rfl, rfl, rfl⟩
  · simp only []
    rw [List.getElem?_set]
    simp [hlen, hpage]
  · intro q r hne hk
    simp only [key_at] at hk
    rw [h5] at hk
    injection hk with hk
    obtain ⟨e1, e2⟩ := create_frame_key_inj _ _ _ _ hk
    exact hne (by rw [e1, e2])
  · intro k hk
    simp only []
    rw [List.getElem?_set]
    simp [Ne.symm hk]

/-- Witness for C5: loading page 1 of a four-line script right after start. -/
theorem C5_load_page_postcondition_witness :
    ∃ f t p' w', lru_order demo_world.m_state = f :: t ∧
      load_page demo_config { demo_world with backing_store := [(0, "a1\na2\na3\na4\n".toList)] }
        { pid := 0, bound := 4, pc := 0, pagetable := [none, none] } 1 = .ok (p', w') ∧
      p'.pagetable[1]? = some (some f) ∧
      key_at demo_config w'.m_state f = some (create_frame_key 0 1) ∧
      (∀ q r, (q, r) ≠ (0, 1) → key_at demo_config w'.m_state f ≠ some (create_frame_key q r)) ∧
      lru_order w'.m_state = t ++ [f] ∧
      (∀ k, k ≠ 1 → p'.pagetable[k]? = [none, none][k]?) ∧
      p'.pid = 0 ∧ p'.bound = 4 ∧ p'.pc = 0 ∧ w'.state = demo_world.state :=
  C5_load_page_postcondition demo_config
    { demo_world with backing_store := [(0, "a1\na2\na3\na4\n".toList)] }
    { pid := 0, bound := 4, pc := 0, pagetable := [none, none] } 1 [0, 1, 2] (by decide)
    demo_world_wf
    (by
      intro content h
      have e : content = "a1\na2\na3\na4\n".toList := by
        simp [List.lookup] at h
        exact h.symm
      subst e
      decide)
    (by decide) (by decide)


/-- C3 (fault detection). For a well-formed memory and a PCB of the scheduler,
`read_instruction` returns the page-fault signal exactly when the page-table
entry of page `pc / FRAMESIZE` is the not-resident sentinel or the key stored in
the frame it names is not `(pid, pc / FRAMESIZE)` (a null key included); in that
case its effect is that of `load_page` for that page and `pc` is unchanged, and
when it returns an instruction nothing is loaded: the PCB, the frame contents,
the backing store and the output are unchanged. -/
theorem C3_fault_detection (c : Config) (w : world) (p : pcb) (l : List Nat)
    (hFS : 0 < c.FRAMESIZE) (hw : mem_wf c w.m_state l) (hfile : file_ok w p)
    (hp : pcb_ok c p) :
    ((∃ p' w', read_instruction c w p = .ok (none, p', w')) ↔
      (p.pagetable[p.pc / c.FRAMESIZE]? = some none ∨
        ∃ f, p.pagetable[p.pc / c.FRAMESIZE]? = some (some f) ∧
          key_at c w.m_state f ≠ some (create_frame_key p.pid (p.pc / c.FRAMESIZE)))) ∧
    (∀ p' w', read_instruction c w p = .ok (none, p', w') →
      load_page c w p (p.pc / c.FRAMESIZE) = .ok (p', w') ∧ p'.pc = p.pc) ∧
    (∀ line p' w', read_instruction c w p = .ok (some line, p', w') →
      p' = p ∧ w'.m_state.shellmemory = w.m_state.shellmemory ∧
        w'.backing_store = w.backing_store ∧ w'.stdout = w.stdout) := by
  have hpg : p.pc / c.FRAMESIZE < p.pagetable.length := by
    rw [hp.table_len]; exact page_of_pc_lt c _ _ hFS hp.pc_lt
  obtain ⟨h, t, rfl⟩ := hw.lru.ne_nil
  have hstart := page_start_lt c p.bound _ hFS (page_of_pc_lt c _ _ hFS hp.pc_lt)
  obtain ⟨m1, sm, out, hl, -⟩ := load_page_spec c w p (p.pc / c.FRAMESIZE) h t hFS hw hfile
    (by omega) hpg
  -- the two cases
  have hcases : (p.pagetable[p.pc / c.FRAMESIZE]? = some none ∨
        ∃ f, p.pagetable[p.pc / c.FRAMESIZE]? = some (some f) ∧
          key_at c w.m_state f ≠ some (create_frame_key p.pid (p.pc / c.FRAMESIZE))) ∨
      ∃ f, f < c.NFRAMES ∧ p.pagetable[p.pc / c.FRAMESIZE]? = some (some f) ∧
          key_at c w.m_state f = some (create_frame_key p.pid (p.pc / c.FRAMESIZE)) := by
    cases hx : p.pagetable[p.pc / c.FRAMESIZE]? with
    | none => rw [List.getElem?_eq_none_iff] at hx; omega
    | some e =>
      cases e with
      | none => exact Or.inl (Or.inl rfl)
      | some f =>
        by_cases hk : key_at c w.m_state f = some (create_frame_key p.pid (p.pc / c.FRAMESIZE))
        · exact Or.inr ⟨f, hp.frames _ _ hx, rfl, hk⟩
        · exact Or.inl (Or.inr ⟨f, rfl, hk⟩)
  rcases hcases with hc | ⟨f, hf, hpt, hk⟩
  · have hr := read_instruction_fault c w p _ hFS hw hp.frames hc
    rw [hl] at hr
    simp only [] at hr
    refine ⟨⟨fun _ => hc, fun _ => ⟨_, _, hr⟩⟩, ?_, ?_⟩
    · intro p' w' h1
      rw [hr] at h1
      injection h1 with h1
      injection h1 with _ h1
      injection h1 with h2 h3
      subst h2; subst h3
      exact ⟨hl, rfl⟩
    · intro line p' w' h1
      rw [hr] at h1
      injection h1 with h1
      injection h1 with h1 _
      cases h1
  · obtain ⟨m2, -, -, h3, -, -, hr⟩ := read_instruction_hit c w p _ f hFS hw hf hpt hk
    have hnc : ¬ (p.pagetable[p.pc / c.FRAMESIZE]? = some none ∨
        ∃ f, p.pagetable[p.pc / c.FRAMESIZE]? = some (some f) ∧
          key_at c w.m_state f ≠ some (create_frame_key p.pid (p.pc / c.FRAMESIZE))) := by
      rintro (h1 | ⟨g, h1, h2⟩)
      · rw [hpt] at h1; cases h1
      · rw [hpt] at h1
        injection h1 with h1
        injection h1 with h1
        subst h1
        exact h2 hk
    cases hv : slot_value c w.m_state f (p.pc % c.FRAMESIZE) with
    | none =>
      rw [hv] at hr
      simp only [] at hr
      refine ⟨⟨?_, fun h => absurd h hnc⟩, ?_, ?_⟩
      · rintro ⟨p', w', h1⟩; rw [hr] at h1; cases h1
      · intro p' w' h1; rw [hr] at h1; cases h1
      · intro line p' w' h1; rw [hr] at h1; cases h1
    | some line0 =>
      rw [hv] at hr
      simp only [] at hr
      refine ⟨⟨?_, fun h => absurd h hnc⟩, ?_, ?_⟩
      · rintro ⟨p', w', h1⟩
        rw [hr] at h1
        injection h1 with h1
        injection h1 with h1 _
        cases h1
      · intro p' w' h1
        rw [hr] at h1
        injection h1 with h1
        injection h1 with h1 _
        cases h1
      · intro line p' w' h1
        rw [hr] at h1
        injection h1 with h1
        injection h1 with _ h1
        injection h1 with h2 h4
        subst h2; subst h4
        exact ⟨rfl, h3, rfl, rfl⟩


/-- Witness for C3: the first read of a script of which no page is resident. -/
theorem C3_fault_detection_witness :
    ((∃ p' w', read_instruction demo_config demo_loaded demo_pcb = .ok (none, p', w')) ↔
      (demo_pcb.pagetable[demo_pcb.pc / demo_config.FRAMESIZE]? = some none ∨
        ∃ f, demo_pcb.pagetable[demo_pcb.pc / demo_config.FRAMESIZE]? = some (some f) ∧
          key_at demo_config demo_loaded.m_state f ≠
            some (create_frame_key demo_pcb.pid (demo_pcb.pc / demo_config.FRAMESIZE)))) ∧
    (∀ p' w', read_instruction demo_config demo_loaded demo_pcb = .ok (none, p', w') →
      load_page demo_config demo_loaded demo_pcb (demo_pcb.pc / demo_config.FRAMESIZE) =
        .ok (p', w') ∧ p'.pc = demo_pcb.pc) ∧
    (∀ line p' w', read_instruction demo_config demo_loaded demo_pcb = .ok (some line, p', w') →
      p' = demo_pcb ∧ w'.m_state.shellmemory = demo_loaded.m_state.shellmemory ∧
        w'.backing_store = demo_loaded.backing_store ∧ w'.stdout = demo_loaded.stdout) :=
  C3_fault_detection demo_config demo_loaded demo_pcb [0, 1, 2] (by decide) demo_loaded_wf
    demo_file_ok demo_pcb_ok


/-- C7 (execution step, success case). When `read_instruction` returns an
instruction for the current PCB, `exec_process` hands exactly that instruction to
the interpreter, in a state `w_mid` in which the waiting queue and the policy
are unchanged and: if `pc + 1` equals `bound` the current slot is empty,
`n_processes` is one less and the backing store holds no file for the process
(the files of other processes are untouched); otherwise the PCB stays in the
current slot with `pc` advanced by exactly one and `n_processes` and the backing
store are unchanged. -/
theorem C7_exec_process_success (c : Config) (rbl : cstr → world → Except halt world)
    (w : world) (cur : pcb) (instr : cstr) (cur1 : pcb) (w1 : world)
    (hsize : w.m_state.shellmemory.length = c.SHELLMEMSIZE)
    (hcur : w.state.cur = some cur) (hpc : cur.pc < cur.bound)
    (hread : read_instruction c w cur = .ok (some instr, cur1, w1)) :
    ∃ w_mid, exec_process c rbl w = rbl instr w_mid ∧
      w_mid.executed = w.executed ++ [(cur.pid, instr)] ∧
      w_mid.state.queue = w.state.queue ∧ w_mid.state.mode = w.state.mode ∧
      (cur.pc + 1 = cur.bound →
        w_mid.state.cur = none ∧ w_mid.state.np = w.state.np - 1 ∧
          w_mid.backing_store.lookup cur.pid = none ∧
          ∀ q, q ≠ cur.pid → w_mid.backing_store.lookup q = w.backing_store.lookup q) ∧
      (cur.pc + 1 ≠ cur.bound →
        w_mid.state.cur = some { cur with pc := cur.pc + 1 } ∧
          w_mid.state.np = w.state.np ∧ w_mid.backing_store = w.backing_store) := by
  obtain ⟨⟨s1, s2, s3, s4, s5, s6⟩, -, -, -, -, hrest⟩ := read_instruction_core c _ _ _ _ _ hread
  obtain ⟨e1, -, -⟩ := hrest (by simp)
  subst e1
  unfold exec_process
  simp only [hcur, hread]
  by_cases hterm : cur1.pc + 1 ≥ cur1.bound
  · have heq : cur1.pc + 1 = cur1.bound := by omega
    simp only [hterm, if_true]
    obtain ⟨B, S, r1, r2, r3, -⟩ := remove_process_store_eq
      { w1 with state := { w1.state with cur := some { cur1 with pc := cur1.pc + 1 } } }
      { cur1 with pc := cur1.pc + 1 }
    simp only [free_process, r1]
    by_cases hz : w1.state.np - 1 = 0
    · obtain ⟨sm, m1, -⟩ := mem_reset_frames_spec c w1.m_state (by rw [s6]; exact hsize)
      simp only [hz, if_true, m1]
      refine ⟨_, rfl, ?_, ?_, ?_, ?_, ?_⟩
      · simp only [s5]
      · simp only [s1]
      · simp only [s1]
      · intro _
        refine ⟨rfl, ?_, r2, ?_⟩
        · simp only [s1] at hz ⊢; exact hz.symm
        · intro q hq; rw [r3 q hq, s3]
      · intro h; exact absurd heq h
    · simp only [hz, if_false]
      refine ⟨_, rfl, ?_, ?_, ?_, ?_, ?_⟩
      · simp only [s5]
      · simp only [s1]
      · simp only [s1]
      · intro _
        refine ⟨rfl, ?_, r2, ?_⟩
        · simp only [s1]
        · intro q hq; rw [r3 q hq, s3]
      · intro h; exact absurd heq h
  · have hne : cur1.pc + 1 ≠ cur1.bound := by omega
    simp only [hterm, if_false]
    refine ⟨_, rfl, ?_, ?_, ?_, ?_, ?_⟩
    · simp only [s5]
    · simp only [s1]
    · simp only [s1]
    · intro h; exact absurd h hne
    · intro _
      exact ⟨rfl, by simp only [s1], s3⟩


/-- Witness for C7: the first instruction of script `a`, run alone. -/
theorem C7_exec_process_success_witness :
    ∃ w_mid, exec_process demo_config rbl_inert demo_running = rbl_inert "a1\n".toList w_mid ∧
      w_mid.executed = demo_running.executed ++ [((cur_pcb demo_running).pid, "a1\n".toList)] ∧
      w_mid.state.queue = demo_running.state.queue ∧
      w_mid.state.mode = demo_running.state.mode ∧
      ((cur_pcb demo_running).pc + 1 = (cur_pcb demo_running).bound →
        w_mid.state.cur = none ∧ w_mid.state.np = demo_running.state.np - 1 ∧
          w_mid.backing_store.lookup (cur_pcb demo_running).pid = none ∧
          ∀ q, q ≠ (cur_pcb demo_running).pid →
            w_mid.backing_store.lookup q = demo_running.backing_store.lookup q) ∧
      ((cur_pcb demo_running).pc + 1 ≠ (cur_pcb demo_running).bound →
        w_mid.state.cur =
            some { cur_pcb demo_running with pc := (cur_pcb demo_running).pc + 1 } ∧
          w_mid.state.np = demo_running.state.np ∧
          w_mid.backing_store = demo_running.backing_store) :=
  C7_exec_process_success demo_config rbl_inert demo_running (cur_pcb demo_running)
    "a1\n".toList (read_result demo_config demo_running (cur_pcb demo_running)).2.1
    (read_result demo_config demo_running (cur_pcb demo_running)).2.2
    (by decide) (by decide) (by decide) (by decide)

/-- C8 (execution step, page-fault case). When `read_instruction` signals a page
fault for the current PCB under one of the four policies, `exec_process` returns
the same state whatever the interpreter is (no instruction is handed to it and
the record of executed instructions is unchanged); `pc` and `n_processes` are
unchanged, the current slot is empty, and the PCB is in the queue again: at the
tail with priority `-1` under FCFS and RR, and at the place of ordered insertion
for its snapshot priority `cur_priority` under SJF and AGING. -/
theorem C8_exec_process_page_fault (c : Config) (w : world) (cur cur1 : pcb) (w1 : world)
    (hcur : w.state.cur = some cur) (hmode : w.state.mode ≠ .NONE)
    (hread : read_instruction c w cur = .ok (none, cur1, w1))
    (hq : w.state.mode = .FCFS ∨ w.state.mode = .RR → fifo_wf w.state) :
    ∃ w', (∀ rbl, exec_process c rbl w = .ok w') ∧ w'.executed = w.executed ∧
      cur1.pc = cur.pc ∧ w'.state.np = w.state.np ∧ w'.state.cur = none ∧
      w'.state.mode = w.state.mode ∧
      (w.state.mode = .FCFS ∨ w.state.mode = .RR →
        w'.state.queue =
          w.state.queue ++ [{ p := cur1, priority := -1, id := w.state.fresh }]) ∧
      (w.state.mode = .SJF ∨ w.state.mode = .AGING →
        w'.state.queue = ordered_insert
          { p := cur1, priority := w.state.cur_priority, id := w.state.fresh }
          w.state.queue) := by
  obtain ⟨⟨s1, s2, s3, s4, s5, s6⟩, -, -, hpc, -, -⟩ := read_instruction_core c _ _ _ _ _ hread
  have hfifo : ∀ st : scheduler_state, fifo_wf st → fifo_wf { st with cur := some cur1 } := by
    intro st h
    exact ⟨h.nodup, h.fresh, h.tail_eq⟩
  cases hm : w.state.mode with
  | NONE => exact absurd hm hmode
  | FCFS =>
    have hq' := hq (Or.inl hm)
    obtain ⟨w3, a1, a2, -⟩ := add_back_fifo
      { w1 with state := { w1.state with cur := some cur1 } } cur1 (by
        simp only [s1]; exact hfifo _ hq')
    refine ⟨{ w3 with state := { w3.state with cur := none } }, ?_, ?_, hpc, ?_, rfl, ?_, ?_, ?_⟩
    · intro rbl
      unfold exec_process
      simp only [hcur, hread, s1, hm]
      simp only [s1, hm] at a1
      rw [a1]
    · rw [a2]; exact s5
    · rw [a2]; simp only [s1]
    · rw [a2]; simp only [s1, hm]
    · intro _; rw [a2]; simp only [s1]
    · rintro (h | h) <;> cases h
  | RR =>
    have hq' := hq (Or.inr hm)
    obtain ⟨w3, a1, a2, -⟩ := add_back_fifo
      { w1 with state := { w1.state with cur := some cur1 } } cur1 (by
        simp only [s1]; exact hfifo _ hq')
    refine ⟨{ w3 with state := { w3.state with cur := none } }, ?_, ?_, hpc, ?_, rfl, ?_, ?_, ?_⟩
    · intro rbl
      unfold exec_process
      simp only [hcur, hread, s1, hm]
      simp only [s1, hm] at a1
      rw [a1]
    · rw [a2]; exact s5
    · rw [a2]; simp only [s1]
    · rw [a2]; simp only [s1, hm]
    · intro _; rw [a2]; simp only [s1]
    · rintro (h | h) <;> cases h
  | SJF =>
    obtain ⟨tl, a1, -⟩ := add_with_priority_eq
      { w1 with state := { w1.state with cur := some cur1 } } cur1 w1.state.cur_priority
    refine ⟨{ (add_with_priority { w1 with state := { w1.state with cur := some cur1 } } cur1
        w1.state.cur_priority) with state := { (add_with_priority
          { w1 with state := { w1.state with cur := some cur1 } } cur1
            w1.state.cur_priority).state with cur := none } },
      ?_, ?_, hpc, ?_, rfl, ?_, ?_, ?_⟩
    · intro rbl
      unfold exec_process
      simp only [hcur, hread, s1, hm]
    · rw [a1]; exact s5
    · rw [a1]; simp only [s1]
    · rw [a1]; simp only [s1, hm]
    · rintro (h | h) <;> cases h
    · intro _; rw [a1]; simp only [s1]
  | AGING =>
    obtain ⟨tl, a1, -⟩ := add_with_priority_eq
      { w1 with state := { w1.state with cur := some cur1 } } cur1 w1.state.cur_priority
    refine ⟨{ (add_with_priority { w1 with state := { w1.state with cur := some cur1 } } cur1
        w1.state.cur_priority) with state := { (add_with_priority
          { w1 with state := { w1.state with cur := some cur1 } } cur1
            w1.state.cur_priority).state with cur := none } },
      ?_, ?_, hpc, ?_, rfl, ?_, ?_, ?_⟩
    · intro rbl
      unfold exec_process
      simp only [hcur, hread, s1, hm]
    · rw [a1]; exact s5
    · rw [a1]; simp only [s1]
    · rw [a1]; simp only [s1, hm]
    · rintro (h | h) <;> cases h
    · intro _; rw [a1]; simp only [s1]


/-- Witness for C8: under RR with two frames, script `a` faults on its first
read because loading script `b` has taken both frames. -/
theorem C8_exec_process_page_fault_witness :
    ∃ w', (∀ rbl, exec_process demo_config2 rbl demo_faulting = .ok w') ∧
      w'.executed = demo_faulting.executed ∧
      (read_result demo_config2 demo_faulting (cur_pcb demo_faulting)).2.1.pc =
        (cur_pcb demo_faulting).pc ∧
      w'.state.np = demo_faulting.state.np ∧ w'.state.cur = none ∧
      w'.state.mode = demo_faulting.state.mode ∧
      (demo_faulting.state.mode = .FCFS ∨ demo_faulting.state.mode = .RR →
        w'.state.queue = demo_faulting.state.queue ++
          [{ p := (read_result demo_config2 demo_faulting (cur_pcb demo_faulting)).2.1
             priority := -1, id := demo_faulting.state.fresh }]) ∧
      (demo_faulting.state.mode = .SJF ∨ demo_faulting.state.mode = .AGING →
        w'.state.queue = ordered_insert
          { p := (read_result demo_config2 demo_faulting (cur_pcb demo_faulting)).2.1
            priority := demo_faulting.state.cur_priority, id := demo_faulting.state.fresh }
          demo_faulting.state.queue) :=
  C8_exec_process_page_fault demo_config2 demo_faulting (cur_pcb demo_faulting)
    (read_result demo_config2 demo_faulting (cur_pcb demo_faulting)).2.1
    (read_result demo_config2 demo_faulting (cur_pcb demo_faulting)).2.2
    (by decide) (by decide) (by decide) (fun _ => demo_faulting_fifo)


/-- C6 (the code diverges from the claim): with `FRAMESIZE = 3` and two frames,
`exec a b RR` reaches, after five scheduler ticks, script `b` (four lines,
`bound = 4`) current at `pc = 2` with its page 0 evicted.  Loading page 0
(`start_line = 0`) takes frame 0 and writes the key of `(pid 1, page 0)`, but the
test `pcb->pc + n_lines > pcb->bound` (`2 + 3 > 4`) makes `load_into_mem` return
before copying: all three slots of the frame are empty although the lines 0, 1
and 2 of the script exist in the backing store. -/
theorem C6_load_mid_page_leaves_frame_empty :
    cur_pcb demo_midpage = { pid := 1, bound := 4, pc := 2, pagetable := [some 1, some 1] } ∧
    (demo_midpage.backing_store.lookup 1).map script_lines
      = some ["b1\n".toList, "b2\n".toList, "b3\n".toList, "b4\n".toList] ∧
    ∃ w', load_from_backing_store demo_config2 demo_midpage (cur_pcb demo_midpage) 0
        = .ok (0, w') ∧
      key_at demo_config2 w'.m_state 0 = some (create_frame_key 1 0) ∧
      slot_value demo_config2 w'.m_state 0 0 = none ∧
      slot_value demo_config2 w'.m_state 0 1 = none ∧
      slot_value demo_config2 w'.m_state 0 2 = none :=
  ⟨by decide, by decide, _, rfl, by decide, by decide, by decide, by decide⟩

/-- C2 (the code diverges from the claim): with `FRAMESIZE = 3` and two frames,
`exec a b RR` reaches, after seven scheduler ticks, script `b` current at
`pc = 2 < bound = 4` with page-table entry 0 for page 0 and the key of
`(pid 1, page 0)` stored at frame 0, yet the slots of frame 0 are empty (the page
load of the sixth tick returned before copying).  `read_instruction` then
duplicates a null string, which is undefined, instead of returning line 2 of the
script; the scheduler run as a whole ends there. -/
theorem C2_read_hit_on_empty_frame_undefined :
    cur_pcb demo_keyed = { pid := 1, bound := 4, pc := 2, pagetable := [some 0, some 1] } ∧
    key_at demo_config2 demo_keyed.m_state 0 = some (create_frame_key 1 (2 / 3)) ∧
    (demo_keyed.backing_store.lookup 1).map script_lines
      = some ["b1\n".toList, "b2\n".toList, "b3\n".toList, "b4\n".toList] ∧
    slot_value demo_config2 demo_keyed.m_state 0 (2 % 3) = none ∧
    read_instruction demo_config2 demo_keyed (cur_pcb demo_keyed) = .error .undefined ∧
    run_scheduler demo_config2 rbl_inert 8 demo_rr2 = .error .undefined :=
  ⟨by decide, by decide, by decide, by decide, by decide, by decide⟩


/-- C1 (key consistency).  In every state the shell reaches from its start (by
`run` and `exec`, which call `load_script` and `add_process`, by other commands,
and by the steps of the scheduler under any policy, the instructions being
interpreted by any callback that acts through such commands), the PCBs of the
system have pairwise distinct pids, and whenever `read_instruction` returns an
instruction for one of them, the backing store holds a script under the pid of
that PCB and the returned text is line `pc` of that script. -/
theorem C1_key_consistency (c : Config) (files : List (cstr × cstr)) (w : world)
    (hFS : 0 < c.FRAMESIZE) (hN : 0 < c.NFRAMES) (hr : sys_reach c files w)
    (p p' : pcb) (w' : world) (line : cstr) (hp : p ∈ live w)
    (h : read_instruction c w p = .ok (some line, p', w')) :
    ((live w).map pcb.pid).Nodup ∧
      ∃ content, w.backing_store.lookup p.pid = some content ∧
        (script_lines content)[p.pc]? = some line := by
  have hi := sys_reach_inv c files w hFS hN hr
  refine ⟨hi.pids, ?_⟩
  have hpi := hi.pcbs p hp
  obtain ⟨f, m1, hpt, hkey, -, -, -, hslot⟩ := read_instruction_some _ _ _ _ _ _ h
  obtain ⟨content, hc, -⟩ := hpi.file
  refine ⟨content, hc, ?_⟩
  have := hpi.frames _ f _ content line hpt hkey hc (Nat.mod_lt _ hFS) hslot
  rw [Nat.div_add_mod'] at this
  exact this

/-- Witness for C1: after `run a` and the first `pop_front` (three frames of three
lines), reading the first instruction of script `a` returns its line 0. -/
theorem C1_key_consistency_witness :
    ((live demo_running).map pcb.pid).Nodup ∧
      ∃ content, demo_running.backing_store.lookup (cur_pcb demo_running).pid = some content ∧
        (script_lines content)[(cur_pcb demo_running).pc]? = some "a1\n".toList :=
  C1_key_consistency demo_config demo_files demo_running (by decide) (by decide)
    demo_running_reach (cur_pcb demo_running)
    (read_result demo_config demo_running (cur_pcb demo_running)).2.1
    (read_result demo_config demo_running (cur_pcb demo_running)).2.2
    "a1\n".toList (List.mem_cons_self _ _) (by decide)


/-- C4 (counterexample to the claim as stated).  With `FRAMESIZE = 3` and
`NFRAMES = 2`, `exec s s s FCFS` for a one-line script `s` submits three processes
of one page each, which is at most `NFRAMES - 1`.  Each process finds its page
evicted by the two loads that happened since it was loaded, so every read is a
page fault: for every number of iterations of the loop of `run_scheduler` and
every interpreter the loop is still running afterwards, three processes remain
and no instruction has been executed. -/
theorem C4_thrash_counterexample :
    (∃ w0, init_shell demo_config2 demo_files = .ok w0 ∧
      exec demo_config2 w0 ["s".toList, "s".toList, "s".toList] "FCFS".toList
        = .ok (0, demo_thrash)) ∧
    (∀ p, p ∈ live demo_thrash → n_pages demo_config2 p.bound ≤ demo_config2.NFRAMES - 1) ∧
    ∀ (rbl : cstr → world → Except halt world) (fuel : Nat),
      ∃ w', run_scheduler demo_config2 rbl fuel demo_thrash = .ok (none, w') ∧
        w'.executed = [] ∧ w'.state.np = 3 :=
  ⟨demo_thrash_exec, by decide,
    fun rbl fuel => thrash_forever rbl fuel _ _ _ _ _ _ demo_thrash_inv⟩

/-- C4 (amended).  For every `FRAMESIZE >= 1` and `NFRAMES >= 2`, every policy in
FCFS, SJF, RR, AGING and every list of non-empty scripts whose page counts
`ceil(lines / FRAMESIZE)` sum to at most `NFRAMES`: in a shell that has just
started, `exec` accepts the scripts, and `run_scheduler` (the instructions being
interpreted without effect on the scheduler, the frame store and the backing
store) returns 0 after finitely many iterations with `n_processes == 0`, the
process with pid `i` having executed exactly the lines of the `i`-th script, in
order. -/
theorem C4_progress_when_scripts_fit (c : Config) (files : List (cstr × cstr))
    (progs : List cstr) (policy : cstr) (hFS : 1 ≤ c.FRAMESIZE) (hN : 2 ≤ c.NFRAMES)
    (hpol : policy = "FCFS".toList ∨ policy = "SJF".toList ∨ policy = "RR".toList ∨
      policy = "AGING".toList)
    (hlen : progs.length < 2 ^ 64)
    (hfiles : ∀ s, s ∈ progs → ∃ content, files.lookup s = some content ∧ content ≠ [] ∧
      is_text content)
    (hfit : (progs.map (script_pages c files)).sum ≤ c.NFRAMES) :
    ∃ w0 w1 w2 fuel, init_shell c files = .ok w0 ∧ exec c w0 progs policy = .ok (0, w1) ∧
      run_scheduler c rbl_inert fuel w1 = .ok (some 0, w2) ∧ w2.state.np = 0 ∧
      ∀ (i : Nat) (s content : cstr), progs[i]? = some s → files.lookup s = some content →
        ex_of w2 i = script_lines content := by
  obtain ⟨mode, hmode, hne⟩ := policy_of_name_cases policy hpol
  obtain ⟨w0, hinit, hset, hs0, hex0, hcp0, hbs0, hcwd0⟩ :=
    fit_start c files (exec_spec files progs) mode (by omega) hne
  obtain ⟨w1, slack1, u1, v1, hloop, hs1, hex1, hcp1⟩ :=
    fit_exec_loop c (exec_spec files progs) hFS progs
      { w0 with state := { w0.state with mode := mode } } c.NFRAMES (List.range c.NFRAMES) []
      hs0 hex0 (by
        intro pid hpid
        have : pid < w0.cur_pid := hpid
        omega)
      (by
        intro pid _
        show w0.backing_store.lookup pid = none
        rw [hbs0]
        rfl)
      (by
        show w0.cur_pid + progs.length < 2 ^ 64
        omega)
      (by
        intro i s hi
        obtain ⟨content, h1, h2, h3⟩ := hfiles s (List.getElem?_mem hi)
        refine ⟨content, by show w0.cwd.lookup s = _; rw [hcwd0]; exact h1, h2, h3, ?_⟩
        show exec_spec files progs (w0.cur_pid + i) = _
        rw [hcp0, Nat.zero_add]
        unfold exec_spec
        rw [hi]
        simp [h1])
      (by
        show (progs.map (script_pages c w0.cwd)).sum ≤ _
        rw [hcwd0]
        exact hfit)
  obtain ⟨w2, hrun, hdone, hcp2⟩ :=
    fit_run c (exec_spec files progs) slack1 hFS (total_work w1 + 1) w1 u1 v1 hs1
      (Nat.lt_succ_self _)
  refine ⟨w0, w1, w2, total_work w1 + 1, hinit, ?_, hrun, hdone.1, ?_⟩
  · unfold exec
    have hany : ¬ (progs.any (fun a => decide (w0.cwd.lookup a = none)) = true) := by
      rw [List.any_eq_true]
      rintro ⟨a, ha, hd⟩
      obtain ⟨content, h1, -⟩ := hfiles a ha
      rw [hcwd0, h1] at hd
      simp at hd
    rw [if_neg hany]
    simp only [hmode, hset]
    exact hloop
  · intro i s content hi hlook
    apply hdone.2 i
    · rw [hcp2, hcp1]
      have := (List.getElem?_eq_some_iff.mp hi).1
      show i < w0.cur_pid + progs.length
      omega
    · unfold exec_spec
      rw [hi]
      simp [hlook]

/-- Witness for C4 (amended): the four-line script `a` (two pages) and the
one-line script `s` (one page) fit into three frames of three lines; under RR
both run to their ends. -/
theorem C4_progress_when_scripts_fit_witness :
    ∃ w0 w1 w2 fuel, init_shell demo_config demo_files = .ok w0 ∧
      exec demo_config w0 ["a".toList, "s".toList] "RR".toList = .ok (0, w1) ∧
      run_scheduler demo_config rbl_inert fuel w1 = .ok (some 0, w2) ∧ w2.state.np = 0 ∧
      ∀ (i : Nat) (s content : cstr), ["a".toList, "s".toList][i]? = some s →
        demo_files.lookup s = some content → ex_of w2 i = script_lines content :=
  C4_progress_when_scripts_fit demo_config demo_files ["a".toList, "s".toList] "RR".toList
    (by decide) (by decide) (Or.inr (Or.inr (Or.inl rfl))) (by decide)
    (by
      intro s hs
      rcases List.mem_cons.mp hs with rfl | hs
      · exact ⟨"a1\na2\na3\na4\n".toList, by decide, by decide, by decide⟩
      · rcases List.mem_cons.mp hs with rfl | hs
        · exact ⟨"s1\n".toList, by decide, by decide, by decide⟩
        · cases hs)
    (by decide)


/-- C12 (eviction log). For a frame inside the shell memory, `check_eviction` on a
frame whose key is null returns with the world unchanged. On a frame whose key is
not null it appends to the standard output exactly the line
`Page fault! Victim page contents:`, then the texts of the non-empty slots of the
frame in slot order with nothing added, then the line
`End of victim page contents.`; afterwards the key and every line slot of the
frame are empty, and the shell memory outside the frame and the rest of the world
are unchanged. -/
theorem C12_eviction_log (c : Config) (w : world) (f : Nat) (hFS : 0 < c.FRAMESIZE)
    (hlen : get_frame_start c f + c.FRAMESIZE ≤ w.m_state.shellmemory.length) :
    (key_at c w.m_state f = none → check_eviction c w f = .ok w) ∧
    (key_at c w.m_state f ≠ none →
      ∃ sm, check_eviction c w f = .ok { w with
          m_state := { w.m_state with shellmemory := sm }
          stdout := w.stdout ++ "Page fault! Victim page contents:\n".toList ++
            frame_texts c w.m_state f ++ "End of victim page contents.\n".toList } ∧
        key_at c { w.m_state with shellmemory := sm } f = none ∧
        (∀ i, i < c.FRAMESIZE → slot_value c { w.m_state with shellmemory := sm } f i = none) ∧
        sm.length = w.m_state.shellmemory.length ∧
        ∀ j, ¬ (get_frame_start c f ≤ j ∧ j < get_frame_start c f + c.FRAMESIZE) →
          sm[j]? = w.m_state.shellmemory[j]?) := by
  have hs : get_frame_start c f < w.m_state.shellmemory.length := by omega
  have hk' : key_at c w.m_state f = (w.m_state.shellmemory[get_frame_start c f]).var := by
    simp [key_at, sm_var, List.getElem?_eq_getElem hs]
  constructor
  · intro hk
    unfold check_eviction
    simp only []
    rw [List.getElem?_eq_getElem hs]
    simp only []
    rw [← hk', hk]
  · intro hk
    obtain ⟨sm, out, h1, h2, h3, h4, h5⟩ := check_eviction_spec c w f hFS hlen
    obtain ⟨w', h6, h7⟩ := check_eviction_out c w f hFS hlen hk
    rw [h1] at h6
    injection h6 with h6
    have hout : out = w'.stdout := by rw [← h6]
    rw [h7] at hout
    subst hout
    refine ⟨sm, h1, h3, ?_, h2, ?_⟩
    · intro i hi
      show sm_value sm _ = none
      rw [h5]
      have : get_frame_start c f ≤ get_frame_start c f + i ∧
          get_frame_start c f + i < get_frame_start c f + c.FRAMESIZE := by omega
      simp [hk, this]
    · intro j hj
      have hv := h5 j
      have hr : sm_var sm j = sm_var w.m_state.shellmemory j := h4 j (by omega)
      have hn : ¬ (key_at c w.m_state f ≠ none ∧ get_frame_start c f ≤ j ∧
            j < get_frame_start c f + c.FRAMESIZE) := fun h => hj h.2
      rw [if_neg hn] at hv
      simp only [sm_var, sm_value] at hv hr
      by_cases hjl : j < sm.length
      · have hjl' : j < w.m_state.shellmemory.length := by omega
        rw [List.getElem?_eq_getElem hjl, List.getElem?_eq_getElem hjl'] at hv hr ⊢
        simp only [Option.some_bind] at hv hr
        congr 1
        cases hx : sm[j]
        cases hy : w.m_state.shellmemory[j]
        rw [hx, hy] at hv hr
        simp only at hv hr
        rw [hv, hr]
      · rw [List.getElem?_eq_none (by omega), List.getElem?_eq_none (by omega)]

/-- C12, instances: after `run a` the first frame holds the lines `a1`, `a2`, `a3`
of page 0 of the script and is evicted with these lines in the log; the third
frame has a null key and nothing happens. -/
theorem C12_eviction_log_witness :
    (key_at demo_config demo_running.m_state 0 ≠ none ∧
      frame_texts demo_config demo_running.m_state 0 = "a1\na2\na3\n".toList ∧
      key_at demo_config demo_running.m_state 2 = none) ∧
    check_eviction demo_config demo_running 2 = .ok demo_running ∧
    ∃ sm, check_eviction demo_config demo_running 0 = .ok { demo_running with
        m_state := { demo_running.m_state with shellmemory := sm }
        stdout := demo_running.stdout ++ "Page fault! Victim page contents:\n".toList ++
          frame_texts demo_config demo_running.m_state 0 ++
          "End of victim page contents.\n".toList } ∧
      key_at demo_config { demo_running.m_state with shellmemory := sm } 0 = none ∧
      (∀ i, i < demo_config.FRAMESIZE →
        slot_value demo_config { demo_running.m_state with shellmemory := sm } 0 i = none) ∧
      sm.length = demo_running.m_state.shellmemory.length ∧
      ∀ j, ¬ (get_frame_start demo_config 0 ≤ j ∧
          j < get_frame_start demo_config 0 + demo_config.FRAMESIZE) →
        sm[j]? = demo_running.m_state.shellmemory[j]? :=
  ⟨⟨by decide, by decide, by decide⟩,
    (C12_eviction_log demo_config demo_running 2 (by decide) (by decide)).1 (by decide),
    (C12_eviction_log demo_config demo_running 0 (by decide) (by decide)).2 (by decide)⟩

/-- C14 (policy-change safety). With `n_processes > 0` and a requested policy that
differs from the active one, `set_scheduler_mode` returns 1 and changes nothing
but the standard output, which receives the error message: the active policy
and all other scheduler state are as before. With `n_processes == 0` it returns
0 and the active policy is the requested one, nothing else changes. -/
theorem C14_policy_change_safety (w : world) (new_mode : sched_mode_t) :
    (0 < w.state.np → new_mode ≠ w.state.mode →
      set_scheduler_mode w new_mode =
        (1, { w with stdout := w.stdout ++
          "Error: Attempted to switch mode while processes are running.\n".toList })) ∧
    (w.state.np = 0 →
      set_scheduler_mode w new_mode =
        (0, { w with state := { w.state with mode := new_mode } })) := by
  constructor
  · intro hnp hne
    unfold set_scheduler_mode
    rw [if_neg (fun h => hne h.symm), if_pos (by omega)]
    rfl
  · intro hnp
    unfold set_scheduler_mode
    by_cases hm : w.state.mode = new_mode
    · rw [if_pos hm]
      subst hm
      rfl
    · rw [if_neg hm, if_neg (by simp [hnp])]

/-- C14, instances: a request for RR while script `a` runs under FCFS is rejected,
and a request for RR in the idle shell is granted. -/
theorem C14_policy_change_safety_witness :
    (0 < demo_running.state.np ∧ sched_mode_t.RR ≠ demo_running.state.mode ∧
      demo_world.state.np = 0) ∧
    set_scheduler_mode demo_running .RR =
        (1, { demo_running with stdout := demo_running.stdout ++
          "Error: Attempted to switch mode while processes are running.\n".toList }) ∧
    set_scheduler_mode demo_world .RR =
        (0, { demo_world with state := { demo_world.state with mode := .RR } }) :=
  ⟨by decide, (C14_policy_change_safety demo_running .RR).1 (by decide) (by decide),
    (C14_policy_change_safety demo_world .RR).2 (by decide)⟩

/-- C16 (ordered enqueue). Under SJF and AGING `add_process` enqueues the PCB with
`add_with_priority` at priority `bound` and counts it. On a queue sorted by
non-decreasing priority, `add_with_priority` splits the old queue into a front
part and a back part, both in their old order, and puts the new entry between
them: every entry of the front part has priority at most the new one (so ties
keep FIFO order), every entry of the back part has strictly greater priority,
and the new queue is sorted by non-decreasing priority. -/
theorem C16_ordered_enqueue (w : world) (p : pcb) (pr : Int)
    (hs : prio_sorted w.state.queue) :
    (w.state.mode = .SJF ∨ w.state.mode = .AGING →
      add_process w p = .ok { add_with_priority w p p.bound with
        state := { (add_with_priority w p p.bound).state with
          np := (add_with_priority w p p.bound).state.np + 1 } }) ∧
    ∃ pre post, w.state.queue = pre ++ post ∧
      (add_with_priority w p pr).state.queue =
        pre ++ { p := p, priority := pr, id := w.state.fresh } :: post ∧
      (∀ n, n ∈ pre → n.priority ≤ pr) ∧ (∀ n, n ∈ post → pr < n.priority) ∧
      prio_sorted (add_with_priority w p pr).state.queue := by
  constructor
  · intro hm
    unfold add_process
    rcases hm with hm | hm <;> rw [hm]
  · obtain ⟨tl, heq, -⟩ := add_with_priority_eq w p pr
    rw [heq]
    refine ⟨_, _, (List.takeWhile_append_dropWhile _ _).symm, rfl, ?_, ?_, ?_⟩
    · intro n hn
      simpa using List.mem_takeWhile_imp hn
    · exact dropWhile_gt pr _ hs
    · exact ordered_insert_sorted _ _ hs

/-- C16, an instance: after `exec L M AGING` the queue holds `M` at priority 5 and
`L` at priority 10; an entry of priority 7 goes between them, and `add_process`
enqueues the four-line script of `demo_pcb` at priority 4. -/
theorem C16_ordered_enqueue_witness :
    (prio_sorted demo_aging.state.queue ∧
      (demo_aging.state.mode = .SJF ∨ demo_aging.state.mode = .AGING) ∧
      (add_with_priority demo_aging demo_pcb 7).state.queue.map ll.priority = [5, 7, 10]) ∧
    add_process demo_aging demo_pcb = .ok { add_with_priority demo_aging demo_pcb demo_pcb.bound with
        state := { (add_with_priority demo_aging demo_pcb demo_pcb.bound).state with
          np := (add_with_priority demo_aging demo_pcb demo_pcb.bound).state.np + 1 } } ∧
    ∃ pre post, demo_aging.state.queue = pre ++ post ∧
      (add_with_priority demo_aging demo_pcb 7).state.queue =
        pre ++ { p := demo_pcb, priority := 7, id := demo_aging.state.fresh } :: post ∧
      (∀ n, n ∈ pre → n.priority ≤ 7) ∧ (∀ n, n ∈ post → 7 < n.priority) ∧
      prio_sorted (add_with_priority demo_aging demo_pcb 7).state.queue :=
  ⟨⟨by unfold prio_sorted; decide, by decide, by decide⟩,
    (C16_ordered_enqueue demo_aging demo_pcb 7 (by unfold prio_sorted; decide)).1 (by decide),
    (C16_ordered_enqueue demo_aging demo_pcb 7 (by unfold prio_sorted; decide)).2⟩

/-- C13 (quiescence cleanliness). In every state the shell reaches from its start,
with an interpreter callback that acts by commands: whenever `run_scheduler`
returns and `n_processes == 0`, every slot of the frame store (indices
`VARMEMSIZE .. SHELLMEMSIZE-1`) has an empty line and a null key; and both
before the call and after it, whenever a slot of the frame store is not empty,
the flag `frames_allocated` is 1, so that `mem_reset_frames` is not skipped. -/
theorem C13_quiescence_clean (c : Config) (files : List (cstr × cstr)) (w w' : world)
    (rbl : cstr → world → Except halt world) (fuel : Nat) (r : Int)
    (hFS : 0 < c.FRAMESIZE) (hN : 0 < c.NFRAMES) (hw : sys_reach c files w)
    (hrbl : rbl_ok c rbl) (he : run_scheduler c rbl fuel w = .ok (some r, w')) :
    (w'.state.np = 0 → frames_clean c w'.m_state) ∧
    (∀ j, c.VARMEMSIZE ≤ j → j < c.SHELLMEMSIZE →
      w.m_state.shellmemory[j]? ≠ some (memory_struct.mk none none) →
      w.m_state.frames_allocated = 1) ∧
    (∀ j, c.VARMEMSIZE ≤ j → j < c.SHELLMEMSIZE →
      w'.m_state.shellmemory[j]? ≠ some (memory_struct.mk none none) →
      w'.m_state.frames_allocated = 1) := by
  have hr := run_scheduler_reach c files rbl hrbl fuel w w' _ hw he
  have hs := sys_reach_sched c files w' hFS hN hr
  have hs0 := sys_reach_sched c files w hFS hN hw
  refine ⟨hs.2.idle, fun j h1 h2 h3 => ?_, fun j h1 h2 h3 => ?_⟩
  · rcases hs0.2.flag01 with h0 | h0
    · exact absurd (hs0.2.flag h0 j h1 h2) h3
    · exact h0
  · rcases hs.2.flag01 with h0 | h0
    · exact absurd (hs.2.flag h0 j h1 h2) h3
    · exact h0

/-- C13, an instance: `exec A B RR` with three frames; the scheduler returns 0
within ten iterations, no process is left and the frame store is clean. -/
theorem C13_quiescence_clean_witness :
    run_scheduler demo_config rbl_inert 10 demo_rr =
      .ok (some 0, world_of demo_config (after_ticks demo_config 10 demo_rr)) ∧
    (world_of demo_config (after_ticks demo_config 10 demo_rr)).state.np = 0 ∧
    frames_clean demo_config (world_of demo_config (after_ticks demo_config 10 demo_rr)).m_state :=
  ⟨by decide, by decide,
    (C13_quiescence_clean demo_config sched_files demo_rr _ rbl_inert 10 0 (by decide)
      (by decide) demo_rr_reach (rbl_inert_ok demo_config) (by decide)).1 (by decide)⟩

/-- C15 (FCFS runs the current process to completion), the counterexample. With
`FRAMESIZE = 3` and `NFRAMES = 3`, `exec a b FCFS` for two four-line scripts: the
first PCB selected as current is that of `a` (pid 0). Its first read is a page
fault, because loading `b` has evicted page 0 of `a`; after the first iteration
of `run_scheduler` it has executed nothing, has not terminated and waits behind
`b` in the queue. All four instructions of `b` are then executed before the
first instruction of `a`. -/
theorem C15_fcfs_fault_lets_other_run :
    sched_view demo_fcfs = (none, [(0, -1), (1, -1)], 2) ∧
    sched_view (pop_front demo_fcfs) = (some 0, [(1, -1)], 2) ∧
    sched_view (world_of demo_config (after_ticks demo_config 1 demo_fcfs)) =
      (none, [(1, -1), (0, -1)], 2) ∧
    trace (world_of demo_config (after_ticks demo_config 1 demo_fcfs)) = [] ∧
    run_trace demo_config 20 demo_fcfs =
      some (some 0, [(1, "b1\n"), (1, "b2\n"), (1, "b3\n"), (1, "b4\n"),
        (0, "a1\n"), (0, "a2\n"), (0, "a3\n"), (0, "a4\n")]) :=
  ⟨by decide, by decide, by decide, by decide, by decide⟩

/-- C15 (amended). Under FCFS with a well-formed queue and instructions that do not
reach the scheduler: from a state in which the PCB `p` is current, the
instructions executed by `run_scheduler` are instructions of `p` alone (`new1`)
up to the iteration in which `p` leaves the current slot, and instructions of
other processes (`new2`) are executed only after that iteration. `p` leaves the
current slot either because it has terminated (the process count drops by one
and the queue is as before) or because it has page-faulted, and then it is
re-enqueued at the tail of the queue, behind every waiting PCB. -/
theorem C15_fcfs_current_until_fault (c : Config) : ∀ (n : Nat) (w w' : world) (p : pcb)
    (r : Option Int), w.state.mode = .FCFS → fifo_wf w.state → w.state.cur = some p →
    run_scheduler c rbl_inert n w = .ok (r, w') →
    ∃ new1 new2, w'.executed = w.executed ++ new1 ++ new2 ∧
      (∀ e, e ∈ new1 → e.1 = p.pid) ∧
      (new2 ≠ [] → ∃ k wk, k ≤ n ∧ run_scheduler c rbl_inert k w = .ok (none, wk) ∧
        wk.state.cur = none ∧ wk.executed = w.executed ++ new1 ∧
        ((wk.state.np = w.state.np - 1 ∧ wk.state.queue = w.state.queue) ∨
         (wk.state.np = w.state.np ∧ ∃ p1, p1.pid = p.pid ∧ p1.bound = p.bound ∧
            wk.state.queue = w.state.queue ++
              [{ p := p1, priority := -1, id := w.state.fresh }])))
  | 0, w, w', p, r, _, _, _, h => by
    rw [run_scheduler] at h
    split at h <;> cases h <;> exact ⟨[], [], by simp, by simp, fun h0 => absurd rfl h0⟩
  | n + 1, w, w', p, r, hm, hf, hcur, h => by
    rw [run_scheduler] at h
    split at h
    · rename_i hnp
      split at h
      · cases h
      · rename_i r1 w1 hb
        have := (fcfs_select c w w1 _ hm hf hb).1
        cases this
      · rename_i w1 hb
        obtain ⟨-, w0, p0, h1, h2, h3, h4, h5, h6⟩ := fcfs_select c w w1 _ hm hf hb
        have hw0 : w0 = w := h6 (by rw [hcur]; simp)
        subst hw0
        rw [hcur] at h1
        injection h1 with h1
        subst h1
        obtain ⟨s1, s2, s3⟩ := fifo_step c w0 w1 p (Or.inl hm) hf hcur h5
        have left1 : w1.state.np > 0 →
            run_scheduler c rbl_inert 1 w0 = .ok (none, w1) := by
          intro hp1
          rw [run_scheduler_succ c rbl_inert 0 w0 w1 hnp hb, run_scheduler, if_pos hp1]
        have hstop : ¬ w1.state.np > 0 → w' = w1 := by
          intro hp1
          cases n with
          | zero =>
            rw [run_scheduler, if_neg hp1] at h
            cases h
            rfl
          | succ m =>
            rw [run_scheduler, if_neg hp1] at h
            cases h
            rfl
        rcases s3 with ⟨i, e, hlt, c1, c2, c3, c4⟩ | ⟨i, e, hge, c1, c2, c3, c4⟩ |
          ⟨e, c1, c3, c4, p1, q1, q2, q3, c2⟩
        · obtain ⟨new1, new2, a1, a2, a3⟩ := C15_fcfs_current_until_fault c n w1 w'
            { p with pc := p.pc + 1 } r (by rw [s1, hm]) s2 c1 h
          refine ⟨(p.pid, i) :: new1, new2, by rw [a1, e]; simp, ?_, ?_⟩
          · intro x hx
            rcases List.mem_cons.mp hx with rfl | hx
            · rfl
            · exact a2 x hx
          · intro hne
            obtain ⟨k, wk, b1, b2, b3, b4, b5⟩ := a3 hne
            refine ⟨k + 1, wk, by omega, ?_, b3, by rw [b4, e]; simp, ?_⟩
            · rw [run_scheduler_succ c rbl_inert k w0 w1 hnp hb]
              exact b2
            · rw [c2, c3, c4] at b5
              exact b5
        · by_cases hp1 : w1.state.np > 0
          · obtain ⟨new, hn⟩ := fcfs_run_extends c n w1 w' r (by rw [s1, hm]) s2 h
            refine ⟨[(p.pid, i)], new, by rw [hn, e], by simp, fun _ => ?_⟩
            exact ⟨1, w1, by omega, left1 hp1, c1, e, Or.inl ⟨c3, c2⟩⟩
          · have := hstop hp1
            subst this
            exact ⟨[(p.pid, i)], [], by rw [e]; simp, by simp, fun h0 => absurd rfl h0⟩
        · by_cases hp1 : w1.state.np > 0
          · obtain ⟨new, hn⟩ := fcfs_run_extends c n w1 w' r (by rw [s1, hm]) s2 h
            refine ⟨[], new, by rw [hn, e]; simp, by simp, fun _ => ?_⟩
            exact ⟨1, w1, by omega, left1 hp1, c1, by rw [e]; simp,
              Or.inr ⟨c3, p1, q1, q3, c2⟩⟩
          · have := hstop hp1
            subst this
            exact ⟨[], [], by rw [e]; simp, by simp, fun h0 => absurd rfl h0⟩
    · cases h
      exact ⟨[], [], by simp, by simp, fun h0 => absurd rfl h0⟩

/-- C15 (amended), an instance: two iterations into `exec a b FCFS` the PCB of `b`
is current at line 1 and `a` waits; `b` executes its remaining three lines and
terminates before any line of `a` is executed. -/
theorem C15_fcfs_current_until_fault_witness :
    ((world_of demo_config (after_ticks demo_config 2 demo_fcfs)).state.mode = .FCFS ∧
      fifo_wf (world_of demo_config (after_ticks demo_config 2 demo_fcfs)).state ∧
      sched_view (world_of demo_config (after_ticks demo_config 2 demo_fcfs)) =
        (some 1, [(0, -1)], 2)) ∧
    ∃ new1 new2,
      (world_of demo_config (after_ticks demo_config 20
          (world_of demo_config (after_ticks demo_config 2 demo_fcfs)))).executed =
        (world_of demo_config (after_ticks demo_config 2 demo_fcfs)).executed ++ new1 ++ new2 ∧
      (∀ e, e ∈ new1 →
        e.1 = (cur_pcb (world_of demo_config (after_ticks demo_config 2 demo_fcfs))).pid) ∧
      (new2 ≠ [] → ∃ k wk, k ≤ 20 ∧
        run_scheduler demo_config rbl_inert k
          (world_of demo_config (after_ticks demo_config 2 demo_fcfs)) = .ok (none, wk) ∧
        wk.state.cur = none ∧
        wk.executed =
          (world_of demo_config (after_ticks demo_config 2 demo_fcfs)).executed ++ new1 ∧
        ((wk.state.np =
            (world_of demo_config (after_ticks demo_config 2 demo_fcfs)).state.np - 1 ∧
          wk.state.queue =
            (world_of demo_config (after_ticks demo_config 2 demo_fcfs)).state.queue) ∨
         (wk.state.np = (world_of demo_config (after_ticks demo_config 2 demo_fcfs)).state.np ∧
          ∃ p1, p1.pid =
              (cur_pcb (world_of demo_config (after_ticks demo_config 2 demo_fcfs))).pid ∧
            p1.bound =
              (cur_pcb (world_of demo_config (after_ticks demo_config 2 demo_fcfs))).bound ∧
            wk.state.queue =
              (world_of demo_config (after_ticks demo_config 2 demo_fcfs)).state.queue ++
              [{ p := p1, priority := -1,
                 id := (world_of demo_config
                   (after_ticks demo_config 2 demo_fcfs)).state.fresh }]))) :=
  ⟨⟨by decide, ⟨by decide, by decide, by decide⟩, by decide⟩,
    C15_fcfs_current_until_fault demo_config 20
      (world_of demo_config (after_ticks demo_config 2 demo_fcfs))
      (world_of demo_config (after_ticks demo_config 20
        (world_of demo_config (after_ticks demo_config 2 demo_fcfs))))
      (cur_pcb (world_of demo_config (after_ticks demo_config 2 demo_fcfs))) (some 0)
      (by decide) ⟨by decide, by decide, by decide⟩ (by decide) (by decide)⟩

/-- C18 (round robin). Under RR with a well-formed queue and instructions that do
not reach the scheduler, one iteration of the loop of `run_scheduler` takes the
PCB `p` that is current or, when none is, the head of the queue, and leaves the
rest `rest` of the queue waiting. Whenever the iteration returns, it has
executed at most `RR_PREEMPT_FREQ = 2` instructions, all of `p`, and the current
slot is empty. Either `p` has
terminated, the process count drops by one and the queue is `rest`; or `p`,
advanced by the instructions executed, is the new last entry of the queue behind
`rest` (also when it page-faulted). For the scripts `A = [a1, a2, a3]` and
`B = [b1, b2, b3]` submitted in this order with `FRAMESIZE = 3`, `NFRAMES = 3`,
the scheduler returns 0 and the instructions are executed in the order
`a1, a2, b1, b2, a3, b3`. -/
theorem C18_round_robin :
    (∀ (c : Config) (w w' : world) (r : Option Int) (p : pcb) (rest : List ll),
      w.state.mode = .RR → fifo_wf w.state →
      ((w.state.cur = some p ∧ w.state.queue = rest) ∨
        (w.state.cur = none ∧ ∃ x, w.state.queue = x :: rest ∧ x.p = p)) →
      run_scheduler_body c rbl_inert w = .ok (r, w') →
      r = none ∧ w'.state.cur = none ∧
      ∃ new, w'.executed = w.executed ++ new ∧ new.length ≤ RR_PREEMPT_FREQ ∧
        (∀ e, e ∈ new → e.1 = p.pid) ∧
        ((p.bound ≤ p.pc + new.length ∧ w'.state.np = w.state.np - 1 ∧
            w'.state.queue = rest) ∨
         (w'.state.np = w.state.np ∧ ∃ p', p'.pid = p.pid ∧ p'.bound = p.bound ∧
            p'.pc = p.pc + new.length ∧
            w'.state.queue = rest ++ [{ p := p', priority := -1, id := w.state.fresh }]))) ∧
    RR_PREEMPT_FREQ = 2 ∧
    run_trace demo_config 10 demo_rr =
      some (some 0, [(0, "a1\n"), (0, "a2\n"), (1, "b1\n"), (1, "b2\n"),
        (0, "a3\n"), (1, "b3\n")]) := by
  refine ⟨?_, rfl, by decide⟩
  intro c w w' r p rest hm hf hsel hb
  obtain ⟨hr, hrun⟩ := body_rr c rbl_inert w w' r hm hb
  refine ⟨hr, ?_⟩
  rcases hsel with ⟨hcur, hq⟩ | ⟨hcur, x, hq, hx⟩
  · rw [hcur, if_neg (by simp)] at hrun
    obtain ⟨a1, -, -, new, a4, a5, a6, a7⟩ := run_RR_cases c w w' p hm hf hcur hrun
    rw [hq] at a7
    exact ⟨a1, new, a4, a5, a6, a7⟩
  · rw [hcur] at hrun
    simp only [if_true] at hrun
    obtain ⟨e, hf1⟩ := pop_front_fifo w x rest hf hq
    obtain ⟨w1, hw1⟩ : ∃ w1, w1 = pop_front w := ⟨_, rfl⟩
    rw [← hw1] at hrun
    rw [e] at hw1
    have k1 : w1.state.cur = some p := by rw [hw1, ← hx]
    have k2 : w1.state.mode = .RR := by rw [hw1]; exact hm
    have k3 : fifo_wf w1.state := by rw [hw1]; exact hf1
    have k4 : w1.state.queue = rest := by rw [hw1]
    have k5 : w1.executed = w.executed := by rw [hw1]
    have k6 : w1.state.np = w.state.np := by rw [hw1]
    have k7 : w1.state.fresh = w.state.fresh := by rw [hw1]
    obtain ⟨a1, -, -, new, a4, a5, a6, a7⟩ := run_RR_cases c w1 w' p k2 k3 k1 hrun
    rw [k4, k5, k6, k7] at *
    exact ⟨a1, new, a4, a5, a6, a7⟩

/-- C18, an instance: the first iteration after `exec A B RR` executes two lines of
`A` and puts `A` behind `B`. -/
theorem C18_round_robin_witness :
    (demo_rr.state.mode = .RR ∧ fifo_wf demo_rr.state ∧
      sched_view demo_rr = (none, [(0, -1), (1, -1)], 2) ∧
      sched_view (world_of demo_config (after_ticks demo_config 1 demo_rr)) =
        (none, [(1, -1), (0, -1)], 2)) ∧
    ∃ new, (world_of demo_config (after_ticks demo_config 1 demo_rr)).executed =
        demo_rr.executed ++ new ∧ new.length ≤ RR_PREEMPT_FREQ ∧
      (∀ e, e ∈ new → e.1 = (cur_pcb (pop_front demo_rr)).pid) ∧
      (((cur_pcb (pop_front demo_rr)).bound ≤ (cur_pcb (pop_front demo_rr)).pc + new.length ∧
          (world_of demo_config (after_ticks demo_config 1 demo_rr)).state.np =
            demo_rr.state.np - 1 ∧
          (world_of demo_config (after_ticks demo_config 1 demo_rr)).state.queue =
            demo_rr.state.queue.tail) ∨
       ((world_of demo_config (after_ticks demo_config 1 demo_rr)).state.np =
            demo_rr.state.np ∧
          ∃ p', p'.pid = (cur_pcb (pop_front demo_rr)).pid ∧
            p'.bound = (cur_pcb (pop_front demo_rr)).bound ∧
            p'.pc = (cur_pcb (pop_front demo_rr)).pc + new.length ∧
            (world_of demo_config (after_ticks demo_config 1 demo_rr)).state.queue =
              demo_rr.state.queue.tail ++
                [{ p := p', priority := -1, id := demo_rr.state.fresh }])) :=
  ⟨⟨by decide, ⟨by decide, by decide, by decide⟩, by decide, by decide⟩,
    (C18_round_robin.1 demo_config demo_rr
      (world_of demo_config (after_ticks demo_config 1 demo_rr)) none
      (cur_pcb (pop_front demo_rr)) demo_rr.state.queue.tail (by decide)
      ⟨by decide, by decide, by decide⟩
      (Or.inr ⟨by decide, (demo_rr.state.queue.head?).getD ⟨demo_pcb, 0, 0⟩, by decide,
        by decide⟩)
      (by decide)).2.2⟩

/-- C20 (AGING overtake scenario), the counterexample. With `FRAMESIZE = 3`,
`NFRAMES = 3` and `exec L M AGING` (`L` of ten lines has pid 0, `M` of five lines
has pid 1), the queue holds `M` at priority 5 in front of `L` at priority 10, so
the first PCB selected as current is that of `M`, not that of `L`. After five
iterations of `run_scheduler` `M` has executed its five lines and is gone, and
`L` has executed nothing. -/
theorem C20_first_selected_is_M :
    sched_view demo_aging = (none, [(1, 5), (0, 10)], 2) ∧
    sched_view (pop_front demo_aging) = (some 1, [(0, 10)], 2) ∧
    (cur_pcb (pop_front demo_aging)).bound = 5 ∧
    sched_view (world_of demo_config (after_ticks demo_config 5 demo_aging)) =
      (none, [(0, 5)], 1) ∧
    trace (world_of demo_config (after_ticks demo_config 5 demo_aging)) =
      [(1, "m1\n"), (1, "m2\n"), (1, "m3\n"), (1, "m4\n"), (1, "m5\n")] :=
  ⟨by decide, by decide, by decide, by decide, by decide⟩

/-- C20 (amended). With `FRAMESIZE = 3`, `NFRAMES = 3` and `exec L M AGING`: `M`
(priority 5) is the first PCB selected as current and stays current for four
iterations while the queue priority of `L` ages from 10 to 6; the fifth
iteration completes `M` and ages `L` to 5, `M` never being preempted. From the
sixth iteration on `L` is the only process. It page-faults in the iterations
6, 10, 14 and 18, once for each of its four pages: each time it is re-enqueued
with its snapshot priority and aged by one (to 4, 3, 2 and 1) without executing
a line; its lines are executed in the iterations 7 to 9, 11 to 13, 15 to 17 and
19. After 19 iterations, and not before, `run_scheduler` returns 0, and the
instructions have been executed in the order `m1 .. m5, l1 .. l10`. The lists
give the view of the scheduler and the number of instructions executed after
0, 1, ..., 19 iterations. -/
theorem C20_aging_scenario :
    sched_view demo_aging = (none, [(1, 5), (0, 10)], 2) ∧
    (List.range 20).map
        (fun n => sched_view (world_of demo_config (after_ticks demo_config n demo_aging))) =
      [(none, [(1, 5), (0, 10)], 2), (some 1, [(0, 9)], 2), (some 1, [(0, 8)], 2),
       (some 1, [(0, 7)], 2), (some 1, [(0, 6)], 2), (none, [(0, 5)], 1),
       (none, [(0, 4)], 1), (some 0, [], 1), (some 0, [], 1), (some 0, [], 1),
       (none, [(0, 3)], 1), (some 0, [], 1), (some 0, [], 1), (some 0, [], 1),
       (none, [(0, 2)], 1), (some 0, [], 1), (some 0, [], 1), (some 0, [], 1),
       (none, [(0, 1)], 1), (none, [], 0)] ∧
    (List.range 20).map
        (fun n => (trace (world_of demo_config (after_ticks demo_config n demo_aging))).length) =
      [0, 1, 2, 3, 4, 5, 5, 6, 7, 8, 8, 9, 10, 11, 11, 12, 13, 14, 14, 15] ∧
    trace (world_of demo_config (after_ticks demo_config 5 demo_aging)) =
      [(1, "m1\n"), (1, "m2\n"), (1, "m3\n"), (1, "m4\n"), (1, "m5\n")] ∧
    (run_trace demo_config 18 demo_aging).map Prod.fst = some none ∧
    run_trace demo_config 19 demo_aging =
      some (some 0, [(1, "m1\n"), (1, "m2\n"), (1, "m3\n"), (1, "m4\n"), (1, "m5\n"),
        (0, "l1\n"), (0, "l2\n"), (0, "l3\n"), (0, "l4\n"), (0, "l5\n"), (0, "l6\n"),
        (0, "l7\n"), (0, "l8\n"), (0, "l9\n"), (0, "l10\n")]) :=
  ⟨by decide, by decide, by decide, by decide, by decide, by decide⟩

/-- C17 (SJF ordering). In a shell that has just started, after `exec progs SJF`
and with instructions that do not reach the scheduler: for any two PCBs `S` and
`L` the scheduler holds with `bound(S) < bound(L)`, whatever the order of
submission and whatever page faults occur, the instructions executed by
`run_scheduler` never show an instruction of `S` behind an instruction of `L`:
every instruction of `S` is executed before any instruction of `L`. For the
five-line script `K` (in the role of `L`, pid 0) and the two-line script `S`
(pid 1) submitted in this order with `FRAMESIZE = 3`, `NFRAMES = 3`, the
scheduler returns 0 and the order is `s1, s2, k1 .. k5`. -/
theorem C17_sjf_order :
    (∀ (c : Config) (files : List (cstr × cstr)) (progs : List cstr) (w0 w w' : world)
      (code : Int) (n : Nat) (r : Option Int) (S L : pcb),
      0 < c.FRAMESIZE → 0 < c.NFRAMES → init_shell c files = .ok w0 →
      exec c w0 progs "SJF".toList = .ok (code, w) →
      S ∈ live w → L ∈ live w → S.bound < L.bound →
      run_scheduler c rbl_inert n w = .ok (r, w') →
      ∃ new, w'.executed = w.executed ++ new ∧
        ∀ i j : Nat, i ≤ j → (new[i]?).map Prod.fst = some L.pid →
          (new[j]?).map Prod.fst ≠ some S.pid) ∧
    run_trace demo_config 10 demo_sjf =
      some (some 0, [(1, "s1\n"), (1, "s2\n"), (0, "k1\n"), (0, "k2\n"), (0, "k3\n"),
        (0, "k4\n"), (0, "k5\n")]) := by
  refine ⟨?_, by decide⟩
  intro c files progs w0 w w' code n r S L hFS hN h0 h1 hS hL hlt he
  rcases sjf_submitted c files w0 w progs code hN h0 h1 with hnil | ⟨a1, a2, a3, a4, a5⟩
  · rw [hnil] at hS
    cases hS
  · exact sjf_order c n w w' r S L a1 a2 a3 a4 a5 hS hL hlt he

/-- C17, an instance: `exec K S SJF`, the PCBs of `S` (pid 1, two lines) and of `K`
(pid 0, five lines), ten iterations of the scheduler. -/
theorem C17_sjf_order_witness :
    (({ pid := 1, bound := 2, pc := 0, pagetable := [some 2] } : pcb) ∈ live demo_sjf ∧
      ({ pid := 0, bound := 5, pc := 0, pagetable := [some 0, some 1] } : pcb) ∈ live demo_sjf) ∧
    ∃ new, (world_of demo_config (after_ticks demo_config 10 demo_sjf)).executed =
        demo_sjf.executed ++ new ∧
      ∀ i j : Nat, i ≤ j → (new[i]?).map Prod.fst = some 0 →
        (new[j]?).map Prod.fst ≠ some 1 :=
  ⟨⟨by decide, by decide⟩,
    Exists.elim demo_sjf_exec (fun w0 h =>
      C17_sjf_order.1 demo_config sched_files ["K".toList, "S".toList] w0 demo_sjf
        (world_of demo_config (after_ticks demo_config 10 demo_sjf)) 0 10 (some 0)
        { pid := 1, bound := 2, pc := 0, pagetable := [some 2] }
        { pid := 0, bound := 5, pc := 0, pagetable := [some 0, some 1] }
        (by decide) (by decide) h.1 h.2 (by decide) (by decide) (by decide) (by decide))⟩

/-- C23 (line count), the failing input. The file `x` holds the seven bytes `a`,
newline, 0xFF, `b`, newline, `c`, newline: it has three newline characters and
ends with one, so the count 3 and a verbatim copy are expected. `cp_to_store`
returns 1 and the store holds the two bytes `a`, newline: the copy loop keeps
the result of `fgetc` in a `char`, the byte 0xFF compares equal to `EOF` there and
ends the loop. `load_script` gives the PCB the bound 1. The file `y` of the bytes
0xFF, `a`, newline gives the count 0 and an empty copy, and `load_script` returns
the null pointer for it. -/
theorem C23_copy_stops_at_byte_255 :
    (demo_binary.cwd.lookup "x".toList = some ['a', '\n', char_EOF, 'b', '\n', 'c', '\n'] ∧
      ['a', '\n', char_EOF, 'b', '\n', 'c', '\n'].count '\n' = 3 ∧
      ['a', '\n', char_EOF, 'b', '\n', 'c', '\n'].getLast? = some '\n' ∧
      demo_binary.backing_store = [] ∧ demo_binary.cur_pid = 0) ∧
    cp_to_store demo_binary "x".toList 0 =
      (1, { demo_binary with backing_store := [(0, ['a', '\n'])] }) ∧
    (match load_script demo_config demo_binary "x".toList with
      | .ok (some p, w1) => some (p.bound, w1.backing_store)
      | _ => none) = some (1, [(0, ['a', '\n'])]) ∧
    cp_to_store demo_binary "y".toList 0 =
      (0, { demo_binary with backing_store := [(0, [])] }) ∧
    (∃ w1, load_script demo_config demo_binary "y".toList = .ok (none, w1) ∧
      w1.backing_store = [(0, [])] ∧ w1.m_state = demo_binary.m_state) :=
  ⟨⟨by decide, by decide, by decide, by decide, by decide⟩, by rfl, by rfl, by rfl,
    ⟨_, by rfl, by rfl, by rfl⟩⟩

/-- C24 (failure of the copy into the backing store). When the source file does not
exist or the store already holds a file for the pid, `cp_to_store` returns `-1`
and changes nothing but the standard output, which receives the error message:
the backing store is as before. Otherwise it succeeds: it returns a line count,
which is not negative, and the store holds under the pid what the copy loop has
written, the bytes of the file in front of its first byte 0xFF; for a text that
is the whole file, and the count is positive. When the copy fails for the pid
`cur_pid`, `load_script` returns the null pointer; the frame store, the LRU list
and the backing store are as before, only `cur_pid` has advanced. Whenever the
copy gives no line (`-1`, or the count 0), `load_script` returns the null
pointer and leaves the frame store, the LRU list and the scheduler as they
are. -/
theorem C24_copy_in_failure (c : Config) (w : world) (file : cstr) (pid : Nat) :
    (w.cwd.lookup file = none ∨ w.backing_store.lookup pid ≠ none →
      cp_to_store w file pid = (-1, { w with stdout := w.stdout ++
        "An error occured while trying to copy script contents to backing store\n".toList })) ∧
    (¬ (w.cwd.lookup file = none ∨ w.backing_store.lookup pid ≠ none) →
      0 ≤ (cp_to_store w file pid).1 ∧
      ∃ content, w.cwd.lookup file = some content ∧
        (cp_to_store w file pid).2 =
          { w with backing_store := w.backing_store ++ [(pid, copied content)] } ∧
        (is_text content → copied content = content ∧ 0 < (cp_to_store w file pid).1)) ∧
    (w.cwd.lookup file = none ∨ w.backing_store.lookup w.cur_pid ≠ none →
      load_script c w file = .ok (none, { w with
        cur_pid := (w.cur_pid + 1) % 2 ^ 64
        stdout := w.stdout ++
          "An error occured while trying to copy script contents to backing store\n".toList })) ∧
    ((cp_to_store { w with cur_pid := (w.cur_pid + 1) % 2 ^ 64 } file w.cur_pid).1 ≤ 0 →
      ∃ w1, load_script c w file = .ok (none, w1) ∧ w1.m_state = w.m_state ∧
        w1.state = w.state) := by
  refine ⟨fun h => cp_to_store_fail w file pid h, fun h => ?_,
    fun h => load_script_fail c w file h, fun h => ?_⟩
  · cases hf : w.cwd.lookup file with
    | none => exact absurd (Or.inl hf) h
    | some content =>
      have hb : w.backing_store.lookup pid = none := by
        by_contra hb
        exact h (Or.inr hb)
      rw [cp_to_store_count w file content pid hf hb]
      refine ⟨by simp only []; exact Int.ofNat_nonneg _, content, rfl, rfl, fun ht => ?_⟩
      have e := copied_text content ht
      refine ⟨e, ?_⟩
      have := line_count_pos content
      simp only [e]
      exact_mod_cast this
  · refine ⟨(cp_to_store { w with cur_pid := (w.cur_pid + 1) % 2 ^ 64 } file w.cur_pid).2,
      ?_, ?_, ?_⟩
    · unfold load_script
      simp only []
      rw [if_pos h]
    · rcases cp_to_store_cases { w with cur_pid := (w.cur_pid + 1) % 2 ^ 64 } file w.cur_pid
        with e | ⟨content, -, -, e⟩
      · rw [e]
        rfl
      · rw [e]
    · rcases cp_to_store_cases { w with cur_pid := (w.cur_pid + 1) % 2 ^ 64 } file w.cur_pid
        with e | ⟨content, -, -, e⟩
      · rw [e]
        rfl
      · rw [e]

/-- C24, instances: in the shell after `run a` (the store holds the file of pid 0)
a copy of the missing file `zz` fails, a copy of `b` for pid 0 fails, a copy of
`b` for pid 1 succeeds with 4 lines, and `load_script` of `zz` returns the null
pointer; `load_script` of the file `y`, whose first byte is 0xFF, returns the
null pointer after a copy of no line. -/
theorem C24_copy_in_failure_witness :
    (demo_running.cwd.lookup "zz".toList = none ∧ demo_running.backing_store.lookup 0 ≠ none ∧
      ¬ (demo_running.cwd.lookup "b".toList = none ∨ demo_running.backing_store.lookup 1 ≠ none) ∧
      (cp_to_store { demo_binary with cur_pid := (demo_binary.cur_pid + 1) % 2 ^ 64 }
        "y".toList demo_binary.cur_pid).1 = 0) ∧
    cp_to_store demo_running "zz".toList 5 = (-1, { demo_running with
      stdout := demo_running.stdout ++
        "An error occured while trying to copy script contents to backing store\n".toList }) ∧
    cp_to_store demo_running "b".toList 0 = (-1, { demo_running with
      stdout := demo_running.stdout ++
        "An error occured while trying to copy script contents to backing store\n".toList }) ∧
    (0 ≤ (cp_to_store demo_running "b".toList 1).1 ∧
      ∃ content, demo_running.cwd.lookup "b".toList = some content ∧
        (cp_to_store demo_running "b".toList 1).2 =
          { demo_running with
            backing_store := demo_running.backing_store ++ [(1, copied content)] } ∧
        (is_text content →
          copied content = content ∧ 0 < (cp_to_store demo_running "b".toList 1).1)) ∧
    load_script demo_config demo_running "zz".toList = .ok (none, { demo_running with
      cur_pid := (demo_running.cur_pid + 1) % 2 ^ 64
      stdout := demo_running.stdout ++
        "An error occured while trying to copy script contents to backing store\n".toList }) ∧
    (∃ w1, load_script demo_config demo_binary "y".toList = .ok (none, w1) ∧
      w1.m_state = demo_binary.m_state ∧ w1.state = demo_binary.state) :=
  ⟨⟨by decide, by decide, by decide, by decide⟩,
    (C24_copy_in_failure demo_config demo_running "zz".toList 5).1 (Or.inl (by decide)),
    (C24_copy_in_failure demo_config demo_running "b".toList 0).1 (Or.inr (by decide)),
    (C24_copy_in_failure demo_config demo_running "b".toList 1).2.1 (by decide),
    (C24_copy_in_failure demo_config demo_running "zz".toList 0).2.2.1 (Or.inl (by decide)),
    (C24_copy_in_failure demo_config demo_binary "y".toList 0).2.2.2 (by decide)⟩

/-- C30 (order of the steps of `exec_process`). In a step of `exec_process` that
succeeds, either the read is a page fault and the interpreter is not called, or
the interpreter receives the instruction in a state `wm` in which the program
counter is already advanced and termination is already processed: when lines
remain, the current slot of `wm` holds the PCB with `pc + 1`; when the
instruction was the last one, the current slot of `wm` is empty, `np` is already
decremented, and when it reached 0 the frames are already reset, so that
`set_scheduler_mode` returns 0 in `wm` and installs the requested policy without
an error message. -/
theorem C30_step_order (c : Config) (rbl : cstr → world → Except halt world)
    (w w' : world) (cur : pcb) (hcur : w.state.cur = some cur)
    (h : exec_process c rbl w = .ok w') :
    (∃ cur1 w1, read_instruction c w cur = .ok (none, cur1, w1) ∧
      exec_process c rbl_inert w = .ok w') ∨
    (∃ instr w1 wm, read_instruction c w cur = .ok (some instr, cur, w1) ∧
      rbl instr wm = .ok w' ∧
      wm.executed = w.executed ++ [(cur.pid, instr)] ∧
      (cur.pc + 1 < cur.bound →
        wm.state = { w.state with cur := some { cur with pc := cur.pc + 1 } } ∧
        wm.m_state = w1.m_state) ∧
      (cur.bound ≤ cur.pc + 1 →
        wm.state = { w.state with cur := none, np := w.state.np - 1 } ∧
        (w.state.np - 1 ≠ 0 → wm.m_state = w1.m_state) ∧
        (w.state.np - 1 = 0 →
          mem_reset_frames c w1.m_state = .ok wm.m_state ∧
          ∀ m, (set_scheduler_mode wm m).1 = 0 ∧
            (set_scheduler_mode wm m).2.state.mode = m ∧
            (set_scheduler_mode wm m).2.stdout = wm.stdout))) := by
  rcases exec_process_split c rbl w w' h with
    ⟨cur0, cur1, w1, hc, hr, he⟩ | ⟨cur0, instr, w1, wm, hc, hr, he, hrbl⟩
  · rw [hcur] at hc
    injection hc with hc
    subst hc
    exact Or.inl ⟨cur1, w1, hr, he⟩
  · rw [hcur] at hc
    injection hc with hc
    subst hc
    refine Or.inr ⟨instr, w1, wm, hr, hrbl, ?_⟩
    obtain ⟨⟨hst, -, -, -, hex, -⟩, -⟩ := read_instruction_core c _ _ _ _ _ hr
    by_cases hd : cur.bound ≤ cur.pc + 1
    · obtain ⟨B, S, m, hwm, h1, h2⟩ := exec_step_done c w wm w1 cur instr hcur hr hd he
      refine ⟨by rw [hwm], fun hlt => absurd hd (by omega), fun _ => ⟨by rw [hwm], ?_, ?_⟩⟩
      · intro hn
        rw [hwm]
        exact h1 hn
      · intro hn
        refine ⟨by rw [hwm]; exact h2 hn, fun m0 => ?_⟩
        have hnp : wm.state.np = 0 := by rw [hwm]; exact hn
        unfold set_scheduler_mode
        by_cases hm : wm.state.mode = m0
        · rw [if_pos hm]
          exact ⟨rfl, hm, rfl⟩
        · rw [if_neg hm, if_neg (by simp [hnp])]
          exact ⟨rfl, rfl, rfl⟩
    · have hlt : cur.pc + 1 < cur.bound := by omega
      have hc := exec_process_cont c w w1 cur instr hcur hr hst hlt
      rw [hc] at he
      injection he with he
      subst he
      refine ⟨by simp only [hex], fun _ => ⟨rfl, rfl⟩, fun hlt => absurd hlt hd⟩

/-- C30, instance: the only line of the script `p` is `exec q RR`. The shell runs
`p` alone under FCFS; when the interpreter receives the line, the process count
is 0, and afterwards the policy is RR and `q` is the only process. -/
theorem C30_step_order_witness :
    (demo_order.state.cur = some { pid := 0, bound := 1, pc := 0, pagetable := [some 0] } ∧
      demo_order.state.mode = .FCFS ∧ demo_order.state.np = 1) ∧
    (world_of demo_config (exec_process demo_config (rbl_exec demo_config) demo_order)).state.mode
      = .RR ∧
    sched_view (world_of demo_config
      (exec_process demo_config (rbl_exec demo_config) demo_order)) = (none, [(1, -1)], 1) ∧
    ((∃ cur1 w1, read_instruction demo_config demo_order
        { pid := 0, bound := 1, pc := 0, pagetable := [some 0] } = .ok (none, cur1, w1) ∧
      exec_process demo_config rbl_inert demo_order = .ok (world_of demo_config
        (exec_process demo_config (rbl_exec demo_config) demo_order))) ∨
    (∃ instr w1 wm, read_instruction demo_config demo_order
        { pid := 0, bound := 1, pc := 0, pagetable := [some 0] } = .ok (some instr,
          { pid := 0, bound := 1, pc := 0, pagetable := [some 0] }, w1) ∧
      rbl_exec demo_config instr wm = .ok (world_of demo_config
        (exec_process demo_config (rbl_exec demo_config) demo_order)) ∧
      wm.executed = demo_order.executed ++ [(0, instr)] ∧
      (0 + 1 < 1 →
        wm.state = { demo_order.state with
          cur := some { pid := 0, bound := 1, pc := 0 + 1, pagetable := [some 0] } } ∧
        wm.m_state = w1.m_state) ∧
      (1 ≤ 0 + 1 →
        wm.state = { demo_order.state with cur := none, np := demo_order.state.np - 1 } ∧
        (demo_order.state.np - 1 ≠ 0 → wm.m_state = w1.m_state) ∧
        (demo_order.state.np - 1 = 0 →
          mem_reset_frames demo_config w1.m_state = .ok wm.m_state ∧
          ∀ m, (set_scheduler_mode wm m).1 = 0 ∧
            (set_scheduler_mode wm m).2.state.mode = m ∧
            (set_scheduler_mode wm m).2.stdout = wm.stdout)))) :=
  ⟨⟨by decide, by decide, by decide⟩, by decide, by decide,
    C30_step_order demo_config (rbl_exec demo_config) demo_order _ _ (by decide) (by rfl)⟩

/-- C29 (the code diverges from the claim): with `FRAMESIZE = 3` and two frames,
`exec a b RR` reaches, after six scheduler ticks, a state between two ticks in
which frame 0 carries the key of `(pid 1, page 0)` while its first slot, like its
other slots, is empty, although the backing store holds the four lines of the
script of pid 1 and page 0 consists of three of them. The page was reloaded by
the sixth tick at `pc = 2`, and the test `pcb->pc + n_lines > pcb->bound` of
`load_into_mem` (`2 + 3 > 4`) returned before copying. -/
theorem C29_keyed_frame_without_lines :
    sys_reach demo_config2 demo_files demo_unfilled ∧
    sched_view demo_unfilled = (none, [(0, -1), (1, -1)], 2) ∧
    (live demo_unfilled).map (fun p => (p.pid, p.bound, p.pc, p.pagetable)) =
      [(0, 4, 3, [some 0, some 1]), (1, 4, 2, [some 0, some 1])] ∧
    (demo_unfilled.backing_store.lookup 1).map script_lines
      = some ["b1\n".toList, "b2\n".toList, "b3\n".toList, "b4\n".toList] ∧
    key_at demo_config2 demo_unfilled.m_state 0 = some (create_frame_key 1 0) ∧
    slot_value demo_config2 demo_unfilled.m_state 0 0 = none ∧
    slot_value demo_config2 demo_unfilled.m_state 0 1 = none ∧
    slot_value demo_config2 demo_unfilled.m_state 0 2 = none :=
  ⟨demo_unfilled_reach, by decide, by decide, by decide, by decide, by decide, by decide,
    by decide⟩

/-- C21 (amended). In a clean system with at least two frames, `run` of a script
of `n` lines, `1 ≤ n ≤ 2 * FRAMESIZE`, a text (no byte 0xFF) whose lines are
commands that reach neither the scheduler nor the frame store nor the backing
store (`rbl_inert`), succeeds, and the scheduler then returns 0 within `n`
iterations of its loop (and with any larger bound): the instructions handed to
the interpreter are the lines of the script, in order, each once; the scheduler
and the pager print nothing, so there is no eviction block; and at the end
`np = 0`, no PCB is current or queued, the file of the process is gone from the
backing store and every slot of the frame store is empty. -/
theorem C21_single_script_run (c : Config) (w : world) (file content : cstr) (l : List Nat)
    (hFS : 0 < c.FRAMESIZE) (hN : 2 ≤ c.NFRAMES) (hc : clean_sys c w l)
    (hcwd : w.cwd.lookup file = some content) (htx : is_text content)
    (hn1 : 1 ≤ (script_lines content).length)
    (hn2 : (script_lines content).length ≤ 2 * c.FRAMESIZE) :
    ∃ w1 w2, run c w file = .ok (0, w1) ∧ w1.state.np = 1 ∧ w1.state.mode = .FCFS ∧
      (∀ fuel, (script_lines content).length ≤ fuel →
        run_scheduler c rbl_inert fuel w1 = .ok (some 0, w2)) ∧
      w2.executed = w.executed ++ (script_lines content).map (fun x => (w.cur_pid, x)) ∧
      w1.stdout = w.stdout ∧ w2.stdout = w.stdout ∧
      w2.state.np = 0 ∧ w2.state.cur = none ∧ w2.state.queue = [] ∧
      frames_clean c w2.m_state ∧ w2.backing_store.lookup w.cur_pid = none := by
  obtain ⟨w1, pt, l1, h1, h2, h3, h4, h5, h6, h7, h8, h9, h10⟩ :=
    run_single c w file content l hFS hN hc hcwd htx hn1 hn2
  have hq : w1.state.queue =
      [{ p := { pid := w.cur_pid, bound := (script_lines content).length, pc := 0,
                pagetable := pt },
         priority := -1, id := w.state.fresh }] := by rw [h4]
  have hfifo : fifo_wf w1.state := by
    rw [h4]
    exact ⟨by simp, by simp, by simp⟩
  obtain ⟨hpop, -⟩ := pop_front_fifo w1 _ _ hfifo hq
  have hcur1 : w1.state.cur = none := by rw [h4]; exact hc.cur
  obtain ⟨w2, r1, r2, r3, r4, r5, r6, r7, r8, -⟩ := single_run_loop c content w.cur_pid pt hFS
    ((script_lines content).length - 1) 0 0 (pop_front w1) l1 (by omega)
    (by rw [hpop]; exact h2) (by rw [hpop]; exact h3) (by rw [hpop])
    (by rw [hpop]; show w1.state.mode = _; rw [h4])
    (by rw [hpop]; show w1.state.np = _; rw [h4]) (by rw [hpop])
    (by rw [hpop]; exact h5) (by rw [hpop]; exact h6)
  have hstd : (pop_front w1).stdout = w1.stdout := by rw [hpop]
  have hexe : (pop_front w1).executed = w1.executed := by rw [hpop]
  refine ⟨w1, w2, h1, by rw [h4], by rw [h4], ?_, ?_, h7, by rw [r3, hstd, h7], r4, r5, r6, r7,
    r8⟩
  · intro fuel hfuel
    obtain ⟨e, he⟩ : ∃ e, fuel = ((script_lines content).length - 1) + 1 + e :=
      ⟨fuel - (script_lines content).length, by omega⟩
    have hr : run_scheduler c rbl_inert ((script_lines content).length - 1 + 1) w1 =
        .ok (some 0, w2) := by
      rw [run_scheduler_pop c rbl_inert _ w1 hcur1 (by rw [hpop]; simp) (by rw [hpop])
        (by rw [h4]; show (1 : Int) > 0; decide)]
      exact r1
    rw [he]
    exact run_scheduler_mono c rbl_inert e _ w1 w2 0 hr
  · rw [r2, hexe, h8, List.drop_zero]

/-- C21 (amended), an instance: with three frames of three lines, `run a` in the shell right
after start, for the script `a` of the four lines `a1`, `a2`, `a3`, `a4`: the
scheduler returns 0, the lines are executed in order, nothing is printed, and
at the end `np = 0` and the frames are empty. -/
theorem C21_single_script_run_witness :
    (0 < demo_config.FRAMESIZE ∧ 2 ≤ demo_config.NFRAMES ∧
      demo_world.cwd.lookup "a".toList = some "a1\na2\na3\na4\n".toList ∧
      is_text "a1\na2\na3\na4\n".toList ∧
      script_lines "a1\na2\na3\na4\n".toList =
        ["a1\n".toList, "a2\n".toList, "a3\n".toList, "a4\n".toList] ∧
      (script_lines "a1\na2\na3\na4\n".toList).length ≤ 2 * demo_config.FRAMESIZE) ∧
    ∃ w1 w2, run demo_config demo_world "a".toList = .ok (0, w1) ∧ w1.state.np = 1 ∧
      w1.state.mode = .FCFS ∧
      (∀ fuel, (script_lines "a1\na2\na3\na4\n".toList).length ≤ fuel →
        run_scheduler demo_config rbl_inert fuel w1 = .ok (some 0, w2)) ∧
      w2.executed = demo_world.executed ++
        (script_lines "a1\na2\na3\na4\n".toList).map (fun x => (demo_world.cur_pid, x)) ∧
      w1.stdout = demo_world.stdout ∧ w2.stdout = demo_world.stdout ∧
      w2.state.np = 0 ∧ w2.state.cur = none ∧ w2.state.queue = [] ∧
      frames_clean demo_config w2.m_state ∧
      w2.backing_store.lookup demo_world.cur_pid = none :=
  ⟨⟨by decide, by decide, by decide, by decide, by decide, by decide⟩,
    C21_single_script_run demo_config demo_world "a".toList "a1\na2\na3\na4\n".toList [0, 1, 2]
      (by decide) (by decide) demo_world_clean (by decide) (by decide) (by decide) (by decide)⟩

/-- C25 (process identifiers). Every call of `load_script`, successful or not,
takes the value of `cur_pid` as its pid and leaves `cur_pid + 1` modulo `2 ^ 64`
in the counter. Hence in a session that starts with `cur_pid = c0` and has `n`
calls of `load_script` so far, the counter is `(c0 + n) % 2 ^ 64`, the PCBs
created have the pids `(c0 + k) % 2 ^ 64` for strictly increasing call numbers
`k < n`, that is, pids that increase in load order modulo `2 ^ 64`, and no two of
them share a pid: the counter does not come back to a value as long as the
session has at most `2 ^ 64` calls of `load_script`, a number no session
reaches. Whatever the number of calls, the PCBs that the scheduler holds at the
same time have pairwise distinct pids. -/
theorem C25_pids_distinct_below_wrap (c : Config) (w0 w : world) (n : Nat) (ps : List pcb)
    (h0 : w0.cur_pid < 2 ^ 64) (h : session c w0 n ps w) :
    (∀ file r w', load_script c w file = .ok (r, w') →
      w'.cur_pid = (w.cur_pid + 1) % 2 ^ 64 ∧ ∀ p, r = some p → p.pid = w.cur_pid) ∧
    w.cur_pid = (w0.cur_pid + n) % 2 ^ 64 ∧
    (∃ ks : List Nat, ks.Pairwise (fun a b => a < b) ∧ (∀ k, k ∈ ks → k < n) ∧
      ps.map pcb.pid = ks.map (fun k => (w0.cur_pid + k) % 2 ^ 64)) ∧
    (n ≤ 2 ^ 64 → (ps.map pcb.pid).Nodup) ∧
    (∀ files wr, 0 < c.FRAMESIZE → 0 < c.NFRAMES → sys_reach c files wr →
      ((live wr).map pcb.pid).Nodup) := by
  obtain ⟨ks, k1, k2, k3⟩ := session_pids c w0 w n ps h0 h
  refine ⟨fun file r w' hl => load_script_cur_pid c w w' file r hl,
    session_cur_pid c w0 w n ps h0 h, ⟨ks, k1, k2, k3⟩, fun hn => ?_,
    fun files wr hFS hN hr => (sys_reach_inv c files wr hFS hN hr).pids⟩
  rw [k3]
  apply List.Nodup.map_on
  · intro x hx y hy hxy
    have := k2 x hx
    have := k2 y hy
    omega
  · exact k1.imp (fun hab => Nat.ne_of_lt hab)

/-- C25, an instance: in the shell right after start, a load of `a`, a
failed load of the missing file `zz` and a load of `b` form a session of three
calls; the two PCBs have the pids 0 and 2 and the counter is 3. -/
theorem C25_pids_distinct_below_wrap_witness :
    demo_world.cur_pid < 2 ^ 64 ∧
    ∃ ps w, session demo_config demo_world 3 ps w ∧ ps.map pcb.pid = [0, 2] ∧
      w.cur_pid = (demo_world.cur_pid + 3) % 2 ^ 64 ∧ (ps.map pcb.pid).Nodup := by
  obtain ⟨p0, p2, w1, w2, w3, l1, l2, l3, hp⟩ := demo_session
  have s3 : session demo_config demo_world 3 [p0, p2] w3 :=
    session.load 2 [p0] w2 w3 _ p2
      (session.fail 1 [p0] w1 w2 _ (session.load 0 [] demo_world w1 _ p0 session.start l1) l2) l3
  have h := C25_pids_distinct_below_wrap demo_config demo_world w3 3 [p0, p2] (by decide) s3
  exact ⟨by decide, [p0, p2], w3, s3, hp, h.2.1, h.2.2.2.1 (by decide)⟩

/-- C26 (the process count is exact). In every state that is reached from
`init_scheduler` by calls of `add_process` and `set_scheduler_mode`, by the
commands that call them, and by steps and whole iterations of the scheduler,
`np` is the number of nodes of the waiting queue, plus one when the current slot
holds a PCB. In particular `np = 0` implies that the queue is empty and no PCB
is current. In such a state `add_process` under the mode NONE returns with the
scheduler state as it was, so neither the queue nor `np` changes, while under
any other mode a call that returns has added one node and one to `np`. -/
theorem C26_process_count (c : Config) (w : world) (hr : sched_reach c w) :
    w.state.np = (w.state.queue.length : Int) + (if w.state.cur = none then 0 else 1) ∧
    (w.state.np = 0 → w.state.queue = [] ∧ w.state.cur = none) ∧
    (w.state.mode = .NONE → ∀ p, ∃ w', add_process w p = .ok w' ∧
      w'.state.queue = w.state.queue ∧ w'.state.np = w.state.np ∧ w'.state = w.state) ∧
    (w.state.mode ≠ .NONE → ∀ p w', add_process w p = .ok w' →
      w'.state.np = w.state.np + 1 ∧ w'.state.queue.length = w.state.queue.length + 1 ∧
      w'.state.cur = w.state.cur) := by
  have h := sched_reach_count c w hr
  refine ⟨?_, fun hnp => ?_, fun hm p => ?_, fun hm p w' ha => ?_⟩
  · rw [h.count]
    cases hcur : w.state.cur with
    | none => simp
    | some q =>
      simp
      omega
  · obtain ⟨a, b, -⟩ := h.idle _ hnp
    exact ⟨b, a⟩
  · refine ⟨error_no_mode_selected w, ?_, rfl, rfl, rfl⟩
    unfold add_process
    simp only [hm]
  · obtain ⟨-, -, a3, -, a5⟩ := add_process_count w w' p h ha
    exact ⟨(a5 hm).1, (a5 hm).2, a3⟩

/-- C26, instances: after `exec A B RR` two processes wait and none is current,
`np = 2`; after the first `pop_front` one waits and one is current, `np = 2`;
right after `init_scheduler` the mode is NONE and `add_process` leaves queue and
`np` alone. -/
theorem C26_process_count_witness :
    (demo_rr.state.np = 2 ∧ demo_rr.state.queue.length = 2 ∧ demo_rr.state.cur = none) ∧
    (demo_rr.state.np = (demo_rr.state.queue.length : Int) +
      (if demo_rr.state.cur = none then 0 else 1)) ∧
    ((pop_front demo_rr).state.np = ((pop_front demo_rr).state.queue.length : Int) +
      (if (pop_front demo_rr).state.cur = none then 0 else 1)) ∧
    ((init_scheduler demo_rr).state.mode = .NONE ∧
      ∀ p, ∃ w', add_process (init_scheduler demo_rr) p = .ok w' ∧
        w'.state.queue = (init_scheduler demo_rr).state.queue ∧
        w'.state.np = (init_scheduler demo_rr).state.np ∧
        w'.state = (init_scheduler demo_rr).state) :=
  ⟨⟨by decide, by decide, by decide⟩,
    (C26_process_count demo_config demo_rr demo_rr_sched_reach).1,
    (C26_process_count demo_config (pop_front demo_rr)
      (sched_reach.pop _ demo_rr_sched_reach (by decide))).1,
    by decide,
    (C26_process_count demo_config (init_scheduler demo_rr) (sched_reach.init _)).2.2.1
      (by decide)⟩

/-- C27 (program counter, pid and bound). A PCB that `load_script` returns has
`pc = 0` and `bound ≥ 1`. In every state the shell reaches, every PCB that is
queued or current has `bound ≥ 1` and `0 ≤ pc < bound`, so that `pc + 1 ≤ bound`
holds when `exec_process` advances the counter. And pid and bound never change,
in both directions, after a command, after `pop_front`, after a step of
`exec_process` and after a whole iteration of the loop of `run_scheduler`.
Looking back (`evolves`): every PCB that the scheduler holds afterwards has the
pid and the bound of a PCB it held before, with a program counter that is not
smaller, or is at `pc = 0`, as `load_script` creates it. Looking forward
(`persists`): every PCB that the scheduler held before is still held afterwards
with the same pid and the same bound, its program counter advanced by at most
the number of instructions of that pid executed in between, unless these
instructions have taken it to its bound, where `exec_process` frees it. Both
relations compose over consecutive steps. -/
theorem C27_program_counter (c : Config) (files : List (cstr × cstr)) (w : world)
    (hFS : 0 < c.FRAMESIZE) (hN : 0 < c.NFRAMES) (hr : sys_reach c files w) :
    (∀ p, p ∈ live w → 1 ≤ p.bound ∧ 0 ≤ p.pc ∧ p.pc < p.bound ∧ p.pc + 1 ≤ p.bound) ∧
    (∀ file p w', load_script c w file = .ok (some p, w') → 1 ≤ p.bound ∧ p.pc = 0) ∧
    (∀ w', cmd_step c w w' → evolves w w') ∧
    (w.state.cur = none → evolves w (pop_front w)) ∧
    (∀ rbl w', rbl_ok c rbl → exec_process c rbl w = .ok w' → evolves w w') ∧
    (∀ rbl r w', rbl_ok c rbl → run_scheduler_body c rbl w = .ok (r, w') → evolves w w') ∧
    (∀ w', cmd_step c w w' → persists w w') ∧
    (w.state.cur = none → persists w (pop_front w)) ∧
    (∀ rbl w', rbl_ok c rbl → exec_process c rbl w = .ok w' → persists w w') ∧
    (∀ rbl r w', rbl_ok c rbl → run_scheduler_body c rbl w = .ok (r, w') →
      persists w w') ∧
    (∀ w1 w2, persists w w1 → persists w1 w2 → persists w w2) := by
  have hi := sys_reach_inv c files w hFS hN hr
  have hc := sys_reach_count c files w hr
  refine ⟨fun p hp => ?_, fun file p w' hl => ?_, fun w' hs => cmd_step_evolves c w w' hs,
    fun hc => evolves_refl_of_live _ _ (pop_front_live w hc).1,
    fun rbl w' hrbl he => exec_process_evolves c rbl w w' hrbl he,
    fun rbl r w' hrbl he => run_scheduler_body_evolves c rbl w w' r hrbl he,
    fun w' hs => cmd_step_persists c w w' hc hs,
    fun hcur => pop_front_persists w hcur,
    fun rbl w' hrbl he => exec_process_persists c rbl w w' hrbl hc he,
    fun rbl r w' hrbl he => run_scheduler_body_persists c rbl w w' r hrbl hc he,
    fun w1 w2 h1 h2 => persists_trans w w1 w2 h1 h2⟩
  · have := (hi.pcbs p hp).ok.pc_lt
    exact ⟨by omega, Nat.zero_le _, this, by omega⟩
  · obtain ⟨h1, h2⟩ := load_script_created c w w' file p hl
    exact ⟨h2, h1⟩

/-- C27, instance: after `exec A B RR` (two scripts of three lines) both PCBs are
at `pc = 0 < 3`; one iteration of the scheduler later the PCB of pid 0 is at
`pc = 2 < 3` with the bound it had, after two instructions of pid 0, and the PCB
of pid 1 is as it was. -/
theorem C27_program_counter_witness :
    (0 < demo_config.FRAMESIZE ∧ 0 < demo_config.NFRAMES) ∧
    (live demo_rr).map (fun p => (p.pid, p.bound, p.pc)) = [(0, 3, 0), (1, 3, 0)] ∧
    (live (world_of demo_config (after_ticks demo_config 1 demo_rr))).map
      (fun p => (p.pid, p.bound, p.pc)) = [(1, 3, 0), (0, 3, 2)] ∧
    (world_of demo_config (after_ticks demo_config 1 demo_rr)).executed.map Prod.fst =
      [0, 0] ∧
    (∀ p, p ∈ live demo_rr → 1 ≤ p.bound ∧ 0 ≤ p.pc ∧ p.pc < p.bound ∧ p.pc + 1 ≤ p.bound) ∧
    evolves demo_rr (world_of demo_config (after_ticks demo_config 1 demo_rr)) ∧
    persists demo_rr (world_of demo_config (after_ticks demo_config 1 demo_rr)) :=
  ⟨⟨by decide, by decide⟩, by decide, by decide, by decide,
    (C27_program_counter demo_config sched_files demo_rr (by decide) (by decide)
      demo_rr_reach).1,
    (C27_program_counter demo_config sched_files demo_rr (by decide) (by decide)
      demo_rr_reach).2.2.2.2.2.1 rbl_inert none _ (rbl_inert_ok _) (by rfl),
    (C27_program_counter demo_config sched_files demo_rr (by decide) (by decide)
      demo_rr_reach).2.2.2.2.2.2.2.2.2.1 rbl_inert none _ (rbl_inert_ok _) (by rfl)⟩

/-- C31 (the variable store and the frame store are disjoint). For every frame
`f < NFRAMES` and offset `o < FRAMESIZE` the slot index `get_frame_start f + o`
lies in `[VARMEMSIZE, SHELLMEMSIZE)`, and distinct pairs of frame and offset give
distinct indices. When at most `VARMEMSIZE` variables are in use, `mem_set_value`
and `clear_shell_mem` return and leave every slot with index `≥ VARMEMSIZE` as
it was (and the count of variables stays at most `VARMEMSIZE`). A page load, an
eviction and `mem_reset_frames` in a well-formed memory return and leave every
slot with index `< VARMEMSIZE`, and the count of variables, as they were. -/
theorem C31_disjoint_regions (c : Config) :
    (∀ f o, f < c.NFRAMES → o < c.FRAMESIZE →
      c.VARMEMSIZE ≤ get_frame_start c f + o ∧ get_frame_start c f + o < c.SHELLMEMSIZE) ∧
    (∀ f o g q, o < c.FRAMESIZE → q < c.FRAMESIZE → (f, o) ≠ (g, q) →
      get_frame_start c f + o ≠ get_frame_start c g + q) ∧
    (∀ (w : world) (var_in value_in : cstr), w.m_state.cur_var_size ≤ c.VARMEMSIZE →
      w.m_state.shellmemory.length = c.SHELLMEMSIZE →
      ∃ w', mem_set_value c w var_in value_in = .ok w' ∧
        (∀ j, c.VARMEMSIZE ≤ j → w'.m_state.shellmemory[j]? = w.m_state.shellmemory[j]?) ∧
        w'.m_state.cur_var_size ≤ c.VARMEMSIZE ∧
        w'.m_state.shellmemory.length = c.SHELLMEMSIZE) ∧
    (∀ (m : memory_state), m.cur_var_size ≤ c.VARMEMSIZE →
      m.shellmemory.length = c.SHELLMEMSIZE →
      ∃ m', clear_shell_mem m = .ok m' ∧
        (∀ j, c.VARMEMSIZE ≤ j → m'.shellmemory[j]? = m.shellmemory[j]?) ∧
        m'.cur_var_size = 0 ∧ m'.shellmemory.length = c.SHELLMEMSIZE) ∧
    (∀ (w : world) (p : pcb) (page h : Nat) (t : List Nat), 0 < c.FRAMESIZE →
      mem_wf c w.m_state (h :: t) → file_ok w p → page * c.FRAMESIZE ≤ p.bound →
      page < p.pagetable.length →
      ∃ p' w', load_page c w p page = .ok (p', w') ∧
        (∀ j, j < c.VARMEMSIZE → w'.m_state.shellmemory[j]? = w.m_state.shellmemory[j]?) ∧
        w'.m_state.cur_var_size = w.m_state.cur_var_size) ∧
    (∀ (w : world) (f : Nat), 0 < c.FRAMESIZE → f < c.NFRAMES →
      w.m_state.shellmemory.length = c.SHELLMEMSIZE →
      ∃ w', check_eviction c w f = .ok w' ∧
        (∀ j, j < c.VARMEMSIZE → w'.m_state.shellmemory[j]? = w.m_state.shellmemory[j]?) ∧
        w'.m_state.cur_var_size = w.m_state.cur_var_size) ∧
    (∀ (m : memory_state), m.shellmemory.length = c.SHELLMEMSIZE →
      ∃ m', mem_reset_frames c m = .ok m' ∧
        (∀ j, j < c.VARMEMSIZE → m'.shellmemory[j]? = m.shellmemory[j]?) ∧
        m'.cur_var_size = m.cur_var_size) := by
  refine ⟨fun f o hf ho => ?_, fun f o g q ho hq hne => ?_, fun w v x hv hs => ?_,
    fun m hv hs => ?_, fun w p page h t hFS hw hfile hstart hpage => ?_,
    fun w f hFS hf hs => ?_, fun m hs => ?_⟩
  · have := frame_in_memory c f hf
    exact ⟨frame_slot_ge c f o, by omega⟩
  · by_cases hfg : f = g
    · subst hfg
      intro h
      apply hne
      have : o = q := by omega
      rw [this]
    · exact frame_disjoint c f g o q hfg ho hq
  · obtain ⟨w', h1, h2, h3, h4, -⟩ := mem_set_value_spec c w v x hv hs
    exact ⟨w', h1, h2, h3, h4⟩
  · obtain ⟨sm, h1, h2, h3, -⟩ := clear_shell_mem_spec c m hv hs
    exact ⟨_, h1, h3, rfl, h2⟩
  · obtain ⟨m1, sm, out, heq, hwf, hcv, hvar, -, hval, -, -⟩ :=
      load_page_spec c w p page h t hFS hw hfile hstart hpage
    refine ⟨_, _, heq, fun j hj => ?_, hcv⟩
    have hge := frame_slot_ge c h 0
    apply slot_eq_of _ _ j (by rw [hwf.size, hw.size])
    · exact hvar j (by omega)
    · exact hval j (by omega)
  · have := frame_in_memory c f hf
    obtain ⟨sm, out, e1, e2, -, e4, e5⟩ := check_eviction_spec c w f hFS (by omega)
    refine ⟨_, e1, fun j hj => ?_, rfl⟩
    have hge := frame_slot_ge c f 0
    apply slot_eq_of _ _ j e2
    · exact e4 j (by omega)
    · rw [e5 j, if_neg (by omega)]
  · obtain ⟨sm, h1, -, h3, -⟩ := mem_reset_frames_spec c m hs
    exact ⟨_, h1, h3, rfl⟩

/-- C31, instances with three frames of three lines and two variable slots: the
slots of the frames have the indices 2 to 10; setting a third variable in the
full variable store and clearing the variable store of the shell with two
variables leave the slots from index 2 on alone; loading page 0 of the script
`a` leaves the slots 0 and 1 alone. -/
theorem C31_disjoint_regions_witness :
    ((1 < demo_config.NFRAMES ∧ 2 < demo_config.FRAMESIZE) ∧
      demo_config.VARMEMSIZE ≤ get_frame_start demo_config 1 + 2 ∧
      get_frame_start demo_config 1 + 2 < demo_config.SHELLMEMSIZE) ∧
    ((demo_vars.m_state.cur_var_size ≤ demo_config.VARMEMSIZE ∧
      demo_vars.m_state.shellmemory.length = demo_config.SHELLMEMSIZE) ∧
      ∃ w', mem_set_value demo_config demo_vars "z".toList "3".toList = .ok w' ∧
        (∀ j, demo_config.VARMEMSIZE ≤ j →
          w'.m_state.shellmemory[j]? = demo_vars.m_state.shellmemory[j]?) ∧
        w'.m_state.cur_var_size ≤ demo_config.VARMEMSIZE ∧
        w'.m_state.shellmemory.length = demo_config.SHELLMEMSIZE) ∧
    (∃ m', clear_shell_mem demo_vars.m_state = .ok m' ∧
        (∀ j, demo_config.VARMEMSIZE ≤ j →
          m'.shellmemory[j]? = demo_vars.m_state.shellmemory[j]?) ∧
        m'.cur_var_size = 0 ∧ m'.shellmemory.length = demo_config.SHELLMEMSIZE) ∧
    (∃ p' w', load_page demo_config demo_loaded demo_pcb 0 = .ok (p', w') ∧
        (∀ j, j < demo_config.VARMEMSIZE →
          w'.m_state.shellmemory[j]? = demo_loaded.m_state.shellmemory[j]?) ∧
        w'.m_state.cur_var_size = demo_loaded.m_state.cur_var_size) :=
  ⟨⟨⟨by decide, by decide⟩,
      (C31_disjoint_regions demo_config).1 1 2 (by decide) (by decide)⟩,
    ⟨⟨by decide, by decide⟩,
      (C31_disjoint_regions demo_config).2.2.1 demo_vars "z".toList "3".toList (by decide)
        (by decide)⟩,
    (C31_disjoint_regions demo_config).2.2.2.1 demo_vars.m_state (by decide) (by decide),
    (C31_disjoint_regions demo_config).2.2.2.2.1 demo_loaded demo_pcb 0 0 [1, 2] (by decide)
      demo_loaded_wf demo_file_ok (by decide) (by decide)⟩

/-- C32 (the code diverges from the claim): a tab that directly follows a
character of a word becomes part of the word. For the buffer `echo<TAB>hello`
with a newline, `readInput` at position 0 returns the count 1 and stores the one
word `echo<TAB>hello`, where two words `echo` and `hello` are expected; the loop
that reads a word stops at a space, a newline, a semicolon and the end of the
buffer, but not at a tab. When a space precedes the tab the tab is skipped, and
`echo`, blanks and tabs, `hello` gives the two words. The other parts hold on
these inputs: the count is the number of words stored, the position moves past
the terminator, and at the end of the buffer the result is -1. A command of
blanks only gives the count 1 and one empty word. -/
theorem C32_tab_joins_words :
    words_of (readInput "echo\thello\n".toList 0) = some (1, ["echo\thello"], 11) ∧
    words_of (readInput "a\t \tb\n".toList 0) = some (2, ["a\t", "b"], 6) ∧
    words_of (readInput "echo  \t hello ; ls\n".toList 0) = some (2, ["echo", "hello"], 15) ∧
    words_of (readInput "echo  \t hello ; ls\n".toList 15) = some (1, ["ls"], 19) ∧
    words_of (readInput "echo  \t hello ; ls\n".toList 19) = some (-1, [], 19) ∧
    words_of (readInput "   \n".toList 0) = some (1, [""], 4) :=
  ⟨by decide, by decide, by decide, by decide, by decide, by decide⟩

/-- C33 (the waiting queue is sorted). In every state that is reached from
`init_scheduler` by `add_process`, `set_scheduler_mode`, the commands and the
steps of the scheduler, the priorities of the waiting queue do not decrease from
head to tail: under FCFS and RR all are -1, under SJF and AGING none is negative.
So the head has a minimal priority, and some queued node has a priority below a
value `x` exactly if the head has. `add_with_priority`, `pop_front` and
`decr_priorities`, which lowers every positive priority by one and leaves the
others, keep the queue sorted; and in the state in which `run_AGING` compares,
after `exec_process` and `decr_priorities`, the comparison of the head with the
snapshot `cur_priority` decides whether any queued node has a lower priority. -/
theorem C33_sorted_queue (c : Config) (w : world) (hr : sched_reach c w) :
    prio_sorted w.state.queue ∧
    (w.state.mode = .FCFS ∨ w.state.mode = .RR → ∀ n, n ∈ w.state.queue → n.priority = -1) ∧
    (w.state.mode = .SJF ∨ w.state.mode = .AGING → ∀ n, n ∈ w.state.queue → 0 ≤ n.priority) ∧
    (∀ h rest, w.state.queue = h :: rest → ∀ n, n ∈ w.state.queue → h.priority ≤ n.priority) ∧
    (∀ x : Int, (∃ n, n ∈ w.state.queue ∧ n.priority < x) ↔
      ∃ h rest, w.state.queue = h :: rest ∧ h.priority < x) ∧
    (∀ p pr, prio_sorted (add_with_priority w p pr).state.queue) ∧
    prio_sorted (pop_front w).state.queue ∧
    prio_sorted (decr_priorities w).state.queue ∧
    (decr_priorities w).state.queue.map ll.priority =
      w.state.queue.map (fun n => if n.priority > 0 then n.priority - 1 else n.priority) ∧
    (∀ rbl w1, rbl_ok c rbl → exec_process c rbl w = .ok w1 →
      ((∃ n, n ∈ (decr_priorities w1).state.queue ∧
          n.priority < (decr_priorities w1).state.cur_priority) ↔
        ∃ h rest, (decr_priorities w1).state.queue = h :: rest ∧
          h.priority < (decr_priorities w1).state.cur_priority)) := by
  have hc := sched_reach_count c w hr
  have ho := sched_reach_order c w hr
  refine ⟨ho.sorted, ho.fifo, fun hm => ho.nonneg (by rcases hm with hm | hm <;> rw [hm] <;> simp),
    fun h rest hq n hn => ?_, fun x => head_decides _ x ho.sorted, fun p pr => ?_,
    (pop_front_order w ho).sorted, (decr_priorities_order w ho).sorted, ?_,
    fun rbl w1 hrbl he => ?_⟩
  · have hs := ho.sorted
    rw [hq] at hs hn
    rcases List.mem_cons.mp hn with e | hm
    · rw [e]
    · exact (prio_sorted_tail h rest hs).2 n hm
  · obtain ⟨tl, e, -⟩ := add_with_priority_eq w p pr
    rw [e]
    exact ordered_insert_sorted _ _ ho.sorted
  · unfold decr_priorities
    simp only [List.map_map]
    apply List.map_congr_left
    intro n _
    simp only [Function.comp]
    split <;> rfl
  · exact head_decides _ _
      (decr_priorities_order w1 (exec_process_order c rbl w w1 hrbl hc ho he)).sorted

/-- C33, instances: after `exec L M AGING` (scripts of 10 and 5 lines) the queue
holds M with priority 5 in front of L with priority 10; after `exec A B RR` both
nodes have priority -1. -/
theorem C33_sorted_queue_witness :
    (sched_view demo_aging = (none, [(1, 5), (0, 10)], 2) ∧
      sched_view demo_rr = (none, [(0, -1), (1, -1)], 2)) ∧
    prio_sorted demo_aging.state.queue ∧
    (demo_aging.state.mode = .SJF ∨ demo_aging.state.mode = .AGING →
      ∀ n, n ∈ demo_aging.state.queue → 0 ≤ n.priority) ∧
    (demo_rr.state.mode = .FCFS ∨ demo_rr.state.mode = .RR →
      ∀ n, n ∈ demo_rr.state.queue → n.priority = -1) ∧
    prio_sorted (decr_priorities demo_aging).state.queue :=
  ⟨⟨by decide, by decide⟩,
    (C33_sorted_queue demo_config demo_aging demo_aging_sched_reach).1,
    (C33_sorted_queue demo_config demo_aging demo_aging_sched_reach).2.2.1,
    (C33_sorted_queue demo_config demo_rr demo_rr_sched_reach).2.1,
    (C33_sorted_queue demo_config demo_aging demo_aging_sched_reach).2.2.2.2.2.2.2.1⟩

/-- C34: in every state reached from `init_scheduler` by `add_process`,
`set_scheduler_mode`, the commands of the interpreter and the steps of the
scheduler, the branch of `add_back` that exits with code 3 is out of reach, and
`run_scheduler` gives `pop_front` a queue that is not empty.  Under FCFS and RR,
the policies under which `add_back` is called, the head of the queue is null
exactly when the tail pointer is null; under the other policies the tail pointer
is null, and `add_with_priority` keeps it null; `set_scheduler_mode` changes the
policy only while nothing is current and both pointers are null.  At each of the
three calls of `add_back` (in `add_process`; in `exec_process` after a page fault;
in `run_RR` after the time slice) the two pointers agree and `add_back` returns,
so `add_process` returns under every policy.  While `np > 0` and no PCB is
current, the queue is not empty.  As a whole: `run` and `exec` never exit with
code 3, and neither does the loop of `run_scheduler`, however long it runs, with
an interpreter callback that does not do so by itself on reachable states. -/
theorem C34_fatal_branch_unreachable (c : Config) (w : world) (hr : sched_reach c w) :
    (w.state.mode = .FCFS ∨ w.state.mode = .RR →
      (w.state.queue = [] ↔ w.state.tail = none)) ∧
    (¬ (w.state.mode = .FCFS ∨ w.state.mode = .RR) →
      w.state.tail = none ∧ ∀ p pr, (add_with_priority w p pr).state.tail = none) ∧
    (∀ m, (set_scheduler_mode w m).2.state.mode ≠ w.state.mode →
      w.state.cur = none ∧ w.state.queue = [] ∧ w.state.tail = none) ∧
    (∀ p, (w.state.mode = .FCFS ∨ w.state.mode = .RR →
        ∃ w1, add_back w (some p) = .ok w1) ∧
      ∃ w2, add_process w p = .ok w2) ∧
    (∀ cur cur1 w1, w.state.cur = some cur →
      read_instruction c w cur = .ok (none, cur1, w1) →
      w1.state.mode = .FCFS ∨ w1.state.mode = .RR →
      (w1.state.queue = [] ↔ w1.state.tail = none) ∧
        ∃ w3, add_back { w1 with state := { w1.state with cur := some cur1 } } (some cur1)
          = .ok w3) ∧
    (∀ rbl w1, rbl_ok c rbl → w.state.mode = .RR →
      run_RR_loop c rbl RR_PREEMPT_FREQ w = .ok w1 → w1.state.cur ≠ none →
      (w1.state.queue = [] ↔ w1.state.tail = none) ∧
        ∃ w2, add_back w1 w1.state.cur = .ok w2) ∧
    (w.state.np > 0 → w.state.cur = none → w.state.queue ≠ []) ∧
    (∀ rbl fuel, rbl_ok c rbl →
      (∀ line w0, sched_reach c w0 → rbl line w0 ≠ .error (.exit 3)) →
      run_scheduler c rbl fuel w ≠ .error (.exit 3)) ∧
    (∀ script, run c w script ≠ .error (.exit 3)) ∧
    (∀ progs policy, exec c w progs policy ≠ .error (.exit 3)) := by
  have hc := sched_reach_count c w hr
  refine ⟨fun hm => fifo_wf_iff _ (hc.fifo hm), fun hm => ⟨hc.prio hm, fun p pr => ?_⟩,
    fun m hne => switch_needs_idle w m hc hne, fun p => ⟨fun hm => ?_, add_process_ok w p hc⟩,
    fun cur cur1 w1 _ hread hm => read_fault_fifo c w w1 cur cur1 hc hread hm,
    fun rbl w1 hrbl hm hl hne => run_RR_back c rbl w w1 hrbl hc hm hl hne,
    fun hnp hcur => waiting_queue_ne w hc hnp hcur,
    fun rbl fuel hrbl hx => run_scheduler_no_exit c rbl hrbl hx fuel w hr,
    fun script => run_no_exit c w script hc,
    fun progs policy => exec_no_exit c w progs policy hc⟩
  · obtain ⟨tl, a1, a2⟩ := add_with_priority_eq w p pr
    rw [a1]
    exact a2 (hc.prio hm)
  · obtain ⟨w1, h1, -⟩ := add_back_fifo w p (hc.fifo hm)
    exact ⟨w1, h1⟩

/-- C34, instances: after `exec A B RR` both queue pointers are set, the queue
holds both processes, and the scheduler runs without the exit, also with a
callback that hands `exec q RR` back to the interpreter; after `exec a b RR` with
two frames and the first `pop_front`, the current process faults and `add_back`
takes it back with the tail pointer set. -/
theorem C34_fatal_branch_unreachable_witness :
    (demo_rr.state.queue ≠ [] ∧ demo_rr.state.tail ≠ none ∧ demo_rr.state.mode = .RR ∧
      demo_faulting.state.mode = .RR ∧ demo_faulting.state.tail ≠ none) ∧
    (demo_rr.state.queue = [] ↔ demo_rr.state.tail = none) ∧
    (demo_rr.state.np > 0 → demo_rr.state.cur = none → demo_rr.state.queue ≠ []) ∧
    run_scheduler demo_config (rbl_exec demo_config) 20 demo_rr ≠ .error (.exit 3) ∧
    ((read_result demo_config2 demo_faulting (cur_pcb demo_faulting)).2.2.state.queue = [] ↔
      (read_result demo_config2 demo_faulting (cur_pcb demo_faulting)).2.2.state.tail = none) :=
  ⟨⟨by decide, by decide, by decide, by decide, by decide⟩,
    (C34_fatal_branch_unreachable demo_config demo_rr demo_rr_sched_reach).1
      (Or.inr (by decide)),
    (C34_fatal_branch_unreachable demo_config demo_rr demo_rr_sched_reach).2.2.2.2.2.2.1,
    (C34_fatal_branch_unreachable demo_config demo_rr demo_rr_sched_reach).2.2.2.2.2.2.2.1
      (rbl_exec demo_config) 20 (rbl_exec_ok demo_config)
      (fun line w0 h0 => rbl_exec_no_exit demo_config line w0 h0),
    ((C34_fatal_branch_unreachable demo_config2 demo_faulting
        demo_faulting_sched_reach).2.2.2.2.1
      (cur_pcb demo_faulting)
      (read_result demo_config2 demo_faulting (cur_pcb demo_faulting)).2.1
      (read_result demo_config2 demo_faulting (cur_pcb demo_faulting)).2.2
      (by decide) (by decide) (Or.inr (by decide))).1⟩

/-- C9 (LRU well-formedness). For every `NFRAMES ≥ 1`, `init_memory` returns, and
after it and after any sequence of calls of `get_next_frame` and `move_to_back`
as the shell makes them (`move_to_back` is internal to `shellmemory.c`; its
argument is a frame that `get_next_frame` has returned before): the LRU list
from head to tail holds every frame index in `[0, NFRAMES)` exactly once and is
not empty, `ll_quick[i]` points to the node whose `framenum` is `i` for every
`i`, and the next such call returns. -/
theorem C9_lru_wellformed (c : Config) (hN : 0 < c.NFRAMES) :
    (∃ m0, init_memory c (m_state_zero c) = .ok m0 ∧ lru_reach c m0 []) ∧
    ∀ m fs, lru_reach c m fs →
      (lru_order m).Perm (List.range c.NFRAMES) ∧ (lru_order m).Nodup ∧
      (∀ i, i < c.NFRAMES → (lru_order m).count i = 1) ∧ lru_order m ≠ [] ∧
      (∀ i, i < c.NFRAMES → ∃ a nd, m.ll_quick[i]? = some (.addr a) ∧
        m.heap[a]? = some nd ∧ nd.framenum = i) ∧
      (∃ f m1, get_next_frame m = .ok (f, m1)) ∧
      (∀ f, f ∈ fs → ∃ m1, move_to_back m f = .ok m1) := by
  constructor
  · obtain ⟨m0, h1, -⟩ := init_memory_wf c hN
    exact ⟨m0, h1, lru_reach.init m0 h1⟩
  · intro m fs hr
    obtain ⟨l, hw, hfs⟩ := lru_reach_wf c hN m fs hr
    have hl := lru_order_eq c m l hw
    rw [hl]
    have hnd : l.Nodup := hw.perm.nodup_iff.mpr (List.nodup_range _)
    refine ⟨hw.perm, hnd, fun i hi => ?_, ?_, fun i hi => ?_, ?_, fun f hf => ?_⟩
    · exact List.count_eq_one_of_mem hnd (hw.perm.mem_iff.mpr (List.mem_range.mpr hi))
    · obtain ⟨h, t, e⟩ := hw.ne_nil
      rw [e]
      exact List.cons_ne_nil _ _
    · have hq : m.ll_quick[i]? = some (.addr i) := by
        rw [hw.quick, List.getElem?_map, List.getElem?_range hi]
        rfl
      have hfn := hw.framenum i hi
      unfold fnum at hfn
      cases hh : m.heap[i]? with
      | none => rw [hh] at hfn; cases hfn
      | some nd =>
        rw [hh] at hfn
        injection hfn with hfn
        exact ⟨i, nd, hq, hh, hfn⟩
    · obtain ⟨h, t, e⟩ := hw.ne_nil
      subst e
      obtain ⟨m1, h1, -⟩ := get_next_frame_wf c m h t hw
      exact ⟨h, m1, h1⟩
    · obtain ⟨hfl, hhot⟩ := hfs f hf
      obtain ⟨m1, h1, -⟩ := move_to_back_wf c m l f hw hfl (by
        rcases hhot with h | h
        · exact Or.inl h
        · exact Or.inr (Or.inr h))
      exact ⟨m1, h1⟩

/-- C9, an instance with three frames: after `init_memory` and two calls of
`get_next_frame` the list is `[2, 0, 1]`, and `move_to_back` returns on the
frames 0 and 1. -/
theorem C9_lru_wellformed_witness :
    0 < (Config.mk 3 3 2).NFRAMES ∧
    ∃ m2, lru_reach (Config.mk 3 3 2) m2 [1, 0] ∧ lru_order m2 = [2, 0, 1] ∧
      (lru_order m2).Perm (List.range 3) ∧
      (∀ f, f ∈ [1, 0] → ∃ m3, move_to_back m2 f = .ok m3) := by
  obtain ⟨m0, m1, m2, -, -, -, h4, h5⟩ := lru_demo_reach
  exact ⟨by decide, m2, h5, h4,
    ((C9_lru_wellformed (Config.mk 3 3 2) (by decide)).2 m2 [1, 0] h5).1,
    ((C9_lru_wellformed (Config.mk 3 3 2) (by decide)).2 m2 [1, 0] h5).2.2.2.2.2.2⟩

/-- C11 (touch). In every state of the LRU list that the shell reaches, and for
every frame `f` in `[0, NFRAMES)` that is at the head of the list, at its tail,
or that `get_next_frame` has returned before (an interior frame the shell
touches is one of these), `move_to_back(f)` returns with the LRU order obtained
by removing `f` from its position and appending it at the tail, all other
frames keeping their relative order; applying it once more changes nothing. -/
theorem C11_touch (c : Config) (hN : 0 < c.NFRAMES) (m : memory_state) (fs : List Nat)
    (hr : lru_reach c m fs) (f : Nat) (hf : f < c.NFRAMES)
    (hm : f ∈ fs ∨ (lru_order m).head? = some f ∨ (lru_order m).getLast? = some f) :
    ∃ m1, move_to_back m f = .ok m1 ∧
      lru_order m1 = (lru_order m).erase f ++ [f] ∧
      (lru_order m1).filter (fun g => g ≠ f) = (lru_order m).filter (fun g => g ≠ f) ∧
      move_to_back m1 f = .ok m1 := by
  obtain ⟨l, hw, hfs⟩ := lru_reach_wf c hN m fs hr
  have hl := lru_order_eq c m l hw
  rw [hl] at hm ⊢
  have hnd : l.Nodup := hw.perm.nodup_iff.mpr (List.nodup_range _)
  have hfl : f ∈ l := hw.perm.mem_iff.mpr (List.mem_range.mpr hf)
  obtain ⟨m1, h1, h2, -⟩ := move_to_back_wf c m l f hw hfl (by
    rcases hm with h | h | h
    · rcases (hfs f h).2 with h' | h'
      · exact Or.inl h'
      · exact Or.inr (Or.inr h')
    · exact Or.inl h
    · exact Or.inr (Or.inl h))
  refine ⟨m1, h1, lru_order_eq c m1 _ h2, ?_, touch_at_tail c m1 _ f h2 hf⟩
  rw [lru_order_eq c m1 _ h2, hnd.erase_eq_filter]
  simp only [List.filter_append, List.filter_filter]
  have e1 : List.filter (fun g => decide (g ≠ f)) [f] = [] := by simp
  rw [e1, List.append_nil]
  apply List.filter_congr
  intro x _
  by_cases hx : x = f <;> simp [hx]

/-- C11, an instance with three frames: after two calls of `get_next_frame` the
list is `[2, 0, 1]`; frame 0, returned by the first call, is interior, and
`move_to_back(0)` gives `[2, 1, 0]`. -/
theorem C11_touch_witness :
    0 < (Config.mk 3 3 2).NFRAMES ∧
    ∃ m2, lru_reach (Config.mk 3 3 2) m2 [1, 0] ∧ lru_order m2 = [2, 0, 1] ∧
      ∃ m3, move_to_back m2 0 = .ok m3 ∧ lru_order m3 = (lru_order m2).erase 0 ++ [0] ∧
        (lru_order m3).filter (fun g => g ≠ 0) = (lru_order m2).filter (fun g => g ≠ 0) ∧
        move_to_back m3 0 = .ok m3 := by
  obtain ⟨m0, m1, m2, -, -, -, h4, h5⟩ := lru_demo_reach
  exact ⟨by decide, m2, h5, h4,
    C11_touch (Config.mk 3 3 2) (by decide) m2 [1, 0] h5 0 (by decide) (Or.inl (by decide))⟩

/-- C19 (AGING tick), the counterexample. With three frames of three lines and
the script `p` whose only line is `exec q RR`, the shell after `exec p AGING` is
in an AGING tick's start state with `p` waiting at priority 1. The tick takes
`p`, executes its line, which ends `p`, and hands `exec q RR` to the interpreter:
no process is left, so the policy changes to RR and `q` is queued by `add_back`
at priority -1. `run_AGING` then ages the queue: the entry stays at -1, because
`decr_priorities` decrements a priority only when it is greater than 0, where a
decrement by 1 floored at 0 gives 0. -/
theorem C19_aging_after_policy_change :
    demo_aging_order.state.mode = .AGING ∧
    sched_view demo_aging_order = (none, [(0, 1)], 1) ∧
    (∃ w0, init_shell demo_config order_files = .ok w0 ∧
      exec demo_config w0 ["p".toList] "AGING".toList = .ok (0, demo_aging_order)) ∧
    ∃ w1 w', exec_process demo_config (rbl_exec demo_config) (pop_front demo_aging_order)
        = .ok w1 ∧
      run_scheduler_body demo_config (rbl_exec demo_config) demo_aging_order = .ok (none, w') ∧
      w1.state.mode = .RR ∧ sched_view w1 = (none, [(1, -1)], 1) ∧
      (aged_floor w1.state.queue).map ll.priority = [0] ∧
      sched_view w' = (none, [(1, -1)], 1) :=
  ⟨by decide, by decide, demo_aging_order_exec, _, _, by rfl, by rfl, by decide, by decide,
    by decide, by decide⟩

/-- C19 (amended). In every state the shell reaches from its start, with an
interpreter callback that acts by commands, one iteration of the loop of
`run_scheduler` under AGING that returns does this: it performs one instruction
step `exec_process` of the current PCB, taking the head of the queue first when
no PCB is current, which leaves the snapshot priority as it was; then every
queued priority that is greater than 0 is decremented by 1 and the others stay
as they are. While the policy is still AGING after the instruction, and so
whenever a PCB is still current, no queued priority is negative and this is the
decrement by 1 floored at 0. If the PCB is still current and some queued entry
now has a priority strictly lower than the snapshot priority, the PCB is
inserted back into the ordered queue with its snapshot priority and the current
slot is cleared; otherwise only the queue has aged and the PCB with its snapshot
priority stays as it is. -/
theorem C19_aging_tick (c : Config) (files : List (cstr × cstr)) (w w1 w' : world)
    (rbl : cstr → world → Except halt world) (r : Option Int)
    (hFS : 0 < c.FRAMESIZE) (hN : 0 < c.NFRAMES) (hw : sys_reach c files w)
    (hrbl : rbl_ok c rbl) (hm : w.state.mode = .AGING)
    (he : exec_process c rbl (if w.state.cur = none then pop_front w else w) = .ok w1)
    (hb : run_scheduler_body c rbl w = .ok (r, w')) :
    r = none ∧
    w1.state.cur_priority =
      (if w.state.cur = none then pop_front w else w).state.cur_priority ∧
    (decr_priorities w1).state.queue = w1.state.queue.map
      (fun n => if n.priority > 0 then { n with priority := n.priority - 1 } else n) ∧
    (w1.state.mode = .AGING →
      (decr_priorities w1).state.queue = aged_floor w1.state.queue) ∧
    (w1.state.cur ≠ none → w1.state.mode = .AGING) ∧
    ((w1.state.cur ≠ none ∧
        ∃ n, n ∈ (decr_priorities w1).state.queue ∧ n.priority < w1.state.cur_priority) →
      ∃ p tl, w1.state.cur = some p ∧
        w' = { w1 with state := { w1.state with
          queue := ordered_insert
            { p := p, priority := w1.state.cur_priority, id := w1.state.fresh }
            (decr_priorities w1).state.queue
          tail := tl
          fresh := w1.state.fresh + 1
          cur := none } }) ∧
    (¬ (w1.state.cur ≠ none ∧
        ∃ n, n ∈ (decr_priorities w1).state.queue ∧ n.priority < w1.state.cur_priority) →
      w' = decr_priorities w1) := by
  obtain ⟨hr, hrun⟩ := body_aging c rbl w w' r hm hb
  have hw0 : sys_reach c files (if w.state.cur = none then pop_front w else w) := by
    split
    · rename_i hc
      exact sys_reach.pop w hw hc
    · exact hw
  have hm0 : (if w.state.cur = none then pop_front w else w).state.mode = .AGING := by
    split
    · rename_i hc
      rw [(pop_front_live w hc).2.2.2.2]
      exact hm
    · exact hm
  have hw1 : sys_reach c files w1 := sys_reach.step _ w1 rbl hw0 hrbl he
  have hc1 := sys_reach_count c files w1 hw1
  have ho1 := sched_reach_order c w1 (sys_reach_sched_reach c files w1 hw1)
  have hsorted : prio_sorted (decr_priorities w1).state.queue :=
    (decr_priorities_order w1 ho1).sorted
  have hkeep : w1.state.cur ≠ none → w1.state.mode = .AGING := by
    intro hcur
    rw [(exec_process_count c rbl _ w1 hrbl (sys_reach_count c files _ hw0) he).2 hcur]
    exact hm0
  obtain ⟨k1, k2, k3, k4⟩ := run_AGING_cases c rbl _ w1 w' he hrun
  have hcases : (decr_priorities w1).state.queue = [] ∨
      ∃ x rest, (decr_priorities w1).state.queue = x :: rest := by
    cases (decr_priorities w1).state.queue <;> simp
  have hcp := exec_process_cp c rbl _ w1 hFS hrbl
    (sys_reach_inv c files _ hFS hN hw0) (sys_reach_sched c files _ hFS hN hw0) he
  refine ⟨hr, hcp, rfl, fun hm1 => ?_, hkeep, ?_, ?_⟩
  · have hnn : ∀ n, n ∈ w1.state.queue → 0 ≤ n.priority :=
      ho1.nonneg (by rw [hm1]; exact fun h => by rcases h with h | h <;> cases h)
    exact decr_eq_aged w1.state.queue hnn
  · rintro ⟨hc, n, hn, hlt⟩
    cases hcur : w1.state.cur with
    | none => exact absurd hcur hc
    | some p =>
      rcases hcases with hag | ⟨x, rest, hag⟩
      · rw [hag] at hn; cases hn
      · have hx : x.priority < w1.state.cur_priority := by
          rw [hag] at hn hsorted
          rcases List.mem_cons.mp hn with rfl | hn'
          · exact hlt
          · have := (List.pairwise_cons.mp hsorted).1 n hn'
            omega
        have hnp : w1.state.np > 1 := by
          have hcount := hc1.count
          have hl : w1.state.queue.length = (x :: rest).length := by
            rw [← hag]
            simp [decr_priorities]
          rw [hcur, hl] at hcount
          simp only [Option.toList, List.length_cons] at hcount
          push_cast at hcount
          omega
        have key := k1 p x rest hcur hag ⟨hnp, hx⟩
        obtain ⟨tl, e, -⟩ := add_with_priority_eq (decr_priorities w1) p
          w1.state.cur_priority
        have e2 : (decr_priorities w1).state.cur_priority = w1.state.cur_priority := rfl
        rw [e2, e] at key
        exact ⟨p, tl, rfl, key⟩
  · intro hno
    cases hcur : w1.state.cur with
    | none => exact k3 hcur
    | some p =>
      rcases hcases with hag | ⟨x, rest, hag⟩
      · exact k4 hag
      · refine k2 p x rest hcur hag (fun hh => hno ⟨by rw [hcur]; simp, x, ?_, hh.2⟩)
        rw [hag]
        exact List.mem_cons_self _ _

/-- C19 (amended), an instance: after `exec A B AGING` the first iteration executes
one line of `A` at snapshot priority 3, ages `B` from 3 to 2 and puts `A` back
behind `B`. -/
theorem C19_aging_tick_witness :
    (demo_aging_tie.state.mode = .AGING ∧
      sched_view demo_aging_tie = (none, [(0, 3), (1, 3)], 2) ∧
      sched_view (world_of demo_config (exec_process demo_config rbl_inert
        (pop_front demo_aging_tie))) = (some 0, [(1, 3)], 2) ∧
      sched_view (world_of demo_config (after_ticks demo_config 1 demo_aging_tie)) =
        (none, [(1, 2), (0, 3)], 2)) ∧
    ∃ p tl, (world_of demo_config (exec_process demo_config rbl_inert
        (pop_front demo_aging_tie))).state.cur = some p ∧
      world_of demo_config (after_ticks demo_config 1 demo_aging_tie) =
        { world_of demo_config (exec_process demo_config rbl_inert (pop_front demo_aging_tie))
          with state := { (world_of demo_config (exec_process demo_config rbl_inert
              (pop_front demo_aging_tie))).state with
            queue := ordered_insert
              { p := p,
                priority := (world_of demo_config (exec_process demo_config rbl_inert
                  (pop_front demo_aging_tie))).state.cur_priority,
                id := (world_of demo_config (exec_process demo_config rbl_inert
                  (pop_front demo_aging_tie))).state.fresh }
              (decr_priorities (world_of demo_config (exec_process demo_config rbl_inert
                (pop_front demo_aging_tie)))).state.queue
            tail := tl
            fresh := (world_of demo_config (exec_process demo_config rbl_inert
              (pop_front demo_aging_tie))).state.fresh + 1
            cur := none } } :=
  ⟨⟨by decide, by decide, by decide, by decide⟩,
    (C19_aging_tick demo_config sched_files demo_aging_tie
      (world_of demo_config (exec_process demo_config rbl_inert (pop_front demo_aging_tie)))
      (world_of demo_config (after_ticks demo_config 1 demo_aging_tie)) rbl_inert none
      (by decide) (by decide) demo_aging_tie_reach (rbl_inert_ok demo_config) (by decide)
      (by decide) (by decide)).2.2.2.2.2.1
      ⟨by decide,
        ((decr_priorities (world_of demo_config (exec_process demo_config rbl_inert
          (pop_front demo_aging_tie)))).state.queue.head?).getD ⟨demo_pcb, 0, 0⟩,
        by decide, by decide⟩⟩

/-- C21 (a single script, run alone), the counterexample. With three frames of
three lines, in the shell right after start, the script `p` has the one line
`exec q RR` and `q` the one line `q1`. After `run p` the scheduler hands the line
of `p` to the interpreter, which loads and queues `q` under RR (no process is
left at that moment, so the policy changes); the loop of `run_scheduler` then
runs `q` too. It returns 0 after two iterations: the interpreter has received
`exec q RR` and `q1`, not the line of `p` alone, and the policy is RR. -/
theorem C21_script_submits_script :
    ∃ w0 w1 w2, init_shell demo_config order_files = .ok w0 ∧
      w0.cwd.lookup "p".toList = some "exec q RR\n".toList ∧
      script_lines "exec q RR\n".toList = ["exec q RR\n".toList] ∧
      run demo_config w0 "p".toList = .ok (0, w1) ∧
      sched_view w1 = (none, [(0, -1)], 1) ∧ w1.state.mode = .FCFS ∧
      run_scheduler demo_config (rbl_exec demo_config) 2 w1 = .ok (some 0, w2) ∧
      trace w2 = [(0, "exec q RR\n"), (1, "q1\n")] ∧
      w2.state.mode = .RR ∧ w2.state.np = 0 :=
  ⟨_, _, _, rfl, by decide, by decide, by rfl, by decide, by decide, by rfl, by decide,
    by decide, by decide⟩

end SimpleShell
